import Mathlib

/-!
# Generalized suffix tree (Ukkonen) with colour sets

Shallow embedding of `SuffixTree` (include/SuffixTree.h, src/InternalStruct.cpp,
src/SuffixTreePrivate.cpp, src/SuffixTreePublic.cpp).

Modelling conventions
* `Node*` is `Option Nat`: `none` is `nullptr`, `some i` is the i-th cell of the
  node heap `nodes`.  Cell `0` is `tree.sink`, cell `1` is `tree.root`; `new`
  appends a cell.
* `std::unordered_map` is an association list; `find`, `insert` (no overwrite),
  `operator[]` (default-inserting) and `erase` are modelled separately.
* `char` is a Lean `Char` (the code only compares bytes for equality), a
  `std::string` is a `List Char`.
* `Index = int` is an `Int`.  Comparisons against a `std::size_t` convert the
  `int` through `toSizeT`; the one `int` computation that overflows on
  well-formed trees (`edge_len` in `mark_leaves_for_string`) is reduced by
  `wrap32`.  String sizes are taken to fit an `Index` (`Index s_len = s.size()`
  is the size itself): results about stored strings assume sizes below
  `INT_MAX`, the value the code uses for an open right end.
* A function returns `none` when the C++ has no defined result (null or
  dangling dereference, out-of-range index, end-iterator dereference) or when
  a loop outlives its fuel.

Layout: the model of the code, then the vocabulary of the proofs, then the
theorems.  The correctness of the construction is proved with path labels
attached to the heap cells (`WFL`): the words of the tree (`InW`) are the
prefixes of the labels, and every step of `update` keeps the labels
well-formed, the suffix links right (`LinksOK`) and the words accounted for
(`PhaseInv`).  Between two calls the words are exactly the substrings of the
stored strings (`Rest`).  Sessions give each call fuel above the size of its
input plus two, which is enough for every loop to end.
-/

namespace SuffixTree

/-- The index type `using Index = int`; indices are written `Int` below. -/
abbrev Index := Int

def MAX_STRINGS : Nat := 64

def END_TOKEN : Char := '$'

/-- The value of `std::numeric_limits<Index>::max()`. -/
def INT_MAX : Int := 2147483647

/-- Two-complement reduction of an integer to the 32-bit signed range. -/
def wrap32 (x : Int) : Int := (x + 2147483648) % 4294967296 - 2147483648

/-- Conversion of an `int` to the 64-bit unsigned `std::size_t`. -/
def toSizeT (x : Int) : Nat := (x % 18446744073709551616).toNat

/-- Iteration bound of a counted loop over `n` positions: one more than `n`. -/
def loopBound (n : Nat) : Nat := n + 1

/-! ## Association lists standing for `std::unordered_map` -/

/-- The map operation `find`. -/
def mapFind {κ β : Type} [DecidableEq κ] (k : κ) : List (κ × β) → Option β
  | [] => none
  | (k1, v) :: rest => if k1 = k then some v else mapFind k rest

/-- The map operation `insert`: keeps an existing entry. -/
def mapInsert {κ β : Type} [DecidableEq κ] (k : κ) (v : β) (m : List (κ × β)) :
    List (κ × β) :=
  match mapFind k m with
  | some _ => m
  | none => m ++ [(k, v)]

/-- The assignment `m[k] = v`. -/
def mapAssign {κ β : Type} [DecidableEq κ] (k : κ) (v : β) : List (κ × β) → List (κ × β)
  | [] => [(k, v)]
  | (k1, v1) :: rest => if k1 = k then (k, v) :: rest else (k1, v1) :: mapAssign k v rest

/-- The map operation `erase`. -/
def mapErase {κ β : Type} [DecidableEq κ] (k : κ) (m : List (κ × β)) : List (κ × β) :=
  m.filter (fun p => decide (p.1 ≠ k))

/-! ## Data model (include/SuffixTree.h, src/InternalStruct.cpp) -/

structure MappedSubstring where
  ref_str : Int
  l : Int
  r : Int
  deriving DecidableEq, Repr

def MappedSubstring.empty (m : MappedSubstring) : Bool := decide (m.l > m.r)

def MappedSubstring.lenght (m : MappedSubstring) : Int :=
  if m.empty then 0 else m.r - m.l + 1

structure Transition where
  sub : MappedSubstring
  tgt : Option Nat
  deriving DecidableEq, Repr

def Transition.is_valid (t : Transition) : Bool := t.tgt.isSome

structure Node where
  g : List (Char × Transition)
  suffix_link : Option Nat
  colors : Nat
  deriving DecidableEq, Repr

/-- The constructor `Node::Node()`. -/
def Node.fresh : Node := { g := [], suffix_link := none, colors := 0 }

structure ReferencePoint where
  node : Option Nat
  ref_str : Int
  pos : Int
  deriving DecidableEq, Repr

/-- The heap cell of `tree.sink`. -/
def sinkId : Nat := 0

/-- The heap cell of `tree.root`. -/
def rootId : Nat := 1

structure Tree where
  nodes : List Node
  haystack : List (Int × List Char)
  last_index : Int
  colors_computed : Bool
  deriving DecidableEq, Repr

/-- The constructors `Base::Base()` and `SuffixTree::SuffixTree()`. -/
def Tree.fresh : Tree :=
  { nodes := [{ g := [], suffix_link := some rootId, colors := 0 },
              { g := [], suffix_link := some sinkId, colors := 0 }],
    haystack := [],
    last_index := 0,
    colors_computed := false }

/-- Dereference of a node pointer. -/
def Tree.deref (st : Tree) (p : Option Nat) : Option Node :=
  match p with
  | none => none
  | some i => st.nodes[i]?

/-- Store into an existing heap cell. -/
def Tree.setNode (st : Tree) (i : Nat) (nd : Node) : Tree :=
  { st with nodes := st.nodes.set i nd }

/-- The allocation `new Node()` / `new Leaf()`: returns the new cell. -/
def Tree.alloc (st : Tree) : Tree × Nat :=
  ({ st with nodes := st.nodes ++ [Node.fresh] }, st.nodes.length)

/-- The expression `s[i]` on a `std::string`: defined up to `i = size()`. -/
def strAt (s : List Char) (i : Int) : Option Char :=
  if i < 0 then none
  else if i.toNat < s.length then s[i.toNat]?
  else if i.toNat = s.length then some (Char.ofNat 0)
  else none

/-- The expression `haystack[k]`: inserts an empty string under a missing key. -/
def Tree.haystackIndex (st : Tree) (k : Int) : Tree × List Char :=
  match mapFind k st.haystack with
  | some s => (st, s)
  | none => ({ st with haystack := st.haystack ++ [(k, [])] }, [])

/-- The virtual `find_alpha_transition`, `SinkNode` override included. -/
def Tree.find_alpha_transition (st : Tree) (p : Option Nat) (alpha : Char) :
    Option Transition :=
  match p with
  | none => none
  | some i =>
    match st.nodes[i]? with
    | none => none
    | some nd =>
      if i = sinkId then some { sub := ⟨0, 0, 0⟩, tgt := nd.suffix_link }
      else
        match mapFind alpha nd.g with
        | none => some { sub := ⟨0, 0, -1⟩, tgt := none }
        | some t => some t

/-- The method `Node::mark_string`. -/
def Node.mark_string (nd : Node) (string_id : Int) : Node :=
  if string_id > 0 ∧ toSizeT string_id ≤ MAX_STRINGS then
    { nd with colors := nd.colors ||| (1 <<< (string_id - 1).toNat) }
  else nd

/-- The method `Node::merge_colors`. -/
def Node.merge_colors (nd : Node) (other : Nat) : Node :=
  { nd with colors := nd.colors ||| other }

/-- Read-modify-write of the node behind a pointer. -/
def Tree.modify (st : Tree) (p : Option Nat) (f : Node → Node) : Option Tree :=
  match p with
  | none => none
  | some i =>
    match st.nodes[i]? with
    | none => none
    | some nd => some (st.setNode i (f nd))

/-! ## Reference-pair machinery (src/SuffixTreePrivate.cpp) -/

/-- The method `SuffixTree::test_and_split`; the node written to `*r` is the
third component of the result. -/
def test_and_split (st : Tree) (n : Option Nat) (kp : MappedSubstring) (t : Char)
    (w : List Char) : Option (Tree × Bool × Option Nat) :=
  let delta := kp.r - kp.l
  if delta < 0 then
    match st.find_alpha_transition n t with
    | none => none
    | some t_trans =>
      if t_trans.is_valid = true ∧ kp.ref_str > 0 then
        match st.modify t_trans.tgt (fun nd => nd.mark_string kp.ref_str) with
        | none => none
        | some st1 => some (st1, t_trans.is_valid, n)
      else some (st, t_trans.is_valid, n)
  else
    match strAt w kp.l with
    | none => none
    | some tk =>
    match st.find_alpha_transition n tk with
    | none => none
    | some tk_trans =>
    match mapFind tk_trans.sub.ref_str st.haystack with
    | none => none
    | some str_prime =>
    match strAt str_prime (tk_trans.sub.l + delta + 1) with
    | none => none
    | some c =>
    if c = t then some (st, true, n)
    else
      let r := st.alloc.2
      let new_trans : Transition :=
        { sub := { tk_trans.sub with l := tk_trans.sub.l + (delta + 1) }, tgt := tk_trans.tgt }
      match strAt str_prime new_trans.sub.l with
      | none => none
      | some key =>
      match st.alloc.1.modify (some r) (fun nd => { nd with g := mapInsert key new_trans nd.g }) with
      | none => none
      | some st2 =>
      let tk_trans2 : Transition :=
        { sub := { tk_trans.sub with r := tk_trans.sub.l + delta }, tgt := some r }
      match st2.modify n (fun nd => { nd with g := mapAssign tk tk_trans2 nd.g }) with
      | none => none
      | some st3 => some ({ st3 with colors_computed := false }, false, some r)

/-- The `while` loop of `SuffixTree::canonize`. -/
def canonizeLoop (st : Tree) (str : List Char) (ref : Int) (r : Int) :
    Nat → Option Nat → Int → Transition → Option ReferencePoint
  | 0, _, _, _ => none
  | fuel + 1, n, l, tk_trans =>
    let delta := tk_trans.sub.r - tk_trans.sub.l
    if delta ≤ r - l then
      let l1 := l + (1 + delta)
      let n1 := tk_trans.tgt
      if l1 ≤ r then
        match strAt str l1 with
        | none => none
        | some c =>
          match st.find_alpha_transition n1 c with
          | none => none
          | some tk1 => canonizeLoop st str ref r fuel n1 l1 tk1
      else canonizeLoop st str ref r fuel n1 l1 tk_trans
    else some ⟨n, ref, l⟩

/-- The method `SuffixTree::canonize`. -/
def canonize (fuel : Nat) (st : Tree) (n : Option Nat) (kp : MappedSubstring) :
    Option (Tree × ReferencePoint) :=
  if kp.r < kp.l then some (st, ⟨n, kp.ref_str, kp.l⟩)
  else
    let st1 := (st.haystackIndex kp.ref_str).1
    let str := (st.haystackIndex kp.ref_str).2
    match strAt str kp.l with
    | none => none
    | some c =>
    match st1.find_alpha_transition n c with
    | none => none
    | some tk_trans =>
    match canonizeLoop st1 str kp.ref_str kp.r fuel n kp.l tk_trans with
    | none => none
    | some rp => some (st1, rp)

/-- The `while (!is_endpoint)` loop of `SuffixTree::update` together with the
final suffix-link assignment.  `ki1` is the span without its last byte, `t` is
`w[ki.r]`, `cf` is the fuel handed to `canonize`. -/
def updateLoop (cf : Nat) (w : List Char) (ki_ref : Int) (ki_r : Int) (t : Char) :
    Nat → Tree → Option Nat → ReferencePoint → MappedSubstring → Bool → Option Nat →
    Option (Tree × ReferencePoint)
  | 0, _, _, _, _, _, _ => none
  | fuel + 1, st, oldr, sk, ki1, is_endpoint, r =>
    if is_endpoint = true then
      if oldr ≠ some rootId then
        match st.modify oldr (fun nd => { nd with suffix_link := sk.node }) with
        | none => none
        | some st1 => some (st1, sk)
      else some (st, sk)
    else
      let r_prime := st.alloc.2
      match st.alloc.1.modify r (fun nd =>
          { nd with g := mapInsert t ⟨⟨ki_ref, ki_r, INT_MAX⟩, some r_prime⟩ nd.g }) with
      | none => none
      | some st2 =>
      match (if oldr ≠ some rootId then
               st2.modify oldr (fun nd => { nd with suffix_link := r })
             else some st2) with
      | none => none
      | some st3 =>
      match st3.deref sk.node with
      | none => none
      | some sknode =>
      match canonize cf st3 sknode.suffix_link ki1 with
      | none => none
      | some (st4, sk1) =>
      let ki2 : MappedSubstring := { ki1 with l := sk1.pos }
      match test_and_split st4 sk1.node ki2 t w with
      | none => none
      | some (st5, ep, r1) => updateLoop cf w ki_ref ki_r t fuel st5 r sk1 ki2 ep r1

/-- The method `SuffixTree::update`. -/
def update (fuel : Nat) (st : Tree) (n : Option Nat) (ki : MappedSubstring) :
    Option (Tree × ReferencePoint) :=
  let st0 := (st.haystackIndex ki.ref_str).1
  let w := (st.haystackIndex ki.ref_str).2
  let ki1 : MappedSubstring := { ki with r := ki.r - 1 }
  let sk : ReferencePoint := ⟨n, ki.ref_str, ki.l⟩
  match strAt w ki.r with
  | none => none
  | some t =>
  match test_and_split st0 n ki1 t w with
  | none => none
  | some (st1, is_endpoint, r) =>
    updateLoop fuel w ki.ref_str ki.r t fuel st1 (some rootId) sk ki1 is_endpoint r

/-! ## Fast-forward and ingestion -/

/-- Outcome of the inner `for` loop of `get_starting_node`. -/
inductive EdgeScan where
  | runout : EdgeScan
  | diverge : Int → EdgeScan
  | done : Int → EdgeScan
  deriving DecidableEq, Repr

/-- The inner `for (i = 1; i <= t.sub.r - t.sub.l; ++i)` loop of
`get_starting_node`. -/
def scanEdge (s ref_str : List Char) (k s_len : Int) (sub : MappedSubstring) :
    Nat → Int → Option EdgeScan
  | 0, _ => none
  | fuel + 1, i =>
    if i ≤ sub.r - sub.l then
      if k + i ≥ s_len then some EdgeScan.runout
      else
        match strAt s (k + i), strAt ref_str (sub.l + i) with
        | some a, some b =>
          if a ≠ b then some (EdgeScan.diverge i) else scanEdge s ref_str k s_len sub fuel (i + 1)
        | _, _ => none
    else some (EdgeScan.done i)

/-- The outer `while (!s_runout)` loop of `get_starting_node`; the result is the
tree (its registry may gain default entries), the reference point and the
returned index. -/
def startLoop (s : List Char) (s_len : Int) :
    Nat → Tree → ReferencePoint → Int → Option (Tree × ReferencePoint × Int)
  | 0, _, _, _ => none
  | fuel + 1, st, r, k =>
    if k ≥ s_len then some (st, { r with pos := INT_MAX }, INT_MAX)
    else
      match strAt s k with
      | none => none
      | some c =>
      match st.find_alpha_transition r.node c with
      | none => none
      | some t =>
        if t.tgt ≠ none then
          let st1 := (st.haystackIndex t.sub.ref_str).1
          let ref_str := (st.haystackIndex t.sub.ref_str).2
          match scanEdge s ref_str k s_len t.sub (loopBound s.length) 1 with
          | none => none
          | some EdgeScan.runout => some (st1, { r with pos := INT_MAX }, INT_MAX)
          | some (EdgeScan.diverge i) => some (st1, { r with pos := k }, k + i)
          | some (EdgeScan.done i) =>
            startLoop s s_len fuel st1 { r with node := t.tgt, pos := k + i } (k + i)
        else some (st, r, k)

/-- The method `SuffixTree::get_starting_node`. -/
def get_starting_node (st : Tree) (s : List Char) (r : ReferencePoint) :
    Option (Tree × ReferencePoint × Int) :=
  startLoop s (s.length : Int) (loopBound s.length) st r r.pos

/-- The `for (; i < s.size(); ++i)` loop of `deploy_suffixes`. -/
def deployLoop (fuel : Nat) (s : List Char) (sindex : Int) :
    Nat → Tree → ReferencePoint → Int → Option Tree
  | 0, _, _, _ => none
  | cnt + 1, st, active_point, i =>
    if toSizeT i < s.length then
      match update fuel st active_point.node ⟨sindex, active_point.pos, i⟩ with
      | none => none
      | some (st1, ap1) =>
        match canonize fuel st1 ap1.node ⟨sindex, ap1.pos, i⟩ with
        | none => none
        | some (st2, ap2) => deployLoop fuel s sindex cnt st2 ap2 (i + 1)
    else some st

/-- The method `SuffixTree::deploy_suffixes`. -/
def deploy_suffixes (fuel : Nat) (st : Tree) (s : List Char) (sindex : Int) :
    Option (Tree × Int) :=
  match get_starting_node st s ⟨some rootId, sindex, 0⟩ with
  | none => none
  | some (st1, active_point, i) =>
    if i = INT_MAX then some (st1, -1)
    else
      match deployLoop fuel s sindex (loopBound s.length) st1 active_point i with
      | none => none
      | some st2 => some (st2, sindex)

def contains_end_token (str : List Char) : Bool := decide (END_TOKEN ∈ str)

/-! ## Public surface (src/SuffixTreePublic.cpp) -/

/-- The method `SuffixTree::add_string`; the rejection value is `-1`. -/
def add_string (fuel : Nat) (st : Tree) (str : List Char) : Option (Tree × Int) :=
  if contains_end_token str = true then some (st, -1)
  else if toSizeT st.last_index ≥ MAX_STRINGS then some (st, -1)
  else
    let id := st.last_index + 1
    let s := str ++ [END_TOKEN]
    let st1 : Tree := { st with last_index := id, haystack := mapAssign id s st.haystack }
    match deploy_suffixes fuel st1 s id with
    | none => none
    | some (st2, res) =>
      if res < 0 then
        some ({ st2 with haystack := mapErase st2.last_index st2.haystack,
                         last_index := st2.last_index - 1 }, -1)
      else some ({ st2 with colors_computed := false }, st2.last_index)

/-- The method `SuffixTree::is_suffix`. -/
def is_suffix (st : Tree) (str : List Char) : Option (Tree × Bool) :=
  if contains_end_token str = true then some (st, false)
  else
    match get_starting_node st (str ++ [END_TOKEN]) ⟨some rootId, -1, 0⟩ with
    | none => none
    | some (st1, _, i) => some (st1, decide (i = INT_MAX))

/-- The method `SuffixTree::is_substring`. -/
def is_substring (st : Tree) (str : List Char) : Option (Tree × Bool) :=
  if contains_end_token str = true then some (st, false)
  else
    match get_starting_node st str ⟨some rootId, -1, 0⟩ with
    | none => none
    | some (st1, _, i) => some (st1, decide (i = INT_MAX))

def get_string_count (st : Tree) : Int := st.last_index

/-- The method `SuffixTree::get_string`. -/
def get_string (st : Tree) (id : Int) : List Char :=
  match mapFind id st.haystack with
  | some result =>
    if result ≠ [] ∧ result.getLast? = some END_TOKEN then result.dropLast else result
  | none => []

/-! ## Colouring pass -/

/-- The `for (auto& pair : node->g)` loop of `compute_colors_dfs`; `rec` is the
recursive call. -/
def colorFold (rec : Tree → Option Nat → Option (Tree × Nat)) :
    List (Char × Transition) → Tree → Nat → Option (Tree × Nat)
  | [], st, accumulated => some (st, accumulated)
  | (_, tr) :: rest, st, accumulated =>
    let acc1 :=
      if tr.sub.ref_str > 0 ∧ toSizeT tr.sub.ref_str ≤ MAX_STRINGS then
        accumulated ||| (1 <<< (tr.sub.ref_str - 1).toNat)
      else accumulated
    match rec st tr.tgt with
    | none => none
    | some (st1, child_colors) => colorFold rec rest st1 (acc1 ||| child_colors)

/-- The method `SuffixTree::compute_colors_dfs`; the fuel bounds the recursion
depth. -/
def compute_colors_dfs : Nat → Tree → Option Nat → Option (Tree × Nat)
  | 0, _, _ => none
  | fuel + 1, st, node =>
    match node with
    | none => some (st, 0)
    | some i =>
      match st.nodes[i]? with
      | none => none
      | some nd =>
        if nd.g = [] then some (st, nd.colors)
        else
          match colorFold (fun s p => compute_colors_dfs fuel s p) nd.g st 0 with
          | none => none
          | some (st1, accumulated) =>
            match st1.modify (some i) (fun x => { x with colors := accumulated }) with
            | none => none
            | some st2 => some (st2, accumulated)

/-- The inner `for` loop of `mark_leaves_for_string` computing `match_len`. -/
def matchLen (str edge_str : List Char) (pos l edge_len : Int) :
    Nat → Int → Int → Option Int
  | 0, _, _ => none
  | fuel + 1, i, match_len =>
    if i < edge_len ∧ toSizeT (pos + i) < str.length then
      match strAt str (pos + i), strAt edge_str (l + i) with
      | some a, some b =>
        if a ≠ b then some match_len
        else matchLen str edge_str pos l edge_len fuel (i + 1) (match_len + 1)
      | _, _ => none
    else some match_len

/-- The `while (pos < str.size())` loop of `mark_leaves_for_string`. -/
def markWalk (str : List Char) (string_id : Int) :
    Nat → Tree → Option Nat → Int → Option Tree
  | 0, _, _, _ => none
  | fuel + 1, st, current, pos =>
    if toSizeT pos < str.length then
      match strAt str pos with
      | none => none
      | some c =>
      match st.find_alpha_transition current c with
      | none => none
      | some tr =>
        if tr.is_valid = false then some st
        else
          let st1 := (st.haystackIndex tr.sub.ref_str).1
          let edge_str := (st.haystackIndex tr.sub.ref_str).2
          let edge_len := wrap32 (tr.sub.r - tr.sub.l + 1)
          match matchLen str edge_str pos tr.sub.l edge_len (loopBound str.length) 0 0 with
          | none => none
          | some match_len =>
            match st1.deref tr.tgt with
            | none => none
            | some nd =>
              if nd.g = [] then st1.modify tr.tgt (fun x => x.mark_string string_id)
              else markWalk str string_id fuel st1 tr.tgt (pos + match_len)
    else some st

/-- The `for (Index start = 0; start < str.size(); ++start)` loop of
`mark_leaves_for_string`. -/
def markStarts (fuel : Nat) (str : List Char) (string_id : Int) :
    Nat → Tree → Int → Option Tree
  | 0, _, _ => none
  | cnt + 1, st, start =>
    if toSizeT start < str.length then
      match markWalk str string_id fuel st (some rootId) start with
      | none => none
      | some st1 => markStarts fuel str string_id cnt st1 (start + 1)
    else some st

/-- The method `SuffixTree::mark_leaves_for_string`. -/
def mark_leaves_for_string (fuel : Nat) (st : Tree) (string_id : Int) : Option Tree :=
  markStarts fuel (st.haystackIndex string_id).2 string_id
    (loopBound (st.haystackIndex string_id).2.length) (st.haystackIndex string_id).1 0

/-- The `for (int i = 1; i <= last_index; ++i)` loop of `compute_colors`. -/
def markAll (fuel : Nat) : Nat → Tree → Int → Option Tree
  | 0, _, _ => none
  | cnt + 1, st, i =>
    if i ≤ st.last_index then
      match mark_leaves_for_string fuel st i with
      | none => none
      | some st1 => markAll fuel cnt st1 (i + 1)
    else some st

/-- The method `SuffixTree::compute_colors`. -/
def compute_colors (fuel : Nat) (st : Tree) : Option Tree :=
  if st.colors_computed = true then some st
  else
    match markAll fuel (loopBound st.last_index.toNat) st 1 with
    | none => none
    | some st1 =>
      match compute_colors_dfs fuel st1 (some rootId) with
      | none => none
      | some (st2, _) => some { st2 with colors_computed := true }

/-! ## Path enumeration -/

/-- The method `SuffixTree::substring_to_string`: the bytes `str[l..end]` with
`end = min(r, size - 1)`, which the `for` loop copies one by one; the empty
string for an unregistered source or an empty span.  A read below index 0 has
no defined result. -/
def substring_to_string (st : Tree) (substr : MappedSubstring) : Option (List Char) :=
  match mapFind substr.ref_str st.haystack with
  | none => some []
  | some str =>
    if substr.empty = true then some []
    else
      let e := min substr.r (wrap32 ((str.length : Int) - 1))
      if substr.l ≤ e ∧ substr.l < 0 then none
      else some ((str.drop substr.l.toNat).take (e - substr.l + 1).toNat)

/-- The expression `colors.count()` on a `std::bitset<64>`. -/
def colorCount (colors : Nat) : Nat :=
  ((List.range MAX_STRINGS).filter (fun k => colors.testBit k)).length

/-- The statement `result[key].push_back(label)`. -/
def pushLabel (key : Nat) (label : List Char) (result : List (Nat × List (List Char))) :
    List (Nat × List (List Char)) :=
  match mapFind key result with
  | some v => mapAssign key (v ++ [label]) result
  | none => result ++ [(key, [label])]

/-- The `if (color_count > 0)` block of `get_all_strings_dfs`: what the node
`nd`, reached with `current_path`, adds to the result. -/
def storeLabel (nd : Node) (current_path : List Char)
    (result : List (Nat × List (List Char))) : List (Nat × List (List Char)) :=
  let color_count := colorCount nd.colors
  if color_count > 0 then
    let to_store :=
      if color_count = 1 then
        (match current_path with
         | [] => []
         | c :: _ => [c])
      else if current_path ≠ [] ∧ current_path.getLast? = some END_TOKEN then
        current_path.dropLast
      else current_path
    if to_store ≠ [] ∨ color_count > 1 then pushLabel nd.colors to_store result else result
  else result

/-- The `for (auto& pair : node->g)` loop of `get_all_strings_dfs`; `rec` is the
recursive call.  The path is restored after each child. -/
def pathFold (st : Tree)
    (rec : Option Nat → List Char → List (Nat × List (List Char)) →
      Option (List (Nat × List (List Char)))) :
    List (Char × Transition) → List Char → List (Nat × List (List Char)) →
      Option (List (Nat × List (List Char)))
  | [], _, result => some result
  | (_, tr) :: rest, current_path, result =>
    if tr.tgt ≠ none then
      match substring_to_string st tr.sub with
      | none => none
      | some edge_str =>
        match rec tr.tgt (current_path ++ edge_str) result with
        | none => none
        | some result1 => pathFold st rec rest current_path result1
    else pathFold st rec rest current_path result

/-- The method `SuffixTree::get_all_strings_dfs`; the fuel bounds the recursion
depth. -/
def get_all_strings_dfs : Nat → Tree → Option Nat → List Char →
    List (Nat × List (List Char)) → Option (List (Nat × List (List Char)))
  | 0, _, _, _, _ => none
  | fuel + 1, st, node, current_path, result =>
    match node with
    | none => some result
    | some i =>
      match st.nodes[i]? with
      | none => none
      | some nd =>
        pathFold st (fun p path r => get_all_strings_dfs fuel st p path r) nd.g current_path
          (storeLabel nd current_path result)

/-- The method `SuffixTree::get_all_strings`. -/
def get_all_strings (fuel : Nat) (st : Tree) (node : Option Nat) :
    Option (Tree × List (Nat × List (List Char))) :=
  match (if st.colors_computed = false then compute_colors fuel st else some st) with
  | none => none
  | some st1 =>
    match get_all_strings_dfs fuel st1 node [] [] with
    | none => none
    | some result => some (st1, result)

/-! ### Destruction -/

/-- The loop of `Base::clean`: `queue` is `del_list`, `deleted` lists the cells
handed to `delete` so far, in order. Reading through a null pointer or a
deleted cell is undefined, and so is `delete` on the sink, which is a member of
the tree and not a heap cell of its own (`none`). The result lists the deleted
cells. -/
def cleanLoop : Nat → Tree → List (Option Nat) → List Nat → Option (List Nat)
  | 0, _, _, _ => none
  | _ + 1, _, [], deleted => some deleted
  | _ + 1, _, none :: _, _ => none
  | fuel + 1, st, some cur :: queue, deleted =>
    if cur ∈ deleted then none
    else
      match st.nodes[cur]? with
      | none => none
      | some nd =>
        if cur = rootId then cleanLoop fuel st (queue ++ nd.g.map (fun p => p.2.tgt)) deleted
        else if cur = sinkId then none
        else cleanLoop fuel st (queue ++ nd.g.map (fun p => p.2.tgt)) (deleted ++ [cur])

/-- The method `Base::clean`: the sweep starts with the root in the queue. -/
def clean (fuel : Nat) (st : Tree) : Option (List Nat) :=
  cleanLoop fuel st [some rootId] []

/-- A sequence of `add_string` calls, each with its own fuel; collects the
values the calls return. -/
def add_strings : Tree → List (Nat × List Char) → Option (Tree × List Int)
  | st, [] => some (st, [])
  | st, (fuel, s) :: rest =>
    match add_string fuel st s with
    | none => none
    | some (st1, id) =>
      match add_strings st1 rest with
      | none => none
      | some (st2, ids) => some (st2, id :: ids)

/-- States reached from the fresh tree by completed `add_string` calls. -/
inductive Reachable : Tree → Prop where
  | fresh : Reachable Tree.fresh
  | add (fuel : Nat) (st : Tree) (s : List Char) (st1 : Tree) (id : Int) :
      Reachable st → add_string fuel st s = some (st1, id) → Reachable st1

/-! ## Vocabulary: registry invariants -/

/-- Every stored edge refers to a registered string and never targets the sink. -/
def EdgesOK (st : Tree) : Prop :=
  2 ≤ st.nodes.length ∧
  ∀ (i : Nat) (nd : Node), st.nodes[i]? = some nd → ∀ (c : Char) (t : Transition), (c, t) ∈ nd.g →
    (mapFind t.sub.ref_str st.haystack).isSome = true ∧ t.tgt ≠ some sinkId

/-- The registry keys are exactly within `1..last_index`, itself within `0..64`. -/
def KeysOK (st : Tree) : Prop :=
  0 ≤ st.last_index ∧ st.last_index ≤ 64 ∧
  ∀ k, (mapFind k st.haystack).isSome = true → 1 ≤ k ∧ k ≤ st.last_index

/-- Two states with the same registry and counter. -/
def SameReg (st st1 : Tree) : Prop :=
  st1.haystack = st.haystack ∧ st1.last_index = st.last_index

/-- The IDs a call sequence hands out, in order: the returned values other than
the rejection value. -/
def issued (ids : List Int) : List Int := ids.filter (fun i => decide (i ≠ -1))

/-! ## Vocabulary: colours along a path -/

/-- Bit `k` of a node's colour set (`colors.test(k - 1)`); `false` for a cell
that does not exist. -/
def hasColor (st : Tree) (node : Nat) (k : Int) : Bool :=
  match st.nodes[node]? with
  | some nd => nd.colors.testBit (k - 1).toNat
  | none => false

/-- The bytes of an edge label, an open right end resolved to the end of the
source string. -/
def edgeLabel (st : Tree) (sub : MappedSubstring) : List Char :=
  match mapFind sub.ref_str st.haystack with
  | none => []
  | some str => (str.drop sub.l.toNat).take ((min sub.r ((str.length : Int) - 1) - sub.l + 1).toNat)

/-- The nodes below `n` that the path spelling `w` passes through or ends at:
an edge is taken when its whole label is a prefix of what is left of `w`. -/
def pathNodes (st : Tree) : Nat → Option Nat → List Char → List Nat
  | 0, _, _ => []
  | fuel + 1, n, w =>
    match w with
    | [] => []
    | c :: _ =>
      match st.find_alpha_transition n c with
      | none => []
      | some t =>
        match t.tgt with
        | none => []
        | some j =>
          if edgeLabel st t.sub ≠ [] ∧ (edgeLabel st t.sub).isPrefixOf w = true then
            j :: pathNodes st fuel (some j) (w.drop (edgeLabel st t.sub).length)
          else []

/-- The state after `add_string("abx")`, `add_string("cabz")`, `compute_colors`. -/
def staleColourState : Option Tree :=
  match add_strings Tree.fresh [(8, ['a', 'b', 'x']), (8, ['c', 'a', 'b', 'z'])] with
  | none => none
  | some (st, _) => compute_colors 8 st

/-! ## Vocabulary: slices of strings with integer bounds -/

/-- The bytes `S[a..b)` of a string, for integer bounds. -/
def slice (S : List Char) (a b : Int) : List Char :=
  (S.drop a.toNat).take (b - a).toNat

/-! ## Vocabulary: well-formed trees with path labels -/

/-- Size limit on stored strings (sentinel included) under which no index
computation of the construction leaves the `int` range. -/
def SIZE_BOUND : Int := 1073741823

/-- A stored string: a sentinel-free body followed by the sentinel. -/
def StrOK (S : List Char) : Prop :=
  ∃ body : List Char, S = body ++ [END_TOKEN] ∧ END_TOKEN ∉ body ∧ (S.length : Int) ≤ SIZE_BOUND

/-- Exclusive right end of an edge label inside its source string. -/
def edgeEnd (S : List Char) (sub : MappedSubstring) : Int :=
  if sub.r = INT_MAX then S.length else sub.r + 1

/-- The bytes of an edge label, an open right end read to the end of the
source string. -/
def labelOf (S : List Char) (sub : MappedSubstring) : List Char :=
  slice S sub.l (edgeEnd S sub)

/-- Well-formedness of the stored transition `t` under key `c` at node `n`,
with target `j` and source string `S`; `lab` gives every node its root path. -/
structure EdgeOK (st : Tree) (lab : Nat → List Char) (n : Nat) (c : Char) (t : Transition)
    (j : Nat) (S : List Char) : Prop where
  tgt : t.tgt = some j
  j_lo : 2 ≤ j
  j_hi : j < st.nodes.length
  ref : mapFind t.sub.ref_str st.haystack = some S
  l_lo : 0 ≤ t.sub.l
  l_le : t.sub.l ≤ t.sub.r
  l_hi : t.sub.l < S.length
  key : strAt S t.sub.l = some c
  fin : t.sub.r = INT_MAX ∨ t.sub.r + 1 < S.length
  lab_eq : lab j = lab n ++ labelOf S t.sub
  child : t.sub.r ≠ INT_MAX →
    ∃ (nd : Node) (c1 : Char) (t1 : Transition), st.nodes[j]? = some nd ∧ mapFind c1 nd.g = some t1

/-- Local well-formedness of a tree against a labelling of its nodes. -/
structure WFL (st : Tree) (lab : Nat → List Char) : Prop where
  len : 2 ≤ st.nodes.length
  sink : ∃ nd : Node, st.nodes[sinkId]? = some nd ∧ nd.g = [] ∧ nd.suffix_link = some rootId
  root_link : ∃ nd : Node, st.nodes[rootId]? = some nd ∧ nd.suffix_link = some sinkId
  lab_root : lab rootId = []
  strs : ∀ (k : Int) (S : List Char), mapFind k st.haystack = some S → StrOK S
  edges : ∀ (n : Nat) (nd : Node) (c : Char) (t : Transition), 1 ≤ n →
    st.nodes[n]? = some nd → mapFind c nd.g = some t → ∃ (j : Nat) (S : List Char), EdgeOK st lab n c t j S
  parent : ∀ j : Nat, 2 ≤ j → j < st.nodes.length →
    ∃ (n : Nat) (nd : Node) (c : Char) (t : Transition), 1 ≤ n ∧ st.nodes[n]? = some nd ∧
      mapFind c nd.g = some t ∧ t.tgt = some j

/-- The words spelled from the root: prefixes of node labels. -/
def InW (st : Tree) (lab : Nat → List Char) (w : List Char) : Prop :=
  ∃ j : Nat, 1 ≤ j ∧ j < st.nodes.length ∧ w <+: lab j

/-- A node that carries a label: any heap cell but the sink. -/
def Attached (st : Tree) (n : Nat) : Prop := 1 ≤ n ∧ n < st.nodes.length

/-! ## Vocabulary: heap updates -/

/-- The labelling extended at one node. -/
def setLab (lab : Nat → List Char) (i : Nat) (w : List Char) : Nat → List Char :=
  fun n => if n = i then w else lab n

/-- The state after hanging a freshly allocated leaf under key `c` of node `r`
with label `sub`. -/
def addLeaf (st : Tree) (r : Nat) (nd : Node) (c : Char) (sub : MappedSubstring) : Tree :=
  st.alloc.1.setNode r { nd with g := mapInsert c ⟨sub, some st.nodes.length⟩ nd.g }

/-- The state after `test_and_split` splits the transition `t` stored under key
`tk` at node `n` after `delta + 1` bytes: the new node is the next heap cell,
`key` is the first byte of the lower half. -/
def splitEdge (st : Tree) (n : Nat) (nd : Node) (tk key : Char) (t : Transition)
    (delta : Int) : Tree :=
  { (st.alloc.1.setNode st.nodes.length
      { Node.fresh with
        g := mapInsert key ⟨{ t.sub with l := t.sub.l + (delta + 1) }, t.tgt⟩ Node.fresh.g }).setNode n
      { nd with g := mapAssign tk ⟨{ t.sub with r := t.sub.l + delta }, some st.nodes.length⟩ nd.g }
    with colors_computed := false }

/-! ## Vocabulary: suffix links -/

/-- The root and the targets of closed (finite) edges: the nodes that carry a
suffix link. -/
def Inner (st : Tree) (v : Nat) : Prop :=
  v = rootId ∨ ∃ (n : Nat) (nd : Node) (c : Char) (t : Transition), 1 ≤ n ∧
    st.nodes[n]? = some nd ∧ mapFind c nd.g = some t ∧ t.tgt = some v ∧ t.sub.r ≠ INT_MAX

/-- The suffix link of `v` leads to the inner node whose label is the label of
`v` without its first byte. -/
def LinkOK (st : Tree) (lab : Nat → List Char) (v : Nat) : Prop :=
  ∃ (nd : Node) (u : Nat) (c : Char), st.nodes[v]? = some nd ∧ nd.suffix_link = some u ∧
    Attached st u ∧ Inner st u ∧ lab v = c :: lab u

/-- All inner nodes below the root, up to the exempted ones, have their suffix
link. -/
def LinksOK (st : Tree) (lab : Nat → List Char) (ex : Nat → Prop) : Prop :=
  ∀ v : Nat, Inner st v → v ≠ rootId → ¬ ex v → LinkOK st lab v

/-! ## Vocabulary: results of `get_starting_node` -/

/-- A string whose only sentinel, if any, is its last byte. -/
def Probe (s : List Char) : Prop :=
  ∀ i : Int, 0 ≤ i → i + 1 < s.length → strAt s i ≠ some END_TOKEN

/-- What a result of the inner comparison loop of `get_starting_node` means. -/
def ScanPost (s S : List Char) (sub : MappedSubstring) (k : Int) : EdgeScan → Prop
  | EdgeScan.runout => slice s k s.length <+: labelOf S sub
  | EdgeScan.diverge i => 1 ≤ i ∧ k + i < s.length ∧ sub.l + i < edgeEnd S sub ∧
      slice s k (k + i) = slice S sub.l (sub.l + i) ∧ strAt s (k + i) ≠ strAt S (sub.l + i)
  | EdgeScan.done i => sub.r ≠ INT_MAX ∧ k + i ≤ s.length ∧
      slice s k (k + i) = labelOf S sub ∧ i = sub.r - sub.l + 1

/-- Canonical reference pair `(n, s[l..e))`: the span is empty, or it is a
proper prefix of the label of the edge of `n` that starts with `s[l]`. -/
def Canon (st : Tree) (lab : Nat → List Char) (s : List Char) (n : Nat) (l e : Int) : Prop :=
  l = e ∨ (l < e ∧ ∃ (nd : Node) (c : Char) (t : Transition) (j : Nat) (S : List Char),
    strAt s l = some c ∧ st.nodes[n]? = some nd ∧ mapFind c nd.g = some t ∧
    EdgeOK st lab n c t j S ∧ slice s l e <+: labelOf S t.sub ∧
    e - l < (labelOf S t.sub).length)

/-- What a result of `get_starting_node` started at the root means. -/
def StartPost (st : Tree) (lab : Nat → List Char) (s : List Char)
    (res : Tree × ReferencePoint × Int) : Prop :=
  res.1 = st ∧
  ((res.2.2 = INT_MAX ∧ InW st lab s) ∨
   (∃ n : Nat, res.2.1.node = some n ∧ Attached st n ∧ Inner st n ∧ 0 ≤ res.2.1.pos ∧
      res.2.1.pos ≤ res.2.2 ∧ res.2.2 < s.length ∧ lab n = slice s 0 res.2.1.pos ∧
      Canon st lab s n res.2.1.pos res.2.2 ∧ InW st lab (slice s 0 res.2.2) ∧
      ¬ InW st lab (slice s 0 (res.2.2 + 1))))

/-! ## Vocabulary: results of `canonize` -/

/-- What the reference point returned by `canonize` means, for the walk that
started at node `n` with the span `s[l..e)`. -/
def CanonPost (st : Tree) (lab : Nat → List Char) (s : List Char) (id : Int) (base : List Char)
    (l e : Int) (rp : ReferencePoint) : Prop :=
  ∃ n1 : Nat, rp.node = some n1 ∧ rp.ref_str = id ∧ Attached st n1 ∧ Inner st n1 ∧
    l ≤ rp.pos ∧ rp.pos ≤ e ∧ lab n1 = base ++ slice s l rp.pos ∧
    (e < s.length → Canon st lab s n1 rp.pos e)

/-! ## Vocabulary: steps of the construction -/

/-- The relation between the state before and after one step of the
construction: nothing of the old tree is lost. -/
structure Ext (st : Tree) (lab : Nat → List Char) (st1 : Tree) (lab1 : Nat → List Char) :
    Prop where
  hay : st1.haystack = st.haystack
  len : st.nodes.length ≤ st1.nodes.length
  lab_old : ∀ m : Nat, m < st.nodes.length → lab1 m = lab m
  inw : ∀ w : List Char, InW st lab w → InW st1 lab1 w
  inner : ∀ v : Nat, Inner st v → Inner st1 v
  link : ∀ v : Nat, LinkOK st lab v → LinkOK st1 lab1 v

/-! ## Vocabulary: the words of the tree during the insertion of one string -/

/-- The state of the words while the string `s` is being inserted: the phases
up to `j` are done (all substrings of `s[0..j)` are words) and the suffixes
that start below `k` have their leaf. `OldW` are the words from before. -/
structure PhaseInv (st : Tree) (lab : Nat → List Char) (s : List Char) (id : Int)
    (OldW : List Char → Prop) (j k : Int) : Prop where
  wfl : WFL st lab
  hs : mapFind id st.haystack = some s
  idpos : 0 < id
  mono : ∀ w : List Char, OldW w → InW st lab w
  desc : ∀ w : List Char, InW st lab w →
    OldW w ∨ ∃ k0 : Int, 0 ≤ k0 ∧ k0 < k ∧ w <+: slice s k0 s.length
  leaves : ∀ k0 : Int, 0 ≤ k0 → k0 < k → InW st lab (slice s k0 s.length)
  subs : ∀ a b : Int, 0 ≤ a → a ≤ b → b ≤ j → InW st lab (slice s a b)
  k_lo : 0 ≤ k
  k_hi : k ≤ j + 1
  j_lo : 0 ≤ j
  j_hi : j ≤ s.length

/-- The invariant of the loop of `update` in phase `j` (the byte `t = s[j]` is
being appended), at the suffix that starts at `k`. -/
structure LoopInv (st : Tree) (lab : Nat → List Char) (s : List Char) (id : Int)
    (OldW : List Char → Prop) (j : Int) (t : Char) (k : Int) (oldr : Option Nat)
    (sk : ReferencePoint) (ep : Bool) (r : Option Nat) : Prop where
  phase : PhaseInv st lab s id OldW j k
  hj : j < s.length
  ht : strAt s j = some t
  links : LinksOK st lab (fun v => oldr = some v ∨ (ep = false ∧ r = some v))
  old : oldr = some rootId ∨ ∃ o : Nat, oldr = some o ∧ 1 ≤ k ∧ Attached st o ∧ Inner st o ∧
    lab o = slice s (k - 1) j ∧ ∃ c : Char, c ≠ t ∧ InW st lab (lab o ++ [c])
  hit : ep = true → InW st lab (slice s k (j + 1))
  pos : (sk.node = some sinkId ∧ sk.pos = j ∧ k = j + 1 ∧ ep = true ∧ oldr = some rootId) ∨
    (∃ n : Nat, sk.node = some n ∧ Attached st n ∧ Inner st n ∧ k ≤ sk.pos ∧ sk.pos ≤ j ∧
      lab n = slice s k sk.pos ∧ (n = rootId ∨ LinkOK st lab n) ∧
      (ep = true → Canon st lab s n sk.pos j) ∧
      (ep = false → ∃ (rn : Nat) (ndr : Node), r = some rn ∧ Attached st rn ∧ Inner st rn ∧
        lab rn = slice s k j ∧ st.nodes[rn]? = some ndr ∧ mapFind t ndr.g = none ∧
        (rn = rootId ∨ ∃ c : Char, c ≠ t ∧ InW st lab (lab rn ++ [c]))))

/-- What `update` leaves behind after phase `j`. -/
def UpdatePost (s : List Char) (id : Int) (OldW : List Char → Prop) (j : Int)
    (res : Tree × ReferencePoint) : Prop :=
  ∃ (lab1 : Nat → List Char) (k1 : Int), PhaseInv res.1 lab1 s id OldW (j + 1) k1 ∧
    LinksOK res.1 lab1 (fun _ => False) ∧
    ((res.2.node = some sinkId ∧ res.2.pos = j ∧ k1 = j + 1) ∨
     (∃ n : Nat, res.2.node = some n ∧ Attached res.1 n ∧ Inner res.1 n ∧ k1 ≤ res.2.pos ∧
        res.2.pos ≤ j ∧ lab1 n = slice s k1 res.2.pos))

/-- The invariant of the loop of `deploy_suffixes` before phase `j`, with the
active point `ap`. -/
def DeployInv (st : Tree) (lab : Nat → List Char) (s : List Char) (id : Int)
    (OldW : List Char → Prop) (j : Int) (ap : ReferencePoint) : Prop :=
  ∃ (k : Int) (n : Nat), PhaseInv st lab s id OldW j k ∧ LinksOK st lab (fun _ => False) ∧
    ap.node = some n ∧ Attached st n ∧ Inner st n ∧ k ≤ ap.pos ∧ ap.pos ≤ j ∧
    lab n = slice s k ap.pos ∧ (j < s.length → Canon st lab s n ap.pos j)

/-! ## Vocabulary: the tree between two calls -/

/-- The words a registry stands for: the empty word and the substrings of the
stored strings (sentinel included). -/
def Stored (hay : List (Int × List Char)) (w : List Char) : Prop :=
  w = [] ∨ ∃ (k : Int) (S : List Char), mapFind k hay = some S ∧ w <:+: S

/-- The state of the tree between two calls of the public methods. -/
structure Rest (st : Tree) (lab : Nat → List Char) : Prop where
  wfl : WFL st lab
  links : LinksOK st lab (fun _ => False)
  content : ∀ w : List Char, InW st lab w ↔ Stored st.haystack w
  edges : EdgesOK st
  keys : KeysOK st

/-- The tree with the string `s` registered under `id`, before its suffixes
are deployed. -/
def register (st : Tree) (id : Int) (s : List Char) : Tree :=
  { st with last_index := id, haystack := mapAssign id s st.haystack }

/-! ## Vocabulary: sessions -/

/-- The inputs of the calls that returned an ID. -/
def accepted : List (Nat × List Char) → List Int → List (List Char)
  | (_, s) :: calls, id :: ids =>
    if id ≠ -1 then s :: accepted calls ids else accepted calls ids
  | _, _ => []

/-! ## Vocabulary: observations on nodes -/

/-- The bitset holding exactly the given string IDs (ID `k` is bit `k - 1`). -/
def colorMask (ids : List Nat) : Nat := ids.foldl (fun m k => m ||| (1 <<< (k - 1))) 0

/-- The colour bitset of a heap cell. -/
def colorsAt (st : Tree) (n : Nat) : Option Nat := (st.nodes[n]?).map (fun nd => nd.colors)

/-- Whether a heap cell has no transition (`g.empty()`). -/
def isLeafAt (st : Tree) (n : Nat) : Option Bool := (st.nodes[n]?).map (fun nd => decide (nd.g = []))

/-- The target of the transition of node `n` whose key is `c`. -/
def childOn (st : Tree) (n : Nat) (c : Char) : Option Nat :=
  match st.nodes[n]? with
  | none => none
  | some nd =>
    match mapFind c nd.g with
    | none => none
    | some t => t.tgt

/-- The state after `add_string("abc")`, `add_string("abd")`, `compute_colors`. -/
def scenarioS2 : Option Tree :=
  match add_strings Tree.fresh [(8, ['a', 'b', 'c']), (8, ['a', 'b', 'd'])] with
  | none => none
  | some (st, _) => compute_colors 8 st

/-! ## Vocabulary: paths -/

/-- `Walk st n w m`: the edges on the path from node `n` down to node `m` spell
`w`; the label of an open edge ends with its source string, and the sink has
its transition on every byte. -/
inductive Walk (st : Tree) : Nat → List Char → Nat → Prop
  | stay (n : Nat) : Walk st n [] n
  | step (n j m : Nat) (nd : Node) (c : Char) (t : Transition) (S w : List Char) :
      n ≠ sinkId → st.nodes[n]? = some nd → mapFind c nd.g = some t → t.tgt = some j →
      mapFind t.sub.ref_str st.haystack = some S → Walk st j w m →
      Walk st n (labelOf S t.sub ++ w) m
  | sink (j m : Nat) (nd : Node) (c : Char) (w : List Char) :
      st.nodes[sinkId]? = some nd → nd.suffix_link = some j → Walk st j w m →
      Walk st sinkId (c :: w) m

/-- The word `w` is spelled by a path that starts at node `n`: the path may
end inside an edge. -/
def Spelled (st : Tree) (n : Nat) (w : List Char) : Prop :=
  ∃ (m : Nat) (v : List Char), Walk st n v m ∧ w <+: v

/-- What `get_starting_node` started at the root reports about `s`: either
`INT_MAX` and all of `s` is spelled from the root, or the length `i` of the
longest prefix of `s` that is spelled from the root, the deepest node on the
path of that prefix, the length `pos` of the root path of that node, and the
rest `s[pos..i)` lying strictly inside the edge that leaves the node. -/
def FastForwardPost (st : Tree) (s : List Char) (rp : ReferencePoint) (i : Int) : Prop :=
  (i = INT_MAX ∧ Spelled st rootId s) ∨
  (0 ≤ i ∧ i < s.length ∧ ¬ Spelled st rootId s ∧ Spelled st rootId (slice s 0 i) ∧
    ¬ Spelled st rootId (slice s 0 (i + 1)) ∧
    ∃ n : Nat, rp.node = some n ∧ 0 ≤ rp.pos ∧ rp.pos ≤ i ∧
      Walk st rootId (slice s 0 rp.pos) n ∧
      (∀ (m : Nat) (v : List Char), Walk st rootId v m → v <+: slice s 0 i →
        (v.length : Int) ≤ rp.pos) ∧
      (rp.pos = i ∨ ∃ (nd : Node) (c : Char) (t : Transition) (S : List Char),
        strAt s rp.pos = some c ∧ st.nodes[n]? = some nd ∧ mapFind c nd.g = some t ∧
        mapFind t.sub.ref_str st.haystack = some S ∧
        i - rp.pos < (labelOf S t.sub).length))

/-- What `canonize` returns for a span that is spelled from its node. -/
def CanonWalk (st : Tree) (S : List Char) (n : Nat) (l r : Int) (rp : ReferencePoint) : Prop :=
  ∃ n1 : Nat, rp.node = some n1 ∧ l ≤ rp.pos ∧ rp.pos ≤ r + 1 ∧
    Walk st n (slice S l rp.pos) n1 ∧
    (r < rp.pos ∨ ∃ (nd : Node) (c : Char) (t : Transition), strAt S rp.pos = some c ∧
      st.nodes[n1]? = some nd ∧ mapFind c nd.g = some t ∧ r - rp.pos < t.sub.r - t.sub.l)

/-! ## Vocabulary: counting heap cells -/

/-- The statement `UpdatePost` together with the count of heap cells: at most
`B` cells and two more for every suffix that has its leaf. -/
def UpdatePostC (s : List Char) (id : Int) (OldW : List Char → Prop) (j : Int) (B : Int)
    (res : Tree × ReferencePoint) : Prop :=
  ∃ (lab1 : Nat → List Char) (k1 : Int), PhaseInv res.1 lab1 s id OldW (j + 1) k1 ∧
    LinksOK res.1 lab1 (fun _ => False) ∧
    ((res.2.node = some sinkId ∧ res.2.pos = j ∧ k1 = j + 1) ∨
     (∃ n : Nat, res.2.node = some n ∧ Attached res.1 n ∧ Inner res.1 n ∧ k1 ≤ res.2.pos ∧
        res.2.pos ≤ j ∧ lab1 n = slice s k1 res.2.pos)) ∧
    (res.1.nodes.length : Int) ≤ B + 2 * k1

/-- The invariant `DeployInv` together with the count of heap cells.  The
second alternative is the start on a node without transitions, where the first
leaf comes without a split. -/
def DeployInvC (st : Tree) (lab : Nat → List Char) (s : List Char) (id : Int)
    (OldW : List Char → Prop) (j : Int) (B : Int) (ap : ReferencePoint) : Prop :=
  ∃ (k : Int) (n : Nat), PhaseInv st lab s id OldW j k ∧ LinksOK st lab (fun _ => False) ∧
    ap.node = some n ∧ Attached st n ∧ Inner st n ∧ k ≤ ap.pos ∧ ap.pos ≤ j ∧
    lab n = slice s k ap.pos ∧ (j < s.length → Canon st lab s n ap.pos j) ∧
    ((st.nodes.length : Int) ≤ B + 2 * k ∨
      (k = 0 ∧ ap.pos = j ∧ (∃ nd : Node, st.nodes[n]? = some nd ∧ nd.g = []) ∧
        (st.nodes.length : Int) ≤ B + 1))

/-- Sum of the sizes of the stored forms (sentinel included) of a list of
inputs. -/
def storedSize : List (List Char) → Nat
  | [] => 0
  | b :: rest => (b.length + 1) + storedSize rest

/-! ## Vocabulary: the shape of the transition maps -/

/-- No transition map holds two entries under the same byte. -/
def NodupKeys (st : Tree) : Prop :=
  ∀ (i : Nat) (nd : Node), st.nodes[i]? = some nd → (nd.g.map Prod.fst).Nodup

/-- Every ID in `1..last_index` has its string in the registry. -/
def KeysFull (st : Tree) : Prop :=
  ∀ k : Int, 1 ≤ k → k ≤ st.last_index → (mapFind k st.haystack).isSome = true

/-! ## Vocabulary: states that differ in their colours -/

/-- Two states that differ at most in the colour bitsets of their nodes and in
the colours-clean flag. -/
structure Recolor (st st1 : Tree) : Prop where
  hay : st1.haystack = st.haystack
  idx : st1.last_index = st.last_index
  len : st1.nodes.length = st.nodes.length
  node : ∀ (i : Nat) (nd : Node), st.nodes[i]? = some nd →
    ∃ nd1 : Node, st1.nodes[i]? = some nd1 ∧ nd1.g = nd.g ∧ nd1.suffix_link = nd.suffix_link

/-- What the colouring pass and the enumeration rely on: a well-formed tree
with duplicate-free transition maps, a full registry, and labels of at most `M`
bytes. -/
structure Shape (st : Tree) (lab : Nat → List Char) (M : Nat) : Prop where
  wfl : WFL st lab
  nodup : NodupKeys st
  full : KeysFull st
  keys : KeysOK st
  depth : ∀ x : Nat, Attached st x → (lab x).length ≤ M

/-! ## Vocabulary: the subtree below a node -/

/-- The subtrees below the children listed in a transition map, one after the
other; `rec` lists the subtree below one child. -/
def visitFold (st : Tree) (rec : Option Nat → List Char → List (Nat × List Char)) :
    List (Char × Transition) → List Char → List (Nat × List Char)
  | [], _ => []
  | (_, tr) :: rest, path =>
    (if tr.tgt ≠ none then rec tr.tgt (path ++ edgeLabel st tr.sub) else []) ++
      visitFold st rec rest path

/-- The nodes of the subtree below `node`, parents before children, each with
the word that `path` followed by the labels of the edges from `node` spells. -/
def visits : Nat → Tree → Option Nat → List Char → List (Nat × List Char)
  | 0, _, _, _ => []
  | _ + 1, _, none, _ => []
  | fuel + 1, st, some i, path =>
    match st.nodes[i]? with
    | none => []
    | some nd => (i, path) :: visitFold st (fun p q => visits fuel st p q) nd.g path

/-- A path without its trailing sentinel. -/
def trimSentinel (path : List Char) : List Char :=
  if path.getLast? = some END_TOKEN then path.dropLast else path

/-- The label a node with the colours `colors`, reached by `path`, contributes
to the enumeration: none without a colour and for a single colour at the
start, the first byte of the path for a single colour, the path without its
trailing sentinel for more colours. -/
def emitLabel (colors : Nat) (path : List Char) : Option (List Char) :=
  if colorCount colors = 0 then none
  else if colorCount colors = 1 then
    (match path with
     | [] => none
     | c :: _ => some [c])
  else some (trimSentinel path)

/-- What the visit `v` adds to the result. -/
def storeVisit (st : Tree) (result : List (Nat × List (List Char))) (v : Nat × List Char) :
    List (Nat × List (List Char)) :=
  match st.nodes[v.1]? with
  | none => result
  | some nd => storeLabel nd v.2 result

/-- The labels a result holds under the bitmask `B`. -/
def labelsUnder (B : Nat) (result : List (Nat × List (List Char))) : List (List Char) :=
  (mapFind B result).getD []

/-- The label the visit `v` stores under the bitmask `B`, if any. -/
def emitted (st : Tree) (B : Nat) (v : Nat × List Char) : Option (List Char) :=
  match st.nodes[v.1]? with
  | none => none
  | some nd => if nd.colors = B then emitLabel nd.colors v.2 else none

/-- Two pointers to nodes neither of which lies below the other. -/
def Apart (lab : Nat → List Char) (a b : Option Nat) : Prop :=
  ∀ x y : Nat, a = some x → b = some y → ¬ lab x <+: lab y ∧ ¬ lab y <+: lab x

/-! ## Vocabulary: the cells allocated by one call of `update` -/

/-- The cells allocated since the heap had `B` cells, during the call of
`update` that appends the byte `t = stored[id][j]`, at the suffix that starts at
`k`: a cell without transitions has no colour and hangs by the open edge
`(id, j, INT_MAX)` under the key `t` from a node whose label is longer than
`j - k`; the colours-clean flag is what it was before the call (`flag0`) as
long as none of the cells has a transition, and cleared otherwise. -/
structure NewCells (st : Tree) (lab : Nat → List Char) (id j : Int) (t : Char) (B : Nat)
    (flag0 : Bool) (k : Int) : Prop where
  base : 2 ≤ B
  bound : B ≤ st.nodes.length
  leaf : ∀ (x : Nat) (ndx : Node), B ≤ x → st.nodes[x]? = some ndx → ndx.g = [] →
    ndx.colors = 0 ∧ ∃ (p : Nat) (ndp : Node), 1 ≤ p ∧ st.nodes[p]? = some ndp ∧
      mapFind t ndp.g = some ⟨⟨id, j, INT_MAX⟩, some x⟩ ∧ j - k < (lab p).length
  flag : (st.colors_computed = flag0 ∧
      ∀ (x : Nat) (ndx : Node), B ≤ x → st.nodes[x]? = some ndx → ndx.g = []) ∨
    (st.colors_computed = false ∧
      ∃ (x : Nat) (ndx : Node), B ≤ x ∧ st.nodes[x]? = some ndx ∧ ndx.g ≠ [])

/-! ## Vocabulary: the colours of the leaves -/

/-- Every target of an open-ended transition has no transition. -/
def OpenLeaves (st : Tree) : Prop :=
  ∀ (n j : Nat) (nd ndj : Node) (c : Char) (t : Transition), 1 ≤ n → st.nodes[n]? = some nd →
    mapFind c nd.g = some t → t.tgt = some j → t.sub.r = INT_MAX → st.nodes[j]? = some ndj →
    ndj.g = []

/-- What the leaf-marking pass relies on: a well-formed tree in which open
edges lead to leaves and every suffix of a stored string is the label of a
leaf, with a full registry. -/
structure Marking (st : Tree) (lab : Nat → List Char) : Prop where
  wfl : WFL st lab
  open_leaves : OpenLeaves st
  sufleaf : ∀ (k : Int) (S : List Char) (p : Int), mapFind k st.haystack = some S → 0 ≤ p →
    p < S.length →
    ∃ (x : Nat) (ndx : Node), Attached st x ∧ st.nodes[x]? = some ndx ∧ ndx.g = [] ∧
      lab x = slice S p S.length
  full : KeysFull st
  keys : KeysOK st

/-- Two states with the same transitions, in which no leaf has lost a colour. -/
structure BitsKept (st st1 : Tree) : Prop where
  len : st1.nodes.length = st.nodes.length
  node : ∀ (i : Nat) (nd : Node), st.nodes[i]? = some nd →
    ∃ nd1 : Node, st1.nodes[i]? = some nd1 ∧ nd1.g = nd.g ∧
      (nd.g = [] → ∀ b : Nat, nd.colors.testBit b = true → nd1.colors.testBit b = true)

/-- The node labelled `w` is a leaf whose colours hold bit `b`. -/
def LeafBit (st : Tree) (lab : Nat → List Char) (w : List Char) (b : Nat) : Prop :=
  ∃ (x : Nat) (ndx : Node), Attached st x ∧ st.nodes[x]? = some ndx ∧ ndx.g = [] ∧
    lab x = w ∧ ndx.colors.testBit b = true

/-! ## Vocabulary: the propagation rule of the colouring pass -/

/-- The bit that an edge label gives to the node above it: the bit of its
`ref_str` when that is one of `1..MAX_STRINGS`, and none otherwise. -/
def edgeBit (tr : Transition) : Nat :=
  if tr.sub.ref_str > 0 ∧ toSizeT tr.sub.ref_str ≤ MAX_STRINGS then
    1 <<< (tr.sub.ref_str - 1).toNat
  else 0

/-- The colour bitset of the node behind a pointer; empty for the null pointer. -/
def childColors (st : Tree) (p : Option Nat) : Nat :=
  match p with
  | none => 0
  | some j =>
    match st.nodes[j]? with
    | none => 0
    | some nd => nd.colors

/-- The bitwise OR, over the transitions of a map, of the bit of the edge label
and the colour bitset that the target holds in `st`. -/
def propagated (st : Tree) (g : List (Char × Transition)) : Nat :=
  g.foldl (fun acc p => acc ||| edgeBit p.2 ||| childColors st p.2.tgt) 0

/-- What one call `compute_colors_dfs(x)` does, from `st` to `st1` with the
returned bitset `c`: only colours change; `c` is the colour bitset of `x`
afterwards; every cell that does not lie below `x` is untouched; below `x` a
node without transitions keeps its colours and a node with transitions holds
the OR over its transitions of edge bits and child colours. -/
structure DfsPost (st st1 : Tree) (lab : Nat → List Char) (x c : Nat) : Prop where
  recolor : Recolor st st1
  ret : childColors st1 (some x) = c
  frame : ∀ y : Nat, ¬ (1 ≤ y ∧ lab x <+: lab y) → st1.nodes[y]? = st.nodes[y]?
  inside : ∀ (y : Nat) (nd nd1 : Node), st.nodes[y]? = some nd → st1.nodes[y]? = some nd1 →
    1 ≤ y → lab x <+: lab y →
    (nd.g = [] → nd1.colors = nd.colors) ∧ (nd.g ≠ [] → nd1.colors = propagated st1 nd.g)

/-! ## Association-list facts -/

theorem mapFind_mem {κ β : Type} [DecidableEq κ] {k : κ} {v : β} {m : List (κ × β)}
    (h : mapFind k m = some v) : (k, v) ∈ m := by
  induction m with
  | nil => simp [mapFind] at h
  | cons p rest ih =>
    obtain ⟨k1, v1⟩ := p
    by_cases hk : k1 = k
    · simp [mapFind, hk] at h
      simp [hk, h]
    · simp [mapFind, hk] at h
      exact List.mem_cons_of_mem _ (ih h)

theorem mem_mapInsert {κ β : Type} [DecidableEq κ] {k : κ} {v : β} {m : List (κ × β)}
    {p : κ × β} (h : p ∈ mapInsert k v m) : p ∈ m ∨ p = (k, v) := by
  unfold mapInsert at h
  split at h
  · exact Or.inl h
  · simpa using h

theorem mem_mapAssign {κ β : Type} [DecidableEq κ] {k : κ} {v : β} {m : List (κ × β)}
    {p : κ × β} (h : p ∈ mapAssign k v m) : p ∈ m ∨ p = (k, v) := by
  induction m with
  | nil => simp [mapAssign] at h; exact Or.inr h
  | cons q rest ih =>
    obtain ⟨k1, v1⟩ := q
    by_cases hk : k1 = k
    · simp [mapAssign, hk] at h
      rcases h with h | h
      · exact Or.inr h
      · exact Or.inl (List.mem_cons_of_mem _ h)
    · simp [mapAssign, hk] at h
      rcases h with h | h
      · exact Or.inl (by simp [h])
      · rcases ih h with h1 | h1
        · exact Or.inl (List.mem_cons_of_mem _ h1)
        · exact Or.inr h1

theorem mapFind_mapAssign {κ β : Type} [DecidableEq κ] (k k1 : κ) (v : β) (m : List (κ × β)) :
    mapFind k1 (mapAssign k v m) = if k1 = k then some v else mapFind k1 m := by
  induction m with
  | nil =>
    by_cases h : k1 = k
    · simp [mapAssign, mapFind, h]
    · have h2 : ¬ k = k1 := fun e => h e.symm
      simp [mapAssign, mapFind, h, h2]
  | cons q rest ih =>
    obtain ⟨k2, v2⟩ := q
    by_cases hk : k2 = k
    · by_cases h : k1 = k
      · simp [mapAssign, mapFind, hk, h]
      · have h2 : ¬ k = k1 := fun e => h e.symm
        simp [mapAssign, mapFind, hk, h, h2]
    · by_cases h : k1 = k
      · subst h
        simp [mapAssign, mapFind, hk, ih]
      · by_cases h3 : k2 = k1
        · simp [mapAssign, mapFind, hk, h, h3]
        · simp [mapAssign, mapFind, hk, h, h3, ih]

theorem mapFind_mapErase {κ β : Type} [DecidableEq κ] (k k1 : κ) (m : List (κ × β)) :
    mapFind k1 (mapErase k m) = if k1 = k then none else mapFind k1 m := by
  induction m with
  | nil => simp [mapErase, mapFind]
  | cons q rest ih =>
    obtain ⟨k2, v2⟩ := q
    unfold mapErase at ih ⊢
    by_cases hk : k2 = k
    · subst hk
      by_cases h : k1 = k2
      · simp [List.filter, mapFind, h] at ih ⊢
        simpa [h] using ih
      · have h2 : ¬ k2 = k1 := fun e => h e.symm
        simp [List.filter, mapFind, h, h2] at ih ⊢
        simpa [h] using ih
    · by_cases h : k1 = k
      · subst h
        simp [List.filter, mapFind, hk] at ih ⊢
        simpa using ih
      · by_cases h3 : k2 = k1
        · simp [List.filter, mapFind, hk, h, h3]
        · simp [List.filter, mapFind, hk, h, h3] at ih ⊢
          simpa [h] using ih

theorem mapFind_append_none {κ β : Type} [DecidableEq κ] (k k1 : κ) (v : β)
    (m : List (κ × β)) (h : mapFind k m = none) :
    mapFind k1 (m ++ [(k, v)]) = if k1 = k then some v else mapFind k1 m := by
  induction m with
  | nil =>
    by_cases h1 : k1 = k
    · simp [mapFind, h1]
    · have h2 : ¬ k = k1 := fun e => h1 e.symm
      simp [mapFind, h1, h2]
  | cons q rest ih =>
    obtain ⟨k2, v2⟩ := q
    by_cases hk : k2 = k
    · simp [mapFind, hk] at h
    · simp [mapFind, hk] at h
      by_cases h3 : k2 = k1
      · have : ¬ k1 = k := fun e => hk (h3.trans e)
        simp [mapFind, h3, this]
      · simp [mapFind, h3, ih h]

/-! ## Registry invariants -/

theorem haystackIndex_present {st : Tree} {k : Int}
    (h : (mapFind k st.haystack).isSome = true) : (st.haystackIndex k).1 = st := by
  unfold Tree.haystackIndex
  cases hk : mapFind k st.haystack with
  | none => simp [hk] at h
  | some v => simp

theorem modify_spec {st st1 : Tree} {p : Option Nat} {f : Node → Node}
    (h : st.modify p f = some st1) :
    ∃ i nd, p = some i ∧ st.nodes[i]? = some nd ∧ st1 = st.setNode i (f nd) := by
  unfold Tree.modify at h
  cases p with
  | none => simp at h
  | some i =>
    cases hn : st.nodes[i]? with
    | none => simp [hn] at h
    | some nd =>
      simp [hn] at h
      exact ⟨i, nd, rfl, hn, h.symm⟩

theorem EdgesOK_setNode {st : Tree} {i : Nat} {nd nd1 : Node} (hst : EdgesOK st)
    (hi : st.nodes[i]? = some nd)
    (hg : ∀ c t, (c, t) ∈ nd1.g → (c, t) ∈ nd.g ∨
      ((mapFind t.sub.ref_str st.haystack).isSome = true ∧ t.tgt ≠ some sinkId)) :
    EdgesOK (st.setNode i nd1) := by
  obtain ⟨hlen, hall⟩ := hst
  refine ⟨by simpa [Tree.setNode] using hlen, ?_⟩
  intro j ndj hj c t hct
  simp only [Tree.setNode] at hj ⊢
  rw [List.getElem?_set] at hj
  by_cases hij : i = j
  · subst hij
    have hlt : i < st.nodes.length := by
      rcases List.getElem?_eq_some_iff.mp hi with ⟨h1, _⟩
      exact h1
    simp [hlt] at hj
    subst hj
    rcases hg c t hct with h1 | h1
    · exact hall i nd hi c t h1
    · exact h1
  · simp [hij] at hj
    exact hall j ndj hj c t hct

theorem EdgesOK_alloc {st : Tree} (hst : EdgesOK st) : EdgesOK st.alloc.1 := by
  obtain ⟨hlen, hall⟩ := hst
  refine ⟨by simp [Tree.alloc]; omega, ?_⟩
  intro j ndj hj c t hct
  simp only [Tree.alloc] at hj ⊢
  by_cases hlt : j < st.nodes.length
  · rw [List.getElem?_append_left hlt] at hj
    exact hall j ndj hj c t hct
  · rw [List.getElem?_append_right (by omega)] at hj
    by_cases h0 : j - st.nodes.length = 0
    · simp [h0] at hj
      subst hj
      simp [Node.fresh] at hct
    · have : ([Node.fresh] : List Node)[j - st.nodes.length]? = none := by
        apply List.getElem?_eq_none
        simp
        omega
      rw [this] at hj
      simp at hj

theorem SameReg.rfl1 (st : Tree) : SameReg st st := ⟨rfl, rfl⟩

theorem SameReg.trans1 {a b c : Tree} (h1 : SameReg a b) (h2 : SameReg b c) : SameReg a c :=
  ⟨h2.1.trans h1.1, h2.2.trans h1.2⟩

theorem EdgesOK_of_SameNodes {st st1 : Tree} (hst : EdgesOK st)
    (hn : st1.nodes = st.nodes) (hh : st1.haystack = st.haystack) : EdgesOK st1 := by
  unfold EdgesOK at *
  rw [hn, hh]
  exact hst

/-- A `modify` whose new edges are well-formed keeps `EdgesOK` and the registry. -/
theorem modify_reg {st st1 : Tree} {p : Option Nat} {f : Node → Node}
    (h : st.modify p f = some st1) (hst : EdgesOK st)
    (hf : ∀ (nd : Node) (c : Char) (t : Transition), (c, t) ∈ (f nd).g → (c, t) ∈ nd.g ∨
      ((mapFind t.sub.ref_str st.haystack).isSome = true ∧ t.tgt ≠ some sinkId)) :
    EdgesOK st1 ∧ SameReg st st1 := by
  obtain ⟨i, nd, _, hi, rfl⟩ := modify_spec h
  exact ⟨EdgesOK_setNode hst hi (hf nd), rfl, rfl⟩

theorem find_alpha_edge {st : Tree} {n : Option Nat} {c : Char} {t : Transition}
    (h : st.find_alpha_transition n c = some t) (hst : EdgesOK st) (hk : KeysOK st)
    (hr : (mapFind t.sub.ref_str st.haystack).isSome = true) :
    t.tgt ≠ some sinkId := by
  unfold Tree.find_alpha_transition at h
  cases n with
  | none => simp at h
  | some i =>
    cases hn : st.nodes[i]? with
    | none => simp [hn] at h
    | some nd =>
      simp only [hn] at h
      by_cases hs : i = sinkId
      · simp [hs] at h
        subst h
        have := (hk.2.2 0 hr).1
        omega
      · simp only [hs, if_false] at h
        cases hm : mapFind c nd.g with
        | none =>
          simp [hm] at h
          subst h
          simp
        | some t1 =>
          simp [hm] at h
          subst h
          exact (hst.2 i nd hn c t1 (mapFind_mem hm)).2

theorem find_alpha_ref {st : Tree} {n : Option Nat} {c : Char} {t : Transition}
    (h : st.find_alpha_transition n c = some t) (hst : EdgesOK st)
    (hn : n ≠ some sinkId) (hv : t.tgt ≠ none) :
    (mapFind t.sub.ref_str st.haystack).isSome = true ∧ t.tgt ≠ some sinkId := by
  unfold Tree.find_alpha_transition at h
  cases n with
  | none => simp at h
  | some i =>
    cases hi : st.nodes[i]? with
    | none => simp [hi] at h
    | some nd =>
      simp only [hi] at h
      have hs : i ≠ sinkId := fun e => hn (by rw [e])
      simp only [hs, if_false] at h
      cases hm : mapFind c nd.g with
      | none =>
        simp [hm] at h
        subst h
        simp at hv
      | some t1 =>
        simp [hm] at h
        subst h
        exact hst.2 i nd hi c t1 (mapFind_mem hm)

theorem test_and_split_reg {st st1 : Tree} {n r : Option Nat} {kp : MappedSubstring}
    {t : Char} {w : List Char} {b : Bool}
    (h : test_and_split st n kp t w = some (st1, b, r)) (hst : EdgesOK st) (hk : KeysOK st) :
    EdgesOK st1 ∧ SameReg st st1 := by
  unfold test_and_split at h
  simp only at h
  split at h
  · -- empty span
    split at h
    · simp at h
    · rename_i t_trans _
      split at h
      · split at h
        · simp at h
        · rename_i st2 hm
          simp at h
          obtain ⟨rfl, _, _⟩ := h
          refine modify_reg hm hst ?_
          intro nd c t hct
          left
          unfold Node.mark_string at hct
          split at hct <;> exact hct
      · simp at h
        obtain ⟨rfl, _, _⟩ := h
        exact ⟨hst, SameReg.rfl1 _⟩
  · split at h
    · simp at h
    · rename_i tk _
      split at h
      · simp at h
      · rename_i tk_trans hfa
        split at h
        · simp at h
        · rename_i str_prime hsp
          split at h
          · simp at h
          · rename_i c _
            split at h
            · simp at h
              obtain ⟨rfl, _, _⟩ := h
              exact ⟨hst, SameReg.rfl1 _⟩
            · split at h
              · simp at h
              · rename_i key _
                split at h
                · simp at h
                · rename_i st2 hm2
                  split at h
                  · simp at h
                  · rename_i st3 hm3
                    simp at h
                    obtain ⟨rfl, _, _⟩ := h
                    have hpres : (mapFind tk_trans.sub.ref_str st.haystack).isSome = true := by
                      simp [hsp]
                    have htgt := find_alpha_edge hfa hst hk hpres
                    have ha := EdgesOK_alloc hst
                    have h2 := modify_reg hm2 ha (by
                      intro nd c t hct
                      rcases mem_mapInsert hct with h1 | h1
                      · exact Or.inl h1
                      · right
                        simp only [Prod.mk.injEq] at h1
                        obtain ⟨_, rfl⟩ := h1
                        exact ⟨by simpa [Tree.alloc] using hpres, htgt⟩)
                    have h3 := modify_reg hm3 h2.1 (by
                      intro nd c t hct
                      rcases mem_mapAssign hct with h1 | h1
                      · exact Or.inl h1
                      · right
                        simp only [Prod.mk.injEq] at h1
                        obtain ⟨_, rfl⟩ := h1
                        refine ⟨?_, ?_⟩
                        · rw [h2.2.1]
                          simpa [Tree.alloc] using hpres
                        · intro e
                          have hl := hst.1
                          simp only [Tree.alloc, Option.some.injEq, sinkId] at e
                          omega)
                    refine ⟨EdgesOK_of_SameNodes h3.1 rfl rfl, ?_⟩
                    have e1 : SameReg st st.alloc.1 := ⟨rfl, rfl⟩
                    have := SameReg.trans1 (SameReg.trans1 e1 h2.2) h3.2
                    exact ⟨this.1, this.2⟩

theorem KeysOK_of_SameReg {st st1 : Tree} (hk : KeysOK st) (h : SameReg st st1) :
    KeysOK st1 := by
  unfold KeysOK at *
  rw [h.1, h.2]
  exact hk

theorem canonize_reg {fuel : Nat} {st st1 : Tree} {n : Option Nat} {kp : MappedSubstring}
    {rp : ReferencePoint} (h : canonize fuel st n kp = some (st1, rp))
    (hp : (mapFind kp.ref_str st.haystack).isSome = true) : st1 = st := by
  unfold canonize at h
  split at h
  · simp at h
    exact h.1.symm
  · simp only [haystackIndex_present hp] at h
    split at h
    · simp at h
    · split at h
      · simp at h
      · split at h
        · simp at h
        · simp at h
          exact h.1.symm

theorem updateLoop_reg {cf : Nat} {w : List Char} {ki_ref : Int} {ki_r : Int} {t : Char} :
    ∀ (fuel : Nat) (st : Tree) (oldr : Option Nat) (sk : ReferencePoint)
      (ki1 : MappedSubstring) (ep : Bool) (r : Option Nat) (st1 : Tree) (rp : ReferencePoint),
      updateLoop cf w ki_ref ki_r t fuel st oldr sk ki1 ep r = some (st1, rp) →
      EdgesOK st → KeysOK st → (mapFind ki_ref st.haystack).isSome = true →
      ki1.ref_str = ki_ref → EdgesOK st1 ∧ SameReg st st1 := by
  intro fuel
  induction fuel with
  | zero => intro st oldr sk ki1 ep r st1 rp h; simp [updateLoop] at h
  | succ fuel ih =>
    intro st oldr sk ki1 ep r st1 rp h hst hk hp hki
    unfold updateLoop at h
    split at h
    · split at h
      · split at h
        · simp at h
        · rename_i st2 hm
          simp at h
          obtain ⟨rfl, _⟩ := h
          exact modify_reg hm hst (fun nd c t hct => Or.inl hct)
      · simp at h
        obtain ⟨rfl, _⟩ := h
        exact ⟨hst, SameReg.rfl1 _⟩
    · simp only at h
      split at h
      · simp at h
      · rename_i st2 hm2
        have ha := EdgesOK_alloc hst
        have h2 := modify_reg hm2 ha (by
          intro nd c t hct
          rcases mem_mapInsert hct with h1 | h1
          · exact Or.inl h1
          · right
            simp only [Prod.mk.injEq] at h1
            obtain ⟨_, rfl⟩ := h1
            refine ⟨by simpa [Tree.alloc] using hp, ?_⟩
            intro e
            have hl := hst.1
            simp only [Tree.alloc, Option.some.injEq, sinkId] at e
            omega)
        have e1 : SameReg st st.alloc.1 := ⟨rfl, rfl⟩
        have s2 : SameReg st st2 := SameReg.trans1 e1 h2.2
        split at h
        · simp at h
        · rename_i st3 hm3
          have h3 : EdgesOK st3 ∧ SameReg st2 st3 := by
            split at hm3
            · exact modify_reg hm3 h2.1 (fun nd c t hct => Or.inl hct)
            · simp at hm3
              subst hm3
              exact ⟨h2.1, SameReg.rfl1 _⟩
          have s3 : SameReg st st3 := SameReg.trans1 s2 h3.2
          split at h
          · simp at h
          · split at h
            · simp at h
            · rename_i st4 sk1 hc
              have e4 : st4 = st3 := canonize_reg hc (by rw [hki, s3.1]; exact hp)
              subst e4
              split at h
              · simp at h
              · rename_i st5 ep1 r1 hts
                have h5 := test_and_split_reg hts h3.1 (KeysOK_of_SameReg hk s3)
                have s5 : SameReg st st5 := SameReg.trans1 s3 h5.2
                have := ih st5 r sk1 _ ep1 r1 st1 rp h h5.1 (KeysOK_of_SameReg hk s5)
                  (by rw [s5.1]; exact hp) hki
                exact ⟨this.1, SameReg.trans1 s5 this.2⟩

theorem update_reg {fuel : Nat} {st st1 : Tree} {n : Option Nat} {ki : MappedSubstring}
    {rp : ReferencePoint} (h : update fuel st n ki = some (st1, rp))
    (hst : EdgesOK st) (hk : KeysOK st)
    (hp : (mapFind ki.ref_str st.haystack).isSome = true) :
    EdgesOK st1 ∧ SameReg st st1 := by
  unfold update at h
  simp only [haystackIndex_present hp] at h
  split at h
  · simp at h
  · split at h
    · simp at h
    · rename_i st2 ep r hts
      have h2 := test_and_split_reg hts hst hk
      have := updateLoop_reg _ _ _ _ _ _ _ _ _ h h2.1 (KeysOK_of_SameReg hk h2.2)
        (by rw [h2.2.1]; exact hp) rfl
      exact ⟨this.1, SameReg.trans1 h2.2 this.2⟩

theorem startLoop_reg {s : List Char} {s_len : Int} :
    ∀ (fuel : Nat) (st : Tree) (r : ReferencePoint) (k : Int) (st1 : Tree)
      (r1 : ReferencePoint) (i : Int),
      startLoop s s_len fuel st r k = some (st1, r1, i) →
      EdgesOK st → r.node ≠ some sinkId → st1 = st := by
  intro fuel
  induction fuel with
  | zero => intro st r k st1 r1 i h; simp [startLoop] at h
  | succ fuel ih =>
    intro st r k st1 r1 i h hst hr
    unfold startLoop at h
    split at h
    · simp at h
      exact h.1.symm
    · split at h
      · simp at h
      · split at h
        · simp at h
        · rename_i t hfa
          split at h
          · rename_i hv
            have hp := find_alpha_ref hfa hst hr hv
            simp only [haystackIndex_present hp.1] at h
            split at h
            · simp at h
            · simp at h
              exact h.1.symm
            · simp at h
              exact h.1.symm
            · exact ih _ _ _ _ _ _ h hst hp.2
          · simp at h
            exact h.1.symm

theorem deployLoop_reg {fuel : Nat} {s : List Char} {sindex : Int} :
    ∀ (cnt : Nat) (st : Tree) (ap : ReferencePoint) (i : Int) (st1 : Tree),
      deployLoop fuel s sindex cnt st ap i = some st1 →
      EdgesOK st → KeysOK st → (mapFind sindex st.haystack).isSome = true →
      EdgesOK st1 ∧ SameReg st st1 := by
  intro cnt
  induction cnt with
  | zero => intro st ap i st1 h; simp [deployLoop] at h
  | succ cnt ih =>
    intro st ap i st1 h hst hk hp
    unfold deployLoop at h
    split at h
    · split at h
      · simp at h
      · rename_i st2 ap1 hu
        have h2 := update_reg hu hst hk hp
        split at h
        · simp at h
        · rename_i st3 ap2 hc
          have e3 : st3 = st2 := canonize_reg hc (by rw [h2.2.1]; exact hp)
          subst e3
          have := ih _ _ _ _ h h2.1 (KeysOK_of_SameReg hk h2.2) (by rw [h2.2.1]; exact hp)
          exact ⟨this.1, SameReg.trans1 h2.2 this.2⟩
    · simp at h
      subst h
      exact ⟨hst, SameReg.rfl1 _⟩

theorem deploy_suffixes_reg {fuel : Nat} {st st1 : Tree} {s : List Char} {sindex res : Int}
    (h : deploy_suffixes fuel st s sindex = some (st1, res))
    (hst : EdgesOK st) (hk : KeysOK st) (hp : (mapFind sindex st.haystack).isSome = true) :
    EdgesOK st1 ∧ SameReg st st1 ∧ ((res = -1 ∧ st1 = st) ∨ res = sindex) := by
  unfold deploy_suffixes at h
  split at h
  · simp at h
  · rename_i st2 ap i hg
    unfold get_starting_node at hg
    have e2 : st2 = st := startLoop_reg _ _ _ _ _ _ _ hg hst (by simp [rootId, sinkId])
    subst e2
    split at h
    · simp at h
      obtain ⟨rfl, rfl⟩ := h
      exact ⟨hst, SameReg.rfl1 _, Or.inl ⟨rfl, rfl⟩⟩
    · split at h
      · simp at h
      · rename_i st3 hd
        simp at h
        obtain ⟨rfl, rfl⟩ := h
        have := deployLoop_reg _ _ _ _ _ hd hst hk hp
        exact ⟨this.1, this.2, Or.inr rfl⟩

theorem mapErase_mapAssign_absent {κ β : Type} [DecidableEq κ] (k : κ) (v : β)
    (m : List (κ × β)) (h : mapFind k m = none) : mapErase k (mapAssign k v m) = m := by
  induction m with
  | nil => simp [mapAssign, mapErase]
  | cons q rest ih =>
    obtain ⟨k2, v2⟩ := q
    by_cases hk : k2 = k
    · simp [mapFind, hk] at h
    · simp [mapFind, hk] at h
      have := ih h
      simp only [mapErase] at this ⊢
      simp only [mapAssign, hk, if_false, List.filter, ne_eq, not_false_eq_true, decide_True, this]

theorem toSizeT_small {x : Int} (h0 : 0 ≤ x) (h1 : x ≤ 64) : toSizeT x = x.toNat := by
  unfold toSizeT
  congr 1
  omega

theorem EdgesOK_fresh : EdgesOK Tree.fresh := by
  refine ⟨by simp [Tree.fresh], ?_⟩
  intro i nd hi c t hct
  simp only [Tree.fresh] at hi
  match i with
  | 0 => simp at hi; subst hi; simp at hct
  | 1 => simp at hi; subst hi; simp at hct
  | (j + 2) => simp at hi

theorem KeysOK_fresh : KeysOK Tree.fresh := by
  refine ⟨by simp [Tree.fresh], by simp [Tree.fresh], ?_⟩
  intro k hk
  simp [Tree.fresh, mapFind] at hk

/-- Effect of a completed `add_string` on the registry. -/
theorem add_string_reg {fuel : Nat} {st st1 : Tree} {str : List Char} {id : Int}
    (h : add_string fuel st str = some (st1, id)) (hst : EdgesOK st) (hk : KeysOK st) :
    EdgesOK st1 ∧ KeysOK st1 ∧
    ((id = -1 ∧ st1 = st) ∨
     (id = st.last_index + 1 ∧ st.last_index < 64 ∧ contains_end_token str = false ∧
      st1.last_index = st.last_index + 1 ∧
      st1.haystack = mapAssign (st.last_index + 1) (str ++ [END_TOKEN]) st.haystack)) := by
  unfold add_string at h
  by_cases hc : contains_end_token str = true
  · rw [if_pos hc] at h
    simp at h
    obtain ⟨rfl, rfl⟩ := h
    exact ⟨hst, hk, Or.inl ⟨rfl, rfl⟩⟩
  · rw [if_neg hc] at h
    by_cases hcap : toSizeT st.last_index ≥ MAX_STRINGS
    · rw [if_pos hcap] at h
      simp at h
      obtain ⟨rfl, rfl⟩ := h
      exact ⟨hst, hk, Or.inl ⟨rfl, rfl⟩⟩
    · rw [if_neg hcap] at h
      simp only at h
      have hlt : st.last_index < 64 := by
        rw [toSizeT_small hk.1 hk.2.1] at hcap
        simp only [MAX_STRINGS] at hcap
        omega
      have habs : mapFind (st.last_index + 1) st.haystack = none := by
        cases hm : mapFind (st.last_index + 1) st.haystack with
        | none => rfl
        | some v =>
          have := hk.2.2 (st.last_index + 1) (by simp [hm])
          omega
      obtain ⟨st0, hdef⟩ : ∃ st0 : Tree, st0 = { st with last_index := st.last_index + 1, haystack := mapAssign (st.last_index + 1) (str ++ [END_TOKEN]) st.haystack } := ⟨_, rfl⟩
      rw [← hdef] at h
      have hn0 : st0.nodes = st.nodes := by rw [hdef]
      have hh0 : st0.haystack = mapAssign (st.last_index + 1) (str ++ [END_TOKEN]) st.haystack := by
        rw [hdef]
      have hl0 : st0.last_index = st.last_index + 1 := by rw [hdef]
      have hc0 : st0.colors_computed = st.colors_computed := by rw [hdef]
      have hst0 : EdgesOK st0 := by
        refine ⟨by rw [hn0]; exact hst.1, ?_⟩
        intro i nd hi c t hct
        rw [hn0] at hi
        have := hst.2 i nd hi c t hct
        refine ⟨?_, this.2⟩
        rw [hh0, mapFind_mapAssign]
        split
        · rfl
        · exact this.1
      have hk0 : KeysOK st0 := by
        refine ⟨by rw [hl0]; have := hk.1; omega, by rw [hl0]; omega, ?_⟩
        intro k hkk
        rw [hh0, mapFind_mapAssign] at hkk
        rw [hl0]
        by_cases e : k = st.last_index + 1
        · have := hk.1
          omega
        · rw [if_neg e] at hkk
          have := hk.2.2 k hkk
          omega
      have hp0 : (mapFind (st.last_index + 1) st0.haystack).isSome = true := by
        rw [hh0, mapFind_mapAssign]
        simp
      cases hd : deploy_suffixes fuel st0 (str ++ [END_TOKEN]) (st.last_index + 1) with
      | none => rw [hd] at h; simp at h
      | some val =>
        obtain ⟨st2, res⟩ := val
        rw [hd] at h
        simp only at h
        obtain ⟨he, hs, hr⟩ := deploy_suffixes_reg hd hst0 hk0 hp0
        by_cases hres : res < 0
        · rw [if_pos hres] at h
          simp only [Option.some.injEq, Prod.mk.injEq] at h
          obtain ⟨rfl, rfl⟩ := h
          rcases hr with ⟨_, rfl⟩ | hr
          · have e : ({ nodes := st2.nodes, haystack := mapErase st2.last_index st2.haystack, last_index := st2.last_index - 1, colors_computed := st2.colors_computed } : Tree) = st := by
              rw [hl0, hh0, hn0, hc0, mapErase_mapAssign_absent _ _ _ habs, add_sub_cancel_right]
            rw [e]
            exact ⟨hst, hk, Or.inl ⟨rfl, rfl⟩⟩
          · exfalso
            have := hk.1
            omega
        · rw [if_neg hres] at h
          simp only [Option.some.injEq, Prod.mk.injEq] at h
          obtain ⟨rfl, rfl⟩ := h
          refine ⟨EdgesOK_of_SameNodes he rfl rfl, KeysOK_of_SameReg hk0 ⟨hs.1, hs.2⟩, Or.inr ?_⟩
          simp only [Bool.not_eq_true] at hc
          exact ⟨by rw [hs.2, hl0], hlt, hc, by rw [hs.2, hl0], by rw [hs.1, hh0]⟩

theorem Reachable_reg {st : Tree} (h : Reachable st) : EdgesOK st ∧ KeysOK st := by
  induction h with
  | fresh => exact ⟨EdgesOK_fresh, KeysOK_fresh⟩
  | add fuel st s st1 id _ hadd ih =>
    have := add_string_reg hadd ih.1 ih.2
    exact ⟨this.1, this.2.1⟩

theorem add_strings_reachable : ∀ (calls : List (Nat × List Char)) (st st1 : Tree)
    (ids : List Int), Reachable st → add_strings st calls = some (st1, ids) → Reachable st1 := by
  intro calls
  induction calls with
  | nil =>
    intro st st1 ids hr h
    simp [add_strings] at h
    rw [← h.1]
    exact hr
  | cons c rest ih =>
    intro st st1 ids hr h
    obtain ⟨fuel, s⟩ := c
    unfold add_strings at h
    cases ha : add_string fuel st s with
    | none => rw [ha] at h; simp at h
    | some val =>
      obtain ⟨st2, id⟩ := val
      rw [ha] at h
      simp only at h
      cases hb : add_strings st2 rest with
      | none => rw [hb] at h; simp at h
      | some val2 =>
        obtain ⟨st3, ids2⟩ := val2
        rw [hb] at h
        simp only [Option.some.injEq, Prod.mk.injEq] at h
        rw [← h.1]
        exact ih st2 st3 ids2 (Reachable.add fuel st s st2 id hr ha) hb

theorem add_strings_ids : ∀ (calls : List (Nat × List Char)) (st st1 : Tree)
    (ids : List Int), EdgesOK st → KeysOK st → add_strings st calls = some (st1, ids) →
    issued ids = (List.range (issued ids).length).map (fun (k : Nat) => st.last_index + (k : Int) + 1) ∧
    st1.last_index = st.last_index + ((issued ids).length : Int) := by
  intro calls
  induction calls with
  | nil =>
    intro st st1 ids he hk h
    simp [add_strings] at h
    obtain ⟨rfl, rfl⟩ := h
    simp [issued]
  | cons c rest ih =>
    intro st st1 ids he hk h
    obtain ⟨fuel, s⟩ := c
    unfold add_strings at h
    cases ha : add_string fuel st s with
    | none => rw [ha] at h; simp at h
    | some val =>
      obtain ⟨st2, id⟩ := val
      rw [ha] at h
      simp only at h
      cases hb : add_strings st2 rest with
      | none => rw [hb] at h; simp at h
      | some val2 =>
        obtain ⟨st3, ids2⟩ := val2
        rw [hb] at h
        simp only [Option.some.injEq, Prod.mk.injEq] at h
        obtain ⟨rfl, rfl⟩ := h
        obtain ⟨he2, hk2, hcase⟩ := add_string_reg ha he hk
        obtain ⟨h1, h2⟩ := ih st2 st3 ids2 he2 hk2 hb
        rcases hcase with ⟨rfl, rfl⟩ | ⟨rfl, _, _, hl, _⟩
        · have e : issued (-1 :: ids2) = issued ids2 := by simp [issued]
          rw [e]
          exact ⟨h1, h2⟩
        · have hne : st.last_index + 1 ≠ -1 := by
            have := hk.1
            omega
          have e : issued ((st.last_index + 1) :: ids2) = (st.last_index + 1) :: issued ids2 := by
            simp [issued, hne]
          rw [e]
          constructor
          · rw [List.length_cons, List.range_succ_eq_map, List.map_cons, List.map_map]
            congr 1
            · simp
            · rw [h1, hl]
              simp only [List.length_map, List.length_range]
              apply List.map_congr_left
              intro k _
              simp only [Function.comp, Nat.succ_eq_add_one, Nat.cast_add, Nat.cast_one]
              omega
          · rw [h2, hl, List.length_cons]
            push_cast
            omega

theorem add_strings_keeps : ∀ (calls : List (Nat × List Char)) (st st1 : Tree)
    (ids : List Int) (id : Int) (v : List Char), EdgesOK st → KeysOK st →
    add_strings st calls = some (st1, ids) → mapFind id st.haystack = some v →
    mapFind id st1.haystack = some v := by
  intro calls
  induction calls with
  | nil =>
    intro st st1 ids id v he hk h hv
    simp [add_strings] at h
    rw [← h.1]
    exact hv
  | cons c rest ih =>
    intro st st1 ids id v he hk h hv
    obtain ⟨fuel, s⟩ := c
    unfold add_strings at h
    cases ha : add_string fuel st s with
    | none => rw [ha] at h; simp at h
    | some val =>
      obtain ⟨st2, id2⟩ := val
      rw [ha] at h
      simp only at h
      cases hb : add_strings st2 rest with
      | none => rw [hb] at h; simp at h
      | some val2 =>
        obtain ⟨st3, ids2⟩ := val2
        rw [hb] at h
        simp only [Option.some.injEq, Prod.mk.injEq] at h
        obtain ⟨rfl, rfl⟩ := h
        obtain ⟨he2, hk2, hcase⟩ := add_string_reg ha he hk
        apply ih st2 st3 ids2 id v he2 hk2 hb
        rcases hcase with ⟨_, rfl⟩ | ⟨_, _, _, _, hh⟩
        · exact hv
        · rw [hh, mapFind_mapAssign]
          have := hk.2.2 id (by simp [hv])
          have hne : ¬ id = st.last_index + 1 := by omega
          rw [if_neg hne]
          exact hv

theorem get_string_stored {st : Tree} {id : Int} {s : List Char}
    (h : mapFind id st.haystack = some (s ++ [END_TOKEN])) : get_string st id = s := by
  unfold get_string
  rw [h]
  simp

/-! ## Claims on rejection, capacity, identifiers and the registry -/

/-- C5: an input containing the sentinel is rejected with `-1` whatever the
state and the fuel, and the state (registry, counter, nodes, flag) is returned
unchanged; on a fresh tree `add_string("a$b")` is rejected and the following
`add_string("ab")` returns ID 1. -/
theorem add_string_rejects_sentinel (fuel : Nat) (st : Tree) (str : List Char)
    (h : END_TOKEN ∈ str) :
    add_string fuel st str = some (st, -1) ∧
    (add_strings Tree.fresh [(0, ['a', '$', 'b']), (8, ['a', 'b'])]).map Prod.snd
      = some [-1, 1] := by
  constructor
  · unfold add_string
    have hc : contains_end_token str = true := by simp [contains_end_token, h]
    rw [if_pos hc]
  · decide

theorem add_string_rejects_sentinel_witness :
    END_TOKEN ∈ ['x', '$'] ∧ add_string 3 Tree.fresh ['x', '$'] = some (Tree.fresh, -1) :=
  ⟨by decide, (add_string_rejects_sentinel 3 Tree.fresh ['x', '$'] (by decide)).1⟩

/-- C6: when the string count equals `MAX_STRINGS` (64), `add_string` returns
`-1` for every input and returns the state unchanged; and every ID returned by
`add_string` in a state reached from the fresh tree lies in `1..64`. -/
theorem add_string_capacity (fuel : Nat) (st : Tree) (str : List Char)
    (h : get_string_count st = 64) :
    add_string fuel st str = some (st, -1) ∧
    ∀ (st0 st1 : Tree) (f : Nat) (s : List Char) (id : Int),
      Reachable st0 → add_string f st0 s = some (st1, id) → id ≠ -1 → 1 ≤ id ∧ id ≤ 64 := by
  constructor
  · unfold add_string
    by_cases hc : contains_end_token str = true
    · rw [if_pos hc]
    · rw [if_neg hc]
      have hcap : toSizeT st.last_index ≥ MAX_STRINGS := by
        unfold get_string_count at h
        rw [h]
        decide
      rw [if_pos hcap]
  · intro st0 st1 f s id hr hadd hid
    obtain ⟨he, hk⟩ := Reachable_reg hr
    obtain ⟨_, _, hcase⟩ := add_string_reg hadd he hk
    rcases hcase with ⟨h1, _⟩ | ⟨h1, h2, _⟩
    · exact absurd h1 hid
    · have := hk.1
      omega

theorem add_string_capacity_witness :
    add_string 0 { Tree.fresh with last_index := 64 } ['a']
      = some ({ Tree.fresh with last_index := 64 }, -1) :=
  (add_string_capacity 0 { Tree.fresh with last_index := 64 } ['a'] rfl).1

/-- C7: in a sequence of `add_string` calls on a fresh tree the calls that
return an ID return 1, 2, 3, ... in order, and afterwards `get_string_count` is
the number of IDs returned (rejected calls consume none). -/
theorem ids_issued_in_order (calls : List (Nat × List Char)) (st : Tree) (ids : List Int)
    (h : add_strings Tree.fresh calls = some (st, ids)) :
    issued ids = (List.range (issued ids).length).map (fun (k : Nat) => (k : Int) + 1) ∧
    get_string_count st = ((issued ids).length : Int) := by
  obtain ⟨h1, h2⟩ := add_strings_ids calls Tree.fresh st ids EdgesOK_fresh KeysOK_fresh h
  have e : Tree.fresh.last_index = 0 := rfl
  rw [e] at h1 h2
  constructor
  · simpa using h1
  · unfold get_string_count
    rw [h2]
    simp

theorem ids_issued_in_order_witness :
    ∃ (st : Tree) (ids : List Int),
      add_strings Tree.fresh [(8, ['x', 'y']), (8, ['x', 'y']), (8, ['a', '$']), (8, ['z'])]
        = some (st, ids) ∧
      issued ids = (List.range (issued ids).length).map (fun (k : Nat) => (k : Int) + 1) ∧
      get_string_count st = ((issued ids).length : Int) :=
  match h : add_strings Tree.fresh
      [(8, ['x', 'y']), (8, ['x', 'y']), (8, ['a', '$']), (8, ['z'])] with
  | some (st, ids) => ⟨st, ids, rfl, ids_issued_in_order _ st ids h⟩
  | none => absurd h (by decide)

/-- C8: once `add_string` has returned an ID for `s`, `get_string` of that ID
returns `s` (sentinel stripped) after any further completed `add_string` calls,
and `get_string j` is empty for every `j` never issued (`j ≤ 0` or
`j > get_string_count`). -/
theorem get_string_round_trip (st0 st1 st2 : Tree) (fuel : Nat) (s : List Char) (id : Int)
    (later : List (Nat × List Char)) (ids : List Int)
    (hr : Reachable st0) (hadd : add_string fuel st0 s = some (st1, id)) (hid : id ≠ -1)
    (hlater : add_strings st1 later = some (st2, ids)) :
    get_string st2 id = s ∧
    ∀ j : Int, (j ≤ 0 ∨ j > get_string_count st2) → get_string st2 j = [] := by
  obtain ⟨he, hk⟩ := Reachable_reg hr
  obtain ⟨he1, hk1, hcase⟩ := add_string_reg hadd he hk
  have hr2 : Reachable st2 :=
    add_strings_reachable later st1 st2 ids (Reachable.add fuel st0 s st1 id hr hadd) hlater
  obtain ⟨_, hk2⟩ := Reachable_reg hr2
  constructor
  · rcases hcase with ⟨h1, _⟩ | ⟨h1, _, _, _, hh⟩
    · exact absurd h1 hid
    · apply get_string_stored
      apply add_strings_keeps later st1 st2 ids id _ he1 hk1 hlater
      rw [hh, h1, mapFind_mapAssign]
      simp
  · intro j hj
    unfold get_string
    cases hm : mapFind j st2.haystack with
    | none => rfl
    | some v =>
      exfalso
      have := hk2.2.2 j (by simp [hm])
      unfold get_string_count at hj
      omega

theorem get_string_round_trip_witness :
    ∃ (st1 st2 : Tree),
      add_string 8 Tree.fresh ['a', 'b'] = some (st1, 1) ∧
      get_string st2 1 = ['a', 'b'] ∧
      ∀ j : Int, (j ≤ 0 ∨ j > get_string_count st2) → get_string st2 j = [] :=
  match h1 : add_string 8 Tree.fresh ['a', 'b'] with
  | none => absurd h1 (by decide)
  | some (st1, id) =>
    match h2 : add_strings st1 [(8, ['c', 'a', 'b']), (8, ['b'])] with
    | none => absurd h2 (by
        have e : st1 = ((add_string 8 Tree.fresh ['a', 'b']).map Prod.fst).getD Tree.fresh := by
          rw [h1]; rfl
        rw [e]
        decide)
    | some (st2, ids) =>
      have hid : id = 1 := by
        have e : some id = (add_string 8 Tree.fresh ['a', 'b']).map Prod.snd := by rw [h1]; rfl
        have e2 : (add_string 8 Tree.fresh ['a', 'b']).map Prod.snd = some 1 := by decide
        rw [e2] at e
        exact Option.some.inj e
      ⟨st1, st2, by rw [hid], hid ▸ get_string_round_trip Tree.fresh st1 st2 8 ['a', 'b'] id
        [(8, ['c', 'a', 'b']), (8, ['b'])] ids Reachable.fresh h1 (by rw [hid]; decide) h2⟩

/-- C9: a query containing the sentinel is answered `false` by `is_substring`
and by `is_suffix`, in every state, and the state is returned unchanged. -/
theorem query_with_sentinel_false (st : Tree) (q : List Char) (h : END_TOKEN ∈ q) :
    is_substring st q = some (st, false) ∧ is_suffix st q = some (st, false) := by
  have hc : contains_end_token q = true := by simp [contains_end_token, h]
  constructor
  · unfold is_substring
    rw [if_pos hc]
  · unfold is_suffix
    rw [if_pos hc]

theorem query_with_sentinel_false_witness :
    END_TOKEN ∈ ['a', '$'] ∧
    is_substring Tree.fresh ['a', '$'] = some (Tree.fresh, false) ∧
    is_suffix Tree.fresh ['a', '$'] = some (Tree.fresh, false) :=
  ⟨by decide, query_with_sentinel_false Tree.fresh ['a', '$'] (by decide)⟩

/-- C10 (failing input): after `add_string("abx")`, `add_string("cabz")` (IDs 1
and 2) and `compute_colors`, the leaf ending the path "abx$" (cell 2) has the
bit of ID 2 set although no suffix of the stored string "cabz$" has a root path
through that leaf. -/
theorem stale_colour_on_leaf :
    (add_strings Tree.fresh [(8, ['a', 'b', 'x']), (8, ['c', 'a', 'b', 'z'])]).map Prod.snd
      = some [1, 2] ∧
    ∃ st, staleColourState = some st ∧
      pathNodes st 8 (some rootId) ['a', 'b', 'x', '$'] = [7, 2] ∧
      hasColor st 2 2 = true ∧
      ∀ σ ∈ (['c', 'a', 'b', 'z', '$'] : List Char).tails,
        2 ∉ pathNodes st 8 (some rootId) σ := by
  refine ⟨by decide, ?_⟩
  match h : staleColourState with
  | none => exact absurd h (by decide)
  | some st =>
    have e : st = staleColourState.getD Tree.fresh := by rw [h]; rfl
    refine ⟨st, rfl, ?_⟩
    rw [e]
    decide

/-- C4 (counterexample): the second `add_string("xy")` is rejected. -/
theorem add_string_twice_second_rejected :
    (add_strings Tree.fresh [(8, ['x', 'y']), (8, ['x', 'y'])]).map Prod.snd = some [1, -1] := by
  decide

/-! ## Slices of strings with integer bounds -/

theorem slice_length {S : List Char} {a b : Int} (h0 : 0 ≤ a) (h1 : a ≤ b)
    (h2 : b ≤ S.length) : ((slice S a b).length : Int) = b - a := by
  unfold slice
  rw [List.length_take, List.length_drop]
  omega

theorem slice_self (S : List Char) (a : Int) : slice S a a = [] := by
  unfold slice
  simp

theorem slice_empty {S : List Char} {a b : Int} (h : b ≤ a) : slice S a b = [] := by
  unfold slice
  have : (b - a).toNat = 0 := by omega
  rw [this]
  simp

theorem slice_append {S : List Char} {a b c : Int} (h0 : 0 ≤ a) (h1 : a ≤ b) (h2 : b ≤ c) :
    slice S a b ++ slice S b c = slice S a c := by
  unfold slice
  have e1 : b.toNat = a.toNat + (b - a).toNat := by omega
  have e2 : (c - a).toNat = (b - a).toNat + (c - b).toNat := by omega
  rw [e1, e2, ← List.drop_drop, List.take_add]

theorem slice_full (S : List Char) : slice S 0 S.length = S := by
  unfold slice
  simp

theorem strAt_lt {S : List Char} {i : Int} (h0 : 0 ≤ i) (h1 : i < S.length) :
    strAt S i = S[i.toNat]? := by
  unfold strAt
  have : ¬ i < 0 := by omega
  have h2 : i.toNat < S.length := by omega
  simp [this, h2]

theorem strAt_some_lt {S : List Char} {i : Int} (h0 : 0 ≤ i) (h1 : i < S.length) :
    ∃ c, strAt S i = some c := by
  rw [strAt_lt h0 h1]
  have h2 : i.toNat < S.length := by omega
  exact ⟨S[i.toNat], List.getElem?_eq_getElem h2⟩

theorem slice_head {S : List Char} {a b : Int} {c : Char} (h0 : 0 ≤ a) (h1 : a < b)
    (h2 : a < S.length) (hc : strAt S a = some c) :
    slice S a b = c :: slice S (a + 1) b := by
  rw [strAt_lt h0 h2] at hc
  unfold slice
  have hlt : a.toNat < S.length := by omega
  have e1 : (b - a).toNat = (b - (a + 1)).toNat + 1 := by omega
  have e2 : (a + 1).toNat = a.toNat + 1 := by omega
  rw [e1, e2]
  rw [List.drop_eq_getElem_cons hlt, List.take_succ_cons]
  rw [List.getElem?_eq_getElem hlt] at hc
  simp only [Option.some.injEq] at hc
  rw [hc]

theorem slice_one {S : List Char} {a : Int} {c : Char} (h0 : 0 ≤ a)
    (h2 : a < S.length) (hc : strAt S a = some c) : slice S a (a + 1) = [c] := by
  rw [slice_head h0 (by omega) h2 hc, slice_self]

theorem slice_snoc {S : List Char} {a b : Int} {c : Char} (h0 : 0 ≤ a) (h1 : a ≤ b)
    (h2 : b < S.length) (hc : strAt S b = some c) :
    slice S a (b + 1) = slice S a b ++ [c] := by
  rw [← slice_append h0 h1 (by omega : b ≤ b + 1), slice_one (by omega) h2 hc]

theorem strAt_slice {S : List Char} {a b i : Int} (h0 : 0 ≤ a) (hi : 0 ≤ i)
    (h1 : a + i < b) (h2 : b ≤ S.length) :
    strAt (slice S a b) i = strAt S (a + i) := by
  have hl := slice_length h0 (by omega : a ≤ b) h2
  rw [strAt_lt hi (by omega), strAt_lt (by omega) (by omega)]
  unfold slice
  rw [List.getElem?_take_of_lt (by omega), List.getElem?_drop]
  congr 1
  omega

theorem slice_pre {S : List Char} {a b c : Int} (h0 : 0 ≤ a) (h1 : a ≤ b) (h2 : b ≤ c) :
    slice S a b <+: slice S a c := by
  rw [← slice_append h0 h1 h2]
  exact List.prefix_append _ _

theorem slice_sub (S : List Char) (a b : Int) : slice S a b <:+: S := by
  unfold slice
  exact List.IsInfix.trans (List.take_prefix _ _).isInfix (List.drop_suffix _ _).isInfix

theorem slice_of_slice {S : List Char} {a b x y : Int} (h0 : 0 ≤ a) (hx : 0 ≤ x)
    (hxy : x ≤ y) (hy : a + y ≤ b) (hb : b ≤ S.length) :
    slice (slice S a b) x y = slice S (a + x) (a + y) := by
  unfold slice
  rw [List.drop_take, List.take_take, List.drop_drop]
  congr 1
  · omega
  · congr 1
    omega

theorem slice_drop_zero {S : List Char} {a : Int} (h0 : 0 ≤ a) (h1 : a ≤ S.length) :
    slice S a S.length = S.drop a.toNat := by
  unfold slice
  apply List.take_of_length_le
  rw [List.length_drop]
  omega

/-! ## Well-formed trees with path labels -/

theorem StrOK.len_pos {S : List Char} (h : StrOK S) : 0 < S.length := by
  obtain ⟨body, rfl, _, _⟩ := h
  simp

theorem StrOK.small {S : List Char} (h : StrOK S) : (S.length : Int) ≤ 1073741823 := by
  obtain ⟨body, _, _, hs⟩ := h
  simpa [SIZE_BOUND] using hs

theorem StrOK.last {S : List Char} (h : StrOK S) :
    strAt S ((S.length : Int) - 1) = some END_TOKEN := by
  obtain ⟨body, rfl, _, _⟩ := h
  rw [strAt_lt (by simp) (by simp)]
  have : ((↑(body ++ [END_TOKEN]).length : Int) - 1).toNat = body.length := by simp
  rw [this]
  simp

theorem StrOK.not_last {S : List Char} (h : StrOK S) {i : Int} (h0 : 0 ≤ i)
    (h1 : i + 1 < S.length) : strAt S i ≠ some END_TOKEN := by
  obtain ⟨body, rfl, hb, _⟩ := h
  rw [strAt_lt h0 (by omega)]
  simp only [List.length_append, List.length_singleton, Nat.cast_add, Nat.cast_one] at h1
  have hlt : i.toNat < body.length := by omega
  rw [List.getElem?_append_left hlt, List.getElem?_eq_getElem hlt]
  intro e
  simp only [Option.some.injEq] at e
  exact hb (e ▸ List.getElem_mem hlt)

theorem EdgeOK.end_gt {st : Tree} {lab : Nat → List Char} {n j : Nat} {c : Char}
    {t : Transition} {S : List Char} (e : EdgeOK st lab n c t j S) (hS : StrOK S) :
    t.sub.l < edgeEnd S t.sub ∧ edgeEnd S t.sub ≤ S.length := by
  unfold edgeEnd
  have := e.l_hi
  have := e.l_le
  split
  · constructor <;> omega
  · rename_i hne
    rcases e.fin with h | h
    · exact absurd h hne
    · constructor <;> omega

theorem EdgeOK.label_cons {st : Tree} {lab : Nat → List Char} {n j : Nat} {c : Char}
    {t : Transition} {S : List Char} (e : EdgeOK st lab n c t j S) (hS : StrOK S) :
    labelOf S t.sub = c :: slice S (t.sub.l + 1) (edgeEnd S t.sub) := by
  unfold labelOf
  exact slice_head e.l_lo (e.end_gt hS).1 e.l_hi e.key

theorem EdgeOK.label_len {st : Tree} {lab : Nat → List Char} {n j : Nat} {c : Char}
    {t : Transition} {S : List Char} (e : EdgeOK st lab n c t j S) (hS : StrOK S) :
    ((labelOf S t.sub).length : Int) = edgeEnd S t.sub - t.sub.l := by
  unfold labelOf
  exact slice_length e.l_lo (le_of_lt (e.end_gt hS).1) (e.end_gt hS).2

theorem WFL.lab_ne_nil {st : Tree} {lab : Nat → List Char} (h : WFL st lab) {j : Nat}
    (h2 : 2 ≤ j) (hj : j < st.nodes.length) : lab j ≠ [] := by
  obtain ⟨n, nd, c, t, hn, hnd, hm, ht⟩ := h.parent j h2 hj
  obtain ⟨j1, S, e⟩ := h.edges n nd c t hn hnd hm
  have ej : j1 = j := by
    have := e.tgt
    rw [ht] at this
    exact (Option.some.inj this).symm
  subst ej
  rw [e.lab_eq, e.label_cons (h.strs _ _ e.ref)]
  simp

theorem WFL.lab_nil_root {st : Tree} {lab : Nat → List Char} (h : WFL st lab) {j : Nat}
    (h1 : 1 ≤ j) (hj : j < st.nodes.length) (hl : lab j = []) : j = rootId := by
  by_contra hne
  have h2 : 2 ≤ j := by
    unfold rootId at hne
    omega
  exact h.lab_ne_nil h2 hj hl

theorem Attached.node {st : Tree} {n : Nat} (h : Attached st n) :
    ∃ nd : Node, st.nodes[n]? = some nd :=
  ⟨st.nodes.get ⟨n, h.2⟩, List.getElem?_eq_getElem h.2⟩

theorem prefix_extend {a b x : List Char} {c : Char} (h1 : a ++ [c] <+: x) (h2 : b <+: x)
    (hl : a.length < b.length) : a ++ [c] <+: b :=
  List.prefix_of_prefix_length_le h1 h2 (by simp; omega)

theorem prefix_same_length {a b x : List Char} (h1 : a <+: x) (h2 : b <+: x)
    (hl : a.length = b.length) : a = b :=
  (List.prefix_of_prefix_length_le h1 h2 (by omega)).eq_of_length hl

theorem prefix_snoc_left {a : List Char} {c : Char} {x : List Char} (h : a ++ [c] <+: x) :
    a <+: x :=
  (List.prefix_append a [c]).trans h

theorem prefix_head_eq {a y z : List Char} {c d : Char} (h : a ++ [c] <+: a ++ d :: z) :
    c = d := by
  rw [List.prefix_append_right_inj] at h
  obtain ⟨r, hr⟩ := h
  simp at hr
  exact hr.1

/-- The parent edge of a node below the root, with its well-formedness. -/
theorem WFL.parent_edge {st : Tree} {lab : Nat → List Char} (h : WFL st lab) {j : Nat}
    (h2 : 2 ≤ j) (hj : j < st.nodes.length) :
    ∃ (n : Nat) (nd : Node) (c : Char) (t : Transition) (S : List Char),
      Attached st n ∧ st.nodes[n]? = some nd ∧ mapFind c nd.g = some t ∧
      EdgeOK st lab n c t j S ∧ StrOK S := by
  obtain ⟨n, nd, c, t, hn, hnd, hm, ht⟩ := h.parent j h2 hj
  obtain ⟨j1, S, e⟩ := h.edges n nd c t hn hnd hm
  have ej : j1 = j := by
    have := e.tgt
    rw [ht] at this
    exact (Option.some.inj this).symm
  subst ej
  have hlt : n < st.nodes.length := (List.getElem?_eq_some_iff.mp hnd).1
  exact ⟨n, nd, c, t, S, ⟨hn, hlt⟩, hnd, hm, e, h.strs _ _ e.ref⟩

/-- Labels are injective and a one-byte extension of a node label inside the
tree is witnessed by an edge of that node (simultaneous induction on the label
length). -/
theorem WFL.inj_locus {st : Tree} {lab : Nat → List Char} (h : WFL st lab) :
    ∀ N : Nat,
      (∀ a b : Nat, Attached st a → Attached st b → (lab a).length ≤ N → lab a = lab b → a = b) ∧
      (∀ (n x : Nat) (c : Char), Attached st n → Attached st x → (lab x).length ≤ N →
        lab n ++ [c] <+: lab x →
        ∃ (nd : Node) (t : Transition) (j : Nat) (S : List Char), st.nodes[n]? = some nd ∧
          mapFind c nd.g = some t ∧ EdgeOK st lab n c t j S ∧ lab j <+: lab x) := by
  intro N
  induction N with
  | zero =>
    constructor
    · intro a b ha hb hl he
      have h0 : lab a = [] := List.length_eq_zero.mp (by omega)
      have ea := h.lab_nil_root ha.1 ha.2 h0
      have eb := h.lab_nil_root hb.1 hb.2 (he ▸ h0)
      rw [ea, eb]
    · intro n x c hn hx hl hp
      have := hp.length_le
      simp at this
      omega
  | succ N ih =>
    obtain ⟨ihI, ihL⟩ := ih
    constructor
    · intro a b ha hb hl he
      by_cases ha1 : a = rootId
      · have h0 : lab b = [] := by rw [← he, ha1, h.lab_root]
        rw [ha1, h.lab_nil_root hb.1 hb.2 h0]
      by_cases hb1 : b = rootId
      · have h0 : lab a = [] := by rw [he, hb1, h.lab_root]
        rw [hb1, h.lab_nil_root ha.1 ha.2 h0]
      have ha2 : 2 ≤ a := by unfold rootId at ha1; have := ha.1; omega
      have hb2 : 2 ≤ b := by unfold rootId at hb1; have := hb.1; omega
      obtain ⟨pa, nda, ca, ta, Sa, hpa, hnda, hma, ea, hSa⟩ := h.parent_edge ha2 ha.2
      obtain ⟨pb, ndb, cb, tb, Sb, hpb, hndb, hmb, eb, hSb⟩ := h.parent_edge hb2 hb.2
      have la := ea.lab_eq
      have lb := eb.lab_eq
      rw [ea.label_cons hSa] at la
      rw [eb.label_cons hSb] at lb
      have hla : (lab pa).length < (lab a).length := by rw [la]; simp
      have hlb : (lab pb).length < (lab b).length := by rw [lb]; simp
      have hlab : (lab a).length = (lab b).length := by rw [he]
      have pfa : lab pa ++ [ca] <+: lab a := by
        rw [la]
        exact ⟨slice Sa (ta.sub.l + 1) (edgeEnd Sa ta.sub), by simp⟩
      have pfb : lab pb ++ [cb] <+: lab b := by
        rw [lb]
        exact ⟨slice Sb (tb.sub.l + 1) (edgeEnd Sb tb.sub), by simp⟩
      rcases Nat.lt_trichotomy (lab pa).length (lab pb).length with hlt | heq | hgt
      · exfalso
        have hpre : lab pa ++ [ca] <+: lab pb :=
          prefix_extend pfa (he ▸ prefix_snoc_left pfb) hlt
        obtain ⟨nd, t, j, S, hnd, hm, e, hj⟩ := ihL pa pb ca hpa hpb (by omega) hpre
        rw [hnda] at hnd
        obtain rfl := Option.some.inj hnd
        rw [hma] at hm
        obtain rfl := Option.some.inj hm
        have ej : j = a := by
          have := e.tgt
          rw [ea.tgt] at this
          exact (Option.some.inj this).symm
        subst ej
        have := hj.length_le
        omega
      · have hpe : lab pa = lab pb :=
          prefix_same_length (prefix_snoc_left pfa) (he ▸ prefix_snoc_left pfb) heq
        have hp : pa = pb := ihI pa pb hpa hpb (by omega) hpe
        subst hp
        rw [hnda] at hndb
        obtain rfl := Option.some.inj hndb
        have hc : ca = cb := by
          have h1 : lab pa ++ [ca] <+: lab pa ++ cb :: slice Sb (tb.sub.l + 1) (edgeEnd Sb tb.sub) := by
            rw [← lb, ← he]
            exact pfa
          exact prefix_head_eq (y := []) h1
        subst hc
        rw [hma] at hmb
        obtain rfl := Option.some.inj hmb
        have := ea.tgt
        rw [eb.tgt] at this
        exact (Option.some.inj this).symm
      · exfalso
        have hpre : lab pb ++ [cb] <+: lab pa :=
          prefix_extend pfb (he ▸ prefix_snoc_left pfa) hgt
        obtain ⟨nd, t, j, S, hnd, hm, e, hj⟩ := ihL pb pa cb hpb hpa (by omega) hpre
        rw [hndb] at hnd
        obtain rfl := Option.some.inj hnd
        rw [hmb] at hm
        obtain rfl := Option.some.inj hm
        have ej : j = b := by
          have := e.tgt
          rw [eb.tgt] at this
          exact (Option.some.inj this).symm
        subst ej
        have := hj.length_le
        omega
    · intro n x c hn hx hl hp
      have hx1 : x ≠ rootId := by
        intro e
        rw [e, h.lab_root] at hp
        have := hp.length_le
        simp at this
      have hx2 : 2 ≤ x := by unfold rootId at hx1; have := hx.1; omega
      obtain ⟨p, ndp, cp, tp, Sp, hpp, hndp, hmp, ep, hSp⟩ := h.parent_edge hx2 hx.2
      have lx := ep.lab_eq
      rw [ep.label_cons hSp] at lx
      have hlx : (lab p).length < (lab x).length := by rw [lx]; simp
      have pfx : lab p ++ [cp] <+: lab x := by
        rw [lx]
        exact ⟨slice Sp (tp.sub.l + 1) (edgeEnd Sp tp.sub), by simp⟩
      have hnx : (lab n).length < (lab x).length := by
        have := hp.length_le
        simp at this
        omega
      rcases Nat.lt_trichotomy (lab p).length (lab n).length with hlt | heq | hgt
      · exfalso
        have hpre : lab p ++ [cp] <+: lab n := prefix_extend pfx (prefix_snoc_left hp) hlt
        obtain ⟨nd, t, j, S, hnd, hm, e, hj⟩ := ihL p n cp hpp hn (by omega) hpre
        rw [hndp] at hnd
        obtain rfl := Option.some.inj hnd
        rw [hmp] at hm
        obtain rfl := Option.some.inj hm
        have ej : j = x := by
          have := e.tgt
          rw [ep.tgt] at this
          exact (Option.some.inj this).symm
        subst ej
        have := hj.length_le
        omega
      · have hpe : lab p = lab n :=
          prefix_same_length (prefix_snoc_left pfx) (prefix_snoc_left hp) heq
        have hpn : p = n := ihI p n hpp hn (by omega) hpe
        subst hpn
        have hc : c = cp := by
          have h1 : lab p ++ [c] <+: lab p ++ cp :: slice Sp (tp.sub.l + 1) (edgeEnd Sp tp.sub) := by
            rw [← lx]
            exact hp
          exact prefix_head_eq (y := []) h1
        subst hc
        exact ⟨ndp, tp, x, Sp, hndp, hmp, ep, List.prefix_refl _⟩
      · have hpre : lab n ++ [c] <+: lab p := prefix_extend hp (prefix_snoc_left pfx) hgt
        obtain ⟨nd, t, j, S, hnd, hm, e, hj⟩ := ihL n p c hn hpp (by omega) hpre
        exact ⟨nd, t, j, S, hnd, hm, e, hj.trans (prefix_snoc_left pfx)⟩

theorem WFL.inj {st : Tree} {lab : Nat → List Char} (h : WFL st lab) {a b : Nat}
    (ha : Attached st a) (hb : Attached st b) (he : lab a = lab b) : a = b :=
  (h.inj_locus (lab a).length).1 a b ha hb (le_refl _) he

theorem WFL.locus {st : Tree} {lab : Nat → List Char} (h : WFL st lab) {n x : Nat} {c : Char}
    (hn : Attached st n) (hx : Attached st x) (hp : lab n ++ [c] <+: lab x) :
    ∃ (nd : Node) (t : Transition) (j : Nat) (S : List Char), st.nodes[n]? = some nd ∧
      mapFind c nd.g = some t ∧ EdgeOK st lab n c t j S ∧ lab j <+: lab x :=
  (h.inj_locus (lab x).length).2 n x c hn hx (le_refl _) hp

theorem WFL.root_attached {st : Tree} {lab : Nat → List Char} (h : WFL st lab) :
    Attached st rootId := ⟨by simp [rootId], by have := h.len; simp [rootId]; omega⟩

theorem InW_nil {st : Tree} {lab : Nat → List Char} (h : WFL st lab) : InW st lab [] :=
  ⟨rootId, h.root_attached.1, h.root_attached.2, List.nil_prefix⟩

theorem InW_prefix {st : Tree} {lab : Nat → List Char} {w v : List Char}
    (h : InW st lab w) (hp : v <+: w) : InW st lab v := by
  obtain ⟨j, h1, h2, h3⟩ := h
  exact ⟨j, h1, h2, hp.trans h3⟩

theorem InW_lab {st : Tree} {lab : Nat → List Char} {n : Nat} (hn : Attached st n) :
    InW st lab (lab n) := ⟨n, hn.1, hn.2, List.prefix_refl _⟩

/-- An edge extends the words of the tree by its label. -/
theorem InW_edge {st : Tree} {lab : Nat → List Char} {n j : Nat} {c : Char} {t : Transition}
    {S : List Char} (e : EdgeOK st lab n c t j S) : InW st lab (lab n ++ labelOf S t.sub) :=
  ⟨j, by have := e.j_lo; omega, e.j_hi, by rw [e.lab_eq]⟩

/-- A word of the tree that continues below a node goes through one of its
edges, and what follows the node is prefix-comparable with the edge label. -/
theorem WFL.locus_cmp {st : Tree} {lab : Nat → List Char} (h : WFL st lab) {n : Nat}
    {c : Char} {y : List Char} (hn : Attached st n) (hw : InW st lab (lab n ++ c :: y)) :
    ∃ (nd : Node) (t : Transition) (j : Nat) (S : List Char), st.nodes[n]? = some nd ∧
      mapFind c nd.g = some t ∧ EdgeOK st lab n c t j S ∧
      (c :: y <+: labelOf S t.sub ∨ labelOf S t.sub <+: c :: y) := by
  obtain ⟨x, hx1, hx2, hx3⟩ := hw
  have hp : lab n ++ [c] <+: lab x := by
    refine List.IsPrefix.trans ?_ hx3
    exact ⟨y, by simp⟩
  obtain ⟨nd, t, j, S, hnd, hm, e, hj⟩ := h.locus hn ⟨hx1, hx2⟩ hp
  refine ⟨nd, t, j, S, hnd, hm, e, ?_⟩
  rw [e.lab_eq] at hj
  rcases List.prefix_or_prefix_of_prefix hx3 hj with h1 | h1
  · exact Or.inl ((List.prefix_append_right_inj _).mp h1)
  · exact Or.inr ((List.prefix_append_right_inj _).mp h1)

/-- A one-byte extension of a node label is a word iff the node has a
transition on that byte. -/
theorem WFL.node_step {st : Tree} {lab : Nat → List Char} (h : WFL st lab) {n : Nat}
    {nd : Node} {c : Char} (hn : Attached st n) (hnd : st.nodes[n]? = some nd) :
    InW st lab (lab n ++ [c]) ↔ ∃ t : Transition, mapFind c nd.g = some t := by
  constructor
  · intro hw
    obtain ⟨nd1, t, j, S, hnd1, hm, _, _⟩ := h.locus_cmp hn hw
    rw [hnd] at hnd1
    obtain rfl := Option.some.inj hnd1
    exact ⟨t, hm⟩
  · rintro ⟨t, hm⟩
    obtain ⟨j, S, e⟩ := h.edges n nd c t hn.1 hnd hm
    refine InW_prefix (InW_edge e) ?_
    rw [e.label_cons (h.strs _ _ e.ref)]
    exact ⟨slice S (t.sub.l + 1) (edgeEnd S t.sub), by simp⟩

/-- Every word of the tree sits at a node or strictly inside an edge. -/
theorem WFL.position {st : Tree} {lab : Nat → List Char} (h : WFL st lab) :
    ∀ (N : Nat) (w : List Char) (x : Nat), Attached st x → (lab x).length ≤ N → w <+: lab x →
      (∃ v : Nat, Attached st v ∧ lab v = w) ∨
      (∃ (n : Nat) (nd : Node) (c : Char) (t : Transition) (j : Nat) (S : List Char),
        Attached st n ∧ st.nodes[n]? = some nd ∧ mapFind c nd.g = some t ∧
        EdgeOK st lab n c t j S ∧ lab n <+: w ∧ (lab n).length < w.length ∧
        w <+: lab j ∧ w.length < (lab j).length) := by
  intro N
  induction N with
  | zero =>
    intro w x hx hl hw
    left
    have h0 : lab x = [] := List.length_eq_zero.mp (by omega)
    rw [h0] at hw
    have : w = [] := List.prefix_nil.mp hw
    exact ⟨rootId, h.root_attached, by rw [this, h.lab_root]⟩
  | succ N ih =>
    intro w x hx hl hw
    by_cases hx1 : x = rootId
    · left
      rw [hx1, h.lab_root] at hw
      have : w = [] := List.prefix_nil.mp hw
      exact ⟨rootId, h.root_attached, by rw [this, h.lab_root]⟩
    have hx2 : 2 ≤ x := by unfold rootId at hx1; have := hx.1; omega
    obtain ⟨p, ndp, cp, tp, Sp, hpp, hndp, hmp, ep, hSp⟩ := h.parent_edge hx2 hx.2
    have lx := ep.lab_eq
    have hlen : (lab p).length < (lab x).length := by
      rw [lx, ep.label_cons hSp]; simp
    have hpx : lab p <+: lab x := by rw [lx]; exact List.prefix_append _ _
    by_cases hwp : w.length ≤ (lab p).length
    · exact ih w p hpp (by omega) (List.prefix_of_prefix_length_le hw hpx hwp)
    · by_cases hwx : w.length = (lab x).length
      · left
        exact ⟨x, hx, (hw.eq_of_length hwx).symm⟩
      · right
        have := hw.length_le
        exact ⟨p, ndp, cp, tp, x, Sp, hpp, hndp, hmp, ep,
          List.prefix_of_prefix_length_le hpx hw (by omega), by omega, hw, by omega⟩

/-- A word with two different one-byte continuations in the tree is the label
of a node. -/
theorem WFL.branching {st : Tree} {lab : Nat → List Char} (h : WFL st lab) {w : List Char}
    {c1 c2 : Char} (h1 : InW st lab (w ++ [c1])) (h2 : InW st lab (w ++ [c2]))
    (hne : c1 ≠ c2) : ∃ v : Nat, Attached st v ∧ lab v = w := by
  obtain ⟨x, hx1, hx2, hx3⟩ := InW_prefix h1 (List.prefix_append w [c1])
  rcases h.position (lab x).length w x ⟨hx1, hx2⟩ (le_refl _) hx3 with hv | hin
  · exact hv
  · exfalso
    obtain ⟨n, nd, c, t, j, S, hn, hnd, hm, e, hp, hl1, hwj, hl2⟩ := hin
    obtain ⟨y, hy⟩ := hp
    have hS := h.strs _ _ e.ref
    have key : ∀ d : Char, InW st lab (w ++ [d]) → w ++ [d] <+: lab j := by
      intro d hd
      cases y with
      | nil => simp at hy; rw [hy] at hl1; omega
      | cons c0 y0 =>
        have hd1 : InW st lab (lab n ++ c0 :: (y0 ++ [d])) := by
          rw [← hy] at hd
          simpa using hd
        obtain ⟨nd1, t1, j1, S1, hnd1, hm1, e1, hcmp⟩ := h.locus_cmp hn hd1
        rw [hnd] at hnd1
        obtain rfl := Option.some.inj hnd1
        have hc0 : c0 = c := by
          have hh : lab n ++ [c0] <+: lab n ++ labelOf S t.sub := by
            rw [← e.lab_eq]
            refine List.IsPrefix.trans ?_ hwj
            rw [← hy]
            exact ⟨y0, by simp⟩
          rw [e.label_cons hS] at hh
          exact prefix_head_eq (y := []) hh
        subst hc0
        rw [hm] at hm1
        obtain rfl := Option.some.inj hm1
        have ej : j1 = j := by
          have := e1.tgt
          rw [e.tgt] at this
          exact (Option.some.inj this).symm
        subst ej
        have hS1 : S1 = S := by
          have := e1.ref
          rw [e.ref] at this
          exact (Option.some.inj this).symm
        subst hS1
        have hlen : (c0 :: (y0 ++ [d])).length ≤ (labelOf S1 t.sub).length := by
          have e2 := congrArg List.length e.lab_eq
          have e3 := congrArg List.length hy
          simp at e2 e3 ⊢
          omega
        have hpre : c0 :: (y0 ++ [d]) <+: labelOf S1 t.sub := by
          rcases hcmp with hc | hc
          · exact hc
          · have := hc.eq_of_length (le_antisymm hc.length_le hlen)
            rw [this]
        rw [e.lab_eq, ← hy]
        have : lab n ++ c0 :: y0 ++ [d] = lab n ++ (c0 :: (y0 ++ [d])) := by simp
        rw [this]
        exact (List.prefix_append_right_inj _).mpr hpre
    have k1 := key c1 h1
    have k2 := key c2 h2
    rcases List.prefix_or_prefix_of_prefix k1 k2 with hh | hh
    · have := hh.eq_of_length (by simp)
      simp at this
      exact hne this
    · have := hh.eq_of_length (by simp)
      simp at this
      exact hne this.symm

/-! ## Heap updates -/

theorem nodes_setNode_eq {st : Tree} {i : Nat} (nd : Node) (hi : i < st.nodes.length) :
    (st.setNode i nd).nodes[i]? = some nd := by
  simp [Tree.setNode, List.getElem?_set, hi]

theorem nodes_setNode_ne {st : Tree} {i n : Nat} (nd : Node) (hne : n ≠ i) :
    (st.setNode i nd).nodes[n]? = st.nodes[n]? := by
  simp only [Tree.setNode]
  rw [List.getElem?_set]
  have : ¬ i = n := fun e => hne e.symm
  simp [this]

theorem length_setNode (st : Tree) (i : Nat) (nd : Node) :
    (st.setNode i nd).nodes.length = st.nodes.length := by
  simp [Tree.setNode]

theorem haystack_setNode (st : Tree) (i : Nat) (nd : Node) :
    (st.setNode i nd).haystack = st.haystack := rfl

theorem nodes_alloc_lt {st : Tree} {n : Nat} (hn : n < st.nodes.length) :
    st.alloc.1.nodes[n]? = st.nodes[n]? := by
  simp only [Tree.alloc]
  exact List.getElem?_append_left hn

theorem nodes_alloc_new (st : Tree) : st.alloc.1.nodes[st.nodes.length]? = some Node.fresh := by
  simp [Tree.alloc]

theorem length_alloc (st : Tree) : st.alloc.1.nodes.length = st.nodes.length + 1 := by
  simp [Tree.alloc]

theorem alloc_snd (st : Tree) : st.alloc.2 = st.nodes.length := rfl

theorem haystack_alloc (st : Tree) : st.alloc.1.haystack = st.haystack := rfl

theorem lt_of_getElem? {st : Tree} {n : Nat} {nd : Node} (h : st.nodes[n]? = some nd) :
    n < st.nodes.length := (List.getElem?_eq_some_iff.mp h).1

theorem mapFind_mapInsert {κ β : Type} [DecidableEq κ] (k k1 : κ) (v : β) (m : List (κ × β))
    (h : mapFind k m = none) :
    mapFind k1 (mapInsert k v m) = if k1 = k then some v else mapFind k1 m := by
  unfold mapInsert
  rw [h]
  exact mapFind_append_none k k1 v m h

theorem setLab_eq (lab : Nat → List Char) (i : Nat) (w : List Char) : setLab lab i w i = w := by
  simp [setLab]

theorem setLab_ne (lab : Nat → List Char) {i n : Nat} (w : List Char) (h : n ≠ i) :
    setLab lab i w n = lab n := by
  simp [setLab, h]

/-- Rebuilding well-formedness after an update that leaves the registry alone
and keeps the transition map of every node (colour or suffix-link writes). -/
theorem WFL.frame {st st1 : Tree} {lab : Nat → List Char} (h : WFL st lab)
    (hh : st1.haystack = st.haystack) (hl : st1.nodes.length = st.nodes.length)
    (hg : ∀ (n : Nat) (nd1 : Node), st1.nodes[n]? = some nd1 →
      ∃ nd : Node, st.nodes[n]? = some nd ∧ nd1.g = nd.g ∧
        (n ≤ 1 → nd1.suffix_link = nd.suffix_link)) :
    WFL st1 lab := by
  have hback : ∀ (n : Nat) (nd : Node), st.nodes[n]? = some nd →
      ∃ nd1 : Node, st1.nodes[n]? = some nd1 ∧ nd1.g = nd.g := by
    intro n nd hnd
    have hlt : n < st1.nodes.length := by rw [hl]; exact lt_of_getElem? hnd
    obtain ⟨nd0, h0, h1, _⟩ := hg n (st1.nodes.get ⟨n, hlt⟩) (List.getElem?_eq_getElem hlt)
    rw [hnd] at h0
    obtain rfl := Option.some.inj h0
    exact ⟨_, List.getElem?_eq_getElem hlt, h1⟩
  have hedge : ∀ (n : Nat) (c : Char) (t : Transition) (j : Nat) (S : List Char),
      EdgeOK st lab n c t j S → EdgeOK st1 lab n c t j S := by
    intro n c t j S e
    refine ⟨e.tgt, e.j_lo, by rw [hl]; exact e.j_hi, by rw [hh]; exact e.ref, e.l_lo, e.l_le,
      e.l_hi, e.key, e.fin, e.lab_eq, ?_⟩
    intro hne
    obtain ⟨nd, c1, t1, hnd, hm⟩ := e.child hne
    obtain ⟨nd1, hnd1, hg1⟩ := hback j nd hnd
    exact ⟨nd1, c1, t1, hnd1, by rw [hg1]; exact hm⟩
  refine ⟨by rw [hl]; exact h.len, ?_, ?_, h.lab_root, ?_, ?_, ?_⟩
  · obtain ⟨nd, hnd, hgn, hln⟩ := h.sink
    have hlt : sinkId < st1.nodes.length := by rw [hl]; exact lt_of_getElem? hnd
    obtain ⟨nd0, h0, h1, h2⟩ := hg sinkId (st1.nodes.get ⟨sinkId, hlt⟩) (List.getElem?_eq_getElem hlt)
    rw [hnd] at h0
    obtain rfl := Option.some.inj h0
    exact ⟨_, List.getElem?_eq_getElem hlt, h1.trans hgn, (h2 (by simp [sinkId])).trans hln⟩
  · obtain ⟨nd, hnd, hln⟩ := h.root_link
    have hlt : rootId < st1.nodes.length := by rw [hl]; exact lt_of_getElem? hnd
    obtain ⟨nd0, h0, h1, h2⟩ := hg rootId (st1.nodes.get ⟨rootId, hlt⟩) (List.getElem?_eq_getElem hlt)
    rw [hnd] at h0
    obtain rfl := Option.some.inj h0
    exact ⟨_, List.getElem?_eq_getElem hlt, (h2 (by simp [rootId])).trans hln⟩
  · intro k S hk
    rw [hh] at hk
    exact h.strs k S hk
  · intro n nd1 c t hn hnd1 hm
    obtain ⟨nd, hnd, hg1, _⟩ := hg n nd1 hnd1
    rw [hg1] at hm
    obtain ⟨j, S, e⟩ := h.edges n nd c t hn hnd hm
    exact ⟨j, S, hedge n c t j S e⟩
  · intro j hj2 hjl
    rw [hl] at hjl
    obtain ⟨n, nd, c, t, hn, hnd, hm, ht⟩ := h.parent j hj2 hjl
    obtain ⟨nd1, hnd1, hg1⟩ := hback n nd hnd
    exact ⟨n, nd1, c, t, hn, hnd1, by rw [hg1]; exact hm, ht⟩

theorem InW_frame {st st1 : Tree} {lab : Nat → List Char}
    (hl : st1.nodes.length = st.nodes.length) (w : List Char) :
    InW st1 lab w ↔ InW st lab w := by
  unfold InW
  rw [hl]

/-- A write to one node that keeps its transition map (and, for the root and
the sink, its suffix link) preserves well-formedness. -/
theorem WFL.setNode_same {st : Tree} {lab : Nat → List Char} (h : WFL st lab) {i : Nat}
    {nd nd1 : Node} (hi : st.nodes[i]? = some nd) (hg : nd1.g = nd.g)
    (hl : i ≤ 1 → nd1.suffix_link = nd.suffix_link) : WFL (st.setNode i nd1) lab := by
  refine h.frame (haystack_setNode _ _ _) (length_setNode _ _ _) ?_
  intro n ndn hn
  by_cases e : n = i
  · subst e
    rw [nodes_setNode_eq _ (lt_of_getElem? hi)] at hn
    obtain rfl := Option.some.inj hn
    exact ⟨nd, hi, hg, hl⟩
  · rw [nodes_setNode_ne _ e] at hn
    exact ⟨ndn, hn, rfl, fun _ => rfl⟩

theorem EdgeOK.lift_edge {st st1 : Tree} {lab lab1 : Nat → List Char} {n j : Nat} {c : Char}
    {t : Transition} {S : List Char} (e : EdgeOK st lab n c t j S)
    (hh : st1.haystack = st.haystack) (hl : st.nodes.length ≤ st1.nodes.length)
    (hj : lab1 j = lab j) (hn : lab1 n = lab n)
    (hc : ∀ (nd : Node) (c1 : Char) (t1 : Transition), st.nodes[j]? = some nd →
      mapFind c1 nd.g = some t1 →
      ∃ (nd1 : Node) (c2 : Char) (t2 : Transition), st1.nodes[j]? = some nd1 ∧
        mapFind c2 nd1.g = some t2) :
    EdgeOK st1 lab1 n c t j S := by
  refine ⟨e.tgt, e.j_lo, lt_of_lt_of_le e.j_hi hl, by rw [hh]; exact e.ref, e.l_lo, e.l_le,
    e.l_hi, e.key, e.fin, by rw [hj, hn]; exact e.lab_eq, ?_⟩
  intro hne
  obtain ⟨nd, c1, t1, hnd, hm⟩ := e.child hne
  exact hc nd c1 t1 hnd hm

theorem addLeaf_length (st : Tree) (r : Nat) (nd : Node) (c : Char) (sub : MappedSubstring) :
    (addLeaf st r nd c sub).nodes.length = st.nodes.length + 1 := by
  simp [addLeaf, length_setNode, length_alloc]

theorem addLeaf_nodes_r {st : Tree} {r : Nat} (nd : Node) (c : Char) (sub : MappedSubstring)
    (hr : r < st.nodes.length) :
    (addLeaf st r nd c sub).nodes[r]? =
      some { nd with g := mapInsert c ⟨sub, some st.nodes.length⟩ nd.g } := by
  unfold addLeaf
  exact nodes_setNode_eq _ (by rw [length_alloc]; omega)

theorem addLeaf_nodes_new {st : Tree} {r : Nat} (nd : Node) (c : Char) (sub : MappedSubstring)
    (hr : r < st.nodes.length) :
    (addLeaf st r nd c sub).nodes[st.nodes.length]? = some Node.fresh := by
  unfold addLeaf
  rw [nodes_setNode_ne _ (by omega)]
  exact nodes_alloc_new st

theorem addLeaf_nodes_old {st : Tree} {r n : Nat} (nd : Node) (c : Char)
    (sub : MappedSubstring) (hn : n < st.nodes.length) (hne : n ≠ r) :
    (addLeaf st r nd c sub).nodes[n]? = st.nodes[n]? := by
  unfold addLeaf
  rw [nodes_setNode_ne _ hne]
  exact nodes_alloc_lt hn

/-- Hanging a new open-ended leaf under a free key keeps the tree well-formed;
the leaf is labelled by the parent label followed by the rest of the string. -/
theorem WFL.add_leaf {st : Tree} {lab : Nat → List Char} (h : WFL st lab) {r : Nat} {nd : Node}
    {c : Char} {ref l : Int} {S : List Char} (hr : Attached st r) (hnd : st.nodes[r]? = some nd)
    (hfree : mapFind c nd.g = none) (hS : mapFind ref st.haystack = some S)
    (hl0 : 0 ≤ l) (hl1 : l < S.length) (hkey : strAt S l = some c) :
    WFL (addLeaf st r nd c ⟨ref, l, INT_MAX⟩)
      (setLab lab st.nodes.length (lab r ++ slice S l S.length)) := by
  have hsmall := (h.strs _ _ hS).small
  have hlen := addLeaf_length st r nd c ⟨ref, l, INT_MAX⟩
  have hlabold : ∀ n : Nat, n < st.nodes.length →
      setLab lab st.nodes.length (lab r ++ slice S l S.length) n = lab n :=
    fun n hn => setLab_ne lab _ (by omega)
  -- children survive
  have hchild : ∀ (j : Nat) (ndj : Node) (c1 : Char) (t1 : Transition), st.nodes[j]? = some ndj →
      mapFind c1 ndj.g = some t1 →
      ∃ (nd1 : Node) (c2 : Char) (t2 : Transition),
        (addLeaf st r nd c ⟨ref, l, INT_MAX⟩).nodes[j]? = some nd1 ∧ mapFind c2 nd1.g = some t2 := by
    intro j ndj c1 t1 hj hm
    by_cases e : j = r
    · subst e
      rw [hnd] at hj
      obtain rfl := Option.some.inj hj
      refine ⟨_, c1, t1, addLeaf_nodes_r _ _ _ hr.2, ?_⟩
      simp only
      rw [mapFind_mapInsert _ _ _ _ hfree]
      have : c1 ≠ c := fun e => by rw [e, hfree] at hm; cases hm
      rw [if_neg this]
      exact hm
    · exact ⟨ndj, c1, t1, by rw [addLeaf_nodes_old _ _ _ (lt_of_getElem? hj) e]; exact hj, hm⟩
  have hlift : ∀ (n : Nat) (c1 : Char) (t : Transition) (j : Nat) (S1 : List Char),
      n < st.nodes.length → EdgeOK st lab n c1 t j S1 →
      EdgeOK (addLeaf st r nd c ⟨ref, l, INT_MAX⟩)
        (setLab lab st.nodes.length (lab r ++ slice S l S.length)) n c1 t j S1 := by
    intro n c1 t j S1 hn e
    exact e.lift_edge rfl (by rw [hlen]; omega) (hlabold j e.j_hi) (hlabold n hn)
      (fun ndj c2 t2 hj hm => hchild j ndj c2 t2 hj hm)
  refine ⟨by rw [hlen]; have := h.len; omega, ?_, ?_, ?_, ?_, ?_, ?_⟩
  · obtain ⟨nds, hs1, hs2, hs3⟩ := h.sink
    refine ⟨nds, ?_, hs2, hs3⟩
    rw [addLeaf_nodes_old _ _ _ (lt_of_getElem? hs1) (by have := hr.1; simp [sinkId]; omega)]
    exact hs1
  · obtain ⟨ndr, hr1, hr2⟩ := h.root_link
    by_cases e : rootId = r
    · subst e
      rw [hnd] at hr1
      obtain rfl := Option.some.inj hr1
      exact ⟨_, addLeaf_nodes_r _ _ _ hr.2, hr2⟩
    · exact ⟨ndr, by rw [addLeaf_nodes_old _ _ _ (lt_of_getElem? hr1) e]; exact hr1, hr2⟩
  · rw [hlabold rootId h.root_attached.2]
    exact h.lab_root
  · intro k S1 hk
    exact h.strs k S1 hk
  · intro n nd1 c1 t hn1 hnd1 hm
    have hnlt : n < st.nodes.length + 1 := by rw [← hlen]; exact lt_of_getElem? hnd1
    by_cases e1 : n = st.nodes.length
    · subst e1
      rw [addLeaf_nodes_new _ _ _ hr.2] at hnd1
      obtain rfl := Option.some.inj hnd1
      simp [Node.fresh, mapFind] at hm
    have hnl : n < st.nodes.length := by omega
    by_cases e2 : n = r
    · subst e2
      rw [addLeaf_nodes_r _ _ _ hr.2] at hnd1
      obtain rfl := Option.some.inj hnd1
      simp only at hm
      rw [mapFind_mapInsert _ _ _ _ hfree] at hm
      by_cases e3 : c1 = c
      · subst e3
        rw [if_pos rfl] at hm
        obtain rfl := Option.some.inj hm
        refine ⟨st.nodes.length, S, rfl, h.len, by rw [hlen]; omega, hS, hl0, ?_, hl1, hkey,
          Or.inl rfl, ?_, ?_⟩
        · simp only [INT_MAX]
          omega
        · rw [setLab_eq, hlabold n hnl]
          simp [labelOf, edgeEnd]
        · intro hne
          exact absurd rfl hne
      · rw [if_neg e3] at hm
        obtain ⟨j, S1, e⟩ := h.edges n nd c1 t hn1 hnd hm
        exact ⟨j, S1, hlift n c1 t j S1 hnl e⟩
    · rw [addLeaf_nodes_old _ _ _ hnl e2] at hnd1
      obtain ⟨j, S1, e⟩ := h.edges n nd1 c1 t hn1 hnd1 hm
      exact ⟨j, S1, hlift n c1 t j S1 hnl e⟩
  · intro j hj2 hjl
    rw [hlen] at hjl
    by_cases e1 : j = st.nodes.length
    · subst e1
      refine ⟨r, _, c, ⟨⟨ref, l, INT_MAX⟩, some st.nodes.length⟩, hr.1,
        addLeaf_nodes_r _ _ _ hr.2, ?_, rfl⟩
      simp only
      rw [mapFind_mapInsert _ _ _ _ hfree, if_pos rfl]
    · obtain ⟨n, ndn, c1, t, hn, hndn, hm, ht⟩ := h.parent j hj2 (by omega)
      obtain ⟨nd1, c2, t2, hx, hy⟩ := hchild n ndn c1 t hndn hm
      by_cases e2 : n = r
      · subst e2
        rw [hnd] at hndn
        obtain rfl := Option.some.inj hndn
        refine ⟨n, _, c1, t, hn, addLeaf_nodes_r _ _ _ hr.2, ?_, ht⟩
        simp only
        rw [mapFind_mapInsert _ _ _ _ hfree]
        have : c1 ≠ c := fun e => by rw [e, hfree] at hm; cases hm
        rw [if_neg this]
        exact hm
      · exact ⟨n, ndn, c1, t, hn,
          by rw [addLeaf_nodes_old _ _ _ (lt_of_getElem? hndn) e2]; exact hndn, hm, ht⟩

theorem InW_addLeaf {st : Tree} {lab : Nat → List Char} {r : Nat} {nd : Node} {c : Char}
    {sub : MappedSubstring} {lw : List Char} (h : WFL st lab) (w : List Char) :
    InW (addLeaf st r nd c sub) (setLab lab st.nodes.length lw) w ↔
      InW st lab w ∨ w <+: lw := by
  unfold InW
  rw [addLeaf_length]
  constructor
  · rintro ⟨j, h1, h2, h3⟩
    by_cases e : j = st.nodes.length
    · subst e
      rw [setLab_eq] at h3
      exact Or.inr h3
    · rw [setLab_ne _ _ e] at h3
      exact Or.inl ⟨j, h1, by omega, h3⟩
  · rintro (⟨j, h1, h2, h3⟩ | h3)
    · exact ⟨j, h1, by omega, by rw [setLab_ne _ _ (by omega)]; exact h3⟩
    · exact ⟨st.nodes.length, by have := h.len; omega, by omega, by rw [setLab_eq]; exact h3⟩

theorem splitEdge_length (st : Tree) (n : Nat) (nd : Node) (tk key : Char) (t : Transition)
    (delta : Int) : (splitEdge st n nd tk key t delta).nodes.length = st.nodes.length + 1 := by
  simp [splitEdge, length_setNode, length_alloc, Tree.setNode, Tree.alloc]

theorem splitEdge_haystack (st : Tree) (n : Nat) (nd : Node) (tk key : Char) (t : Transition)
    (delta : Int) : (splitEdge st n nd tk key t delta).haystack = st.haystack := rfl

theorem splitEdge_nodes_n {st : Tree} {n : Nat} (nd : Node) (tk key : Char) (t : Transition)
    (delta : Int) (hn : n < st.nodes.length) :
    (splitEdge st n nd tk key t delta).nodes[n]? =
      some { nd with g := mapAssign tk ⟨{ t.sub with r := t.sub.l + delta },
        some st.nodes.length⟩ nd.g } := by
  unfold splitEdge
  simp only
  exact nodes_setNode_eq _ (by rw [length_setNode, length_alloc]; omega)

theorem splitEdge_nodes_new {st : Tree} {n : Nat} (nd : Node) (tk key : Char) (t : Transition)
    (delta : Int) (hn : n < st.nodes.length) :
    (splitEdge st n nd tk key t delta).nodes[st.nodes.length]? =
      some { Node.fresh with
        g := [(key, ⟨{ t.sub with l := t.sub.l + (delta + 1) }, t.tgt⟩)] } := by
  unfold splitEdge
  simp only
  rw [nodes_setNode_ne _ (by omega), nodes_setNode_eq _ (by rw [length_alloc]; omega)]
  simp [Node.fresh, mapInsert, mapFind]

theorem splitEdge_nodes_old {st : Tree} {n m : Nat} (nd : Node) (tk key : Char)
    (t : Transition) (delta : Int) (hm : m < st.nodes.length) (hne : m ≠ n) :
    (splitEdge st n nd tk key t delta).nodes[m]? = st.nodes[m]? := by
  unfold splitEdge
  simp only
  rw [nodes_setNode_ne _ hne, nodes_setNode_ne _ (by omega)]
  exact nodes_alloc_lt hm

/-- Splitting an edge strictly inside its label keeps the tree well-formed; the
new node is labelled by the parent label followed by the upper half. -/
theorem WFL.split_edge {st : Tree} {lab : Nat → List Char} (h : WFL st lab) {n x : Nat}
    {nd : Node} {tk key : Char} {t : Transition} {S : List Char} {delta : Int}
    (hn : Attached st n) (hnd : st.nodes[n]? = some nd) (hm : mapFind tk nd.g = some t)
    (e : EdgeOK st lab n tk t x S) (hd0 : 0 ≤ delta)
    (hd1 : t.sub.l + delta + 1 < edgeEnd S t.sub)
    (hkey : strAt S (t.sub.l + delta + 1) = some key) :
    WFL (splitEdge st n nd tk key t delta)
      (setLab lab st.nodes.length (lab n ++ slice S t.sub.l (t.sub.l + delta + 1))) := by
  have hS := h.strs _ _ e.ref
  have hsmall := hS.small
  have hend := e.end_gt hS
  have hlen := splitEdge_length st n nd tk key t delta
  have hlabold : ∀ m : Nat, m < st.nodes.length →
      setLab lab st.nodes.length (lab n ++ slice S t.sub.l (t.sub.l + delta + 1)) m = lab m :=
    fun m hm => setLab_ne lab _ (by omega)
  have hchild : ∀ (j : Nat) (ndj : Node) (c1 : Char) (t1 : Transition), st.nodes[j]? = some ndj →
      mapFind c1 ndj.g = some t1 →
      ∃ (nd1 : Node) (c2 : Char) (t2 : Transition),
        (splitEdge st n nd tk key t delta).nodes[j]? = some nd1 ∧ mapFind c2 nd1.g = some t2 := by
    intro j ndj c1 t1 hj hmj
    by_cases e1 : j = n
    · subst e1
      refine ⟨_, tk, ⟨{ t.sub with r := t.sub.l + delta }, some st.nodes.length⟩,
        splitEdge_nodes_n _ _ _ _ _ hn.2, ?_⟩
      simp only
      rw [mapFind_mapAssign, if_pos rfl]
    · exact ⟨ndj, c1, t1, by rw [splitEdge_nodes_old _ _ _ _ _ (lt_of_getElem? hj) e1]; exact hj, hmj⟩
  have hlift : ∀ (m : Nat) (c1 : Char) (t1 : Transition) (j : Nat) (S1 : List Char),
      m < st.nodes.length → EdgeOK st lab m c1 t1 j S1 →
      EdgeOK (splitEdge st n nd tk key t delta)
        (setLab lab st.nodes.length (lab n ++ slice S t.sub.l (t.sub.l + delta + 1))) m c1 t1 j S1 := by
    intro m c1 t1 j S1 hm1 e1
    exact e1.lift_edge rfl (by rw [hlen]; omega) (hlabold j e1.j_hi) (hlabold m hm1)
      (fun ndj c2 t2 hj hmj => hchild j ndj c2 t2 hj hmj)
  have hfinr : t.sub.l + delta ≠ INT_MAX := by
    simp only [INT_MAX]
    omega
  refine ⟨by rw [hlen]; have := h.len; omega, ?_, ?_, ?_, ?_, ?_, ?_⟩
  · obtain ⟨nds, hs1, hs2, hs3⟩ := h.sink
    refine ⟨nds, ?_, hs2, hs3⟩
    rw [splitEdge_nodes_old _ _ _ _ _ (lt_of_getElem? hs1)
      (by have := hn.1; simp [sinkId]; omega)]
    exact hs1
  · obtain ⟨ndr, hr1, hr2⟩ := h.root_link
    by_cases e1 : rootId = n
    · subst e1
      rw [hnd] at hr1
      obtain rfl := Option.some.inj hr1
      exact ⟨_, splitEdge_nodes_n _ _ _ _ _ hn.2, hr2⟩
    · exact ⟨ndr, by rw [splitEdge_nodes_old _ _ _ _ _ (lt_of_getElem? hr1) e1]; exact hr1, hr2⟩
  · rw [hlabold rootId h.root_attached.2]
    exact h.lab_root
  · intro k S1 hk
    exact h.strs k S1 hk
  · intro m nd1 c1 t1 hm1 hnd1 hmf
    have hmlt : m < st.nodes.length + 1 := by rw [← hlen]; exact lt_of_getElem? hnd1
    by_cases e1 : m = st.nodes.length
    · subst e1
      rw [splitEdge_nodes_new _ _ _ _ _ hn.2] at hnd1
      obtain rfl := Option.some.inj hnd1
      simp only [mapFind] at hmf
      split at hmf
      · rename_i hk
        subst hk
        obtain rfl := Option.some.inj hmf
        refine ⟨x, S, e.tgt, e.j_lo, by rw [hlen]; have := e.j_hi; omega, e.ref, ?_, ?_, ?_,
          ?_, ?_, ?_, ?_⟩
        · simp only; have := e.l_lo; omega
        · simp only
          unfold edgeEnd at hd1
          split at hd1
          · rename_i hr
            rw [hr]
            simp only [INT_MAX]
            omega
          · omega
        · simp only; omega
        · simpa [add_assoc] using hkey
        · exact e.fin
        · rw [setLab_eq, hlabold x e.j_hi, e.lab_eq, List.append_assoc]
          congr 1
          unfold labelOf
          have ee : edgeEnd S { ref_str := t.sub.ref_str, l := t.sub.l + (delta + 1), r := t.sub.r }
              = edgeEnd S t.sub := rfl
          rw [ee]
          simp only
          have e3 : t.sub.l + (delta + 1) = t.sub.l + delta + 1 := by omega
          rw [e3]
          exact (slice_append e.l_lo (by omega) (le_of_lt hd1)).symm
        · intro hne
          obtain ⟨ndx, c2, t2, hx, hy⟩ := e.child hne
          exact hchild x ndx c2 t2 hx hy
      · simp at hmf
    have hml : m < st.nodes.length := by omega
    by_cases e2 : m = n
    · subst e2
      rw [splitEdge_nodes_n _ _ _ _ _ hn.2] at hnd1
      obtain rfl := Option.some.inj hnd1
      simp only at hmf
      rw [mapFind_mapAssign] at hmf
      by_cases e3 : c1 = tk
      · subst e3
        rw [if_pos rfl] at hmf
        obtain rfl := Option.some.inj hmf
        refine ⟨st.nodes.length, S, rfl, h.len, by rw [hlen]; omega, e.ref, e.l_lo, ?_, e.l_hi,
          e.key, ?_, ?_, ?_⟩
        · simp only; omega
        · right
          simp only
          omega
        · rw [setLab_eq, hlabold m hml]
          congr 1
          unfold labelOf edgeEnd
          simp only
          rw [if_neg hfinr]
        · intro _
          exact ⟨_, key, ⟨{ t.sub with l := t.sub.l + (delta + 1) }, t.tgt⟩,
            splitEdge_nodes_new _ _ _ _ _ hn.2, by simp [mapFind]⟩
      · rw [if_neg e3] at hmf
        obtain ⟨j, S1, e1⟩ := h.edges m nd c1 t1 hm1 hnd hmf
        exact ⟨j, S1, hlift m c1 t1 j S1 hml e1⟩
    · rw [splitEdge_nodes_old _ _ _ _ _ hml e2] at hnd1
      obtain ⟨j, S1, e1⟩ := h.edges m nd1 c1 t1 hm1 hnd1 hmf
      exact ⟨j, S1, hlift m c1 t1 j S1 hml e1⟩
  · intro j hj2 hjl
    rw [hlen] at hjl
    by_cases e1 : j = st.nodes.length
    · subst e1
      refine ⟨n, _, tk, ⟨{ t.sub with r := t.sub.l + delta }, some st.nodes.length⟩, hn.1,
        splitEdge_nodes_n _ _ _ _ _ hn.2, ?_, rfl⟩
      simp only
      rw [mapFind_mapAssign, if_pos rfl]
    by_cases e2 : j = x
    · subst e2
      exact ⟨st.nodes.length, _, key, ⟨{ t.sub with l := t.sub.l + (delta + 1) }, t.tgt⟩,
        by have := h.len; omega, splitEdge_nodes_new _ _ _ _ _ hn.2, by simp [mapFind], e.tgt⟩
    · obtain ⟨m, ndm, c1, t1, hm1, hndm, hmf, ht⟩ := h.parent j hj2 (by omega)
      by_cases e3 : m = n
      · subst e3
        rw [hnd] at hndm
        obtain rfl := Option.some.inj hndm
        refine ⟨m, _, c1, t1, hm1, splitEdge_nodes_n _ _ _ _ _ hn.2, ?_, ht⟩
        simp only
        rw [mapFind_mapAssign]
        have : c1 ≠ tk := by
          intro ee
          rw [ee, hm] at hmf
          obtain rfl := Option.some.inj hmf
          rw [e.tgt] at ht
          exact e2 (Option.some.inj ht).symm
        rw [if_neg this]
        exact hmf
      · exact ⟨m, ndm, c1, t1, hm1,
          by rw [splitEdge_nodes_old _ _ _ _ _ (lt_of_getElem? hndm) e3]; exact hndm, hmf, ht⟩

theorem InW_splitEdge {st : Tree} {lab : Nat → List Char} (h : WFL st lab) {n x : Nat}
    {nd : Node} {tk key : Char} {t : Transition} {S : List Char} {delta : Int}
    (e : EdgeOK st lab n tk t x S) (hd0 : 0 ≤ delta)
    (hd1 : t.sub.l + delta + 1 < edgeEnd S t.sub) (w : List Char) :
    InW (splitEdge st n nd tk key t delta)
      (setLab lab st.nodes.length (lab n ++ slice S t.sub.l (t.sub.l + delta + 1))) w ↔
      InW st lab w := by
  unfold InW
  rw [splitEdge_length]
  constructor
  · rintro ⟨j, h1, h2, h3⟩
    by_cases e1 : j = st.nodes.length
    · subst e1
      rw [setLab_eq] at h3
      refine ⟨x, by have := e.j_lo; omega, e.j_hi, h3.trans ?_⟩
      rw [e.lab_eq]
      apply (List.prefix_append_right_inj _).mpr
      unfold labelOf
      exact slice_pre e.l_lo (by omega) (le_of_lt hd1)
    · rw [setLab_ne _ _ e1] at h3
      exact ⟨j, h1, by omega, h3⟩
  · rintro ⟨j, h1, h2, h3⟩
    exact ⟨j, h1, by omega, by rw [setLab_ne _ _ (by omega)]; exact h3⟩

/-! ## Suffix links -/

theorem Inner.is_attached {st : Tree} {lab : Nat → List Char} (h : WFL st lab) {v : Nat}
    (hv : Inner st v) : Attached st v := by
  rcases hv with rfl | ⟨n, nd, c, t, hn, hnd, hm, ht, _⟩
  · exact h.root_attached
  · obtain ⟨j, S, e⟩ := h.edges n nd c t hn hnd hm
    have ej : j = v := by
      have := e.tgt
      rw [ht] at this
      exact (Option.some.inj this).symm
    subst ej
    exact ⟨by have := e.j_lo; omega, e.j_hi⟩

/-- Inner nodes stay inner when every closed edge of the old state is still
an edge of the new state. -/
theorem Inner.lift_inner {st st1 : Tree} {v : Nat} (hv : Inner st v)
    (hk : ∀ (n : Nat) (nd : Node) (c : Char) (t : Transition), 1 ≤ n → st.nodes[n]? = some nd →
      mapFind c nd.g = some t → t.tgt = some v → t.sub.r ≠ INT_MAX →
      ∃ (n1 : Nat) (nd1 : Node) (c1 : Char) (t1 : Transition), 1 ≤ n1 ∧
        st1.nodes[n1]? = some nd1 ∧ mapFind c1 nd1.g = some t1 ∧ t1.tgt = some v ∧
        t1.sub.r ≠ INT_MAX) : Inner st1 v := by
  rcases hv with rfl | ⟨n, nd, c, t, hn, hnd, hm, ht, hr⟩
  · exact Or.inl rfl
  · exact Or.inr (hk n nd c t hn hnd hm ht hr)

theorem LinkOK.lift_link {st st1 : Tree} {lab lab1 : Nat → List Char} {v : Nat}
    (h : LinkOK st lab v) (hl : st.nodes.length ≤ st1.nodes.length)
    (hv : ∀ nd : Node, st.nodes[v]? = some nd →
      ∃ nd1 : Node, st1.nodes[v]? = some nd1 ∧ nd1.suffix_link = nd.suffix_link)
    (hi : ∀ u : Nat, Inner st u → Inner st1 u)
    (hlab : ∀ m : Nat, m < st.nodes.length → lab1 m = lab m) : LinkOK st1 lab1 v := by
  obtain ⟨nd, u, c, hnd, hs, hu, hin, hlb⟩ := h
  obtain ⟨nd1, hnd1, hs1⟩ := hv nd hnd
  exact ⟨nd1, u, c, hnd1, by rw [hs1, hs], ⟨hu.1, lt_of_lt_of_le hu.2 hl⟩, hi u hin,
    by rw [hlab v (lt_of_getElem? hnd), hlab u hu.2]; exact hlb⟩

theorem Inner_addLeaf {st : Tree} {r : Nat} {nd : Node} {c : Char} {ref l : Int}
    (hr : r < st.nodes.length) (hnd : st.nodes[r]? = some nd) (hfree : mapFind c nd.g = none)
    (v : Nat) : Inner (addLeaf st r nd c ⟨ref, l, INT_MAX⟩) v ↔ Inner st v := by
  constructor
  · rintro (rfl | ⟨n, nd1, c1, t, hn, hnd1, hm, ht, hfin⟩)
    · exact Or.inl rfl
    · right
      have hnlt : n < st.nodes.length + 1 := by
        rw [← addLeaf_length st r nd c ⟨ref, l, INT_MAX⟩]; exact lt_of_getElem? hnd1
      by_cases e1 : n = st.nodes.length
      · subst e1
        rw [addLeaf_nodes_new _ _ _ hr] at hnd1
        obtain rfl := Option.some.inj hnd1
        simp [Node.fresh, mapFind] at hm
      by_cases e2 : n = r
      · subst e2
        rw [addLeaf_nodes_r _ _ _ hr] at hnd1
        obtain rfl := Option.some.inj hnd1
        simp only at hm
        rw [mapFind_mapInsert _ _ _ _ hfree] at hm
        by_cases e3 : c1 = c
        · rw [if_pos e3] at hm
          obtain rfl := Option.some.inj hm
          exact absurd rfl hfin
        · rw [if_neg e3] at hm
          exact ⟨n, nd, c1, t, hn, hnd, hm, ht, hfin⟩
      · rw [addLeaf_nodes_old _ _ _ (by omega) e2] at hnd1
        exact ⟨n, nd1, c1, t, hn, hnd1, hm, ht, hfin⟩
  · intro hv
    apply hv.lift_inner
    intro n nd1 c1 t hn hnd1 hm ht hfin
    by_cases e2 : n = r
    · subst e2
      rw [hnd] at hnd1
      obtain rfl := Option.some.inj hnd1
      refine ⟨n, _, c1, t, hn, addLeaf_nodes_r _ _ _ hr, ?_, ht, hfin⟩
      simp only
      rw [mapFind_mapInsert _ _ _ _ hfree]
      have : c1 ≠ c := fun e => by rw [e, hfree] at hm; cases hm
      rw [if_neg this]
      exact hm
    · exact ⟨n, nd1, c1, t, hn,
        by rw [addLeaf_nodes_old _ _ _ (lt_of_getElem? hnd1) e2]; exact hnd1, hm, ht, hfin⟩

theorem LinksOK_addLeaf {st : Tree} {lab : Nat → List Char} {ex : Nat → Prop} {r : Nat}
    {nd : Node} {c : Char} {ref l : Int} {lw : List Char}
    (h : LinksOK st lab ex) (hr : r < st.nodes.length) (hnd : st.nodes[r]? = some nd)
    (hfree : mapFind c nd.g = none) :
    LinksOK (addLeaf st r nd c ⟨ref, l, INT_MAX⟩) (setLab lab st.nodes.length lw) ex := by
  intro v hv hne hex
  have hv0 := (Inner_addLeaf hr hnd hfree v).mp hv
  refine (h v hv0 hne hex).lift_link (by rw [addLeaf_length]; omega) ?_
    (fun u hu => (Inner_addLeaf hr hnd hfree u).mpr hu) (fun m hm => setLab_ne lab _ (by omega))
  intro ndv hndv
  by_cases e : v = r
  · subst e
    rw [hnd] at hndv
    obtain rfl := Option.some.inj hndv
    exact ⟨_, addLeaf_nodes_r _ _ _ hr, rfl⟩
  · exact ⟨ndv, by rw [addLeaf_nodes_old _ _ _ (lt_of_getElem? hndv) e]; exact hndv, rfl⟩

theorem LinkOK_addLeaf {st : Tree} {lab : Nat → List Char} {r v : Nat}
    {nd : Node} {c : Char} {ref l : Int} {lw : List Char}
    (h : LinkOK st lab v) (hr : r < st.nodes.length) (hnd : st.nodes[r]? = some nd)
    (hfree : mapFind c nd.g = none) :
    LinkOK (addLeaf st r nd c ⟨ref, l, INT_MAX⟩) (setLab lab st.nodes.length lw) v := by
  refine h.lift_link (by rw [addLeaf_length]; omega) ?_
    (fun u hu => (Inner_addLeaf hr hnd hfree u).mpr hu) (fun m hm => setLab_ne lab _ (by omega))
  intro ndv hndv
  by_cases e : v = r
  · subst e
    rw [hnd] at hndv
    obtain rfl := Option.some.inj hndv
    exact ⟨_, addLeaf_nodes_r _ _ _ hr, rfl⟩
  · exact ⟨ndv, by rw [addLeaf_nodes_old _ _ _ (lt_of_getElem? hndv) e]; exact hndv, rfl⟩

theorem Inner_splitEdge_old {st : Tree} {n x : Nat} {nd : Node} {tk key : Char}
    {t : Transition} {delta : Int} (hn : Attached st n) (hnd : st.nodes[n]? = some nd)
    (hm : mapFind tk nd.g = some t) (hx : t.tgt = some x) (hlen : 2 ≤ st.nodes.length)
    {v : Nat} (hv : Inner st v) : Inner (splitEdge st n nd tk key t delta) v := by
  apply hv.lift_inner
  intro n0 nd0 c0 t0 hn0 hnd0 hm0 ht0 hfin
  by_cases e1 : n0 = n
  · subst e1
    rw [hnd] at hnd0
    obtain rfl := Option.some.inj hnd0
    by_cases e2 : c0 = tk
    · subst e2
      rw [hm] at hm0
      obtain rfl := Option.some.inj hm0
      exact ⟨st.nodes.length, _, key, ⟨{ t.sub with l := t.sub.l + (delta + 1) }, t.tgt⟩,
        by omega, splitEdge_nodes_new _ _ _ _ _ hn.2, by simp [mapFind], ht0, hfin⟩
    · refine ⟨n0, _, c0, t0, hn0, splitEdge_nodes_n _ _ _ _ _ hn.2, ?_, ht0, hfin⟩
      simp only
      rw [mapFind_mapAssign, if_neg e2]
      exact hm0
  · exact ⟨n0, nd0, c0, t0, hn0,
      by rw [splitEdge_nodes_old _ _ _ _ _ (lt_of_getElem? hnd0) e1]; exact hnd0, hm0, ht0, hfin⟩

theorem Inner_splitEdge_new {st : Tree} {n : Nat} {nd : Node} {tk key : Char}
    {t : Transition} {delta : Int} (hn : Attached st n) (hfin : t.sub.l + delta ≠ INT_MAX) :
    Inner (splitEdge st n nd tk key t delta) st.nodes.length := by
  right
  refine ⟨n, _, tk, ⟨{ t.sub with r := t.sub.l + delta }, some st.nodes.length⟩, hn.1,
    splitEdge_nodes_n _ _ _ _ _ hn.2, ?_, rfl, hfin⟩
  simp only
  rw [mapFind_mapAssign, if_pos rfl]

theorem Inner_splitEdge_inv {st : Tree} {n x : Nat} {nd : Node} {tk key : Char}
    {t : Transition} {delta : Int} (hn : Attached st n) (hnd : st.nodes[n]? = some nd)
    (hm : mapFind tk nd.g = some t) (hx : t.tgt = some x)
    {v : Nat} (hv : Inner (splitEdge st n nd tk key t delta) v) :
    Inner st v ∨ v = st.nodes.length := by
  rcases hv with rfl | ⟨n1, nd1, c1, t1, hn1, hnd1, hm1, ht1, hfin⟩
  · exact Or.inl (Or.inl rfl)
  · have hnlt : n1 < st.nodes.length + 1 := by
      rw [← splitEdge_length st n nd tk key t delta]; exact lt_of_getElem? hnd1
    by_cases e1 : n1 = st.nodes.length
    · subst e1
      rw [splitEdge_nodes_new _ _ _ _ _ hn.2] at hnd1
      obtain rfl := Option.some.inj hnd1
      simp only [mapFind] at hm1
      split at hm1
      · obtain rfl := Option.some.inj hm1
        left
        right
        exact ⟨n, nd, tk, t, hn.1, hnd, hm, ht1, hfin⟩
      · simp at hm1
    by_cases e2 : n1 = n
    · subst e2
      rw [splitEdge_nodes_n _ _ _ _ _ hn.2] at hnd1
      obtain rfl := Option.some.inj hnd1
      simp only at hm1
      rw [mapFind_mapAssign] at hm1
      by_cases e3 : c1 = tk
      · rw [if_pos e3] at hm1
        obtain rfl := Option.some.inj hm1
        right
        exact (Option.some.inj ht1).symm
      · rw [if_neg e3] at hm1
        exact Or.inl (Or.inr ⟨n1, nd, c1, t1, hn1, hnd, hm1, ht1, hfin⟩)
    · rw [splitEdge_nodes_old _ _ _ _ _ (by omega) e2] at hnd1
      exact Or.inl (Or.inr ⟨n1, nd1, c1, t1, hn1, hnd1, hm1, ht1, hfin⟩)

theorem LinkOK_splitEdge {st : Tree} {lab : Nat → List Char} {n x v : Nat} {nd : Node}
    {tk key : Char} {t : Transition} {delta : Int} {lw : List Char}
    (h : LinkOK st lab v) (hn : Attached st n) (hnd : st.nodes[n]? = some nd)
    (hm : mapFind tk nd.g = some t) (hx : t.tgt = some x) (hlen : 2 ≤ st.nodes.length) :
    LinkOK (splitEdge st n nd tk key t delta) (setLab lab st.nodes.length lw) v := by
  refine h.lift_link (by rw [splitEdge_length]; omega) ?_
    (fun u hu => Inner_splitEdge_old hn hnd hm hx hlen hu)
    (fun m hm => setLab_ne lab _ (by omega))
  intro ndv hndv
  by_cases e : v = n
  · subst e
    rw [hnd] at hndv
    obtain rfl := Option.some.inj hndv
    exact ⟨_, splitEdge_nodes_n _ _ _ _ _ hn.2, rfl⟩
  · exact ⟨ndv, by rw [splitEdge_nodes_old _ _ _ _ _ (lt_of_getElem? hndv) e]; exact hndv, rfl⟩

theorem LinksOK_splitEdge {st : Tree} {lab : Nat → List Char} {ex : Nat → Prop} {n x : Nat}
    {nd : Node} {tk key : Char} {t : Transition} {delta : Int} {lw : List Char}
    (h : LinksOK st lab ex) (hn : Attached st n) (hnd : st.nodes[n]? = some nd)
    (hm : mapFind tk nd.g = some t) (hx : t.tgt = some x) (hlen : 2 ≤ st.nodes.length) :
    LinksOK (splitEdge st n nd tk key t delta) (setLab lab st.nodes.length lw)
      (fun v => ex v ∨ v = st.nodes.length) := by
  intro v hv hne hex
  rcases Inner_splitEdge_inv hn hnd hm hx hv with h0 | h0
  · exact LinkOK_splitEdge (h v h0 hne (fun e => hex (Or.inl e))) hn hnd hm hx hlen
  · exact absurd (Or.inr h0) hex

theorem Inner_setNode_same {st : Tree} {i : Nat} {nd nd1 : Node}
    (hi : st.nodes[i]? = some nd) (hg : nd1.g = nd.g) (v : Nat) :
    Inner (st.setNode i nd1) v ↔ Inner st v := by
  constructor
  · rintro (rfl | ⟨n, ndn, c, t, hn, hndn, hm, ht, hfin⟩)
    · exact Or.inl rfl
    · right
      by_cases e : n = i
      · subst e
        rw [nodes_setNode_eq _ (lt_of_getElem? hi)] at hndn
        obtain rfl := Option.some.inj hndn
        exact ⟨n, nd, c, t, hn, hi, by rw [← hg]; exact hm, ht, hfin⟩
      · rw [nodes_setNode_ne _ e] at hndn
        exact ⟨n, ndn, c, t, hn, hndn, hm, ht, hfin⟩
  · intro hv
    apply hv.lift_inner
    intro n ndn c t hn hndn hm ht hfin
    by_cases e : n = i
    · subst e
      rw [hi] at hndn
      obtain rfl := Option.some.inj hndn
      exact ⟨n, nd1, c, t, hn, nodes_setNode_eq _ (lt_of_getElem? hi), by rw [hg]; exact hm,
        ht, hfin⟩
    · exact ⟨n, ndn, c, t, hn, by rw [nodes_setNode_ne _ e]; exact hndn, hm, ht, hfin⟩

theorem LinkOK_setNode_same {st : Tree} {lab : Nat → List Char} {i v : Nat} {nd nd1 : Node}
    (h : LinkOK st lab v) (hi : st.nodes[i]? = some nd) (hg : nd1.g = nd.g)
    (hl : v = i → nd1.suffix_link = nd.suffix_link) : LinkOK (st.setNode i nd1) lab v := by
  refine h.lift_link (by rw [length_setNode]) ?_
    (fun u hu => (Inner_setNode_same hi hg u).mpr hu) (fun m _ => rfl)
  intro ndv hndv
  by_cases e : v = i
  · subst e
    rw [hi] at hndv
    obtain rfl := Option.some.inj hndv
    exact ⟨nd1, nodes_setNode_eq _ (lt_of_getElem? hi), hl rfl⟩
  · exact ⟨ndv, by rw [nodes_setNode_ne _ e]; exact hndv, rfl⟩

/-- Writing the suffix link of node `i` establishes its link and keeps the
others. -/
theorem LinksOK_setLink {st : Tree} {lab : Nat → List Char} {ex : Nat → Prop} {i u : Nat}
    {nd : Node} {c : Char} (h : LinksOK st lab ex) (hi : st.nodes[i]? = some nd)
    (hu : Attached st u) (hin : Inner st u) (hlab : lab i = c :: lab u) :
    LinksOK (st.setNode i { nd with suffix_link := some u }) lab (fun v => ex v ∧ v ≠ i) := by
  intro v hv hne hex
  have hv0 := (@Inner_setNode_same st i nd { nd with suffix_link := some u } hi rfl v).mp hv
  by_cases e : v = i
  · subst e
    exact ⟨_, u, c, nodes_setNode_eq _ (lt_of_getElem? hi), rfl,
      ⟨hu.1, by rw [length_setNode]; exact hu.2⟩,
      (@Inner_setNode_same _ _ _ { nd with suffix_link := some u } hi rfl u).mpr hin, hlab⟩
  · exact LinkOK_setNode_same (h v hv0 hne (fun hx => hex ⟨hx, e⟩)) hi rfl (fun e1 => absurd e1 e)

theorem LinksOK_setNode_same {st : Tree} {lab : Nat → List Char} {ex : Nat → Prop} {i : Nat}
    {nd nd1 : Node} (h : LinksOK st lab ex) (hi : st.nodes[i]? = some nd) (hg : nd1.g = nd.g)
    (hl : nd1.suffix_link = nd.suffix_link) : LinksOK (st.setNode i nd1) lab ex := by
  intro v hv hne hex
  exact LinkOK_setNode_same (h v ((Inner_setNode_same hi hg v).mp hv) hne hex) hi hg (fun _ => hl)

theorem LinksOK_mono {st : Tree} {lab : Nat → List Char} {ex ex1 : Nat → Prop}
    (h : LinksOK st lab ex) (hm : ∀ v : Nat, ex v → ex1 v) : LinksOK st lab ex1 :=
  fun v hv hne hex => h v hv hne (fun e => hex (hm v e))

/-! ## Fast-forward: specification of `get_starting_node` -/

theorem find_alpha_node {st : Tree} {n : Nat} {nd : Node} (c : Char) (hn : 1 ≤ n)
    (hnd : st.nodes[n]? = some nd) :
    st.find_alpha_transition (some n) c =
      some (match mapFind c nd.g with
            | none => { sub := ⟨0, 0, -1⟩, tgt := none }
            | some t => t) := by
  unfold Tree.find_alpha_transition
  simp only [hnd]
  have : ¬ n = sinkId := by simp [sinkId]; omega
  rw [if_neg this]
  cases mapFind c nd.g <;> rfl

theorem find_alpha_sink {st : Tree} {lab : Nat → List Char} (h : WFL st lab) (c : Char) :
    st.find_alpha_transition (some sinkId) c = some { sub := ⟨0, 0, 0⟩, tgt := some rootId } := by
  obtain ⟨nd, h1, _, h3⟩ := h.sink
  unfold Tree.find_alpha_transition
  simp only [h1, if_true, h3]

theorem haystackIndex_eq {st : Tree} {k : Int} {S : List Char}
    (h : mapFind k st.haystack = some S) : st.haystackIndex k = (st, S) := by
  unfold Tree.haystackIndex
  rw [h]

theorem slice_last_sentinel {S : List Char} (hS : StrOK S) {l : Int} (h0 : 0 ≤ l)
    (h1 : l < S.length) :
    strAt (slice S l S.length) ((S.length : Int) - l - 1) = some END_TOKEN := by
  rw [strAt_slice h0 (by omega) (by omega) (le_refl _)]
  have : l + ((S.length : Int) - l - 1) = (S.length : Int) - 1 := by omega
  rw [this]
  exact hS.last

theorem scanEdge_spec {s S : List Char} {sub : MappedSubstring} {k : Int}
    (hp : Probe s) (hS : StrOK S) (hk0 : 0 ≤ k) (hl0 : 0 ≤ sub.l) (hle : sub.l ≤ sub.r)
    (hfin : sub.r = INT_MAX ∨ sub.r + 1 < S.length) (hlS : sub.l < S.length) :
    ∀ (fuel : Nat) (i : Int), (s.length : Int) < fuel + (k + i) → 1 ≤ i →
      sub.l + i ≤ edgeEnd S sub → k + i ≤ s.length →
      slice s k (k + i) = slice S sub.l (sub.l + i) →
      ∃ res : EdgeScan, scanEdge s S k s.length sub fuel i = some res ∧ ScanPost s S sub k res := by
  have hsmall := hS.small
  intro fuel
  induction fuel with
  | zero =>
    intro i hf h1 h2 h3 _
    exfalso
    simp at hf
    omega
  | succ fuel ih =>
    intro i hf h1 h2 h3 hmatch
    unfold scanEdge
    by_cases hc1 : i ≤ sub.r - sub.l
    · rw [if_pos hc1]
      by_cases hc2 : k + i ≥ s.length
      · rw [if_pos hc2]
        refine ⟨EdgeScan.runout, rfl, ?_⟩
        have e : k + i = s.length := by omega
        show slice s k s.length <+: labelOf S sub
        rw [← e, hmatch]
        unfold labelOf
        exact slice_pre hl0 (by omega) h2
      · rw [if_neg hc2]
        have hlt : sub.l + i < S.length := by
          rcases hfin with hr | hr
          · by_contra hge
            have hE : edgeEnd S sub = S.length := by simp [edgeEnd, hr]
            rw [hE] at h2
            have e : (S.length : Int) - 1 = sub.l + (i - 1) := by omega
            have h5 : strAt S (sub.l + (i - 1)) = some END_TOKEN := by
              rw [← e]
              exact hS.last
            have h6 : strAt (slice S sub.l (sub.l + i)) (i - 1) = strAt S (sub.l + (i - 1)) :=
              strAt_slice hl0 (by omega) (by omega) (by omega)
            have h7 : strAt (slice s k (k + i)) (i - 1) = strAt s (k + (i - 1)) :=
              strAt_slice hk0 (by omega) (by omega) (by omega)
            rw [hmatch, h6, h5] at h7
            exact hp (k + (i - 1)) (by omega) (by omega) h7.symm
          · omega
        obtain ⟨a, ha⟩ := strAt_some_lt (S := s) (i := k + i) (by omega) (by omega)
        obtain ⟨b, hb⟩ := strAt_some_lt (S := S) (i := sub.l + i) (by omega) hlt
        rw [ha, hb]
        simp only
        by_cases hab : a ≠ b
        · rw [if_pos hab]
          refine ⟨EdgeScan.diverge i, rfl, h1, by omega, ?_, hmatch, ?_⟩
          · unfold edgeEnd
            split <;> omega
          · rw [ha, hb]
            intro e
            exact hab (Option.some.inj e)
        · rw [if_neg hab]
          simp only [ne_eq, not_not] at hab
          subst hab
          have hE : sub.l + (i + 1) ≤ edgeEnd S sub := by
            unfold edgeEnd
            split <;> omega
          apply ih (i + 1) (by push_cast at hf ⊢; omega) (by omega) hE (by omega)
          have e1 : k + (i + 1) = (k + i) + 1 := by omega
          have e2 : sub.l + (i + 1) = (sub.l + i) + 1 := by omega
          rw [e1, e2, slice_snoc hk0 (by omega) (by omega) ha,
            slice_snoc hl0 (by omega) hlt hb, hmatch]
    · rw [if_neg hc1]
      have hne : sub.r ≠ INT_MAX := by
        intro hr
        have hE : edgeEnd S sub = S.length := by simp [edgeEnd, hr]
        rw [hE] at h2
        rw [hr] at hc1
        simp only [INT_MAX] at hc1
        omega
      have hE : edgeEnd S sub = sub.r + 1 := by simp [edgeEnd, hne]
      rw [hE] at h2
      have hi : i = sub.r - sub.l + 1 := by omega
      refine ⟨EdgeScan.done i, rfl, hne, h3, ?_, hi⟩
      rw [hmatch]
      unfold labelOf
      rw [hE]
      congr 1
      omega

theorem strAt_prefix {a b : List Char} (h : a <+: b) {i : Int} (h0 : 0 ≤ i)
    (h1 : i < a.length) : strAt a i = strAt b i := by
  have hl := h.length_le
  rw [strAt_lt h0 h1, strAt_lt h0 (by omega)]
  obtain ⟨t, rfl⟩ := h
  rw [List.getElem?_append_left (by omega)]

theorem startLoop_spec {st : Tree} {lab : Nat → List Char} {s : List Char}
    (h : WFL st lab) (hp : Probe s) :
    ∀ (fuel : Nat) (r : ReferencePoint) (k : Int) (n : Nat), (s.length : Int) < fuel + k →
      r.node = some n → r.pos = k → Attached st n → Inner st n → 0 ≤ k → k ≤ s.length →
      lab n = slice s 0 k →
      ∃ res : Tree × ReferencePoint × Int,
        startLoop s s.length fuel st r k = some res ∧ StartPost st lab s res := by
  intro fuel
  induction fuel with
  | zero =>
    intro r k n hf
    intro _ _ _ _ _ hk _
    exfalso
    simp at hf
    omega
  | succ fuel ih =>
    intro r k n hf hrn hrp hn hin hk0 hk1 hlab
    obtain ⟨rn, rref, rpos⟩ := r
    simp only at hrn hrp
    subst hrn
    have hrp1 := hrp.symm
    subst hrp1
    unfold startLoop
    by_cases hc1 : k ≥ s.length
    · rw [if_pos hc1]
      refine ⟨_, rfl, rfl, Or.inl ⟨rfl, ?_⟩⟩
      have e : k = s.length := by omega
      rw [e, slice_full] at hlab
      rw [← hlab]
      exact InW_lab hn
    · rw [if_neg hc1]
      obtain ⟨c, hc⟩ := strAt_some_lt (S := s) (i := k) hk0 (by omega)
      obtain ⟨nd, hnd⟩ := hn.node
      rw [hc]
      simp only
      rw [find_alpha_node c hn.1 hnd]
      simp only
      have hsplit : slice s 0 (k + 1) = lab n ++ [c] := by
        rw [hlab, ← slice_append (le_refl 0) hk0 (by omega : k ≤ k + 1),
          slice_one hk0 (by omega) hc]
      cases hm : mapFind c nd.g with
      | none =>
        simp only [ne_eq, not_true_eq_false, if_false]
        refine ⟨_, rfl, rfl, Or.inr ⟨n, rfl, hn, hin, hk0, le_refl _,
          by simp only; omega, hlab, Or.inl rfl, ?_, ?_⟩⟩
        · simp only
          rw [← hlab]
          exact InW_lab hn
        · simp only
          rw [hsplit]
          intro hw
          obtain ⟨t, ht⟩ := (h.node_step hn hnd).mp hw
          rw [hm] at ht
          cases ht
      | some t =>
        obtain ⟨j, S, e⟩ := h.edges n nd c t hn.1 hnd hm
        have hS := h.strs _ _ e.ref
        have hend := e.end_gt hS
        have htgt : t.tgt ≠ none := by rw [e.tgt]; simp
        simp only [htgt, ne_eq, not_false_eq_true, if_true]
        rw [haystackIndex_eq e.ref]
        simp only
        have hm1 : slice s k (k + 1) = slice S t.sub.l (t.sub.l + 1) := by
          rw [slice_one hk0 (by omega) hc, slice_one e.l_lo e.l_hi e.key]
        obtain ⟨res, hres, hpost⟩ := scanEdge_spec hp hS hk0 e.l_lo e.l_le e.fin e.l_hi
          (loopBound s.length) 1 (by simp [loopBound]; omega) (le_refl 1) (by omega)
          (by omega) hm1
        rw [hres]
        have hlj : lab j = slice s 0 k ++ labelOf S t.sub := by rw [e.lab_eq, hlab]
        cases res with
        | runout =>
          simp only [ScanPost] at hpost
          refine ⟨_, rfl, rfl, Or.inl ⟨rfl, ?_⟩⟩
          refine ⟨j, by have := e.j_lo; omega, e.j_hi, ?_⟩
          have hh : slice s 0 k ++ slice s k s.length <+: slice s 0 k ++ labelOf S t.sub :=
            (List.prefix_append_right_inj _).mpr hpost
          rw [slice_append (le_refl 0) hk0 (by omega : k ≤ s.length), slice_full] at hh
          rw [hlj]
          exact hh
        | diverge i =>
          simp only [ScanPost] at hpost
          obtain ⟨hi1, hi2, hi3, hi4, hi5⟩ := hpost
          have hll := e.label_len hS
          refine ⟨_, rfl, rfl, Or.inr ⟨n, rfl, hn, hin, hk0, by simp only; omega, hi2, hlab,
            ?_, ?_, ?_⟩⟩
          · right
            refine ⟨by simp only; omega, nd, c, t, j, S, hc, hnd, hm, e, ?_, ?_⟩
            · simp only
              rw [hi4]
              unfold labelOf
              exact slice_pre e.l_lo (by omega) (le_of_lt hi3)
            · simp only
              omega
          · simp only
            refine ⟨j, by have := e.j_lo; omega, e.j_hi, ?_⟩
            rw [hlj, ← slice_append (le_refl 0) hk0 (by omega : k ≤ k + i), hi4]
            apply (List.prefix_append_right_inj _).mpr
            unfold labelOf
            exact slice_pre e.l_lo (by omega) (le_of_lt hi3)
          · simp only
            intro hw
            have e1 : slice s 0 (k + i + 1) = lab n ++ c :: slice s (k + 1) (k + i + 1) := by
              rw [hlab, ← slice_append (le_refl 0) hk0 (by omega : k ≤ k + i + 1),
                slice_head hk0 (by omega) (by omega) hc]
            rw [e1] at hw
            obtain ⟨nd1, t1, j1, S1, hnd1, hmf1, e2, hcmp⟩ := h.locus_cmp hn hw
            rw [hnd] at hnd1
            obtain rfl := Option.some.inj hnd1
            rw [hm] at hmf1
            obtain rfl := Option.some.inj hmf1
            have hS1 : S1 = S := by
              have := e2.ref
              rw [e.ref] at this
              exact (Option.some.inj this).symm
            subst hS1
            have e3 : c :: slice s (k + 1) (k + i + 1) = slice s k (k + i + 1) :=
              (slice_head hk0 (by omega) (by omega) hc).symm
            rw [e3] at hcmp
            have hl1 := slice_length (S := s) hk0 (by omega : k ≤ k + i + 1) (by omega)
            have hpre : slice s k (k + i + 1) <+: labelOf S1 t.sub := by
              rcases hcmp with hh | hh
              · exact hh
              · have := hh.eq_of_length (le_antisymm hh.length_le (by omega))
                rw [this]
            have h7 := strAt_prefix hpre (i := i) (by omega) (by omega)
            rw [strAt_slice hk0 (by omega) (by omega) (by omega)] at h7
            unfold labelOf at h7
            rw [strAt_slice e.l_lo (by omega) hi3 hend.2] at h7
            exact hi5 h7
        | done i =>
          simp only [ScanPost] at hpost
          obtain ⟨hi1, hi2, hi3, hi4⟩ := hpost
          simp only
          have hi0 : 1 ≤ i := by have := e.l_le; omega
          have := ih { node := t.tgt, ref_str := rref, pos := k + i } (k + i) j
            (by push_cast at hf ⊢; omega) (by simp only; exact e.tgt) rfl
            ⟨by have := e.j_lo; omega, e.j_hi⟩
            (Or.inr ⟨n, nd, c, t, hn.1, hnd, hm, e.tgt, hi1⟩) (by omega) hi2
            (by rw [hlj, ← hi3]; exact slice_append (le_refl 0) hk0 (by omega))
          exact this

/-! ## Specification of `canonize` -/

theorem canonizeLoop_exit {st : Tree} {str : List Char} {ref r l : Int} {n : Option Nat}
    {tk : Transition} (fuel : Nat) (h : r - l < tk.sub.r - tk.sub.l) :
    canonizeLoop st str ref r (fuel + 1) n l tk = some ⟨n, ref, l⟩ := by
  unfold canonizeLoop
  simp only
  rw [if_neg (by omega)]

theorem canonizeLoop_spec {st : Tree} {lab : Nat → List Char} {s : List Char} {id e : Int}
    (h : WFL st lab) (hs : StrOK s) (he : e ≤ s.length) :
    ∀ (fuel : Nat) (n : Nat) (l : Int) (c : Char) (tk : Transition), e - l < fuel →
      Attached st n → Inner st n → 0 ≤ l → l < e → InW st lab (lab n ++ slice s l e) →
      strAt s l = some c → st.find_alpha_transition (some n) c = some tk →
      ∃ rp : ReferencePoint, canonizeLoop st s id (e - 1) fuel (some n) l tk = some rp ∧
        CanonPost st lab s id (lab n) l e rp := by
  have hsmall := hs.small
  intro fuel
  induction fuel with
  | zero =>
    intro n l c tk hf
    intro _ _ _ hl
    exfalso
    simp at hf
    omega
  | succ fuel ih =>
    intro n l c tk hf hn hin hl0 hle hw hc hfa
    obtain ⟨nd, hnd⟩ := hn.node
    have hsl : slice s l e = c :: slice s (l + 1) e := slice_head hl0 hle (by omega) hc
    rw [hsl] at hw
    obtain ⟨nd1, t, j, S, hnd1, hm, ed, hcmp⟩ := h.locus_cmp hn hw
    rw [hnd] at hnd1
    obtain rfl := Option.some.inj hnd1
    rw [find_alpha_node c hn.1 hnd, hm] at hfa
    simp only [Option.some.injEq] at hfa
    subst hfa
    rw [← hsl] at hcmp hw
    have hS := h.strs _ _ ed.ref
    have hSsmall := hS.small
    have hend := ed.end_gt hS
    have hll := ed.label_len hS
    have hsll := slice_length (S := s) hl0 (le_of_lt hle) he
    by_cases hd : t.sub.r - t.sub.l ≤ (e - 1) - l
    · -- the whole edge is consumed
      have hfin : t.sub.r ≠ INT_MAX := by
        intro hr
        rw [hr] at hd
        simp only [INT_MAX] at hd
        have := ed.l_hi
        omega
      have hE : edgeEnd S t.sub = t.sub.r + 1 := by simp [edgeEnd, hfin]
      rw [hE] at hll hend
      have hpre : labelOf S t.sub <+: slice s l e := by
        rcases hcmp with hh | hh
        · have := hh.eq_of_length (le_antisymm hh.length_le (by omega))
          rw [this]
        · exact hh
      have hl1 : l + (1 + (t.sub.r - t.sub.l)) ≤ e := by omega
      have hlabel : labelOf S t.sub = slice s l (l + (1 + (t.sub.r - t.sub.l))) := by
        have h1 : slice s l (l + (1 + (t.sub.r - t.sub.l))) <+: slice s l e :=
          slice_pre hl0 (by have := ed.l_le; omega) hl1
        have h2 := slice_length (S := s) hl0
          (by have := ed.l_le; omega : l ≤ l + (1 + (t.sub.r - t.sub.l))) (by omega)
        exact prefix_same_length hpre h1 (by omega)
      have hjatt : Attached st j := ⟨by have := ed.j_lo; omega, ed.j_hi⟩
      have hjin : Inner st j := Or.inr ⟨n, nd, c, t, hn.1, hnd, hm, ed.tgt, hfin⟩
      have hlabj : lab j = lab n ++ slice s l (l + (1 + (t.sub.r - t.sub.l))) := by
        rw [ed.lab_eq, hlabel]
      unfold canonizeLoop
      simp only
      rw [if_pos hd]
      by_cases hl2 : l + (1 + (t.sub.r - t.sub.l)) ≤ e - 1
      · rw [if_pos hl2]
        obtain ⟨c1, hc1⟩ := strAt_some_lt (S := s) (i := l + (1 + (t.sub.r - t.sub.l)))
          (by have := ed.l_le; omega) (by omega)
        rw [hc1, ed.tgt]
        simp only
        obtain ⟨ndj, hndj⟩ := hjatt.node
        rw [find_alpha_node c1 hjatt.1 hndj]
        simp only
        have hw2 : InW st lab (lab j ++ slice s (l + (1 + (t.sub.r - t.sub.l))) e) := by
          rw [hlabj, List.append_assoc,
            slice_append hl0 (by have := ed.l_le; omega) hl1]
          exact hw
        obtain ⟨rp, hrp, n1, p1, p2, p3, p4, p5, p6, p7, p8⟩ :=
          ih j (l + (1 + (t.sub.r - t.sub.l))) c1 _ (by have := ed.l_le; push_cast at hf ⊢; omega)
            hjatt hjin (by have := ed.l_le; omega) (by omega) hw2 hc1
            (find_alpha_node c1 hjatt.1 hndj)
        refine ⟨rp, hrp, n1, p1, p2, p3, p4, by have := ed.l_le; omega, p6, ?_, p8⟩
        rw [p7, hlabj, List.append_assoc,
          slice_append hl0 (by have := ed.l_le; omega) p5]
      · rw [if_neg hl2, ed.tgt]
        have hfuel : 0 < fuel := by
          by_contra hz
          have : fuel = 0 := by omega
          subst this
          simp at hf
          omega
        obtain ⟨f1, rfl⟩ : ∃ f1, fuel = f1 + 1 := ⟨fuel - 1, by omega⟩
        rw [canonizeLoop_exit f1 (by have := ed.l_le; omega)]
        refine ⟨_, rfl, j, rfl, rfl, hjatt, hjin, by have := ed.l_le; simp only; omega,
          by simp only; omega, hlabj, ?_⟩
        intro _
        left
        simp only
        omega
    · -- the span ends inside the edge
      unfold canonizeLoop
      simp only
      rw [if_neg hd]
      refine ⟨_, rfl, n, rfl, rfl, hn, hin, le_refl _, le_of_lt hle, ?_, ?_⟩
      · simp only
        rw [slice_self, List.append_nil]
      · intro hes
        right
        simp only
        have hstrict : e - l < (labelOf S t.sub).length := by
          by_contra hge
          have hpre : labelOf S t.sub <+: slice s l e := by
            rcases hcmp with hh | hh
            · have := hh.eq_of_length (le_antisymm hh.length_le (by omega))
              rw [this]
            · exact hh
          have hopen : t.sub.r = INT_MAX := by
            by_contra hfin
            have hE : edgeEnd S t.sub = t.sub.r + 1 := by simp [edgeEnd, hfin]
            rw [hE] at hll
            omega
          have hE : edgeEnd S t.sub = S.length := by simp [edgeEnd, hopen]
          rw [hE] at hll
          have h5 : strAt (labelOf S t.sub) ((S.length : Int) - t.sub.l - 1)
              = some END_TOKEN := by
            unfold labelOf
            rw [hE]
            exact slice_last_sentinel hS ed.l_lo ed.l_hi
          have h6 := strAt_prefix hpre (i := (S.length : Int) - t.sub.l - 1)
            (by have := ed.l_hi; omega) (by omega)
          rw [h5, strAt_slice hl0 (by have := ed.l_hi; omega) (by omega) he] at h6
          exact hs.not_last (i := l + ((S.length : Int) - t.sub.l - 1))
            (by have := ed.l_hi; omega) (by omega) h6.symm
        refine ⟨hle, nd, c, t, j, S, hc, hnd, hm, ed, ?_, hstrict⟩
        rcases hcmp with hh | hh
        · exact hh
        · exfalso
          have := hh.length_le
          omega

theorem canonize_spec_node {st : Tree} {lab : Nat → List Char} {s : List Char} {id l e : Int}
    {n : Nat} {fuel : Nat} (h : WFL st lab) (hs : mapFind id st.haystack = some s)
    (he : e ≤ s.length) (hf : e - l < fuel) (hn : Attached st n) (hin : Inner st n)
    (hl0 : 0 ≤ l) (hle : l ≤ e) (hw : InW st lab (lab n ++ slice s l e)) :
    ∃ rp : ReferencePoint, canonize fuel st (some n) ⟨id, l, e - 1⟩ = some (st, rp) ∧
      CanonPost st lab s id (lab n) l e rp := by
  unfold canonize
  simp only
  by_cases hemp : e - 1 < l
  · rw [if_pos hemp]
    have e1 : l = e := by omega
    subst e1
    refine ⟨_, rfl, n, rfl, rfl, hn, hin, le_refl _, le_refl _, ?_, fun _ => Or.inl rfl⟩
    simp only
    rw [slice_self, List.append_nil]
  · rw [if_neg hemp, haystackIndex_eq hs]
    simp only
    obtain ⟨c, hc⟩ := strAt_some_lt (S := s) (i := l) hl0 (by omega)
    obtain ⟨nd, hnd⟩ := hn.node
    rw [hc]
    simp only
    rw [find_alpha_node c hn.1 hnd]
    simp only
    obtain ⟨rp, hrp, hpost⟩ := @canonizeLoop_spec _ _ _ id _ h (h.strs _ _ hs) he fuel n l c _ hf
      hn hin hl0 (by omega) hw hc (find_alpha_node c hn.1 hnd)
    rw [hrp]
    exact ⟨rp, rfl, hpost⟩

theorem canonize_sink_empty {st : Tree} {id l : Int} (fuel : Nat) :
    canonize fuel st (some sinkId) ⟨id, l, l - 1⟩ = some (st, ⟨some sinkId, id, l⟩) := by
  unfold canonize
  simp only
  rw [if_pos (by omega)]

theorem canonize_spec_sink {st : Tree} {lab : Nat → List Char} {s : List Char} {id l e : Int}
    {fuel : Nat} (h : WFL st lab) (hs : mapFind id st.haystack = some s)
    (he : e ≤ s.length) (hf : e - l + 1 < fuel) (hl0 : 0 ≤ l) (hle : l < e)
    (hw : InW st lab (slice s (l + 1) e)) :
    ∃ rp : ReferencePoint, canonize fuel st (some sinkId) ⟨id, l, e - 1⟩ = some (st, rp) ∧
      CanonPost st lab s id [] (l + 1) e rp := by
  unfold canonize
  simp only
  rw [if_neg (by omega), haystackIndex_eq hs]
  simp only
  obtain ⟨c, hc⟩ := strAt_some_lt (S := s) (i := l) hl0 (by omega)
  rw [hc]
  simp only
  rw [find_alpha_sink h c]
  simp only
  obtain ⟨f1, rfl⟩ : ∃ f1, fuel = f1 + 1 := ⟨fuel - 1, by omega⟩
  have hroot := h.root_attached
  have hrin : Inner st rootId := Or.inl rfl
  unfold canonizeLoop
  simp only
  rw [if_pos (by omega)]
  by_cases hl2 : l + (1 + (0 - 0)) ≤ e - 1
  · rw [if_pos hl2]
    have e1 : l + (1 + (0 - 0)) = l + 1 := by omega
    rw [e1] at hl2 ⊢
    obtain ⟨c1, hc1⟩ := strAt_some_lt (S := s) (i := l + 1) (by omega) (by omega)
    obtain ⟨ndr, hndr⟩ := hroot.node
    rw [hc1]
    simp only
    rw [find_alpha_node c1 hroot.1 hndr]
    simp only
    have hw2 : InW st lab (lab rootId ++ slice s (l + 1) e) := by
      rw [h.lab_root]
      exact hw
    obtain ⟨rp, hrp, hpost⟩ := @canonizeLoop_spec _ _ _ id _ h (h.strs _ _ hs) he f1 rootId
      (l + 1) c1 _ (by push_cast at hf; omega) hroot hrin (by omega) (by omega) hw2 hc1
      (find_alpha_node c1 hroot.1 hndr)
    rw [hrp]
    refine ⟨rp, rfl, ?_⟩
    rw [h.lab_root] at hpost
    exact hpost
  · rw [if_neg hl2]
    have e1 : l + (1 + (0 - 0)) = l + 1 := by omega
    rw [e1] at hl2 ⊢
    obtain ⟨f2, rfl⟩ : ∃ f2, f1 = f2 + 1 := ⟨f1 - 1, by push_cast at hf; omega⟩
    rw [canonizeLoop_exit f2 (by simp only; omega)]
    refine ⟨_, rfl, rootId, rfl, rfl, hroot, hrin, le_refl _, by simp only; omega, ?_, ?_⟩
    · simp only
      rw [slice_self, h.lab_root, List.append_nil]
    · intro _
      left
      simp only
      omega

/-! ## Specification of `test_and_split` -/

theorem modify_eq {st : Tree} {i : Nat} {nd : Node} (f : Node → Node)
    (h : st.nodes[i]? = some nd) : st.modify (some i) f = some (st.setNode i (f nd)) := by
  unfold Tree.modify
  simp only [h]

theorem mark_string_g (nd : Node) (id : Int) : (nd.mark_string id).g = nd.g := by
  unfold Node.mark_string
  split <;> rfl

theorem mark_string_link (nd : Node) (id : Int) :
    (nd.mark_string id).suffix_link = nd.suffix_link := by
  unfold Node.mark_string
  split <;> rfl

theorem ts_empty_none {st : Tree} {n : Nat} {nd : Node} {id l e : Int} {t : Char}
    {w : List Char} (hn : 1 ≤ n) (hnd : st.nodes[n]? = some nd) (hle : e ≤ l)
    (hm : mapFind t nd.g = none) :
    test_and_split st (some n) ⟨id, l, e - 1⟩ t w = some (st, false, some n) := by
  unfold test_and_split
  simp only
  rw [if_pos (by omega), find_alpha_node t hn hnd, hm]
  simp [Transition.is_valid]

theorem ts_empty_some {st : Tree} {n j : Nat} {nd ndj : Node} {id l e : Int} {t : Char}
    {tt : Transition} {w : List Char} (hn : 1 ≤ n) (hnd : st.nodes[n]? = some nd)
    (hle : e ≤ l) (hid : 0 < id) (hm : mapFind t nd.g = some tt) (ht : tt.tgt = some j)
    (hj : st.nodes[j]? = some ndj) :
    test_and_split st (some n) ⟨id, l, e - 1⟩ t w =
      some (st.setNode j (ndj.mark_string id), true, some n) := by
  unfold test_and_split
  simp only
  rw [if_pos (by omega), find_alpha_node t hn hnd, hm]
  simp only [Transition.is_valid, ht, Option.isSome_some, true_and]
  rw [if_pos (by omega), modify_eq _ hj]

theorem ts_empty_sink {st : Tree} {lab : Nat → List Char} {ndr : Node} {id l e : Int}
    {t : Char} {w : List Char} (h : WFL st lab) (hle : e ≤ l) (hid : 0 < id)
    (hr : st.nodes[rootId]? = some ndr) :
    test_and_split st (some sinkId) ⟨id, l, e - 1⟩ t w =
      some (st.setNode rootId (ndr.mark_string id), true, some sinkId) := by
  unfold test_and_split
  simp only
  rw [if_pos (by omega), find_alpha_sink h t]
  simp only [Transition.is_valid, Option.isSome_some, true_and]
  rw [if_pos (by omega), modify_eq _ hr]

theorem ts_inner_hit {st : Tree} {n : Nat} {nd : Node} {id l e : Int} {t c : Char}
    {t0 : Transition} {S w : List Char} (hn : 1 ≤ n) (hnd : st.nodes[n]? = some nd)
    (hle : l < e) (hc : strAt w l = some c) (hm : mapFind c nd.g = some t0)
    (hS : mapFind t0.sub.ref_str st.haystack = some S)
    (hb : strAt S (t0.sub.l + (e - 1 - l) + 1) = some t) :
    test_and_split st (some n) ⟨id, l, e - 1⟩ t w = some (st, true, some n) := by
  unfold test_and_split
  simp only
  rw [if_neg (by omega), hc]
  simp only
  rw [find_alpha_node c hn hnd, hm]
  simp only
  rw [hS]
  simp only
  rw [hb]
  simp

theorem ts_inner_split {st : Tree} {n : Nat} {nd : Node} {id l e : Int} {t c b : Char}
    {t0 : Transition} {S w : List Char} (hn : 1 ≤ n) (hnd : st.nodes[n]? = some nd)
    (hle : l < e) (hc : strAt w l = some c) (hm : mapFind c nd.g = some t0)
    (hS : mapFind t0.sub.ref_str st.haystack = some S)
    (hb : strAt S (t0.sub.l + (e - 1 - l) + 1) = some b) (hne : b ≠ t) :
    test_and_split st (some n) ⟨id, l, e - 1⟩ t w =
      some (splitEdge st n nd c b t0 (e - 1 - l), false, some st.nodes.length) := by
  unfold test_and_split
  simp only
  rw [if_neg (by omega), hc]
  simp only
  rw [find_alpha_node c hn hnd, hm]
  simp only
  rw [hS]
  simp only
  rw [hb]
  simp only
  rw [if_neg hne]
  have e1 : t0.sub.l + (e - 1 - l + 1) = t0.sub.l + (e - 1 - l) + 1 := by omega
  rw [e1, hb]
  simp only
  rw [alloc_snd, modify_eq _ (nodes_alloc_new st)]
  simp only
  have hlt := lt_of_getElem? hnd
  rw [@modify_eq _ _ nd _
    (by rw [nodes_setNode_ne _ (by omega), nodes_alloc_lt hlt]; exact hnd)]
  simp only [splitEdge, e1]

theorem Ext.refl1 (st : Tree) (lab : Nat → List Char) : Ext st lab st lab :=
  ⟨rfl, le_refl _, fun _ _ => rfl, fun _ h => h, fun _ h => h, fun _ h => h⟩

theorem Ext.comp {a b c : Tree} {la lb lc : Nat → List Char} (h1 : Ext a la b lb)
    (h2 : Ext b lb c lc) : Ext a la c lc :=
  ⟨h2.hay.trans h1.hay, le_trans h1.len h2.len,
    fun m hm => (h2.lab_old m (lt_of_lt_of_le hm h1.len)).trans (h1.lab_old m hm),
    fun w hw => h2.inw w (h1.inw w hw), fun v hv => h2.inner v (h1.inner v hv),
    fun v hv => h2.link v (h1.link v hv)⟩

theorem Ext.keeps_attached {st st1 : Tree} {lab lab1 : Nat → List Char} (h : Ext st lab st1 lab1)
    {n : Nat} (hn : Attached st n) : Attached st1 n := ⟨hn.1, lt_of_lt_of_le hn.2 h.len⟩

/-- Colour writes are extensions that change nothing of the structure. -/
theorem Ext.of_mark {st : Tree} {lab : Nat → List Char} {i : Nat} {nd : Node} (id : Int)
    (hi : st.nodes[i]? = some nd) : Ext st lab (st.setNode i (nd.mark_string id)) lab :=
  ⟨rfl, by rw [length_setNode], fun _ _ => rfl,
    fun w hw => (InW_frame (length_setNode _ _ _) w).mpr hw,
    fun v hv => (Inner_setNode_same hi (mark_string_g nd id) v).mpr hv,
    fun v hv => LinkOK_setNode_same hv hi (mark_string_g nd id) (fun _ => mark_string_link nd id)⟩

theorem Ext.of_splitEdge {st : Tree} {lab : Nat → List Char} (h : WFL st lab) {n x : Nat}
    {nd : Node} {tk key : Char} {t : Transition} {S : List Char} {delta : Int}
    (hn : Attached st n) (hnd : st.nodes[n]? = some nd) (hm : mapFind tk nd.g = some t)
    (e : EdgeOK st lab n tk t x S) (hd0 : 0 ≤ delta)
    (hd1 : t.sub.l + delta + 1 < edgeEnd S t.sub) :
    Ext st lab (SuffixTree.splitEdge st n nd tk key t delta)
      (setLab lab st.nodes.length (lab n ++ slice S t.sub.l (t.sub.l + delta + 1))) :=
  ⟨rfl, by rw [splitEdge_length]; omega, fun m hm => setLab_ne lab _ (by omega),
    fun w hw => (InW_splitEdge h e hd0 hd1 w).mpr hw,
    fun v hv => Inner_splitEdge_old hn hnd hm e.tgt h.len hv,
    fun v hv => LinkOK_splitEdge hv hn hnd hm e.tgt h.len⟩

theorem Ext.of_addLeaf {st : Tree} {lab : Nat → List Char} (h : WFL st lab) {r : Nat} {nd : Node}
    {c : Char} {ref l : Int} {lw : List Char} (hr : Attached st r)
    (hnd : st.nodes[r]? = some nd) (hfree : mapFind c nd.g = none) :
    Ext st lab (SuffixTree.addLeaf st r nd c ⟨ref, l, INT_MAX⟩) (setLab lab st.nodes.length lw) :=
  ⟨rfl, by rw [addLeaf_length]; omega, fun m hm => setLab_ne lab _ (by omega),
    fun w hw => (InW_addLeaf h w).mpr (Or.inl hw),
    fun v hv => (Inner_addLeaf hr.2 hnd hfree v).mpr hv,
    fun v hv => LinkOK_addLeaf hv hr.2 hnd hfree⟩

theorem Canon.lift_canon {st st1 : Tree} {lab lab1 : Nat → List Char} {s : List Char} {n : Nat}
    {l e : Int} (h : Canon st lab s n l e)
    (hk : ∀ (nd : Node) (c : Char) (t : Transition) (j : Nat) (S : List Char),
      st.nodes[n]? = some nd → mapFind c nd.g = some t → EdgeOK st lab n c t j S →
      ∃ nd1 : Node, st1.nodes[n]? = some nd1 ∧ mapFind c nd1.g = some t ∧
        EdgeOK st1 lab1 n c t j S) : Canon st1 lab1 s n l e := by
  rcases h with h | ⟨hl, nd, c, t, j, S, hc, hnd, hm, ed, hp, hlen⟩
  · exact Or.inl h
  · obtain ⟨nd1, h1, h2, h3⟩ := hk nd c t j S hnd hm ed
    exact Or.inr ⟨hl, nd1, c, t, j, S, hc, h1, h2, h3, hp, hlen⟩

theorem Inner.has_child {st : Tree} {lab : Nat → List Char} (h : WFL st lab) {n : Nat}
    {nd : Node} (hin : Inner st n) (hr : n ≠ rootId) (hnd : st.nodes[n]? = some nd) :
    ∃ (c1 : Char) (t1 : Transition), mapFind c1 nd.g = some t1 := by
  rcases hin with hin | ⟨n0, nd0, c0, t0, hn0, hnd0, hm0, ht0, hfin⟩
  · exact absurd hin hr
  · obtain ⟨x, S, e⟩ := h.edges n0 nd0 c0 t0 hn0 hnd0 hm0
    have ex : x = n := by
      have := e.tgt
      rw [ht0] at this
      exact (Option.some.inj this).symm
    subst ex
    obtain ⟨ndx, c1, t1, hx, hm1⟩ := e.child hfin
    rw [hnd] at hx
    obtain rfl := Option.some.inj hx
    exact ⟨c1, t1, hm1⟩

/-- What `test_and_split` does at a canonical position `(n, p..j-1)` whose word
is `s[k..j)`, asked about the byte `t = s[j]`. -/
theorem ts_spec {st : Tree} {lab : Nat → List Char} {s : List Char} {id j p k : Int} {t : Char}
    {n : Nat} (h : WFL st lab) (hs : mapFind id st.haystack = some s) (hid : 0 < id)
    (ht : strAt s j = some t) (hj : j < s.length) (hn : Attached st n) (hin : Inner st n)
    (hk0 : 0 ≤ k) (hkp : k ≤ p) (hpj : p ≤ j) (hlab : lab n = slice s k p)
    (hc : Canon st lab s n p j) :
    ∃ (st1 : Tree) (lab1 : Nat → List Char) (ep : Bool) (r : Option Nat),
      test_and_split st (some n) ⟨id, p, j - 1⟩ t s = some (st1, ep, r) ∧ WFL st1 lab1 ∧
      Ext st lab st1 lab1 ∧ (∀ w : List Char, InW st1 lab1 w → InW st lab w) ∧
      (∀ ex : Nat → Prop, LinksOK st lab ex →
        LinksOK st1 lab1 (fun v => ex v ∨ (ep = false ∧ r = some v))) ∧
      (ep = true → InW st1 lab1 (slice s k (j + 1)) ∧ Canon st1 lab1 s n p j) ∧
      (ep = false → ∃ (rn : Nat) (ndr : Node), r = some rn ∧ Attached st1 rn ∧ Inner st1 rn ∧
        lab1 rn = slice s k j ∧ st1.nodes[rn]? = some ndr ∧ mapFind t ndr.g = none ∧
        (rn = rootId ∨ ∃ c : Char, c ≠ t ∧ InW st1 lab1 (lab1 rn ++ [c]))) := by
  have hS := h.strs _ _ hs
  have hsmall := hS.small
  obtain ⟨nd, hnd⟩ := hn.node
  have hsn : slice s k (j + 1) = slice s k j ++ [t] := slice_snoc hk0 (by omega) hj ht
  rcases hc with hc | ⟨hlt, nd0, c, t0, x, S, hc, hnd0, hm, ed, hpre, hlen⟩
  · subst hc
    cases hm : mapFind t nd.g with
    | none =>
      refine ⟨st, lab, false, some n, ts_empty_none hn.1 hnd (le_refl _) hm, h, Ext.refl1 _ _,
        fun _ hw => hw, fun ex hl => LinksOK_mono hl (fun v hv => Or.inl hv),
        fun e => by simp at e, fun _ => ⟨n, nd, rfl, hn, hin, hlab, hnd, hm, ?_⟩⟩
      by_cases hr : n = rootId
      · exact Or.inl hr
      · right
        obtain ⟨c1, t1, hm1⟩ := hin.has_child h hr hnd
        refine ⟨c1, ?_, (h.node_step hn hnd).mpr ⟨t1, hm1⟩⟩
        rintro rfl
        rw [hm] at hm1
        cases hm1
    | some tt =>
      obtain ⟨x, S, e⟩ := h.edges n nd t tt hn.1 hnd hm
      have hx : Attached st x := ⟨by have := e.j_lo; omega, e.j_hi⟩
      obtain ⟨ndx, hndx⟩ := hx.node
      have hw1 : WFL (st.setNode x (ndx.mark_string id)) lab :=
        h.setNode_same hndx (mark_string_g _ _) (fun _ => mark_string_link _ _)
      have hext : Ext st lab (st.setNode x (ndx.mark_string id)) lab := Ext.of_mark id hndx
      refine ⟨_, lab, true, some n, ts_empty_some hn.1 hnd (le_refl _) hid hm e.tgt hndx, hw1,
        hext, fun w hw => (InW_frame (length_setNode _ _ _) w).mp hw, ?_, fun _ => ⟨?_, Or.inl rfl⟩,
        fun e => by simp at e⟩
      · intro ex hl
        exact LinksOK_mono (LinksOK_setNode_same hl hndx (mark_string_g _ _)
          (mark_string_link _ _)) (fun v hv => Or.inl hv)
      · apply hext.inw
        rw [hsn, ← hlab]
        exact (h.node_step hn hnd).mpr ⟨tt, hm⟩
  · rw [hnd] at hnd0
    obtain rfl := Option.some.inj hnd0
    have hS0 := h.strs _ _ ed.ref
    have hend := ed.end_gt hS0
    have hllen := ed.label_len hS0
    have hsl : ((slice s p j).length : Int) = j - p := slice_length (by omega) (by omega) (by omega)
    have hsmall0 := hS0.small
    -- the part of the edge label that is matched
    have hmatch : slice s p j = slice S t0.sub.l (t0.sub.l + (j - p)) := by
      apply prefix_same_length hpre (slice_pre ed.l_lo (by omega) (by omega))
      have := slice_length (S := S) (a := t0.sub.l) (b := t0.sub.l + (j - p)) ed.l_lo (by omega)
        (by omega)
      omega
    obtain ⟨b, hb⟩ := strAt_some_lt (S := S) (i := t0.sub.l + (j - p)) (by have := ed.l_lo; omega)
      (by omega)
    have hb1 : strAt S (t0.sub.l + (j - 1 - p) + 1) = some b := by
      rw [← hb]
      congr 1
      omega
    have hnext : slice S t0.sub.l (t0.sub.l + (j - p) + 1) = slice s p j ++ [b] := by
      rw [hmatch]
      exact slice_snoc ed.l_lo (by omega) (by omega) hb
    have hwnext : InW st lab (slice s k j ++ [b]) := by
      refine InW_prefix (InW_edge ed) ?_
      rw [← slice_append (S := s) hk0 hkp hpj, ← hlab, List.append_assoc, ← hnext]
      exact (List.prefix_append_right_inj _).mpr (slice_pre ed.l_lo (by omega) (by omega))
    by_cases hbt : b = t
    · subst hbt
      refine ⟨st, lab, true, some n, ts_inner_hit hn.1 hnd hlt hc hm ed.ref hb1, h, Ext.refl1 _ _,
        fun _ hw => hw, fun ex hl => LinksOK_mono hl (fun v hv => Or.inl hv),
        fun _ => ⟨?_, Or.inr ⟨hlt, nd, c, t0, x, S, hc, hnd, hm, ed, hpre, hlen⟩⟩,
        fun e => by simp at e⟩
      rw [hsn]
      exact hwnext
    · have hd1 : t0.sub.l + (j - 1 - p) + 1 < edgeEnd S t0.sub := by omega
      have hd0 : (0 : Int) ≤ j - 1 - p := by omega
      have hw1 := h.split_edge hn hnd hm ed hd0 hd1 hb1
      have hext := @Ext.of_splitEdge _ _ h _ _ _ _ b _ _ _ hn hnd hm ed hd0 hd1
      have hlabeq : lab n ++ slice S t0.sub.l (t0.sub.l + (j - 1 - p) + 1) = slice s k j := by
        have e1 : t0.sub.l + (j - 1 - p) + 1 = t0.sub.l + (j - p) := by omega
        rw [e1, ← hmatch, hlab]
        exact slice_append hk0 hkp hpj
      refine ⟨_, _, false, some st.nodes.length,
        ts_inner_split hn.1 hnd hlt hc hm ed.ref hb1 hbt, hw1, hext,
        fun w hw => (InW_splitEdge h ed hd0 hd1 w).mp hw, ?_, fun e => by simp at e,
        fun _ => ⟨st.nodes.length, _, rfl, ⟨by have := h.len; omega, by
          rw [splitEdge_length]; omega⟩, Inner_splitEdge_new hn (by have : INT_MAX = 2147483647 := rfl; omega), ?_,
          splitEdge_nodes_new nd c b t0 (j - 1 - p) hn.2, ?_, Or.inr ⟨b, hbt, ?_⟩⟩⟩
      · intro ex hl
        exact LinksOK_mono (LinksOK_splitEdge hl hn hnd hm ed.tgt h.len)
          (fun v hv => hv.elim Or.inl (fun e => Or.inr ⟨rfl, by rw [e]⟩))
      · rw [setLab_eq]
        exact hlabeq
      · simp only [mapFind]
        rw [if_neg hbt]
      · have h9 := hext.inw _ hwnext
        rw [setLab_eq]
        rw [hlabeq] at h9 ⊢
        exact h9

/-! ## The words of the tree during the insertion of one string -/

/-- A word of the tree that is not one of the long new words keeps being a
word without its first byte. -/
theorem PhaseInv.tail_closed {st : Tree} {lab : Nat → List Char} {s : List Char} {id : Int}
    {OldW : List Char → Prop} {j k : Int} (P : PhaseInv st lab s id OldW j k)
    (htail : ∀ (c : Char) (w : List Char), OldW (c :: w) → OldW w) {c : Char} {w : List Char}
    (hw : InW st lab (c :: w))
    (hnot : ∀ k0 : Int, 0 ≤ k0 → k0 < k → c :: w <+: slice s k0 s.length →
      ((c :: w).length : Int) ≤ j - k0) : InW st lab w := by
  have hj := P.j_hi
  have hk := P.k_hi
  rcases P.desc _ hw with ho | ⟨k0, h0, h1, hp⟩
  · exact P.mono _ (htail c w ho)
  · have hl := hnot k0 h0 h1 hp
    have hlen : ((c :: w).length : Int) = (w.length : Int) + 1 := by simp
    have e1 : c :: w = slice s k0 (k0 + (w.length + 1)) := by
      apply prefix_same_length hp (slice_pre h0 (by omega) (by omega))
      have := slice_length (S := s) (a := k0) (b := k0 + (w.length + 1)) h0 (by omega) (by omega)
      omega
    obtain ⟨c1, hc1⟩ := strAt_some_lt (S := s) (i := k0) h0 (by omega)
    rw [slice_head h0 (by omega) (by omega) hc1] at e1
    have e2 : w = slice s (k0 + 1) (k0 + (w.length + 1)) := (List.cons.inj e1).2
    rw [e2]
    exact P.subs _ _ (by omega) (by omega) (by omega)

/-- Moving the invariant to a state with the same words. -/
theorem PhaseInv.transport {st st1 : Tree} {lab lab1 : Nat → List Char} {s : List Char}
    {id : Int} {OldW : List Char → Prop} {j k : Int} (P : PhaseInv st lab s id OldW j k)
    (h1 : WFL st1 lab1) (hh : st1.haystack = st.haystack)
    (hw : ∀ w : List Char, InW st1 lab1 w ↔ InW st lab w) : PhaseInv st1 lab1 s id OldW j k :=
  ⟨h1, by rw [hh]; exact P.hs, P.idpos, fun w ho => (hw w).mpr (P.mono w ho),
    fun w h => P.desc w ((hw w).mp h), fun k0 a b => (hw _).mpr (P.leaves k0 a b),
    fun a b x y z => (hw _).mpr (P.subs a b x y z), P.k_lo, P.k_hi, P.j_lo, P.j_hi⟩

/-- The new leaf for the suffix that starts at `k`. -/
theorem PhaseInv.grow {st st1 : Tree} {lab lab1 : Nat → List Char} {s : List Char}
    {id : Int} {OldW : List Char → Prop} {j k : Int} (P : PhaseInv st lab s id OldW j k)
    (h1 : WFL st1 lab1) (hh : st1.haystack = st.haystack) (hkj : k ≤ j)
    (hw : ∀ w : List Char, InW st1 lab1 w ↔ InW st lab w ∨ w <+: slice s k s.length) :
    PhaseInv st1 lab1 s id OldW j (k + 1) := by
  have hk := P.k_lo
  refine ⟨h1, by rw [hh]; exact P.hs, P.idpos, fun w ho => (hw w).mpr (Or.inl (P.mono w ho)),
    ?_, ?_, fun a b x y z => (hw _).mpr (Or.inl (P.subs a b x y z)), by omega, by omega,
    P.j_lo, P.j_hi⟩
  · intro w h
    rcases (hw w).mp h with h2 | h2
    · rcases P.desc w h2 with h3 | ⟨k0, a, b, c⟩
      · exact Or.inl h3
      · exact Or.inr ⟨k0, a, by omega, c⟩
    · exact Or.inr ⟨k, hk, by omega, h2⟩
  · intro k0 a b
    by_cases e : k0 = k
    · subst e
      exact (hw _).mpr (Or.inr (List.prefix_refl _))
    · exact (hw _).mpr (Or.inl (P.leaves k0 a (by omega)))

/-- The end of a phase: once the word `s[k..j]` is in the tree, so are all
substrings of `s[0..j]`. -/
theorem PhaseInv.next {st : Tree} {lab : Nat → List Char} {s : List Char} {id : Int}
    {OldW : List Char → Prop} {j k : Int} (P : PhaseInv st lab s id OldW j k)
    (htail : ∀ (c : Char) (w : List Char), OldW (c :: w) → OldW w) (hj : j < s.length)
    (hw : InW st lab (slice s k (j + 1))) : PhaseInv st lab s id OldW (j + 1) k := by
  have hk := P.k_lo
  have hk1 := P.k_hi
  have key : ∀ (d : Nat), k + d ≤ j + 1 → InW st lab (slice s (k + d) (j + 1)) := by
    intro d
    induction d with
    | zero =>
      intro _
      simpa using hw
    | succ d ih =>
      intro hd
      have h1 := ih (by push_cast at hd ⊢; omega)
      obtain ⟨c, hc⟩ := strAt_some_lt (S := s) (i := k + d) (by omega)
        (by push_cast at hd ⊢; omega)
      rw [slice_head (by omega) (by push_cast at hd ⊢; omega) (by push_cast at hd ⊢; omega) hc]
        at h1
      have e : k + (d : Int) + 1 = k + ((d + 1 : Nat) : Int) := by push_cast; omega
      rw [e] at h1
      refine P.tail_closed htail h1 ?_
      intro k0 h0 hk0 _
      have hl : (((c :: slice s (k + ((d + 1 : Nat) : Int)) (j + 1)).length : Nat) : Int)
          = j + 1 - (k + d) := by
        rw [List.length_cons]
        have := slice_length (S := s) (a := k + ((d + 1 : Nat) : Int)) (b := j + 1) (by omega)
          (by omega) (by omega)
        push_cast at this ⊢
        omega
      rw [hl]
      omega
  refine ⟨P.wfl, P.hs, P.idpos, P.mono, P.desc, P.leaves, ?_, P.k_lo, by omega, by have := P.j_lo; omega,
    by omega⟩
  intro a b ha hab hb
  by_cases e1 : b ≤ j
  · exact P.subs a b ha hab e1
  · have e2 : b = j + 1 := by omega
    subst e2
    by_cases e3 : a < k
    · exact InW_prefix (P.leaves a ha e3) (slice_pre ha hab (by omega))
    · have := key (a - k).toNat (by omega)
      have e4 : k + ((a - k).toNat : Int) = a := by omega
      rw [e4] at this
      exact this

theorem LinksOK_mono_root {st : Tree} {lab : Nat → List Char} {ex ex1 : Nat → Prop}
    (h : LinksOK st lab ex) (hm : ∀ v : Nat, ex v → v ≠ rootId → ex1 v) : LinksOK st lab ex1 :=
  fun v hv hne hex => h v hv hne (fun e => hex (hm v e hne))

/-- Writing a correct suffix link is an extension. -/
theorem Ext.of_setLink {st : Tree} {lab : Nat → List Char} {i u : Nat} {nd : Node} {c : Char}
    (hi : st.nodes[i]? = some nd) (hu : Attached st u) (hin : Inner st u)
    (hlab : lab i = c :: lab u) :
    Ext st lab (st.setNode i { nd with suffix_link := some u }) lab := by
  have hinner : ∀ v : Nat, Inner st v → Inner (st.setNode i { nd with suffix_link := some u }) v :=
    fun v hv => (@Inner_setNode_same st i nd { nd with suffix_link := some u } hi rfl v).mpr hv
  refine ⟨rfl, by rw [length_setNode], fun _ _ => rfl,
    fun w hw => (InW_frame (length_setNode _ _ _) w).mpr hw, hinner, ?_⟩
  intro v hv
  by_cases e : v = i
  · subst e
    exact ⟨_, u, c, nodes_setNode_eq _ (lt_of_getElem? hi), rfl,
      ⟨hu.1, by rw [length_setNode]; exact hu.2⟩, hinner u hin, hlab⟩
  · exact LinkOK_setNode_same hv hi rfl (fun e1 => absurd e1 e)

/-- At an end point below an explicit node created in the same phase, the
active position is itself an explicit node. -/
theorem LoopInv.exit_node {st : Tree} {lab : Nat → List Char} {s : List Char} {id : Int}
    {OldW : List Char → Prop} {j : Int} {t : Char} {k : Int} {o n : Nat} {p : Int}
    (P : PhaseInv st lab s id OldW j k)
    (htail : ∀ (c : Char) (w : List Char), OldW (c :: w) → OldW w)
    (hj : j < s.length) (ht : strAt s j = some t) (hk1 : 1 ≤ k) (hkp : k ≤ p) (hpj : p ≤ j)
    (hol : lab o = slice s (k - 1) j) {c : Char} (hct : c ≠ t)
    (hoc : InW st lab (lab o ++ [c])) (hit : InW st lab (slice s k (j + 1)))
    (hn : Attached st n) (hlab : lab n = slice s k p) (hc : Canon st lab s n p j) :
    p = j ∧ ∃ c0 : Char, lab o = c0 :: lab n := by
  have h := P.wfl
  have hS := h.strs _ _ P.hs
  obtain ⟨c0, hc0⟩ := strAt_some_lt (S := s) (i := k - 1) (by omega) (by omega)
  have e1 : k - 1 + 1 = k := by omega
  have hol1 : lab o = c0 :: slice s k j := by
    rw [hol, slice_head (by omega) (by omega) (by omega) hc0, e1]
  have hsn : slice s k (j + 1) = slice s k j ++ [t] := slice_snoc (by omega) (by omega) hj ht
  have hgl : ((slice s k j).length : Int) = j - k := slice_length (by omega) (by omega) (by omega)
  -- the word of `o` without its first byte continues with `c`
  have hgc : InW st lab (slice s k j ++ [c]) := by
    rw [hol1] at hoc
    refine P.tail_closed htail hoc ?_
    intro k0 h0 hk0 hp
    have hlen : (((c0 :: (slice s k j ++ [c])).length : Nat) : Int) = j - k + 2 := by
      simp only [List.cons_append, List.length_cons, List.length_append, List.length_nil]
      push_cast
      omega
    rw [hlen]
    by_contra hcon
    have e2 : k0 = k - 1 := by omega
    subst e2
    have h2 : c0 :: (slice s k j ++ [c]) = slice s (k - 1) (j + 1) := by
      apply prefix_same_length hp (slice_pre (by omega) (by omega) (by omega))
      have := slice_length (S := s) (a := k - 1) (b := j + 1) (by omega) (by omega) (by omega)
      omega
    rw [slice_snoc (by omega) (by omega) hj ht, ← hol, hol1] at h2
    have h3 : c = t := by simpa using h2
    exact hct h3
  rw [hsn] at hit
  obtain ⟨v, hv, hvl⟩ := h.branching hgc hit hct
  have hp : p = j := by
    rcases hc with hc | ⟨hlt, nd, c1, t0, x, S, hc1, hnd, hm, ed, hpre, hlen⟩
    · exact hc
    · exfalso
      have hsplit : lab v = lab n ++ c1 :: slice s (p + 1) j := by
        rw [hvl, hlab, ← slice_head (by omega) hlt (by omega) hc1]
        exact (slice_append (by omega) hkp hpj).symm
      have hpv : lab n ++ [c1] <+: lab v := ⟨slice s (p + 1) j, by rw [hsplit]; simp⟩
      obtain ⟨nd1, t1, j1, S1, hnd1, hm1, ed1, hj1⟩ := h.locus hn hv hpv
      rw [hnd] at hnd1
      obtain rfl := Option.some.inj hnd1
      rw [hm] at hm1
      obtain rfl := Option.some.inj hm1
      have ex : j1 = x := by
        have := ed1.tgt
        rw [ed.tgt] at this
        exact (Option.some.inj this).symm
      subst ex
      have hl1 := hj1.length_le
      rw [ed.lab_eq, hvl, hlab] at hl1
      have hl2 : ((slice s k p).length : Int) = p - k :=
        slice_length (by omega) (by omega) (by omega)
      simp only [List.length_append] at hl1
      omega
  subst hp
  exact ⟨rfl, c0, by rw [hol1, hlab]⟩

theorem updateLoop_exit {st : Tree} {lab : Nat → List Char} {s : List Char} {id : Int}
    {OldW : List Char → Prop} {j : Int} {t : Char} {k : Int} {oldr : Option Nat}
    {sk : ReferencePoint} {r : Option Nat} (L : LoopInv st lab s id OldW j t k oldr sk true r)
    (htail : ∀ (c : Char) (w : List Char), OldW (c :: w) → OldW w) (cf fuel : Nat)
    (ki1 : MappedSubstring) :
    ∃ res : Tree × ReferencePoint,
      updateLoop cf s id j t (fuel + 1) st oldr sk ki1 true r = some res ∧
      UpdatePost s id OldW j res := by
  have h := L.phase.wfl
  have P1 := L.phase.next htail L.hj (L.hit rfl)
  have hlinks0 : oldr = some rootId → LinksOK st lab (fun _ => False) := by
    intro ho
    refine LinksOK_mono_root L.links ?_
    rintro v (hv | hv) hne
    · rw [ho] at hv
      exact hne (Option.some.inj hv).symm
    · simp at hv
  unfold updateLoop
  rw [if_pos rfl]
  by_cases ho : oldr = some rootId
  · rw [if_neg (not_not.mpr ho)]
    refine ⟨_, rfl, lab, k, P1, hlinks0 ho, ?_⟩
    rcases L.pos with ⟨h1, h2, h3, _, _⟩ | ⟨n, h1, h2, h3, h4, h5, h6, _⟩
    · exact Or.inl ⟨h1, h2, h3⟩
    · exact Or.inr ⟨n, h1, h2, h3, h4, h5, h6⟩
  · rw [if_pos ho]
    rcases L.pos with ⟨_, _, _, _, h5⟩ | ⟨n, hskn, hn, hin, hkp, hpj, hlab, _, hcan, _⟩
    · exact absurd h5 ho
    · rcases L.old with e | ⟨o, ho1, hk1, hoa, hoi, hol, c, hct, hoc⟩
      · exact absurd e ho
      · subst ho1
        obtain ⟨hp, c0, hlo⟩ := LoopInv.exit_node L.phase htail L.hj L.ht hk1 hkp hpj hol hct hoc
          (L.hit rfl) hn hlab (hcan rfl)
        obtain ⟨ndo, hndo⟩ := hoa.node
        rw [modify_eq _ hndo, hskn]
        have hne : o ≠ rootId := fun e => ho (by rw [e])
        have hw1 : WFL (st.setNode o { ndo with suffix_link := some n }) lab := by
          refine h.setNode_same hndo rfl ?_
          intro ho1
          exfalso
          have := hoa.1
          unfold rootId at hne
          omega
        have hlen := length_setNode st o { ndo with suffix_link := some n }
        refine ⟨_, rfl, lab, k, P1.transport hw1 rfl (fun w => InW_frame hlen w), ?_,
          Or.inr ⟨n, hskn, ⟨hn.1, by rw [hlen]; exact hn.2⟩,
            (@Inner_setNode_same st o ndo { ndo with suffix_link := some n } hndo rfl n).mpr hin,
            hkp, hpj, hlab⟩⟩
        refine LinksOK_mono (LinksOK_setLink L.links hndo hn hin hlo) ?_
        rintro v ⟨hv | hv, hvo⟩
        · exact hvo (Option.some.inj hv).symm
        · simp at hv

/-- Following the suffix link of the active node and canonizing: the position
of the next shorter suffix. -/
theorem link_canonize {st : Tree} {lab : Nat → List Char} {s : List Char} {id : Int}
    {OldW : List Char → Prop} {j k k1 l : Int} {n : Nat} {nd : Node} {cf : Nat}
    (P : PhaseInv st lab s id OldW j k1) (hj : j < s.length) (hk0 : 0 ≤ k)
    (hn : Attached st n) (hkl : k ≤ l) (hlj : l ≤ j) (hlab : lab n = slice s k l)
    (hlink : n = rootId ∨ LinkOK st lab n) (hnd : st.nodes[n]? = some nd)
    (hcf : j + 1 < cf) (hne : ¬ (n = rootId ∧ l = j)) :
    ∃ rp : ReferencePoint, canonize cf st nd.suffix_link ⟨id, l, j - 1⟩ = some (st, rp) ∧
      ∃ n1 : Nat, rp.node = some n1 ∧ Attached st n1 ∧ Inner st n1 ∧ k + 1 ≤ rp.pos ∧
        rp.pos ≤ j ∧ lab n1 = slice s (k + 1) rp.pos ∧ Canon st lab s n1 rp.pos j := by
  have h := P.wfl
  have hll : ((slice s k l).length : Int) = l - k := slice_length hk0 hkl (by omega)
  by_cases hroot : n = rootId
  · subst hroot
    obtain ⟨ndr, hndr, hlk⟩ := h.root_link
    rw [hnd] at hndr
    obtain rfl := Option.some.inj hndr
    rw [hlk]
    have hkl1 : l = k := by
      rw [h.lab_root] at hlab
      rw [← hlab] at hll
      simp at hll
      omega
    subst hkl1
    have hlt : l < j := by
      by_contra hcon
      exact hne ⟨rfl, by omega⟩
    obtain ⟨rp, hrp, n1, h1, h2, h3, h4, h5, h6, h7, h8⟩ :=
      @canonize_spec_sink _ _ _ id _ _ cf h P.hs (by omega : j ≤ s.length) (by omega)
        hk0 hlt (P.subs _ _ (by omega) (by omega) (le_refl _))
    exact ⟨rp, hrp, n1, h1, h3, h4, h5, h6, by simpa using h7, h8 hj⟩
  · rcases hlink with e | ⟨nd1, u, c, hnd1, hlk, hu, hui, hlu⟩
    · exact absurd e hroot
    · rw [hnd] at hnd1
      obtain rfl := Option.some.inj hnd1
      rw [hlk]
      have hlt : k < l := by
        by_contra hcon
        rw [hlab, slice_empty (by omega)] at hlu
        cases hlu
      obtain ⟨c1, hc1⟩ := strAt_some_lt (S := s) (i := k) hk0 (by omega)
      have hu1 : lab u = slice s (k + 1) l := by
        rw [hlab, slice_head hk0 hlt (by omega) hc1] at hlu
        exact (List.cons.inj hlu).2.symm
      have hw : InW st lab (lab u ++ slice s l j) := by
        rw [hu1, slice_append (by omega) (by omega) hlj]
        exact P.subs _ _ (by omega) (by omega) (le_refl _)
      obtain ⟨rp, hrp, n1, h1, h2, h3, h4, h5, h6, h7, h8⟩ :=
        @canonize_spec_node _ _ _ id _ _ _ cf h P.hs (by omega : j ≤ s.length) (by omega)
          hu hui (by omega) hlj hw
      refine ⟨rp, hrp, n1, h1, h3, h4, by omega, h6, ?_, h8 hj⟩
      rw [h7, hu1]
      exact slice_append (by omega) (by omega) h5

/-- The leaf for the suffix that starts at `k`, and the suffix link of the
explicit node of the suffix before. -/
theorem loop_leaf {st : Tree} {lab : Nat → List Char} {s : List Char} {id : Int}
    {OldW : List Char → Prop} {j : Int} {t : Char} {k : Int} {oldr : Option Nat}
    {sk : ReferencePoint} {r : Option Nat}
    (L : LoopInv st lab s id OldW j t k oldr sk false r) {rn : Nat} {ndr : Node}
    (hr : r = some rn) (hra : Attached st rn) (hri : Inner st rn) (hrl : lab rn = slice s k j)
    (hndr : st.nodes[rn]? = some ndr) (hfree : mapFind t ndr.g = none) (hkj : k ≤ j) :
    st.alloc.1.modify r (fun nd =>
        { nd with g := mapInsert t ⟨⟨id, j, INT_MAX⟩, some st.alloc.2⟩ nd.g }) =
      some (addLeaf st rn ndr t ⟨id, j, INT_MAX⟩) ∧
    ∃ (st3 : Tree) (lab2 : Nat → List Char),
      (if oldr ≠ some rootId then
          (addLeaf st rn ndr t ⟨id, j, INT_MAX⟩).modify oldr (fun nd => { nd with suffix_link := r })
        else some (addLeaf st rn ndr t ⟨id, j, INT_MAX⟩)) = some st3 ∧
      PhaseInv st3 lab2 s id OldW j (k + 1) ∧ Ext st lab st3 lab2 ∧
      LinksOK st3 lab2 (fun v => r = some v) := by
  have P := L.phase
  have h := P.wfl
  have hk0 := P.k_lo
  have hj := L.hj
  subst hr
  refine ⟨?_, ?_⟩
  · rw [modify_eq _ (by rw [nodes_alloc_lt hra.2]; exact hndr)]
    rfl
  have hw2 := h.add_leaf hra hndr hfree P.hs (by omega : 0 ≤ j) hj L.ht
  have hll : lab rn ++ slice s j s.length = slice s k s.length := by
    rw [hrl]
    exact slice_append hk0 hkj (by omega)
  rw [hll] at hw2
  have hext2 : Ext st lab (addLeaf st rn ndr t ⟨id, j, INT_MAX⟩)
      (setLab lab st.nodes.length (slice s k s.length)) := Ext.of_addLeaf h hra hndr hfree
  have hlinks2 : LinksOK (addLeaf st rn ndr t ⟨id, j, INT_MAX⟩)
      (setLab lab st.nodes.length (slice s k s.length))
      (fun v => oldr = some v ∨ (false = false ∧ some rn = some v)) :=
    LinksOK_addLeaf L.links hra.2 hndr hfree
  have P2 : PhaseInv (addLeaf st rn ndr t ⟨id, j, INT_MAX⟩)
      (setLab lab st.nodes.length (slice s k s.length)) s id OldW j (k + 1) :=
    P.grow hw2 rfl hkj (fun w => InW_addLeaf h w)
  by_cases ho : oldr = some rootId
  · rw [if_neg (not_not.mpr ho)]
    refine ⟨_, _, rfl, P2, hext2, LinksOK_mono_root hlinks2 ?_⟩
    rintro v (hv | hv) hne
    · rw [ho] at hv
      exact absurd (Option.some.inj hv).symm hne
    · exact hv.2
  · rw [if_pos ho]
    rcases L.old with e | ⟨o, ho1, hk1, hoa, hoi, hol, c, hct, hoc⟩
    · exact absurd e ho
    · subst ho1
      obtain ⟨ndo, hndo⟩ := (hext2.keeps_attached hoa).node
      rw [modify_eq _ hndo]
      have hne : o ≠ rootId := fun e => ho (by rw [e])
      obtain ⟨c0, hc0⟩ := strAt_some_lt (S := s) (i := k - 1) (by omega) (by omega)
      have e1 : k - 1 + 1 = k := by omega
      have hlo : setLab lab st.nodes.length (slice s k s.length) o =
          c0 :: setLab lab st.nodes.length (slice s k s.length) rn := by
        rw [hext2.lab_old o hoa.2, hext2.lab_old rn hra.2, hol, hrl,
          slice_head (by omega) (by omega) (by omega) hc0, e1]
      have hext3 := Ext.of_setLink hndo (hext2.keeps_attached hra) (hext2.inner rn hri) hlo
      have hw3 : WFL ((addLeaf st rn ndr t ⟨id, j, INT_MAX⟩).setNode o
          { ndo with suffix_link := some rn })
          (setLab lab st.nodes.length (slice s k s.length)) := by
        refine hw2.setNode_same hndo rfl ?_
        intro ho1
        exfalso
        have := hoa.1
        unfold rootId at hne
        omega
      refine ⟨_, _, rfl, P2.transport hw3 rfl (fun w => InW_frame (length_setNode _ _ _) w),
        hext2.comp hext3, ?_⟩
      refine LinksOK_mono (LinksOK_setLink hlinks2 hndo (hext2.keeps_attached hra)
        (hext2.inner rn hri) hlo) ?_
      rintro v ⟨hv | hv, hvo⟩
      · exact absurd (Option.some.inj hv).symm hvo
      · exact hv.2

/-- The loop of `update` ends, and leaves the tree of the next phase. -/
theorem updateLoop_spec {s : List Char} {id : Int} {OldW : List Char → Prop} {j : Int}
    {t : Char} {cf : Nat} (htail : ∀ (c : Char) (w : List Char), OldW (c :: w) → OldW w)
    (hcf : j + 1 < cf) :
    ∀ (fuel : Nat) (st : Tree) (lab : Nat → List Char) (k : Int) (oldr : Option Nat)
      (sk : ReferencePoint) (ep : Bool) (r : Option Nat),
      LoopInv st lab s id OldW j t k oldr sk ep r → j + 1 - k < fuel →
      ∃ res : Tree × ReferencePoint,
        updateLoop cf s id j t fuel st oldr sk ⟨id, sk.pos, j - 1⟩ ep r = some res ∧
        UpdatePost s id OldW j res := by
  intro fuel
  induction fuel with
  | zero =>
    intro st lab k oldr sk ep r L hf
    have := L.phase.k_hi
    omega
  | succ fuel ih =>
    intro st lab k oldr sk ep r L hf
    cases ep with
    | true => exact updateLoop_exit L htail cf fuel _
    | false =>
      rcases L.pos with ⟨_, _, _, h4, _⟩ | ⟨n, hskn, hn, hin, hkp, hpj, hlab, hlink, _, hrn⟩
      · cases h4
      obtain ⟨rn, ndr, hr, hra, hri, hrl, hndr, hfree, hrc⟩ := hrn rfl
      have hkj : k ≤ j := by omega
      have hk0 := L.phase.k_lo
      obtain ⟨e1, st3, lab2, e2, P3, hext, hlinks3⟩ := loop_leaf L hr hra hri hrl hndr hfree hkj
      unfold updateLoop
      rw [if_neg (by simp)]
      simp only []
      rw [e1]
      simp only []
      rw [e2]
      simp only []
      have hn3 := hext.keeps_attached hn
      obtain ⟨nd3, hnd3⟩ := hn3.node
      rw [hskn]
      simp only [Tree.deref]
      rw [hnd3]
      simp only []
      have hlab3 : lab2 n = slice s k sk.pos := by rw [hext.lab_old n hn.2]; exact hlab
      have hlink3 : n = rootId ∨ LinkOK st3 lab2 n := hlink.imp (fun e => e) (hext.link n)
      have hrl3 : lab2 rn = slice s k j := by rw [hext.lab_old rn hra.2]; exact hrl
      have hrlen : ((slice s k j).length : Int) = j - k :=
        slice_length hk0 hkj (by have := L.hj; omega)
      by_cases hse : n = rootId ∧ sk.pos = j
      · obtain ⟨hroot, hpos⟩ := hse
        subst hroot
        obtain ⟨ndr3, hndr3, hlk⟩ := P3.wfl.root_link
        rw [hnd3] at hndr3
        obtain rfl := Option.some.inj hndr3
        rw [hlk, hpos, canonize_sink_empty]
        simp only []
        rw [ts_empty_sink P3.wfl (le_refl j) P3.idpos hnd3]
        simp only []
        have hkeq : k = j := by
          have hl0 : ((slice s k sk.pos).length : Int) = sk.pos - k :=
            slice_length hk0 hkp (by have := L.hj; omega)
          rw [← hlab, L.phase.wfl.lab_root] at hl0
          simp at hl0
          omega
        have hw5 : WFL (st3.setNode rootId (nd3.mark_string id)) lab2 :=
          P3.wfl.setNode_same hnd3 (mark_string_g _ _) (fun _ => mark_string_link _ _)
        have hrroot : rn = rootId := by
          apply L.phase.wfl.lab_nil_root hra.1 hra.2
          rw [hrl, hkeq]
          exact slice_self _ _
        refine ih _ lab2 (k + 1) _ _ _ _ ?_ (by omega)
        refine ⟨P3.transport hw5 rfl (fun w => InW_frame (length_setNode _ _ _) w), L.hj, L.ht,
          LinksOK_mono (LinksOK_setNode_same hlinks3 hnd3 (mark_string_g _ _)
            (mark_string_link _ _)) (fun v hv => Or.inl hv),
          Or.inl (by rw [hr, hrroot]), ?_, Or.inl ⟨rfl, rfl, by omega, rfl, by rw [hr, hrroot]⟩⟩
        intro _
        rw [hkeq, slice_self]
        exact InW_nil hw5
      · obtain ⟨rp, hrp, n1, h1, h2, h3, h4, h5, h6, h7⟩ :=
          link_canonize P3 L.hj hk0 hn3 hkp hpj hlab3 hlink3 hnd3 hcf hse
        rw [hrp]
        simp only []
        obtain ⟨st5, lab5, ep, r1, hts, hw5, hext5, hback, hlinks5, hep, hnep⟩ :=
          ts_spec P3.wfl P3.hs P3.idpos L.ht L.hj h2 h3 (by omega : 0 ≤ k + 1) h4 h5 h6 h7
        rw [h1, hts]
        simp only []
        have hext05 := hext.comp hext5
        refine ih _ lab5 (k + 1) _ _ _ _ ?_ (by omega)
        refine ⟨P3.transport hw5 hext5.hay (fun w => ⟨hback w, hext5.inw w⟩), L.hj, L.ht,
          hlinks5 _ hlinks3, ?_, fun e => (hep e).1,
          Or.inr ⟨n1, h1, hext5.keeps_attached h2, hext5.inner _ h3, h4, h5, ?_, ?_,
            fun e => (hep e).2, hnep⟩⟩
        · by_cases hrr : rn = rootId
          · exact Or.inl (by rw [hr, hrr])
          · rcases hrc with e | ⟨c, hct, hc⟩
            · exact absurd e hrr
            · refine Or.inr ⟨rn, hr, by omega, hext05.keeps_attached hra, hext05.inner _ hri, ?_, c,
                hct, ?_⟩
              · rw [hext05.lab_old rn hra.2, hrl]
                congr 1
                omega
              · rw [hext05.lab_old rn hra.2]
                exact hext05.inw _ hc
        · rw [hext5.lab_old n1 h2.2]
          exact h6
        · by_cases hr1 : n1 = rootId
          · exact Or.inl hr1
          · right
            apply hext5.link
            apply hlinks3 n1 h3 hr1
            intro e
            rw [hr] at e
            have e2 : rn = n1 := Option.some.inj e
            subst e2
            rw [h6] at hrl3
            have hl1 : ((slice s (k + 1) rp.pos).length : Int) = rp.pos - (k + 1) :=
              slice_length (by omega) h4 (by have := L.hj; omega)
            rw [hrl3] at hl1
            omega

/-- The method `update` completes phase `j`. -/
theorem update_spec {st : Tree} {lab : Nat → List Char} {s : List Char} {id : Int}
    {OldW : List Char → Prop} {j : Int} {ap : ReferencePoint} {fuel : Nat}
    (htail : ∀ (c : Char) (w : List Char), OldW (c :: w) → OldW w)
    (D : DeployInv st lab s id OldW j ap) (hj : j < s.length) (hf : j + 1 < fuel) :
    ∃ res : Tree × ReferencePoint,
      update fuel st ap.node ⟨id, ap.pos, j⟩ = some res ∧ UpdatePost s id OldW j res := by
  obtain ⟨k, n, P, hlinks, hap, hn, hin, hkp, hpj, hlab, hcan⟩ := D
  have hk0 := P.k_lo
  obtain ⟨t, ht⟩ := strAt_some_lt (S := s) (i := j) P.j_lo hj
  obtain ⟨st5, lab5, ep, r1, hts, hw5, hext5, hback, hlinks5, hep, hnep⟩ :=
    ts_spec P.wfl P.hs P.idpos ht hj hn hin hk0 hkp hpj hlab (hcan hj)
  unfold update
  simp only []
  rw [haystackIndex_eq P.hs]
  simp only []
  rw [ht]
  simp only []
  rw [hap, hts]
  simp only []
  refine updateLoop_spec htail hf fuel st5 lab5 k (some rootId) ⟨some n, id, ap.pos⟩ ep r1 ?_
    (by omega)
  refine ⟨P.transport hw5 hext5.hay (fun w => ⟨hback w, hext5.inw w⟩), hj, ht,
    LinksOK_mono (hlinks5 _ hlinks) (fun v hv => hv.elim False.elim Or.inr), Or.inl rfl,
    fun e => (hep e).1,
    Or.inr ⟨n, rfl, hext5.keeps_attached hn, hext5.inner _ hin, hkp, hpj, ?_, ?_,
      fun e => (hep e).2, hnep⟩⟩
  · rw [hext5.lab_old n hn.2]
    exact hlab
  · by_cases hr1 : n = rootId
    · exact Or.inl hr1
    · exact Or.inr (hext5.link _ (hlinks n hin hr1 (fun e => e)))

/-- The `canonize` call that closes a phase. -/
theorem deploy_canonize {s : List Char} {id : Int} {OldW : List Char → Prop} {j : Int}
    {res : Tree × ReferencePoint} {fuel : Nat} (U : UpdatePost s id OldW j res)
    (hj0 : 0 ≤ j) (hj : j < s.length) (hf : j + 2 < fuel) :
    ∃ (lab1 : Nat → List Char) (ap : ReferencePoint),
      canonize fuel res.1 res.2.node ⟨id, res.2.pos, j⟩ = some (res.1, ap) ∧
      DeployInv res.1 lab1 s id OldW (j + 1) ap := by
  obtain ⟨lab1, k1, P, hlinks, hpos⟩ := U
  have h := P.wfl
  have hk0 := P.k_lo
  have e1 : j + 1 - 1 = j := by omega
  refine ⟨lab1, ?_⟩
  rcases hpos with ⟨h1, h2, h3⟩ | ⟨n, h1, hn, hin, hkp, hpj, hlab⟩
  · obtain ⟨rp, hrp, n1, g1, g2, g3, g4, g5, g6, g7, g8⟩ :=
      @canonize_spec_sink _ _ _ id j (j + 1) fuel h P.hs (by omega)
        (by omega) hj0 (by omega) (by rw [slice_self]; exact InW_nil h)
    rw [e1] at hrp
    rw [h1, h2]
    refine ⟨rp, hrp, k1, n1, P, hlinks, g1, g3, g4, by omega, g6, ?_, g8⟩
    rw [g7, h3]
    simp
  · have hw : InW res.1 lab1 (lab1 n ++ slice s res.2.pos (j + 1)) := by
      rw [hlab, slice_append hk0 hkp (by omega)]
      exact P.subs _ _ hk0 (by omega) (le_refl _)
    obtain ⟨rp, hrp, n1, g1, g2, g3, g4, g5, g6, g7, g8⟩ :=
      @canonize_spec_node _ _ _ id res.2.pos (j + 1) _ fuel h P.hs
        (by omega) (by omega) hn hin (by omega) (by omega) hw
    rw [e1] at hrp
    rw [h1]
    refine ⟨rp, hrp, k1, n1, P, hlinks, g1, g3, g4, by omega, g6, ?_, g8⟩
    rw [g7, hlab]
    exact slice_append hk0 hkp g5

/-- The loop of `deploy_suffixes` runs through all remaining phases. -/
theorem deployLoop_spec {s : List Char} {id : Int} {OldW : List Char → Prop} {fuel : Nat}
    (htail : ∀ (c : Char) (w : List Char), OldW (c :: w) → OldW w)
    (hf : (s.length : Int) + 1 < fuel) (hsmall : (s.length : Int) ≤ SIZE_BOUND) :
    ∀ (cnt : Nat) (st : Tree) (lab : Nat → List Char) (ap : ReferencePoint) (j : Int),
      DeployInv st lab s id OldW j ap → (s.length : Int) - j < cnt →
      ∃ (st1 : Tree) (lab1 : Nat → List Char) (k : Int),
        deployLoop fuel s id cnt st ap j = some st1 ∧
        PhaseInv st1 lab1 s id OldW s.length k ∧ LinksOK st1 lab1 (fun _ => False) := by
  intro cnt
  induction cnt with
  | zero =>
    intro st lab ap j D hc
    obtain ⟨k, n, P, _⟩ := D
    have := P.j_hi
    omega
  | succ cnt ih =>
    intro st lab ap j D hc
    have hD := D
    obtain ⟨k, n, P, hlinks, _⟩ := hD
    have hj0 := P.j_lo
    have hj1 := P.j_hi
    have hts : toSizeT j = j.toNat := by
      unfold toSizeT
      congr 1
      unfold SIZE_BOUND at hsmall
      omega
    unfold deployLoop
    by_cases hlt : j < s.length
    · rw [if_pos (by rw [hts]; omega)]
      obtain ⟨res, hres, U⟩ := update_spec htail D hlt (by omega : j + 1 < fuel)
      rw [hres]
      simp only []
      obtain ⟨lab1, ap1, hcan, D1⟩ := deploy_canonize U hj0 hlt (by omega : j + 2 < fuel)
      rw [hcan]
      simp only []
      exact ih _ lab1 ap1 (j + 1) D1 (by omega)
    · rw [if_neg (by rw [hts]; omega)]
      have e : j = s.length := by omega
      subst e
      exact ⟨st, lab, k, rfl, P, hlinks⟩

theorem infix_slice {w s : List Char} (h : w <:+: s) :
    ∃ a b : Int, 0 ≤ a ∧ a ≤ b ∧ b ≤ s.length ∧ w = slice s a b := by
  obtain ⟨x, y, rfl⟩ := h
  refine ⟨x.length, x.length + w.length, by omega, by omega, by simp, ?_⟩
  unfold slice
  simp

theorem prefix_slice_sub {w s : List Char} {a b : Int} (h : w <+: slice s a b) : w <:+: s :=
  h.isInfix.trans (slice_sub s a b)

/-- The method `deploy_suffixes` on a tree at rest whose registry already
holds the new string `s` under `id`: either `s` is a word of the tree and
nothing is done, or the tree gains exactly the substrings of `s`. -/
theorem deploy_suffixes_spec {st : Tree} {lab : Nat → List Char} {s : List Char} {id : Int}
    {fuel : Nat} (h : WFL st lab) (hlinks : LinksOK st lab (fun _ => False))
    (hs : mapFind id st.haystack = some s) (hid : 0 < id)
    (hclosed : ∀ w v : List Char, InW st lab w → v <:+: w → InW st lab v)
    (hf : (s.length : Int) + 1 < fuel) :
    ∃ res : Tree × Int, deploy_suffixes fuel st s id = some res ∧
      ((res.2 = -1 ∧ res.1 = st ∧ InW st lab s) ∨
       (res.2 = id ∧ ¬ InW st lab s ∧ ∃ lab1 : Nat → List Char, WFL res.1 lab1 ∧
          LinksOK res.1 lab1 (fun _ => False) ∧
          ∀ w : List Char, InW res.1 lab1 w ↔ InW st lab w ∨ w <:+: s)) := by
  have hS := h.strs _ _ hs
  have hsmall := hS.small
  have hp : Probe s := fun i h0 h1 => hS.not_last h0 h1
  obtain ⟨res0, hres0, hst, hpost⟩ := startLoop_spec h hp (loopBound s.length)
    ⟨some rootId, id, 0⟩ 0 rootId (by unfold loopBound; push_cast; omega) rfl rfl h.root_attached
    (Or.inl rfl) (le_refl _) (by omega) (by rw [h.lab_root, slice_self])
  obtain ⟨st1, ap, i0⟩ := res0
  simp only at hst hpost
  subst hst
  unfold deploy_suffixes get_starting_node
  simp only []
  rw [hres0]
  simp only []
  rcases hpost with ⟨hi, hw⟩ | ⟨n, hap, hn, hin, hp0, hpi, hi, hlab, hcan, hw, hnw⟩
  · rw [if_pos hi]
    exact ⟨_, rfl, Or.inl ⟨rfl, rfl, hw⟩⟩
  · have hne : i0 ≠ INT_MAX := by
      have : INT_MAX = 2147483647 := rfl
      omega
    rw [if_neg hne]
    have htail : ∀ (c : Char) (w : List Char), InW st1 lab (c :: w) → InW st1 lab w :=
      fun c w hw => hclosed _ _ hw (List.suffix_cons c w).isInfix
    have P0 : PhaseInv st1 lab s id (InW st1 lab) i0 0 := by
      refine ⟨h, hs, hid, fun w hw => hw, fun w hw => Or.inl hw, ?_, ?_, le_refl _, by omega,
        by omega, by omega⟩
      · intro k0 h0 h1
        omega
      · intro a b ha hab hb
        refine hclosed _ _ hw ?_
        have := slice_of_slice (S := s) (a := 0) (b := i0) (x := a) (y := b) (le_refl _) ha hab
          (by omega) (by omega)
        rw [zero_add, zero_add] at this
        rw [← this]
        exact slice_sub _ _ _
    have D : DeployInv st1 lab s id (InW st1 lab) i0 ap :=
      ⟨0, n, P0, hlinks, hap, hn, hin, hp0, hpi, hlab, fun _ => hcan⟩
    obtain ⟨st2, lab2, k, hdl, P, hlinks2⟩ :=
      deployLoop_spec htail hf (by unfold SIZE_BOUND; exact hsmall) (loopBound s.length) st1 lab
        ap i0 D (by unfold loopBound; push_cast; omega)
    rw [hdl]
    refine ⟨_, rfl, Or.inr ⟨rfl, ?_, lab2, P.wfl, hlinks2, ?_⟩⟩
    · intro hws
      apply hnw
      refine InW_prefix hws ?_
      have := slice_pre (S := s) (a := 0) (b := i0 + 1) (c := s.length) (le_refl _) (by omega)
        (by omega)
      rw [slice_full] at this
      exact this
    · intro w
      constructor
      · intro hw2
        rcases P.desc w hw2 with h1 | ⟨k0, _, _, h3⟩
        · exact Or.inl h1
        · exact Or.inr (prefix_slice_sub h3)
      · rintro (h1 | h1)
        · exact P.mono w h1
        · obtain ⟨a, b, ha, hab, hb, rfl⟩ := infix_slice h1
          exact P.subs a b ha hab hb

/-! ## The tree between two calls -/

theorem Stored_sub {hay : List (Int × List Char)} {w v : List Char} (h : Stored hay w)
    (hv : v <:+: w) : Stored hay v := by
  rcases h with rfl | ⟨k, S, hk, hw⟩
  · left
    exact List.eq_nil_of_infix_nil hv
  · exact Or.inr ⟨k, S, hk, hv.trans hw⟩

theorem WFL.of_register {st : Tree} {lab : Nat → List Char} (h : WFL st lab) {id : Int}
    {s : List Char} (hnone : mapFind id st.haystack = none) (hS : StrOK s) :
    WFL (SuffixTree.register st id s) lab := by
  have hfind : ∀ (k : Int) (S : List Char), mapFind k st.haystack = some S →
      mapFind k (mapAssign id s st.haystack) = some S := by
    intro k S hk
    rw [mapFind_mapAssign]
    by_cases e : k = id
    · rw [e, hnone] at hk
      cases hk
    · rw [if_neg e]
      exact hk
  refine ⟨h.len, h.sink, h.root_link, h.lab_root, ?_, ?_, h.parent⟩
  · intro k S hk
    have hk1 : mapFind k (mapAssign id s st.haystack) = some S := hk
    rw [mapFind_mapAssign] at hk1
    by_cases e : k = id
    · rw [if_pos e] at hk1
      obtain rfl := Option.some.inj hk1
      exact hS
    · rw [if_neg e] at hk1
      exact h.strs k S hk1
  · intro n nd c t hn hnd hm
    obtain ⟨j, S, e⟩ := h.edges n nd c t hn hnd hm
    exact ⟨j, S, e.tgt, e.j_lo, e.j_hi, hfind _ _ e.ref, e.l_lo, e.l_le, e.l_hi, e.key, e.fin,
      e.lab_eq, e.child⟩

theorem WFL_fresh : WFL Tree.fresh (fun _ => []) := by
  refine ⟨by simp [Tree.fresh], ⟨_, rfl, rfl, rfl⟩, ⟨_, rfl, rfl⟩, rfl, ?_, ?_, ?_⟩
  · intro k S hk
    simp [Tree.fresh, mapFind] at hk
  · intro n nd c t hn hnd hm
    exfalso
    simp only [Tree.fresh] at hnd
    match n, hn, hnd with
    | 1, _, hnd =>
      simp at hnd
      subst hnd
      simp [mapFind] at hm
    | (j + 2), _, hnd => simp at hnd
  · intro j h2 hj
    simp [Tree.fresh] at hj
    omega

theorem Rest_fresh : Rest Tree.fresh (fun _ => []) := by
  refine ⟨WFL_fresh, ?_, ?_, EdgesOK_fresh, KeysOK_fresh⟩
  · intro v hv hne _
    exfalso
    rcases hv with e | ⟨n, nd, c, t, hn, hnd, hm, _, _⟩
    · exact hne e
    · simp only [Tree.fresh] at hnd
      match n, hn, hnd with
      | 1, _, hnd =>
        simp at hnd
        subst hnd
        simp [mapFind] at hm
      | (j + 2), _, hnd => simp at hnd
  · intro w
    constructor
    · rintro ⟨j, _, _, hp⟩
      exact Or.inl (List.prefix_nil.mp hp)
    · rintro (rfl | ⟨k, S, hk, _⟩)
      · exact InW_nil WFL_fresh
      · simp [Tree.fresh, mapFind] at hk

theorem Stored_mapAssign {hay : List (Int × List Char)} {id : Int} {s : List Char}
    (hnone : mapFind id hay = none) (w : List Char) :
    Stored (mapAssign id s hay) w ↔ Stored hay w ∨ w <:+: s := by
  constructor
  · rintro (rfl | ⟨k, S, hk, hw⟩)
    · exact Or.inl (Or.inl rfl)
    · rw [mapFind_mapAssign] at hk
      by_cases e : k = id
      · rw [if_pos e] at hk
        obtain rfl := Option.some.inj hk
        exact Or.inr hw
      · rw [if_neg e] at hk
        exact Or.inl (Or.inr ⟨k, S, hk, hw⟩)
  · rintro ((rfl | ⟨k, S, hk, hw⟩) | hw)
    · exact Or.inl rfl
    · refine Or.inr ⟨k, S, ?_, hw⟩
      rw [mapFind_mapAssign]
      by_cases e : k = id
      · rw [e, hnone] at hk
        cases hk
      · rw [if_neg e]
        exact hk
    · exact Or.inr ⟨id, s, by rw [mapFind_mapAssign, if_pos rfl], hw⟩

/-- The method `add_string` on a tree at rest: it returns, the tree is at rest
again, and the input is rejected exactly when it contains the sentinel, the
registry is full, or the input with its sentinel is already a word of the
tree. -/
theorem add_string_spec {st : Tree} {lab : Nat → List Char} {str : List Char} {fuel : Nat}
    (R : Rest st lab) (hlen : (str.length : Int) < SIZE_BOUND) (hf : str.length + 2 < fuel) :
    ∃ (st1 : Tree) (id : Int) (lab1 : Nat → List Char),
      add_string fuel st str = some (st1, id) ∧ Rest st1 lab1 ∧
      ((id = -1 ∧ st1 = st ∧ lab1 = lab ∧
          (END_TOKEN ∈ str ∨ 64 ≤ st.last_index ∨ InW st lab (str ++ [END_TOKEN]))) ∨
       (id = st.last_index + 1 ∧ END_TOKEN ∉ str ∧ st.last_index < 64 ∧
          ¬ InW st lab (str ++ [END_TOKEN]) ∧
          st1.haystack = mapAssign (st.last_index + 1) (str ++ [END_TOKEN]) st.haystack ∧
          st1.last_index = st.last_index + 1)) := by
  have hk := R.keys
  by_cases hc : contains_end_token str = true
  · refine ⟨st, -1, lab, by unfold add_string; rw [if_pos hc], R, Or.inl ⟨rfl, rfl, rfl, Or.inl ?_⟩⟩
    unfold contains_end_token at hc
    exact of_decide_eq_true hc
  have hmem : END_TOKEN ∉ str := by
    unfold contains_end_token at hc
    intro hin
    exact hc (decide_eq_true hin)
  have hts := toSizeT_small hk.1 hk.2.1
  by_cases hcap : toSizeT st.last_index ≥ MAX_STRINGS
  · refine ⟨st, -1, lab, by unfold add_string; rw [if_neg hc, if_pos hcap], R,
      Or.inl ⟨rfl, rfl, rfl, Or.inr (Or.inl ?_)⟩⟩
    rw [hts] at hcap
    unfold MAX_STRINGS at hcap
    omega
  have hlt : st.last_index < 64 := by
    rw [hts] at hcap
    unfold MAX_STRINGS at hcap
    omega
  have hnone : mapFind (st.last_index + 1) st.haystack = none := by
    cases hm : mapFind (st.last_index + 1) st.haystack with
    | none => rfl
    | some v =>
      have := hk.2.2 (st.last_index + 1) (by rw [hm]; rfl)
      omega
  have hS : StrOK (str ++ [END_TOKEN]) :=
    ⟨str, rfl, hmem, by simp only [List.length_append, List.length_singleton]; push_cast; omega⟩
  have hw0 := R.wfl.of_register hnone hS
  have hlinks0 : LinksOK (register st (st.last_index + 1) (str ++ [END_TOKEN])) lab
      (fun _ => False) := R.links
  have hs0 : mapFind (st.last_index + 1)
      (register st (st.last_index + 1) (str ++ [END_TOKEN])).haystack =
      some (str ++ [END_TOKEN]) := by
    show mapFind _ (mapAssign _ _ _) = _
    rw [mapFind_mapAssign, if_pos rfl]
  have hclosed : ∀ w v : List Char,
      InW (register st (st.last_index + 1) (str ++ [END_TOKEN])) lab w → v <:+: w →
      InW (register st (st.last_index + 1) (str ++ [END_TOKEN])) lab v := by
    intro w v hw hv
    have hw1 : InW st lab w := hw
    have : InW st lab v := (R.content v).mpr (Stored_sub ((R.content w).mp hw1) hv)
    exact this
  obtain ⟨⟨st2, r⟩, hres, hcase⟩ := @deploy_suffixes_spec _ _ _ _ fuel hw0 hlinks0 hs0
    (by have := hk.1; omega) hclosed
    (by simp only [List.length_append, List.length_singleton]; push_cast; omega)
  have key := fun (X : Tree) (i : Int) (hX : add_string fuel st str = some (X, i)) =>
    add_string_reg hX R.edges hk
  have hunf : add_string fuel st str = (if r < 0 then some ({ st2 with haystack := mapErase st2.last_index st2.haystack, last_index := st2.last_index - 1 }, -1) else some ({ st2 with colors_computed := false }, st2.last_index)) := by
    unfold add_string
    rw [if_neg hc, if_neg hcap]
    simp only []
    unfold register at hres
    rw [hres]
  rcases hcase with ⟨h1, h2, h3⟩ | ⟨h1, h2, lab1, hw2, hl2, hiff⟩
  · simp only at h1 h2
    subst h1
    subst h2
    rw [if_pos (by omega)] at hunf
    obtain ⟨_, _, hreg⟩ := key _ _ hunf
    rcases hreg with ⟨_, e⟩ | ⟨e, _⟩
    · have h4 : InW st lab (str ++ [END_TOKEN]) := h3
      exact ⟨st, -1, lab, by rw [hunf, e], R, Or.inl ⟨rfl, rfl, rfl, Or.inr (Or.inr h4)⟩⟩
    · exfalso
      have := hk.1
      omega
  · simp only at h1 h2 hw2 hl2 hiff
    subst h1
    rw [if_neg (by have := hk.1; omega)] at hunf
    obtain ⟨he1, hk1, hreg⟩ := key _ _ hunf
    rcases hreg with ⟨e, _⟩ | ⟨e1, _, _, e4, e5⟩
    · exfalso
      have h0 : 0 ≤ st2.last_index := hk1.1
      omega
    · have hnw : ¬ InW st lab (str ++ [END_TOKEN]) := h2
      refine ⟨_, _, lab1, hunf, ⟨hw2.frame rfl rfl (fun n nd1 hn => ⟨nd1, hn, rfl, fun _ => rfl⟩),
        hl2, ?_, he1, hk1⟩, Or.inr ⟨e1, hmem, hlt, hnw, e5, e4⟩⟩
      intro w
      rw [e5, Stored_mapAssign hnone]
      have h5 : InW st2 lab1 w ↔ InW st lab w ∨ w <:+: str ++ [END_TOKEN] := hiff w
      rw [← R.content w]
      exact h5

/-! ## Sessions: sequences of calls from the fresh tree -/

theorem accepted_cons (f : Nat) (s : List Char) (calls : List (Nat × List Char)) (id : Int)
    (ids : List Int) : accepted ((f, s) :: calls) (id :: ids) =
      if id ≠ -1 then s :: accepted calls ids else accepted calls ids := rfl

theorem infix_drop_sentinel {q b : List Char} (hq : END_TOKEN ∉ q)
    (h : q <:+: b ++ [END_TOKEN]) : q <:+: b := by
  obtain ⟨x, y, hxy⟩ := h
  rcases List.eq_nil_or_concat y with rfl | ⟨y1, l, rfl⟩
  · rcases List.eq_nil_or_concat q with rfl | ⟨q1, l, rfl⟩
    · exact List.nil_infix
    · exfalso
      have h1 : x ++ q1 ++ [l] = b ++ [END_TOKEN] := by
        rw [← hxy]
        simp
      have h2 := (List.append_inj' h1 rfl).2
      have h3 : l = END_TOKEN := by simpa using h2
      exact hq (by simp [h3])
  · have h1 : (x ++ q ++ y1) ++ [l] = b ++ [END_TOKEN] := by
      rw [← hxy]
      simp
    have h2 := (List.append_inj' h1 rfl).1
    exact ⟨x, y1, h2⟩

theorem suffix_of_infix_sentinel {q b : List Char} (hb : END_TOKEN ∉ b)
    (h : q ++ [END_TOKEN] <:+: b ++ [END_TOKEN]) : q <:+ b := by
  obtain ⟨x, y, hxy⟩ := h
  rcases List.eq_nil_or_concat y with rfl | ⟨y1, l, rfl⟩
  · have h1 : (x ++ q) ++ [END_TOKEN] = b ++ [END_TOKEN] := by
      rw [← hxy]
      simp
    exact ⟨x, (List.append_inj' h1 rfl).1⟩
  · exfalso
    have h1 : (x ++ q ++ [END_TOKEN] ++ y1) ++ [l] = b ++ [END_TOKEN] := by
      rw [← hxy]
      simp
    have h2 := (List.append_inj' h1 rfl).1
    apply hb
    rw [← h2]
    simp

/-- A session of calls with enough fuel, on strings of a size that fits the
index type, runs to its end; the tree is at rest afterwards and the registry
holds what it held before and the accepted inputs, none of which contains the
sentinel. -/
theorem add_strings_rest : ∀ (calls : List (Nat × List Char)) (st : Tree)
    (lab : Nat → List Char), Rest st lab →
    (∀ c ∈ calls, (c.2.length : Int) < SIZE_BOUND) → (∀ c ∈ calls, c.2.length + 2 < c.1) →
    ∃ (st1 : Tree) (ids : List Int) (lab1 : Nat → List Char),
      add_strings st calls = some (st1, ids) ∧ Rest st1 lab1 ∧
      (∀ b ∈ accepted calls ids, END_TOKEN ∉ b) ∧
      ∀ S : List Char, (∃ k : Int, mapFind k st1.haystack = some S) ↔
        ((∃ k : Int, mapFind k st.haystack = some S) ∨
          ∃ b ∈ accepted calls ids, S = b ++ [END_TOKEN]) := by
  intro calls
  induction calls with
  | nil =>
    intro st lab R _ _
    refine ⟨st, [], lab, rfl, R, ?_, ?_⟩
    · intro b hb
      simp [accepted] at hb
    · intro S
      simp [accepted]
  | cons c rest ih =>
    intro st lab R hsize hfuel
    obtain ⟨fuel, s⟩ := c
    obtain ⟨st1, id, lab1, hadd, R1, hcase⟩ := @add_string_spec _ _ _ fuel R
      (hsize (fuel, s) (List.mem_cons_self _ _)) (hfuel (fuel, s) (List.mem_cons_self _ _))
    obtain ⟨st2, ids, lab2, hrest, R2, hsent, hreg⟩ := ih st1 lab1 R1
      (fun c hc => hsize c (List.mem_cons_of_mem _ hc))
      (fun c hc => hfuel c (List.mem_cons_of_mem _ hc))
    have hrun : add_strings st ((fuel, s) :: rest) = some (st2, id :: ids) := by
      unfold add_strings
      rw [hadd]
      simp only []
      rw [hrest]
    refine ⟨st2, id :: ids, lab2, hrun, R2, ?_, ?_⟩
    · intro b hb
      rw [accepted_cons] at hb
      rcases hcase with ⟨h1, _⟩ | ⟨h1, h2, _⟩
      · rw [if_neg (not_not.mpr h1)] at hb
        exact hsent b hb
      · have hne : id ≠ -1 := by
          have := R.keys.1
          omega
        rw [if_pos hne] at hb
        rcases List.mem_cons.mp hb with e | e
        · rw [e]
          exact h2
        · exact hsent b e
    · intro S
      rw [hreg S, accepted_cons]
      rcases hcase with ⟨h1, h2, _⟩ | ⟨h1, _, _, _, h5, _⟩
      · rw [if_neg (not_not.mpr h1), h2]
      · have hne : id ≠ -1 := by
          have := R.keys.1
          omega
        have hnone : mapFind (st.last_index + 1) st.haystack = none := by
          cases hm : mapFind (st.last_index + 1) st.haystack with
          | none => rfl
          | some v =>
            have := R.keys.2.2 (st.last_index + 1) (by rw [hm]; rfl)
            omega
        rw [if_pos hne, h5]
        constructor
        · rintro (⟨k, hk⟩ | ⟨b, hb, e⟩)
          · rw [mapFind_mapAssign] at hk
            by_cases ek : k = st.last_index + 1
            · rw [if_pos ek] at hk
              exact Or.inr ⟨s, List.mem_cons_self _ _, (Option.some.inj hk).symm⟩
            · rw [if_neg ek] at hk
              exact Or.inl ⟨k, hk⟩
          · exact Or.inr ⟨b, List.mem_cons_of_mem _ hb, e⟩
        · rintro (⟨k, hk⟩ | ⟨b, hb, e⟩)
          · refine Or.inl ⟨k, ?_⟩
            rw [mapFind_mapAssign]
            by_cases ek : k = st.last_index + 1
            · rw [ek, hnone] at hk
              cases hk
            · rw [if_neg ek]
              exact hk
          · rcases List.mem_cons.mp hb with e1 | e1
            · refine Or.inl ⟨st.last_index + 1, ?_⟩
              rw [mapFind_mapAssign, if_pos rfl, e, e1]
            · exact Or.inr ⟨b, e1, e⟩

/-- The method `is_substring` on a tree at rest. -/
theorem is_substring_rest {st : Tree} {lab : Nat → List Char} (R : Rest st lab) {q : List Char}
    (hq : END_TOKEN ∉ q) (hlen : (q.length : Int) ≤ INT_MAX) :
    ∃ b : Bool, is_substring st q = some (st, b) ∧ (b = true ↔ Stored st.haystack q) := by
  have hc : ¬ contains_end_token q = true := by
    unfold contains_end_token
    intro h
    exact hq (of_decide_eq_true h)
  have hp : Probe q := by
    intro i h0 h1 h2
    rw [strAt_lt h0 (by omega)] at h2
    exact hq (List.mem_iff_getElem?.mpr ⟨_, h2⟩)
  obtain ⟨res0, hres0, hst, hpost⟩ := startLoop_spec R.wfl hp (loopBound q.length)
    ⟨some rootId, -1, 0⟩ 0 rootId (by unfold loopBound; push_cast; omega) rfl rfl
    R.wfl.root_attached (Or.inl rfl) (le_refl _) (by omega) (by rw [R.wfl.lab_root, slice_self])
  obtain ⟨st1, ap, i0⟩ := res0
  simp only at hst hpost
  subst hst
  unfold is_substring get_starting_node
  rw [if_neg hc]
  simp only []
  rw [hres0]
  simp only []
  refine ⟨_, rfl, ?_⟩
  rw [← R.content q]
  rcases hpost with ⟨hi, hw⟩ | ⟨n, hap, hn, hin, hp0, hpi, hi, hlab, hcan, hw, hnw⟩
  · simp [hi, hw]
  · have hne : i0 ≠ INT_MAX := by omega
    have hnq : ¬ InW st1 lab q := by
      intro hws
      apply hnw
      refine InW_prefix hws ?_
      have := slice_pre (S := q) (a := 0) (b := i0 + 1) (c := q.length) (le_refl _) (by omega)
        (by omega)
      rw [slice_full] at this
      exact this
    simp [hne, hnq]

/-- The method `is_suffix` on a tree at rest. -/
theorem is_suffix_rest {st : Tree} {lab : Nat → List Char} (R : Rest st lab) {q : List Char}
    (hq : END_TOKEN ∉ q) (hlen : (q.length : Int) < INT_MAX) :
    ∃ b : Bool, is_suffix st q = some (st, b) ∧
      (b = true ↔ Stored st.haystack (q ++ [END_TOKEN])) := by
  have hc : ¬ contains_end_token q = true := by
    unfold contains_end_token
    intro h
    exact hq (of_decide_eq_true h)
  have hl : ((q ++ [END_TOKEN]).length : Int) = q.length + 1 := by simp
  have hp : Probe (q ++ [END_TOKEN]) := by
    intro i h0 h1 h2
    rw [strAt_lt h0 (by omega)] at h2
    rw [List.getElem?_append_left (by omega)] at h2
    exact hq (List.mem_iff_getElem?.mpr ⟨_, h2⟩)
  obtain ⟨res0, hres0, hst, hpost⟩ := startLoop_spec R.wfl hp
    (loopBound (q ++ [END_TOKEN]).length)
    ⟨some rootId, -1, 0⟩ 0 rootId (by unfold loopBound; push_cast; omega) rfl rfl
    R.wfl.root_attached (Or.inl rfl) (le_refl _) (by omega) (by rw [R.wfl.lab_root, slice_self])
  obtain ⟨st1, ap, i0⟩ := res0
  simp only at hst hpost
  subst hst
  unfold is_suffix get_starting_node
  rw [if_neg hc]
  simp only []
  rw [hres0]
  simp only []
  refine ⟨_, rfl, ?_⟩
  rw [← R.content (q ++ [END_TOKEN])]
  rcases hpost with ⟨hi, hw⟩ | ⟨n, hap, hn, hin, hp0, hpi, hi, hlab, hcan, hw, hnw⟩
  · simp [hi, hw]
  · have hne : i0 ≠ INT_MAX := by omega
    have hnq : ¬ InW st1 lab (q ++ [END_TOKEN]) := by
      intro hws
      apply hnw
      refine InW_prefix hws ?_
      have := slice_pre (S := q ++ [END_TOKEN]) (a := 0) (b := i0 + 1)
        (c := (q ++ [END_TOKEN]).length) (le_refl _) (by omega) (by omega)
      rw [slice_full] at this
      exact this
    simp [hne, hnq]

theorem accepted_mem : ∀ (calls : List (Nat × List Char)) (ids : List Int) (b : List Char),
    b ∈ accepted calls ids → ∃ c ∈ calls, c.2 = b := by
  intro calls
  induction calls with
  | nil =>
    intro ids b hb
    simp [accepted] at hb
  | cons c rest ih =>
    intro ids b hb
    obtain ⟨f, s⟩ := c
    cases ids with
    | nil => simp [accepted] at hb
    | cons id ids =>
      rw [accepted_cons] at hb
      by_cases hne : id ≠ -1
      · rw [if_pos hne] at hb
        rcases List.mem_cons.mp hb with e | e
        · exact ⟨(f, s), List.mem_cons_self _ _, e.symm⟩
        · obtain ⟨c, hc, e1⟩ := ih ids b e
          exact ⟨c, List.mem_cons_of_mem _ hc, e1⟩
      · rw [if_neg hne] at hb
        obtain ⟨c, hc, e1⟩ := ih ids b hb
        exact ⟨c, List.mem_cons_of_mem _ hc, e1⟩

/-- A session from the fresh tree: it runs to its end, the tree is at rest, and
its words are the empty word and the substrings of the accepted inputs with
their sentinel. -/
theorem session_spec (calls : List (Nat × List Char))
    (hsize : ∀ c ∈ calls, (c.2.length : Int) < SIZE_BOUND)
    (hfuel : ∀ c ∈ calls, c.2.length + 2 < c.1) :
    ∃ (st : Tree) (ids : List Int) (lab : Nat → List Char),
      add_strings Tree.fresh calls = some (st, ids) ∧ Rest st lab ∧
      (∀ b ∈ accepted calls ids, END_TOKEN ∉ b) ∧
      ∀ w : List Char, Stored st.haystack w ↔
        (w = [] ∨ ∃ b ∈ accepted calls ids, w <:+: b ++ [END_TOKEN]) := by
  obtain ⟨st, ids, lab, hrun, R, hsent, hreg⟩ :=
    add_strings_rest calls Tree.fresh _ Rest_fresh hsize hfuel
  refine ⟨st, ids, lab, hrun, R, hsent, ?_⟩
  intro w
  constructor
  · rintro (h | ⟨k, S, hk, hw⟩)
    · exact Or.inl h
    · rcases (hreg S).mp ⟨k, hk⟩ with ⟨k0, hk0⟩ | ⟨b, hb, e⟩
      · simp [Tree.fresh, mapFind] at hk0
      · exact Or.inr ⟨b, hb, by rw [← e]; exact hw⟩
  · rintro (h | ⟨b, hb, hw⟩)
    · exact Or.inl h
    · obtain ⟨k, hk⟩ := (hreg (b ++ [END_TOKEN])).mpr (Or.inr ⟨b, hb, rfl⟩)
      exact Or.inr ⟨k, _, hk, hw⟩

/-! ## Claims on the queries and on acceptance -/

/-- C1: for every sequence of `add_string` calls on a fresh tree (inputs below
`SIZE_BOUND` bytes, so that the index arithmetic stays within `Index`; each
call with the fuel to run to its end) in which at least one call returned an
ID, and for every byte string `q` (of a size within `Index`), `is_substring q`
returns,
and it returns `true` if and only if `q` occurs as a contiguous substring of
some string for which `add_string` returned an ID; after `add_string("aaaa")`
the queries "aa" and "aaaa" are found and "aaaaa" is not. -/
theorem is_substring_iff_substring (calls : List (Nat × List Char)) (q : List Char)
    (hsize : ∀ c ∈ calls, (c.2.length : Int) < SIZE_BOUND)
    (hfuel : ∀ c ∈ calls, c.2.length + 2 < c.1) (hq : (q.length : Int) ≤ INT_MAX) :
    ∃ (st : Tree) (ids : List Int), add_strings Tree.fresh calls = some (st, ids) ∧
      (accepted calls ids ≠ [] →
        ∃ b : Bool, is_substring st q = some (st, b) ∧
          (b = true ↔ ∃ S ∈ accepted calls ids, q <:+: S)) ∧
      ((add_strings Tree.fresh [(8, ['a', 'a', 'a', 'a'])]).bind
          (fun r => is_substring r.1 ['a', 'a'])).map Prod.snd = some true ∧
      ((add_strings Tree.fresh [(8, ['a', 'a', 'a', 'a'])]).bind
          (fun r => is_substring r.1 ['a', 'a', 'a', 'a'])).map Prod.snd = some true ∧
      ((add_strings Tree.fresh [(8, ['a', 'a', 'a', 'a'])]).bind
          (fun r => is_substring r.1 ['a', 'a', 'a', 'a', 'a'])).map Prod.snd = some false := by
  obtain ⟨st, ids, lab, hrun, R, hsent, hst⟩ := session_spec calls hsize hfuel
  refine ⟨st, ids, hrun, ?_, by decide, by decide, by decide⟩
  intro hne
  by_cases hqs : END_TOKEN ∈ q
  · refine ⟨false, ?_, ?_⟩
    · unfold is_substring
      rw [if_pos (by unfold contains_end_token; exact decide_eq_true hqs)]
    · constructor
      · intro h
        cases h
      · rintro ⟨S, hS, hw⟩
        exact absurd (hw.subset hqs) (hsent S hS)
  · obtain ⟨b, hb, hiff⟩ := is_substring_rest R hqs hq
    refine ⟨b, hb, ?_⟩
    rw [hiff, hst q]
    constructor
    · rintro (rfl | ⟨S, hS, hw⟩)
      · obtain ⟨S, hS⟩ := List.exists_mem_of_ne_nil _ hne
        exact ⟨S, hS, List.nil_infix⟩
      · exact ⟨S, hS, infix_drop_sentinel hqs hw⟩
    · rintro ⟨S, hS, hw⟩
      exact Or.inr ⟨S, hS, hw.trans ⟨[], [END_TOKEN], by simp⟩⟩

theorem is_substring_iff_substring_witness :
    ∃ (st : Tree) (ids : List Int),
      add_strings Tree.fresh [(8, ['a', 'a', 'a', 'a'])] = some (st, ids) ∧
      (accepted [(8, ['a', 'a', 'a', 'a'])] ids ≠ [] →
        ∃ b : Bool, is_substring st ['a', 'a'] = some (st, b) ∧
          (b = true ↔ ∃ S ∈ accepted [(8, ['a', 'a', 'a', 'a'])] ids, ['a', 'a'] <:+: S)) :=
  match is_substring_iff_substring [(8, ['a', 'a', 'a', 'a'])] ['a', 'a'] (by decide) (by decide)
    (by decide) with
  | ⟨st, ids, h1, h2, _⟩ => ⟨st, ids, h1, h2⟩

/-- C2: for every sequence of `add_string` calls on a fresh tree (inputs below
`SIZE_BOUND` bytes, so that the index arithmetic stays within `Index`; each
call with the fuel to run to its end), whether or not a call returned an ID,
and for every byte string `q` (with its sentinel of a size within `Index`),
`is_suffix q` returns, and it returns `true` if and only if `q` is
a suffix of some string for which `add_string` returned an ID; after
`add_string("banana")`, `is_suffix("ana")` is true and `is_suffix("nan")` is
false. -/
theorem is_suffix_iff_suffix (calls : List (Nat × List Char)) (q : List Char)
    (hsize : ∀ c ∈ calls, (c.2.length : Int) < SIZE_BOUND)
    (hfuel : ∀ c ∈ calls, c.2.length + 2 < c.1) (hq : (q.length : Int) < INT_MAX) :
    ∃ (st : Tree) (ids : List Int), add_strings Tree.fresh calls = some (st, ids) ∧
      (∃ b : Bool, is_suffix st q = some (st, b) ∧
        (b = true ↔ ∃ S ∈ accepted calls ids, q <:+ S)) ∧
      ((add_strings Tree.fresh [(9, ['b', 'a', 'n', 'a', 'n', 'a'])]).bind
          (fun r => is_suffix r.1 ['a', 'n', 'a'])).map Prod.snd = some true ∧
      ((add_strings Tree.fresh [(9, ['b', 'a', 'n', 'a', 'n', 'a'])]).bind
          (fun r => is_suffix r.1 ['n', 'a', 'n'])).map Prod.snd = some false := by
  obtain ⟨st, ids, lab, hrun, R, hsent, hst⟩ := session_spec calls hsize hfuel
  refine ⟨st, ids, hrun, ?_, by decide, by decide⟩
  by_cases hqs : END_TOKEN ∈ q
  · refine ⟨false, ?_, ?_⟩
    · unfold is_suffix
      rw [if_pos (by unfold contains_end_token; exact decide_eq_true hqs)]
    · constructor
      · intro h
        cases h
      · rintro ⟨S, hS, hw⟩
        exact absurd (hw.subset hqs) (hsent S hS)
  · obtain ⟨b, hb, hiff⟩ := is_suffix_rest R hqs hq
    refine ⟨b, hb, ?_⟩
    rw [hiff, hst (q ++ [END_TOKEN])]
    constructor
    · rintro (h | ⟨S, hS, hw⟩)
      · simp at h
      · exact ⟨S, hS, suffix_of_infix_sentinel (hsent S hS) hw⟩
    · rintro ⟨S, hS, x, hx⟩
      exact Or.inr ⟨S, hS, x, [], by rw [← hx]; simp⟩

theorem is_suffix_iff_suffix_witness :
    ∃ (st : Tree) (ids : List Int),
      add_strings Tree.fresh [(9, ['b', 'a', 'n', 'a', 'n', 'a'])] = some (st, ids) ∧
      ∃ b : Bool, is_suffix st ['a', 'n', 'a'] = some (st, b) ∧
        (b = true ↔
          ∃ S ∈ accepted [(9, ['b', 'a', 'n', 'a', 'n', 'a'])] ids, ['a', 'n', 'a'] <:+ S) :=
  match is_suffix_iff_suffix [(9, ['b', 'a', 'n', 'a', 'n', 'a'])] ['a', 'n', 'a'] (by decide)
    (by decide) (by decide) with
  | ⟨st, ids, h1, h2, _⟩ => ⟨st, ids, h1, h2⟩

/-- C3 (suffix completeness): after any sequence of `add_string` calls on a
fresh tree (inputs below `SIZE_BOUND` bytes, so that the index arithmetic stays
within `Index`; each call with the fuel to run to its end), for every string
`S` for which `add_string` returned an ID and every
suffix `σ` of `S`, `S` itself and the empty suffix included, `is_substring σ`
and `is_suffix σ` both return `true`. -/
theorem suffix_completeness (calls : List (Nat × List Char)) (S σ : List Char)
    (hsize : ∀ c ∈ calls, (c.2.length : Int) < SIZE_BOUND)
    (hfuel : ∀ c ∈ calls, c.2.length + 2 < c.1) :
    ∃ (st : Tree) (ids : List Int), add_strings Tree.fresh calls = some (st, ids) ∧
      (S ∈ accepted calls ids → σ <:+ S →
        is_substring st σ = some (st, true) ∧ is_suffix st σ = some (st, true)) := by
  obtain ⟨st, ids, lab, hrun, R, hsent, hst⟩ := session_spec calls hsize hfuel
  refine ⟨st, ids, hrun, ?_⟩
  intro hS hsuf
  have hσ : END_TOKEN ∉ σ := fun h => hsent S hS (hsuf.subset h)
  have hlen : (σ.length : Int) < SIZE_BOUND := by
    obtain ⟨c, hc, e⟩ := accepted_mem calls ids S hS
    have h1 := hsize c hc
    rw [e] at h1
    have h2 := hsuf.length_le
    omega
  have hb : SIZE_BOUND < INT_MAX := by decide
  obtain ⟨x, hx⟩ := hsuf
  constructor
  · obtain ⟨b, hb1, hiff⟩ := is_substring_rest R hσ (by omega)
    have : b = true := hiff.mpr ((hst σ).mpr (Or.inr ⟨S, hS, x, [END_TOKEN], by rw [← hx]⟩))
    rw [this] at hb1
    exact hb1
  · obtain ⟨b, hb1, hiff⟩ := is_suffix_rest R hσ (by omega)
    have : b = true :=
      hiff.mpr ((hst _).mpr (Or.inr ⟨S, hS, x, [], by rw [← hx]; simp⟩))
    rw [this] at hb1
    exact hb1

theorem suffix_completeness_witness :
    ∃ (st : Tree) (ids : List Int),
      add_strings Tree.fresh [(8, ['a', 'b', 'c']), (8, ['b', 'c', 'a'])] = some (st, ids) ∧
      (['b', 'c', 'a'] ∈ accepted [(8, ['a', 'b', 'c']), (8, ['b', 'c', 'a'])] ids →
        ['c', 'a'] <:+ ['b', 'c', 'a'] →
        is_substring st ['c', 'a'] = some (st, true) ∧
          is_suffix st ['c', 'a'] = some (st, true)) :=
  suffix_completeness [(8, ['a', 'b', 'c']), (8, ['b', 'c', 'a'])] ['b', 'c', 'a'] ['c', 'a']
    (by decide) (by decide)

/-- C4 (amended): in every state reached from the fresh tree (by calls on
inputs below `SIZE_BOUND` bytes, each with the fuel to run to its end) that
holds fewer than `MAX_STRINGS` (64) strings, `add_string` of an input without
the sentinel `'$'` returns; it returns a new ID `≥ 1` (the count plus one, under which the
input is stored) unless the input is a suffix of a string accepted before, in
which case it returns `-1` and leaves the state unchanged; `add_string("xy")`
followed by `add_string("xy")` returns ID 1 and then `-1`. -/
theorem add_string_accepts_unless_suffix (calls : List (Nat × List Char)) (fuel : Nat)
    (str : List Char) (hsize : ∀ c ∈ calls, (c.2.length : Int) < SIZE_BOUND)
    (hfuel : ∀ c ∈ calls, c.2.length + 2 < c.1) (hstr : (str.length : Int) < SIZE_BOUND)
    (hf : str.length + 2 < fuel) (hs : END_TOKEN ∉ str) :
    ∃ (st : Tree) (ids : List Int), add_strings Tree.fresh calls = some (st, ids) ∧
      (get_string_count st < 64 →
        ∃ (st1 : Tree) (id : Int), add_string fuel st str = some (st1, id) ∧
          (((∃ S ∈ accepted calls ids, str <:+ S) ∧ id = -1 ∧ st1 = st) ∨
           ((¬ ∃ S ∈ accepted calls ids, str <:+ S) ∧ id = get_string_count st + 1 ∧ 1 ≤ id ∧
              get_string_count st1 = id ∧ get_string st1 id = str))) ∧
      (add_strings Tree.fresh [(8, ['x', 'y']), (8, ['x', 'y'])]).map Prod.snd
        = some [1, -1] := by
  obtain ⟨st, ids, lab, hrun, R, hsent, hst⟩ := session_spec calls hsize hfuel
  refine ⟨st, ids, hrun, ?_, by decide⟩
  intro hcount
  unfold get_string_count at hcount
  obtain ⟨st1, id, lab1, hadd, R1, hcase⟩ := @add_string_spec _ _ _ fuel R hstr hf
  refine ⟨st1, id, hadd, ?_⟩
  have hiff : InW st lab (str ++ [END_TOKEN]) ↔ ∃ S ∈ accepted calls ids, str <:+ S := by
    rw [R.content, hst]
    constructor
    · rintro (h | ⟨S, hS, hw⟩)
      · simp at h
      · exact ⟨S, hS, suffix_of_infix_sentinel (hsent S hS) hw⟩
    · rintro ⟨S, hS, x, hx⟩
      exact Or.inr ⟨S, hS, x, [], by rw [← hx]; simp⟩
  rcases hcase with ⟨h1, h2, _, h4⟩ | ⟨h1, _, _, h4, h5, h6⟩
  · left
    rcases h4 with h4 | h4 | h4
    · exact absurd h4 hs
    · omega
    · exact ⟨hiff.mp h4, h1, h2⟩
  · right
    refine ⟨fun h => h4 (hiff.mpr h), h1, by have := R.keys.1; omega, ?_, ?_⟩
    · unfold get_string_count
      rw [h6, h1]
    · apply get_string_stored
      rw [h5, h1, mapFind_mapAssign, if_pos rfl]

theorem add_string_accepts_unless_suffix_witness :
    ∃ (st : Tree) (ids : List Int),
      add_strings Tree.fresh [(8, ['x', 'y'])] = some (st, ids) ∧
      (get_string_count st < 64 →
        ∃ (st1 : Tree) (id : Int), add_string 8 st ['x', 'y'] = some (st1, id) ∧
          (((∃ S ∈ accepted [(8, ['x', 'y'])] ids, ['x', 'y'] <:+ S) ∧ id = -1 ∧ st1 = st) ∨
           ((¬ ∃ S ∈ accepted [(8, ['x', 'y'])] ids, ['x', 'y'] <:+ S) ∧
              id = get_string_count st + 1 ∧ 1 ≤ id ∧
              get_string_count st1 = id ∧ get_string st1 id = ['x', 'y']))) :=
  match add_string_accepts_unless_suffix [(8, ['x', 'y'])] 8 ['x', 'y'] (by decide) (by decide)
    (by decide) (by decide) (by decide) with
  | ⟨st, ids, h1, h2, _⟩ => ⟨st, ids, h1, h2⟩

/-! ## Claims on scenarios, colouring and rejection -/

/-- C11 (scenario S2): on a fresh tree `add_string("abc")` and
`add_string("abd")` return IDs 1 and 2, `is_substring("ab")` is true after each
of them and after `compute_colors`; after `compute_colors` the path "ab" from
the root ends at a node (cell 6) that is internal and has bitmask `{1,2}`, its
child on the edge starting with `'c'` (cell 2) is a leaf with bitmask exactly
`{1}` and its child on the edge starting with `'d'` (cell 7) is a leaf with
bitmask exactly `{2}`. -/
theorem scenario_S2_colours :
    (add_strings Tree.fresh [(8, ['a', 'b', 'c']), (8, ['a', 'b', 'd'])]).map Prod.snd
      = some [1, 2] ∧
    ((add_strings Tree.fresh [(8, ['a', 'b', 'c'])]).bind
        (fun r => is_substring r.1 ['a', 'b'])).map Prod.snd = some true ∧
    ((add_strings Tree.fresh [(8, ['a', 'b', 'c']), (8, ['a', 'b', 'd'])]).bind
        (fun r => is_substring r.1 ['a', 'b'])).map Prod.snd = some true ∧
    ∃ st, scenarioS2 = some st ∧
      (is_substring st ['a', 'b']).map Prod.snd = some true ∧
      pathNodes st 8 (some rootId) ['a', 'b'] = [6] ∧
      isLeafAt st 6 = some false ∧ colorsAt st 6 = some (colorMask [1, 2]) ∧
      childOn st 6 'c' = some 2 ∧ isLeafAt st 2 = some true ∧
      colorsAt st 2 = some (colorMask [1]) ∧
      childOn st 6 'd' = some 7 ∧ isLeafAt st 7 = some true ∧
      colorsAt st 7 = some (colorMask [2]) := by
  refine ⟨by decide, by decide, by decide, ?_⟩
  match h : scenarioS2 with
  | none => exact absurd h (by decide)
  | some st =>
    have e : st = scenarioS2.getD Tree.fresh := by rw [h]; rfl
    refine ⟨st, rfl, ?_⟩
    rw [e]
    decide

/-- A call of `compute_colors` that follows a completed call returns, whatever
its fuel, the state the first call left. -/
theorem compute_colors_again (st st1 : Tree) (f1 f2 : Nat)
    (h : compute_colors f1 st = some st1) : compute_colors f2 st1 = some st1 := by
  have hflag : st1.colors_computed = true := by
    unfold compute_colors at h
    by_cases hc : st.colors_computed = true
    · rw [if_pos hc] at h
      rw [← Option.some.inj h]
      exact hc
    · rw [if_neg hc] at h
      cases h1 : markAll f1 (loopBound st.last_index.toNat) st 1 with
      | none => rw [h1] at h; cases h
      | some st2 =>
        rw [h1] at h
        simp only [] at h
        cases h2 : compute_colors_dfs f1 st2 (some rootId) with
        | none => rw [h2] at h; cases h
        | some p =>
          rw [h2] at h
          simp only [] at h
          rw [← Option.some.inj h]
  unfold compute_colors
  rw [if_pos hflag]

/-- C17: in every state reached from the fresh tree (by calls on inputs below
`SIZE_BOUND` bytes, each with the fuel to run to its end) that holds fewer than
64 strings, `add_string` of an input without the sentinel returns; it returns
`-1` exactly when the input is a suffix of a stored string (a stored string
itself included), and then the whole state is returned unchanged: registry,
string count, every node's transitions, suffix link and bitmask, and the
colours-clean flag. -/
theorem add_string_rejects_stored_suffix (calls : List (Nat × List Char)) (fuel : Nat)
    (str : List Char) (hsize : ∀ c ∈ calls, (c.2.length : Int) < SIZE_BOUND)
    (hfuel : ∀ c ∈ calls, c.2.length + 2 < c.1) (hstr : (str.length : Int) < SIZE_BOUND)
    (hf : str.length + 2 < fuel) (hs : END_TOKEN ∉ str) :
    ∃ (st : Tree) (ids : List Int), add_strings Tree.fresh calls = some (st, ids) ∧
      (get_string_count st < 64 →
        ∃ (st1 : Tree) (id : Int), add_string fuel st str = some (st1, id) ∧
          (id = -1 ↔ ∃ S ∈ accepted calls ids, str <:+ S) ∧ (id = -1 → st1 = st)) := by
  obtain ⟨st, ids, lab, hrun, R, hsent, hst⟩ := session_spec calls hsize hfuel
  refine ⟨st, ids, hrun, ?_⟩
  intro hcount
  unfold get_string_count at hcount
  obtain ⟨st1, id, lab1, hadd, R1, hcase⟩ := @add_string_spec _ _ _ fuel R hstr hf
  refine ⟨st1, id, hadd, ?_⟩
  have hiff : InW st lab (str ++ [END_TOKEN]) ↔ ∃ S ∈ accepted calls ids, str <:+ S := by
    rw [R.content, hst]
    constructor
    · rintro (h | ⟨S, hS, hw⟩)
      · simp at h
      · exact ⟨S, hS, suffix_of_infix_sentinel (hsent S hS) hw⟩
    · rintro ⟨S, hS, x, hx⟩
      exact Or.inr ⟨S, hS, x, [], by rw [← hx]; simp⟩
  rcases hcase with ⟨h1, h2, _, h4⟩ | ⟨h1, _, _, h4, _, _⟩
  · refine ⟨⟨fun _ => ?_, fun _ => h1⟩, fun _ => h2⟩
    rcases h4 with h4 | h4 | h4
    · exact absurd h4 hs
    · omega
    · exact hiff.mp h4
  · have hne : id ≠ -1 := by
      have := R.keys.1
      omega
    exact ⟨⟨fun e => absurd e hne, fun h => absurd (hiff.mpr h) h4⟩, fun e => absurd e hne⟩

theorem add_string_rejects_stored_suffix_witness :
    ∃ (st : Tree) (ids : List Int),
      add_strings Tree.fresh [(9, ['b', 'a', 'n', 'a', 'n', 'a'])] = some (st, ids) ∧
      (get_string_count st < 64 →
        ∃ (st1 : Tree) (id : Int), add_string 6 st ['n', 'a'] = some (st1, id) ∧
          (id = -1 ↔ ∃ S ∈ accepted [(9, ['b', 'a', 'n', 'a', 'n', 'a'])] ids,
            ['n', 'a'] <:+ S) ∧ (id = -1 → st1 = st)) :=
  add_string_rejects_stored_suffix [(9, ['b', 'a', 'n', 'a', 'n', 'a'])] 6 ['n', 'a']
    (by decide) (by decide) (by decide) (by decide) (by decide)

/-- C20 (failing input): on a node other than the sink that has no transition
on the first byte of a non-empty span, `canonize` never returns, whatever the
fuel: the loop is entered with the invalid transition `(0, 0, -1)`, whose
`delta = -1` passes the test `delta <= r - l`, and the next
`find_alpha_transition` goes through its null target. -/
theorem canonize_missing_edge_fails (fuel : Nat) (st : Tree) (n : Nat) (nd : Node) (id l r : Int)
    (s : List Char) (c : Char) (hn : n ≠ sinkId) (hnd : st.nodes[n]? = some nd)
    (hs : mapFind id st.haystack = some s) (hlr : l ≤ r) (hc : strAt s l = some c)
    (hm : mapFind c nd.g = none) : canonize fuel st (some n) ⟨id, l, r⟩ = none := by
  unfold canonize
  simp only []
  rw [if_neg (by omega), haystackIndex_eq hs]
  simp only []
  rw [hc]
  simp only []
  have hfind : st.find_alpha_transition (some n) c = some { sub := ⟨0, 0, -1⟩, tgt := none } := by
    unfold Tree.find_alpha_transition
    simp only [hnd]
    rw [if_neg hn, hm]
  rw [hfind]
  simp only []
  cases fuel with
  | zero => simp [canonizeLoop]
  | succ f =>
    unfold canonizeLoop
    simp only []
    rw [if_pos (by omega)]
    have e : l + (1 + ((-1 : Int) - 0)) = l := by omega
    rw [e, if_pos hlr, hc]
    simp [Tree.find_alpha_transition]

theorem canonize_missing_edge_fails_witness :
    ∃ st : Tree, (add_strings Tree.fresh [(8, ['a', 'b'])]).map Prod.fst = some st ∧
      isLeafAt st 2 = some true ∧ ∀ fuel : Nat, canonize fuel st (some 2) ⟨1, 0, 0⟩ = none :=
  match h0 : add_strings Tree.fresh [(8, ['a', 'b'])] with
  | none => absurd h0 (by decide)
  | some (st, ids) =>
    have e : st = ((add_strings Tree.fresh [(8, ['a', 'b'])]).map Prod.fst).getD Tree.fresh := by
      rw [h0]; rfl
    ⟨st, rfl, by rw [e]; decide, fun fuel =>
      canonize_missing_edge_fails fuel st 2 Node.fresh 1 0 0 ['a', 'b', '$'] 'a' (by decide)
        (by rw [e]; decide) (by rw [e]; decide) (by decide) (by decide) (by decide)⟩

/-! ## Order of insertion -/

theorem Stored_nil_iff (w : List Char) : Stored ([] : List (Int × List Char)) w ↔ w = [] := by
  constructor
  · rintro (h | ⟨k, S, hk, _⟩)
    · exact h
    · simp [mapFind] at hk
  · exact fun h => Or.inl h

/-- A session of at most `64 - last_index` calls on sentinel-free inputs: no
call meets the cap, and the words stored afterwards are those stored before
and the substrings of all inputs, accepted or not (a rejected input is a
suffix of a stored string). -/
theorem add_strings_all : ∀ (calls : List (Nat × List Char)) (st : Tree)
    (lab : Nat → List Char), Rest st lab →
    (∀ c ∈ calls, (c.2.length : Int) < SIZE_BOUND) → (∀ c ∈ calls, c.2.length + 2 < c.1) →
    (∀ c ∈ calls, END_TOKEN ∉ c.2) → st.last_index + calls.length ≤ 64 →
    ∃ (st1 : Tree) (ids : List Int) (lab1 : Nat → List Char),
      add_strings st calls = some (st1, ids) ∧ Rest st1 lab1 ∧
      ∀ w : List Char, Stored st1.haystack w ↔
        (Stored st.haystack w ∨ ∃ c ∈ calls, w <:+: c.2 ++ [END_TOKEN]) := by
  intro calls
  induction calls with
  | nil =>
    intro st lab R _ _ _ _
    refine ⟨st, [], lab, rfl, R, ?_⟩
    intro w
    simp
  | cons c rest ih =>
    intro st lab R hsize hfuel hsent hcap
    obtain ⟨fuel, s⟩ := c
    have hk := R.keys
    rw [List.length_cons] at hcap
    push_cast at hcap
    obtain ⟨st1, id, lab1, hadd, R1, hcase⟩ := @add_string_spec _ _ _ fuel R
      (hsize (fuel, s) (List.mem_cons_self _ _)) (hfuel (fuel, s) (List.mem_cons_self _ _))
    have hstep : st1.last_index ≤ st.last_index + 1 ∧
        ∀ w : List Char, Stored st1.haystack w ↔
          (Stored st.haystack w ∨ w <:+: s ++ [END_TOKEN]) := by
      rcases hcase with ⟨_, h2, _, h4⟩ | ⟨_, _, _, _, h5, h6⟩
      · rw [h2]
        refine ⟨by omega, fun w => ⟨Or.inl, ?_⟩⟩
        rintro (h | h)
        · exact h
        · rcases h4 with h4 | h4 | h4
          · exact absurd h4 (hsent (fuel, s) (List.mem_cons_self _ _))
          · have := hk.1
            omega
          · exact Stored_sub ((R.content _).mp h4) h
      · have hnone : mapFind (st.last_index + 1) st.haystack = none := by
          cases hm : mapFind (st.last_index + 1) st.haystack with
          | none => rfl
          | some v =>
            have := hk.2.2 (st.last_index + 1) (by rw [hm]; rfl)
            omega
        refine ⟨by omega, fun w => ?_⟩
        rw [h5]
        exact Stored_mapAssign hnone w
    obtain ⟨st2, ids, lab2, hrest, R2, hreg⟩ := ih st1 lab1 R1
      (fun c hc => hsize c (List.mem_cons_of_mem _ hc))
      (fun c hc => hfuel c (List.mem_cons_of_mem _ hc))
      (fun c hc => hsent c (List.mem_cons_of_mem _ hc)) (by have := hstep.1; omega)
    have hrun : add_strings st ((fuel, s) :: rest) = some (st2, id :: ids) := by
      unfold add_strings
      rw [hadd]
      simp only []
      rw [hrest]
    refine ⟨st2, id :: ids, lab2, hrun, R2, ?_⟩
    intro w
    rw [hreg w, hstep.2 w]
    constructor
    · rintro ((h | h) | ⟨c, hc, h⟩)
      · exact Or.inl h
      · exact Or.inr ⟨(fuel, s), List.mem_cons_self _ _, h⟩
      · exact Or.inr ⟨c, List.mem_cons_of_mem _ hc, h⟩
    · rintro (h | ⟨c, hc, h⟩)
      · exact Or.inl (Or.inl h)
      · rcases List.mem_cons.mp hc with e | e
        · rw [e] at h
          exact Or.inl (Or.inr h)
        · exact Or.inr ⟨c, e, h⟩

/-- The answers of the two queries in a state at rest depend on the stored
words only. -/
theorem queries_of_stored {st1 st2 : Tree} {lab1 lab2 : Nat → List Char} (R1 : Rest st1 lab1)
    (R2 : Rest st2 lab2) (hsame : ∀ w : List Char, Stored st1.haystack w ↔ Stored st2.haystack w)
    (q : List Char) (hq : (q.length : Int) < INT_MAX) :
    ∃ b c : Bool, is_substring st1 q = some (st1, b) ∧ is_substring st2 q = some (st2, b) ∧
      is_suffix st1 q = some (st1, c) ∧ is_suffix st2 q = some (st2, c) := by
  by_cases hqs : END_TOKEN ∈ q
  · have hc : contains_end_token q = true := by
      unfold contains_end_token
      exact decide_eq_true hqs
    refine ⟨false, false, ?_, ?_, ?_, ?_⟩
    · unfold is_substring
      rw [if_pos hc]
    · unfold is_substring
      rw [if_pos hc]
    · unfold is_suffix
      rw [if_pos hc]
    · unfold is_suffix
      rw [if_pos hc]
  · obtain ⟨b1, hb1, hi1⟩ := is_substring_rest R1 hqs (by omega)
    obtain ⟨b2, hb2, hi2⟩ := is_substring_rest R2 hqs (by omega)
    obtain ⟨c1, hc1, hj1⟩ := is_suffix_rest R1 hqs hq
    obtain ⟨c2, hc2, hj2⟩ := is_suffix_rest R2 hqs hq
    have eb : b1 = b2 := by
      rw [Bool.eq_iff_iff, hi1, hi2]
      exact hsame q
    have ec : c1 = c2 := by
      rw [Bool.eq_iff_iff, hj1, hj2]
      exact hsame _
    subst eb
    subst ec
    exact ⟨b1, c1, hb1, hb2, hc1, hc2⟩

/-- C13 (order independence): for every list of at most 64 sentinel-free
strings (below `SIZE_BOUND` bytes) and every permutation of it, the calls of
`add_string` in either order run to their end (each with fuel above the size
of its input plus two), and the two trees give the same answer to
`is_substring q` and to `is_suffix q` for every query `q` (of a size within
`Index`). -/
theorem order_independence (calls1 calls2 : List (Nat × List Char)) (q : List Char)
    (hperm : (calls1.map Prod.snd).Perm (calls2.map Prod.snd)) (hlen : calls1.length ≤ 64)
    (hsent : ∀ c ∈ calls1, END_TOKEN ∉ c.2)
    (hsize : ∀ c ∈ calls1, (c.2.length : Int) < SIZE_BOUND)
    (hfuel1 : ∀ c ∈ calls1, c.2.length + 2 < c.1) (hfuel2 : ∀ c ∈ calls2, c.2.length + 2 < c.1)
    (hq : (q.length : Int) < INT_MAX) :
    ∃ (st1 st2 : Tree) (ids1 ids2 : List Int),
      add_strings Tree.fresh calls1 = some (st1, ids1) ∧
      add_strings Tree.fresh calls2 = some (st2, ids2) ∧
      ∃ b c : Bool, is_substring st1 q = some (st1, b) ∧ is_substring st2 q = some (st2, b) ∧
        is_suffix st1 q = some (st1, c) ∧ is_suffix st2 q = some (st2, c) := by
  have hmem : ∀ c ∈ calls2, c.2 ∈ calls1.map Prod.snd :=
    fun c hc => hperm.mem_iff.mpr (List.mem_map_of_mem _ hc)
  have hsent2 : ∀ c ∈ calls2, END_TOKEN ∉ c.2 := by
    intro c hc
    obtain ⟨c1, hc1, e⟩ := List.mem_map.mp (hmem c hc)
    rw [← e]
    exact hsent c1 hc1
  have hsize2 : ∀ c ∈ calls2, (c.2.length : Int) < SIZE_BOUND := by
    intro c hc
    obtain ⟨c1, hc1, e⟩ := List.mem_map.mp (hmem c hc)
    rw [← e]
    exact hsize c1 hc1
  have hlen2 : calls2.length ≤ 64 := by
    have := hperm.length_eq
    simp only [List.length_map] at this
    omega
  have h0 : Tree.fresh.last_index = 0 := rfl
  obtain ⟨st1, ids1, lab1, hrun1, R1, hw1⟩ := add_strings_all calls1 Tree.fresh _ Rest_fresh
    hsize hfuel1 hsent (by rw [h0]; push_cast; omega)
  obtain ⟨st2, ids2, lab2, hrun2, R2, hw2⟩ := add_strings_all calls2 Tree.fresh _ Rest_fresh
    hsize2 hfuel2 hsent2 (by rw [h0]; push_cast; omega)
  refine ⟨st1, st2, ids1, ids2, hrun1, hrun2, queries_of_stored R1 R2 ?_ q hq⟩
  intro w
  rw [hw1 w, hw2 w]
  have key : (∃ c ∈ calls1, w <:+: c.2 ++ [END_TOKEN]) ↔
      (∃ c ∈ calls2, w <:+: c.2 ++ [END_TOKEN]) := by
    constructor
    · rintro ⟨c, hc, h⟩
      obtain ⟨c2, hc2, e⟩ := List.mem_map.mp (hperm.mem_iff.mp (List.mem_map_of_mem _ hc))
      exact ⟨c2, hc2, by rw [e]; exact h⟩
    · rintro ⟨c, hc, h⟩
      obtain ⟨c1, hc1, e⟩ := List.mem_map.mp (hmem c hc)
      exact ⟨c1, hc1, by rw [e]; exact h⟩
  rw [key]

theorem order_independence_witness :
    ∃ (st1 st2 : Tree) (ids1 ids2 : List Int),
      add_strings Tree.fresh [(8, ['a', 'b']), (8, ['b'])] = some (st1, ids1) ∧
      add_strings Tree.fresh [(5, ['b']), (6, ['a', 'b'])] = some (st2, ids2) ∧
      ∃ b c : Bool, is_substring st1 ['b'] = some (st1, b) ∧
        is_substring st2 ['b'] = some (st2, b) ∧
        is_suffix st1 ['b'] = some (st1, c) ∧ is_suffix st2 ['b'] = some (st2, c) :=
  order_independence [(8, ['a', 'b']), (8, ['b'])] [(5, ['b']), (6, ['a', 'b'])] ['b']
    (by decide) (by decide) (by decide) (by decide) (by decide) (by decide) (by decide)

/-! ## Paths and labels -/

/-- On a well-formed tree a path from a labelled node ends at a labelled node,
whose label is the label of the start followed by the word of the path. -/
theorem Walk.label {st : Tree} {lab : Nat → List Char} (h : WFL st lab) {n m : Nat}
    {v : List Char} (hw : Walk st n v m) : Attached st n → Attached st m ∧ lab m = lab n ++ v := by
  induction hw with
  | stay n =>
    intro hn
    exact ⟨hn, by simp⟩
  | step n j m nd c t S w hns hnd hm ht hS _ ih =>
    intro hn
    obtain ⟨j1, S1, e⟩ := h.edges n nd c t hn.1 hnd hm
    have ej : j1 = j := by
      have := e.tgt
      rw [ht] at this
      exact (Option.some.inj this).symm
    subst ej
    have eS : S1 = S := by
      have := e.ref
      rw [hS] at this
      exact (Option.some.inj this).symm
    subst eS
    obtain ⟨hm1, hl⟩ := ih ⟨by have := e.j_lo; omega, e.j_hi⟩
    exact ⟨hm1, by rw [hl, e.lab_eq, List.append_assoc]⟩
  | sink j m nd c w _ _ _ _ =>
    intro hn
    exfalso
    have := hn.1
    simp [sinkId] at this

/-- On a well-formed tree a node whose label extends the label of another node
is reached from it by a path. -/
theorem walk_of_label {st : Tree} {lab : Nat → List Char} (h : WFL st lab) :
    ∀ (N : Nat) (n x : Nat), Attached st n → Attached st x → lab n <+: lab x →
      (lab x).length ≤ (lab n).length + N → Walk st n ((lab x).drop (lab n).length) x := by
  intro N
  induction N with
  | zero =>
    intro n x hn hx hp hl
    have e : lab n = lab x := hp.eq_of_length (le_antisymm hp.length_le (by omega))
    have enx : n = x := h.inj hn hx e
    subst enx
    simp only [List.drop_length]
    exact Walk.stay n
  | succ N ih =>
    intro n x hn hx hp hl
    by_cases hlen : (lab x).length = (lab n).length
    · have e : lab n = lab x := hp.eq_of_length hlen.symm
      have enx : n = x := h.inj hn hx e
      subst enx
      simp only [List.drop_length]
      exact Walk.stay n
    · obtain ⟨y, hy⟩ := hp
      cases y with
      | nil =>
        exfalso
        rw [List.append_nil] at hy
        exact hlen (by rw [hy])
      | cons c y =>
        have hpc : lab n ++ [c] <+: lab x := ⟨y, by rw [← hy]; simp⟩
        obtain ⟨nd, t, j, S, hnd, hm, ed, hj⟩ := h.locus hn hx hpc
        have hS := h.strs _ _ ed.ref
        have hjatt : Attached st j := ⟨by have := ed.j_lo; omega, ed.j_hi⟩
        have hlj : (lab j).length = (lab n).length + (labelOf S t.sub).length := by
          rw [ed.lab_eq, List.length_append]
        have hpos : 0 < (labelOf S t.sub).length := by
          rw [ed.label_cons hS]
          simp
        have hw := ih j x hjatt hx hj (by omega)
        have hns : n ≠ sinkId := by
          have := hn.1
          simp [sinkId]
          omega
        have hstep := Walk.step n j x nd c t S _ hns hnd hm ed.tgt ed.ref hw
        have e : labelOf S t.sub ++ (lab x).drop (lab j).length = (lab x).drop (lab n).length := by
          obtain ⟨z, hz⟩ := hj
          rw [← hz, ed.lab_eq]
          simp
        rw [e] at hstep
        exact hstep

/-- On a well-formed tree the words spelled from a labelled node are the words
of the tree that continue its label. -/
theorem spelled_iff {st : Tree} {lab : Nat → List Char} (h : WFL st lab) {n : Nat}
    (hn : Attached st n) (w : List Char) : Spelled st n w ↔ InW st lab (lab n ++ w) := by
  constructor
  · rintro ⟨m, v, hw, hp⟩
    obtain ⟨hm, hl⟩ := hw.label h hn
    exact ⟨m, hm.1, hm.2, by rw [hl]; exact (List.prefix_append_right_inj _).mpr hp⟩
  · rintro ⟨x, hx1, hx2, hp⟩
    have hnx : lab n <+: lab x := (List.prefix_append _ _).trans hp
    refine ⟨x, _, walk_of_label h (lab x).length n x hn ⟨hx1, hx2⟩ hnx (by omega), ?_⟩
    obtain ⟨z, hz⟩ := hp
    rw [← hz]
    simp

theorem spelled_root_iff {st : Tree} {lab : Nat → List Char} (h : WFL st lab) (w : List Char) :
    Spelled st rootId w ↔ InW st lab w := by
  rw [spelled_iff h h.root_attached, h.lab_root, List.nil_append]

/-- A path between two labelled nodes spells the part of the label of its end
that follows the label of its start. -/
theorem walk_between {st : Tree} {lab : Nat → List Char} (h : WFL st lab) {n x : Nat}
    {v : List Char} (hn : Attached st n) (hx : Attached st x) (hl : lab x = lab n ++ v) :
    Walk st n v x := by
  have hw := walk_of_label h (lab x).length n x hn hx ⟨v, hl.symm⟩ (by omega)
  rw [hl] at hw
  simpa using hw

theorem sentinel_inside {x y body : List Char} {c : Char}
    (h : x ++ [END_TOKEN] ++ c :: y = body ++ [END_TOKEN]) : END_TOKEN ∈ body := by
  rcases List.eq_nil_or_concat (c :: y) with h0 | ⟨y1, l, h1⟩
  · cases h0
  · rw [h1, List.concat_eq_append, ← List.append_assoc] at h
    have h2 := (List.append_inj' h rfl).1
    rw [← h2]
    simp

/-- In a tree at rest the target of an open edge has no transition. -/
theorem leaf_of_open {st : Tree} {lab : Nat → List Char} (R : Rest st lab) {n j : Nat}
    {c : Char} {t : Transition} {S : List Char} (e : EdgeOK st lab n c t j S)
    (hopen : t.sub.r = INT_MAX) {nd : Node} (hnd : st.nodes[j]? = some nd) : nd.g = [] := by
  have h := R.wfl
  have hS := h.strs _ _ e.ref
  have hjatt : Attached st j := ⟨by have := e.j_lo; omega, e.j_hi⟩
  cases hg : nd.g with
  | nil => rfl
  | cons p rest =>
    exfalso
    obtain ⟨c1, t1⟩ := p
    have hm : mapFind c1 nd.g = some t1 := by
      rw [hg]
      simp [mapFind]
    obtain ⟨x, S1, e1⟩ := h.edges j nd c1 t1 hjatt.1 hnd hm
    have hS1 := h.strs _ _ e1.ref
    have hxatt : Attached st x := ⟨by have := e1.j_lo; omega, e1.j_hi⟩
    -- the label of `x` holds a sentinel before its last byte
    have hE : edgeEnd S t.sub = S.length := by simp [edgeEnd, hopen]
    have hlj : lab j = lab n ++ slice S t.sub.l S.length := by
      rw [e.lab_eq]
      unfold labelOf
      rw [hE]
    have hlx : lab x = lab n ++ slice S t.sub.l S.length ++ c1 :: slice S1 (t1.sub.l + 1)
        (edgeEnd S1 t1.sub) := by
      rw [e1.lab_eq, hlj, e1.label_cons hS1]
    rcases (R.content (lab x)).mp (InW_lab hxatt) with h0 | ⟨k, S2, hk, hin⟩
    · rw [hlx] at h0
      simp at h0
    · have hS2 := h.strs _ _ hk
      obtain ⟨body, hb, hnb, _⟩ := hS2
      obtain ⟨body0, hb0, _, _⟩ := hS
      have hsl : slice S t.sub.l S.length ≠ [] := by
        intro h1
        have h2 := slice_length (S := S) (a := t.sub.l) (b := S.length) e.l_lo
          (le_of_lt e.l_hi) (le_refl _)
        rw [h1] at h2
        simp at h2
        have := e.l_hi
        omega
      have hlast : ∃ z, slice S t.sub.l S.length = z ++ [END_TOKEN] := by
        rw [slice_drop_zero e.l_lo (le_of_lt e.l_hi), hb0]
        have hlt : t.sub.l.toNat ≤ body0.length := by
          have := e.l_hi
          rw [hb0] at this
          simp at this
          omega
        exact ⟨body0.drop t.sub.l.toNat, by rw [List.drop_append_of_le_length hlt]⟩
      obtain ⟨z, hz⟩ := hlast
      obtain ⟨p, q, hpq⟩ := hin
      rw [hlx, hz, hb] at hpq
      -- `body ++ [$] = p ++ lab n ++ z ++ [$] ++ c1 :: rest ++ q`
      have hmem : END_TOKEN ∈ body :=
        sentinel_inside (x := p ++ lab n ++ z) (c := c1)
          (y := slice S1 (t1.sub.l + 1) (edgeEnd S1 t1.sub) ++ q) (by rw [← hpq]; simp)
      exact hnb hmem

/-- In a tree at rest a node with a transition is the root or the target of a
closed edge. -/
theorem Inner_of_child {st : Tree} {lab : Nat → List Char} (R : Rest st lab) {n : Nat}
    {nd : Node} {c : Char} {t : Transition} (hn : Attached st n) (hnd : st.nodes[n]? = some nd)
    (hm : mapFind c nd.g = some t) : Inner st n := by
  by_cases hr : n = rootId
  · exact Or.inl hr
  · have h2 : 2 ≤ n := by
      have := hn.1
      unfold rootId at hr
      omega
    obtain ⟨p, ndp, cp, tp, S, hp, hndp, hmp, e, _⟩ := R.wfl.parent_edge h2 hn.2
    by_cases hopen : tp.sub.r = INT_MAX
    · have := leaf_of_open R e hopen hnd
      rw [this] at hm
      simp [mapFind] at hm
    · exact Or.inr ⟨p, ndp, cp, tp, hp.1, hndp, hmp, e.tgt, hopen⟩

/-! ## Fast-forward and canonization in terms of paths -/

theorem probe_of_dropLast {s : List Char} (h : END_TOKEN ∉ s.dropLast) : Probe s := by
  intro i h0 h1 h2
  apply h
  rw [strAt_lt h0 (by omega)] at h2
  rw [List.dropLast_eq_take]
  apply List.mem_iff_getElem?.mpr
  refine ⟨i.toNat, ?_⟩
  rw [List.getElem?_take_of_lt (by omega)]
  exact h2

/-- No node on the path of `s[0..i)` lies below a canonical position. -/
theorem start_deepest {st : Tree} {lab : Nat → List Char} (h : WFL st lab) {s : List Char}
    {n : Nat} {p i : Int} (hn : Attached st n) (hlab : lab n = slice s 0 p) (hp0 : 0 ≤ p)
    (hpi : p ≤ i) (hi : i ≤ s.length) (hc : Canon st lab s n p i) {m : Nat} {v : List Char}
    (hw : Walk st rootId v m) (hv : v <+: slice s 0 i) : (v.length : Int) ≤ p := by
  obtain ⟨hm, hl⟩ := hw.label h h.root_attached
  rw [h.lab_root, List.nil_append] at hl
  have hvl := hv.length_le
  have hsl : ((slice s 0 i).length : Int) = i - 0 := slice_length (le_refl _) (by omega) hi
  by_contra hcon
  rcases hc with hc | ⟨hlt, nd, c, t, j, S, hc, hnd, hmf, ed, hpre, hlen⟩
  · omega
  · have hv1 : v = slice s 0 v.length := by
      apply prefix_same_length hv (slice_pre (le_refl _) (by omega) (by omega))
      have := slice_length (S := s) (a := 0) (b := v.length) (le_refl _) (by omega) (by omega)
      omega
    have hpv : lab n ++ [c] <+: lab m := by
      rw [hl, hlab, ← slice_snoc (le_refl _) hp0 (by omega) hc, hv1]
      exact slice_pre (le_refl _) (by omega) (by omega)
    obtain ⟨nd1, t1, j1, S1, hnd1, hm1, ed1, hj1⟩ := h.locus hn hm hpv
    rw [hnd] at hnd1
    obtain rfl := Option.some.inj hnd1
    rw [hmf] at hm1
    obtain rfl := Option.some.inj hm1
    have ex : j1 = j := by
      have := ed1.tgt
      rw [ed.tgt] at this
      exact (Option.some.inj this).symm
    subst ex
    have hl1 := hj1.length_le
    rw [ed.lab_eq, hl, hlab, List.length_append] at hl1
    have hl2 : ((slice s 0 p).length : Int) = p - 0 := slice_length (le_refl _) hp0 (by omega)
    omega

/-- The method `get_starting_node` started at the root of a tree at rest. -/
theorem get_starting_node_rest {st : Tree} {lab : Nat → List Char} (R : Rest st lab)
    (s : List Char) (ref : Int) (hp : Probe s) (hlen : (s.length : Int) ≤ INT_MAX) :
    ∃ (rp : ReferencePoint) (i : Int),
      get_starting_node st s ⟨some rootId, ref, 0⟩ = some (st, rp, i) ∧
      FastForwardPost st s rp i := by
  have h := R.wfl
  obtain ⟨res0, hres0, hst, hpost⟩ := startLoop_spec h hp (loopBound s.length)
    ⟨some rootId, ref, 0⟩ 0 rootId (by unfold loopBound; push_cast; omega) rfl rfl
    h.root_attached (Or.inl rfl) (le_refl _) (by omega) (by rw [h.lab_root, slice_self])
  obtain ⟨st1, rp, i⟩ := res0
  simp only at hst hpost
  subst hst
  refine ⟨rp, i, hres0, ?_⟩
  rcases hpost with ⟨hi, hw⟩ | ⟨n, hap, hn, hin, hp0, hpi, hi, hlab, hcan, hw, hnw⟩
  · exact Or.inl ⟨hi, (spelled_root_iff h s).mpr hw⟩
  · have hfull : slice s 0 (i + 1) <+: s := by
      have := slice_pre (S := s) (a := 0) (b := i + 1) (c := s.length) (le_refl _) (by omega)
        (by omega)
      rw [slice_full] at this
      exact this
    refine Or.inr ⟨by omega, hi, ?_, (spelled_root_iff h _).mpr hw,
      fun hs => hnw ((spelled_root_iff h _).mp hs), n, hap, hp0, hpi, ?_, ?_, ?_⟩
    · intro hs
      exact hnw ( InW_prefix ((spelled_root_iff h _).mp hs) hfull)
    · exact walk_between h h.root_attached hn (by rw [h.lab_root, List.nil_append, hlab])
    · intro m v hwalk hv
      exact start_deepest h hn hlab hp0 hpi (by omega) hcan hwalk hv
    · rcases hcan with hc | ⟨hlt, nd, c, t, j, S, hc, hnd, hmf, ed, hpre, hlen⟩
      · exact Or.inl hc
      · exact Or.inr ⟨nd, c, t, S, hc, hnd, hmf, ed.ref, hlen⟩

/-- C18 (amended): in every state reached from the fresh tree (by calls on
inputs below `SIZE_BOUND` bytes, each with the fuel to run to its end), for
every string `s` (of a size within `Index`) in which the sentinel occurs at
most as the last byte, `get_starting_node(s, r)` started with
`r = (root, pos 0)` returns and leaves the tree as it is; it returns `INT_MAX`
if all of `s` is spelled by a path from the root, and otherwise the length `i`
of the longest prefix of `s` that is spelled by a path from the root, leaving
`r.node` at the deepest explicit node whose root path is a prefix of `s[0..i)`
and `r.pos` at the length of that root path, so that the rest `s[r.pos..i)`
lies strictly inside the edge that leaves `r.node`. -/
theorem get_starting_node_longest_prefix (calls : List (Nat × List Char)) (s : List Char)
    (ref : Int) (hsize : ∀ c ∈ calls, (c.2.length : Int) < SIZE_BOUND)
    (hfuel : ∀ c ∈ calls, c.2.length + 2 < c.1) (hs : END_TOKEN ∉ s.dropLast)
    (hlen : (s.length : Int) ≤ INT_MAX) :
    ∃ (st : Tree) (ids : List Int), add_strings Tree.fresh calls = some (st, ids) ∧
      ∃ (rp : ReferencePoint) (i : Int),
        get_starting_node st s ⟨some rootId, ref, 0⟩ = some (st, rp, i) ∧
        FastForwardPost st s rp i := by
  obtain ⟨st, ids, lab, hrun, R, _, _⟩ := session_spec calls hsize hfuel
  exact ⟨st, ids, hrun, get_starting_node_rest R s ref (probe_of_dropLast hs) hlen⟩

theorem get_starting_node_longest_prefix_witness :
    ∃ (st : Tree) (ids : List Int),
      add_strings Tree.fresh [(8, ['a', 'b', 'c'])] = some (st, ids) ∧
      ∃ (rp : ReferencePoint) (i : Int),
        get_starting_node st ['a', 'b', 'd', '$'] ⟨some rootId, 2, 0⟩ = some (st, rp, i) ∧
        FastForwardPost st ['a', 'b', 'd', '$'] rp i :=
  get_starting_node_longest_prefix [(8, ['a', 'b', 'c'])] ['a', 'b', 'd', '$'] 2 (by decide)
    (by decide) (by decide) (by decide)

/-- C18 (counterexample): after `add_string("a")` the string `"a$\0"` is not
spelled by any path from the root (the only path through `'a'` spells `"a$"`),
yet `get_starting_node` returns `INT_MAX` for it: the scan of the open edge
compares the byte after the sentinel with `ref_str[size]`, which is `'\0'`. -/
theorem get_starting_node_past_sentinel :
    ∃ st : Tree, (add_strings Tree.fresh [(8, ['a'])]).map Prod.fst = some st ∧
      (get_starting_node st ['a', '$', Char.ofNat 0] ⟨some rootId, -1, 0⟩).map
        (fun r => r.2.2) = some INT_MAX ∧
      ¬ Spelled st rootId ['a', '$', Char.ofNat 0] := by
  obtain ⟨st, ids, lab, hrun, R, _, hst⟩ := session_spec [(8, ['a'])] (by decide) (by decide)
  have e : st = ((add_strings Tree.fresh [(8, ['a'])]).map Prod.fst).getD Tree.fresh := by
    rw [hrun]; rfl
  refine ⟨st, by rw [hrun]; rfl, by rw [e]; decide, ?_⟩
  intro hsp
  rcases (hst _).mp ((R.content _).mp ((spelled_root_iff R.wfl _).mp hsp)) with h0 | ⟨b, hb, hw⟩
  · cases h0
  · obtain ⟨c, hc, e1⟩ := accepted_mem _ _ b hb
    rw [List.mem_singleton] at hc
    rw [hc] at e1
    rw [← e1] at hw
    have := hw.length_le
    simp at this

/-- Where the loop of `canonize` stops: past the span, or at a transition
(looked up for the byte at the new left end) that is longer than what is left
of the span. -/
theorem canonizeLoop_stop {st : Tree} {s : List Char} {ref r : Int} :
    ∀ (fuel : Nat) (n : Option Nat) (l : Int) (tk : Transition) (rp : ReferencePoint),
      canonizeLoop st s ref r fuel n l tk = some rp →
      (l ≤ r → ∃ c : Char, strAt s l = some c ∧ st.find_alpha_transition n c = some tk) →
      r < rp.pos ∨ ∃ (c : Char) (tk1 : Transition), strAt s rp.pos = some c ∧
        st.find_alpha_transition rp.node c = some tk1 ∧
        r - rp.pos < tk1.sub.r - tk1.sub.l := by
  intro fuel
  induction fuel with
  | zero =>
    intro n l tk rp h
    simp [canonizeLoop] at h
  | succ fuel ih =>
    intro n l tk rp h hpre
    unfold canonizeLoop at h
    simp only [] at h
    by_cases hd : tk.sub.r - tk.sub.l ≤ r - l
    · rw [if_pos hd] at h
      by_cases hl1 : l + (1 + (tk.sub.r - tk.sub.l)) ≤ r
      · rw [if_pos hl1] at h
        cases hc : strAt s (l + (1 + (tk.sub.r - tk.sub.l))) with
        | none => rw [hc] at h; cases h
        | some c =>
          rw [hc] at h
          simp only [] at h
          cases hf : st.find_alpha_transition tk.tgt c with
          | none => rw [hf] at h; cases h
          | some tk1 =>
            rw [hf] at h
            simp only [] at h
            exact ih _ _ _ rp h (fun _ => ⟨c, hc, hf⟩)
      · rw [if_neg hl1] at h
        exact ih _ _ _ rp h (fun hle => absurd hle hl1)
    · rw [if_neg hd] at h
      have e := Option.some.inj h
      subst e
      by_cases hlr : l ≤ r
      · obtain ⟨c, hc, hf⟩ := hpre hlr
        exact Or.inr ⟨c, tk, hc, hf, by simp only; omega⟩
      · exact Or.inl (by simp only; omega)

/-- The result of `canonize` is canonical in the arithmetic of the code. -/
theorem canonize_stop {st : Tree} {S : List Char} {id l r : Int} {fuel : Nat} {n n1 : Nat}
    {rp : ReferencePoint} {nd1 : Node} (hS : mapFind id st.haystack = some S) (hlr : l ≤ r)
    (h : canonize fuel st (some n) ⟨id, l, r⟩ = some (st, rp)) (hn1 : rp.node = some n1)
    (h1 : 1 ≤ n1) (hnd1 : st.nodes[n1]? = some nd1) (hpos : rp.pos ≤ r + 1) :
    r < rp.pos ∨ ∃ (c : Char) (t : Transition), strAt S rp.pos = some c ∧
      mapFind c nd1.g = some t ∧ r - rp.pos < t.sub.r - t.sub.l := by
  unfold canonize at h
  simp only [] at h
  rw [if_neg (by omega), haystackIndex_eq hS] at h
  simp only [] at h
  cases hc : strAt S l with
  | none => rw [hc] at h; cases h
  | some c =>
    rw [hc] at h
    simp only [] at h
    cases hf : st.find_alpha_transition (some n) c with
    | none => rw [hf] at h; cases h
    | some tk =>
      rw [hf] at h
      simp only [] at h
      cases hl : canonizeLoop st S id r fuel (some n) l tk with
      | none => rw [hl] at h; cases h
      | some rp1 =>
        rw [hl] at h
        simp only [Option.some.injEq, Prod.mk.injEq, true_and] at h
        subst h
        rcases canonizeLoop_stop fuel _ _ _ _ hl (fun _ => ⟨c, hc, hf⟩) with h2 | ⟨c1, tk1, hc1, hf1, hlt⟩
        · exact Or.inl h2
        · rw [hn1, find_alpha_node c1 h1 hnd1] at hf1
          cases hm : mapFind c1 nd1.g with
          | none =>
            rw [hm] at hf1
            simp only [Option.some.injEq] at hf1
            subst hf1
            simp only at hlt
            omega
          | some t =>
            rw [hm] at hf1
            simp only [Option.some.injEq] at hf1
            subst hf1
            exact Or.inr ⟨c1, _, hc1, hm, hlt⟩

theorem canonize_walk_node {st : Tree} {lab : Nat → List Char} (R : Rest st lab) {S : List Char}
    {id l r : Int} {fuel : Nat} {n : Nat} (hn : Attached st n)
    (hS : mapFind id st.haystack = some S) (hl0 : 0 ≤ l) (hlr : l ≤ r) (hr : r < S.length)
    (hf : r - l + 1 < fuel) (hsp : Spelled st n (slice S l (r + 1))) :
    ∃ rp : ReferencePoint, canonize fuel st (some n) ⟨id, l, r⟩ = some (st, rp) ∧
      CanonWalk st S n l r rp := by
  have h := R.wfl
  have hw := (spelled_iff h hn _).mp hsp
  obtain ⟨c, hc⟩ := strAt_some_lt (S := S) (i := l) hl0 (by omega)
  have hin : Inner st n := by
    rw [slice_head hl0 (by omega) (by omega) hc] at hw
    obtain ⟨nd, t, j, S1, hnd, hm, _, _⟩ := h.locus_cmp hn hw
    exact Inner_of_child R hn hnd hm
  obtain ⟨rp, hrp, n1, g1, g2, g3, g4, g5, g6, g7, _⟩ :=
    @canonize_spec_node _ _ _ id l (r + 1) _ fuel h hS (by omega) (by omega) hn hin hl0
      (by omega) hw
  have e1 : r + 1 - 1 = r := by omega
  rw [e1] at hrp
  obtain ⟨nd1, hnd1⟩ := g3.node
  refine ⟨rp, hrp, n1, g1, g5, g6, walk_between h hn g3 g7, ?_⟩
  rcases canonize_stop hS hlr hrp g1 g3.1 hnd1 g6 with h2 | ⟨c1, t, hc1, hm, hlt⟩
  · exact Or.inl h2
  · exact Or.inr ⟨nd1, c1, t, hc1, hnd1, hm, hlt⟩

theorem canonize_walk_sink {st : Tree} {lab : Nat → List Char} (R : Rest st lab)
    {S : List Char} {id l r : Int} {fuel : Nat} (hS : mapFind id st.haystack = some S)
    (hl0 : 0 ≤ l) (hlr : l ≤ r) (hr : r < S.length) (hf : r - l + 2 < fuel)
    (hsp : Spelled st sinkId (slice S l (r + 1))) :
    ∃ rp : ReferencePoint, canonize fuel st (some sinkId) ⟨id, l, r⟩ = some (st, rp) ∧
      CanonWalk st S sinkId l r rp := by
  have h := R.wfl
  obtain ⟨c, hc⟩ := strAt_some_lt (S := S) (i := l) hl0 (by omega)
  obtain ⟨nds, hnds, _, hlk⟩ := h.sink
  have hhead := slice_head (S := S) (a := l) (b := r + 1) hl0 (by omega) (by omega) hc
  have hw : InW st lab (slice S (l + 1) (r + 1)) := by
    obtain ⟨m, v, hwalk, hp⟩ := hsp
    rw [hhead] at hp
    cases hwalk with
    | stay =>
      exfalso
      have := hp.length_le
      simp at this
    | step n j m nd c1 t S1 w hns _ _ _ _ _ => exact absurd rfl hns
    | sink j m nd c1 w hnd hj hwalk1 =>
      rw [hnds] at hnd
      obtain rfl := Option.some.inj hnd
      rw [hlk] at hj
      obtain rfl := Option.some.inj hj
      have hp1 : slice S (l + 1) (r + 1) <+: w := by
        obtain ⟨z, hz⟩ := hp
        exact ⟨z, (List.cons.inj hz).2⟩
      exact (spelled_root_iff h _).mp ⟨m, w, hwalk1, hp1⟩
  obtain ⟨rp, hrp, n1, g1, g2, g3, g4, g5, g6, g7, _⟩ :=
    @canonize_spec_sink _ _ _ id l (r + 1) fuel h hS (by omega) (by omega) hl0 (by omega) hw
  have e1 : r + 1 - 1 = r := by omega
  rw [e1] at hrp
  obtain ⟨nd1, hnd1⟩ := g3.node
  rw [List.nil_append] at g7
  refine ⟨rp, hrp, n1, g1, by omega, g6, ?_, ?_⟩
  · rw [slice_head hl0 (by omega) (by omega) hc]
    exact Walk.sink rootId n1 nds c _ hnds hlk
      (walk_between h h.root_attached g3 (by rw [h.lab_root, List.nil_append, g7]))
  · rcases canonize_stop hS hlr hrp g1 g3.1 hnd1 g6 with h2 | ⟨c1, t, hc1, hm, hlt⟩
    · exact Or.inl h2
    · exact Or.inr ⟨nd1, c1, t, hc1, hnd1, hm, hlt⟩

/-- C19: in every state reached from the fresh tree (by calls on inputs below
`SIZE_BOUND` bytes, each with the fuel to run to its end), for every node `n`
of the heap and every span `(id, l, r)` of a stored string whose bytes
`stored[id][l..r]` are spelled by a path starting at `n`, `canonize` (with fuel
above the size of the span plus one) returns `(n', l')` and leaves the tree
as it is; the edges from `n` to `n'` spell exactly `stored[id][l..l'-1]`, and
either `l' > r` or the edge that leaves `n'` with first byte `stored[id][l']`
has `r - l' < edge.r - edge.l`, that is, it is strictly longer than
`r - l' + 1`; for an empty span (`l > r`), in any state, `canonize` returns
`(n, l)` unchanged. -/
theorem canonize_canonical (calls : List (Nat × List Char)) (fuel : Nat) (n : Nat)
    (id l r : Int) (hsize : ∀ c ∈ calls, (c.2.length : Int) < SIZE_BOUND)
    (hfuel : ∀ c ∈ calls, c.2.length + 2 < c.1) :
    (∀ (st0 : Tree) (p : Option Nat), r < l →
      canonize fuel st0 p ⟨id, l, r⟩ = some (st0, ⟨p, id, l⟩)) ∧
    ∃ (st : Tree) (ids : List Int), add_strings Tree.fresh calls = some (st, ids) ∧
      ∀ S : List Char, mapFind id st.haystack = some S → n < st.nodes.length → 0 ≤ l →
        l ≤ r → r < S.length → r - l + 2 < fuel → Spelled st n (slice S l (r + 1)) →
        ∃ rp : ReferencePoint, canonize fuel st (some n) ⟨id, l, r⟩ = some (st, rp) ∧
          CanonWalk st S n l r rp := by
  constructor
  · intro st0 p hlr
    unfold canonize
    rw [if_pos hlr]
  · obtain ⟨st, ids, lab, hrun, R, _, _⟩ := session_spec calls hsize hfuel
    refine ⟨st, ids, hrun, ?_⟩
    intro S hS hn hl0 hlr hr hf hsp
    by_cases hsink : n = sinkId
    · subst hsink
      exact canonize_walk_sink R hS hl0 hlr hr hf hsp
    · have hatt : Attached st n := by
        refine ⟨?_, hn⟩
        simp [sinkId] at hsink
        omega
      exact canonize_walk_node R hatt hS hl0 hlr hr (by omega) hsp

theorem canonize_canonical_witness :
    ∃ (st : Tree) (ids : List Int),
      add_strings Tree.fresh [(8, ['a', 'b', 'c']), (8, ['a', 'b', 'd'])] = some (st, ids) ∧
      ∃ rp : ReferencePoint, canonize 8 st (some rootId) ⟨1, 0, 2⟩ = some (st, rp) ∧
        CanonWalk st ['a', 'b', 'c', '$'] rootId 0 2 rp :=
  match canonize_canonical [(8, ['a', 'b', 'c']), (8, ['a', 'b', 'd'])] 8 rootId 1 0 2
    (by decide) (by decide) with
  | ⟨_, st, ids, hrun, hall⟩ =>
    have e : st = ((add_strings Tree.fresh
        [(8, ['a', 'b', 'c']), (8, ['a', 'b', 'd'])]).map Prod.fst).getD Tree.fresh := by
      rw [hrun]; rfl
    have hS : mapFind 1 st.haystack = some ['a', 'b', 'c', '$'] := by rw [e]; decide
    have hw : Walk st rootId (labelOf ['a', 'b', 'c', '$'] ⟨1, 0, 1⟩ ++
        (labelOf ['a', 'b', 'c', '$'] ⟨1, 2, INT_MAX⟩ ++ [])) 2 :=
      Walk.step rootId 6 2 ((st.nodes[rootId]?).getD Node.fresh) 'a' ⟨⟨1, 0, 1⟩, some 6⟩
        ['a', 'b', 'c', '$'] _ (by decide) (by rw [e]; decide) (by rw [e]; decide) rfl hS
        (Walk.step 6 2 2 ((st.nodes[6]?).getD Node.fresh) 'c' ⟨⟨1, 2, INT_MAX⟩, some 2⟩
          ['a', 'b', 'c', '$'] [] (by decide) (by rw [e]; decide) (by rw [e]; decide) rfl hS
          (Walk.stay 2))
    ⟨st, ids, hrun, hall ['a', 'b', 'c', '$'] hS (by rw [e]; decide) (by decide) (by decide)
      (by decide) (by decide) ⟨2, _, hw, by decide⟩⟩

/-! ## Counting heap cells -/

theorem modify_length {st st1 : Tree} {p : Option Nat} {f : Node → Node}
    (h : st.modify p f = some st1) : st1.nodes.length = st.nodes.length := by
  obtain ⟨i, nd, _, _, rfl⟩ := modify_spec h
  exact length_setNode _ _ _

/-- The method `test_and_split` allocates at most one cell, and none when it
reports an end point or when the span is empty. -/
theorem ts_count {st st1 : Tree} {n r : Option Nat} {kp : MappedSubstring} {t : Char}
    {w : List Char} {b : Bool} (h : test_and_split st n kp t w = some (st1, b, r)) :
    st1.nodes.length ≤ st.nodes.length + 1 ∧ (b = true → st1.nodes.length = st.nodes.length) ∧
      (kp.r < kp.l → st1.nodes.length = st.nodes.length) := by
  unfold test_and_split at h
  simp only at h
  split at h
  · split at h
    · simp at h
    · split at h
      · split at h
        · simp at h
        · rename_i st2 hm
          simp at h
          obtain ⟨rfl, _, _⟩ := h
          have := modify_length hm
          refine ⟨by omega, fun _ => this, fun _ => this⟩
      · simp at h
        obtain ⟨rfl, _, _⟩ := h
        simp
  · rename_i hd
    split at h
    · simp at h
    · split at h
      · simp at h
      · split at h
        · simp at h
        · split at h
          · simp at h
          · split at h
            · simp at h
              obtain ⟨rfl, _, _⟩ := h
              simp
            · split at h
              · simp at h
              · split at h
                · simp at h
                · rename_i st2 hm2
                  split at h
                  · simp at h
                  · rename_i st3 hm3
                    simp at h
                    obtain ⟨rfl, rfl, _⟩ := h
                    have h2 := modify_length hm2
                    have h3 := modify_length hm3
                    have ha := length_alloc st
                    refine ⟨?_, ?_, ?_⟩
                    · show st3.nodes.length ≤ _
                      omega
                    · intro e
                      cases e
                    · intro e
                      omega

/-- One round of the loop of `update`: the leaf of the suffix that starts at
`k`, the step along the suffix link, and the test for the next suffix.  The
round allocates the leaf and at most one inner node, the latter only when the
next suffix is not an end point. -/
theorem loop_step {s : List Char} {id : Int} {OldW : List Char → Prop} {j : Int}
    {t : Char} {cf : Nat} (hcf : j + 1 < cf) {st : Tree} {lab : Nat → List Char} {k : Int}
    {oldr : Option Nat} {sk : ReferencePoint} {r : Option Nat}
    (L : LoopInv st lab s id OldW j t k oldr sk false r) :
    ∃ (st5 : Tree) (lab5 : Nat → List Char) (sk1 : ReferencePoint) (ep1 : Bool)
      (r1 : Option Nat),
      (∀ fuel : Nat, updateLoop cf s id j t (fuel + 1) st oldr sk ⟨id, sk.pos, j - 1⟩ false r =
        updateLoop cf s id j t fuel st5 r sk1 ⟨id, sk1.pos, j - 1⟩ ep1 r1) ∧
      LoopInv st5 lab5 s id OldW j t (k + 1) r sk1 ep1 r1 ∧ k ≤ j ∧
      (st5.nodes.length : Int) ≤ st.nodes.length + 1 + (if ep1 = true then 0 else 1) := by
  rcases L.pos with ⟨_, _, _, h4, _⟩ | ⟨n, hskn, hn, hin, hkp, hpj, hlab, hlink, _, hrn⟩
  · cases h4
  obtain ⟨rn, ndr, hr, hra, hri, hrl, hndr, hfree, hrc⟩ := hrn rfl
  have hkj : k ≤ j := by omega
  have hk0 := L.phase.k_lo
  obtain ⟨e1, st3, lab2, e2, P3, hext, hlinks3⟩ := loop_leaf L hr hra hri hrl hndr hfree hkj
  have hlen3 : st3.nodes.length = st.nodes.length + 1 := by
    have ha : (addLeaf st rn ndr t ⟨id, j, INT_MAX⟩).nodes.length = st.nodes.length + 1 := by
      unfold addLeaf
      rw [length_setNode, length_alloc]
    by_cases ho : oldr = some rootId
    · rw [if_neg (not_not.mpr ho)] at e2
      rw [← Option.some.inj e2]
      exact ha
    · rw [if_pos ho] at e2
      rw [modify_length e2]
      exact ha
  have hn3 := hext.keeps_attached hn
  obtain ⟨nd3, hnd3⟩ := hn3.node
  have hlab3 : lab2 n = slice s k sk.pos := by rw [hext.lab_old n hn.2]; exact hlab
  have hlink3 : n = rootId ∨ LinkOK st3 lab2 n := hlink.imp (fun e => e) (hext.link n)
  have hrl3 : lab2 rn = slice s k j := by rw [hext.lab_old rn hra.2]; exact hrl
  have hrlen : ((slice s k j).length : Int) = j - k :=
    slice_length hk0 hkj (by have := L.hj; omega)
  by_cases hse : n = rootId ∧ sk.pos = j
  · obtain ⟨hroot, hpos⟩ := hse
    subst hroot
    obtain ⟨ndr3, hndr3, hlk⟩ := P3.wfl.root_link
    rw [hnd3] at hndr3
    obtain rfl := Option.some.inj hndr3
    have hkeq : k = j := by
      have hl0 : ((slice s k sk.pos).length : Int) = sk.pos - k :=
        slice_length hk0 hkp (by have := L.hj; omega)
      rw [← hlab, L.phase.wfl.lab_root] at hl0
      simp at hl0
      omega
    have hw5 : WFL (st3.setNode rootId (nd3.mark_string id)) lab2 :=
      P3.wfl.setNode_same hnd3 (mark_string_g _ _) (fun _ => mark_string_link _ _)
    have hrroot : rn = rootId := by
      apply L.phase.wfl.lab_nil_root hra.1 hra.2
      rw [hrl, hkeq]
      exact slice_self _ _
    refine ⟨st3.setNode rootId (nd3.mark_string id), lab2, ⟨some sinkId, id, j⟩, true,
      some sinkId, ?_, ?_, hkj, ?_⟩
    · intro fuel
      rw [updateLoop]
      rw [if_neg (by simp)]
      simp only []
      rw [e1]
      simp only []
      rw [e2]
      simp only []
      rw [hskn]
      simp only [Tree.deref]
      rw [hnd3]
      simp only []
      rw [hlk, hpos, canonize_sink_empty]
      simp only []
      rw [ts_empty_sink P3.wfl (le_refl j) P3.idpos hnd3]
    · refine ⟨P3.transport hw5 rfl (fun w => InW_frame (length_setNode _ _ _) w), L.hj, L.ht,
        LinksOK_mono (LinksOK_setNode_same hlinks3 hnd3 (mark_string_g _ _)
          (mark_string_link _ _)) (fun v hv => Or.inl hv),
        Or.inl (by rw [hr, hrroot]), ?_, Or.inl ⟨rfl, rfl, by omega, rfl, by rw [hr, hrroot]⟩⟩
      intro _
      rw [hkeq, slice_self]
      exact InW_nil hw5
    · rw [length_setNode, hlen3]
      simp
  · obtain ⟨rp, hrp, n1, h1, h2, h3, h4, h5, h6, h7⟩ :=
      link_canonize P3 L.hj hk0 hn3 hkp hpj hlab3 hlink3 hnd3 hcf hse
    obtain ⟨st5, lab5, ep, r1, hts, hw5, hext5, hback, hlinks5, hep, hnep⟩ :=
      ts_spec P3.wfl P3.hs P3.idpos L.ht L.hj h2 h3 (by omega : 0 ≤ k + 1) h4 h5 h6 h7
    have hext05 := hext.comp hext5
    have hc5 := ts_count hts
    refine ⟨st5, lab5, rp, ep, r1, ?_, ?_, hkj, ?_⟩
    · intro fuel
      rw [updateLoop]
      rw [if_neg (by simp)]
      simp only []
      rw [e1]
      simp only []
      rw [e2]
      simp only []
      rw [hskn]
      simp only [Tree.deref]
      rw [hnd3]
      simp only []
      rw [hrp]
      simp only []
      rw [h1, hts]
    · refine ⟨P3.transport hw5 hext5.hay (fun w => ⟨hback w, hext5.inw w⟩), L.hj, L.ht,
        hlinks5 _ hlinks3, ?_, fun e => (hep e).1,
        Or.inr ⟨n1, h1, hext5.keeps_attached h2, hext5.inner _ h3, h4, h5, ?_, ?_,
          fun e => (hep e).2, hnep⟩⟩
      · by_cases hrr : rn = rootId
        · exact Or.inl (by rw [hr, hrr])
        · rcases hrc with e | ⟨c, hct, hc⟩
          · exact absurd e hrr
          · refine Or.inr ⟨rn, hr, by omega, hext05.keeps_attached hra, hext05.inner _ hri, ?_, c,
              hct, ?_⟩
            · rw [hext05.lab_old rn hra.2, hrl]
              congr 1
              omega
            · rw [hext05.lab_old rn hra.2]
              exact hext05.inw _ hc
      · rw [hext5.lab_old n1 h2.2]
        exact h6
      · by_cases hr1 : n1 = rootId
        · exact Or.inl hr1
        · right
          apply hext5.link
          apply hlinks3 n1 h3 hr1
          intro e
          rw [hr] at e
          have e2 : rn = n1 := Option.some.inj e
          subst e2
          rw [h6] at hrl3
          have hl1 : ((slice s (k + 1) rp.pos).length : Int) = rp.pos - (k + 1) :=
            slice_length (by omega) h4 (by have := L.hj; omega)
          rw [hrl3] at hl1
          omega
    · cases ep with
      | true =>
        have := hc5.2.1 rfl
        simp only [if_true]
        omega
      | false =>
        have := hc5.1
        simp only [Bool.false_eq_true, if_false]
        omega

/-- The exit of the loop of `update` keeps the count of heap cells. -/
theorem updateLoop_exit_count {st : Tree} {lab : Nat → List Char} {s : List Char} {id : Int}
    {OldW : List Char → Prop} {j : Int} {t : Char} {k : Int} {oldr : Option Nat}
    {sk : ReferencePoint} {r : Option Nat} (L : LoopInv st lab s id OldW j t k oldr sk true r)
    (htail : ∀ (c : Char) (w : List Char), OldW (c :: w) → OldW w) (cf fuel : Nat)
    (ki1 : MappedSubstring) {B : Int} (hB : (st.nodes.length : Int) ≤ B + 2 * k) :
    ∃ res : Tree × ReferencePoint,
      updateLoop cf s id j t (fuel + 1) st oldr sk ki1 true r = some res ∧
      UpdatePostC s id OldW j B res := by
  have h := L.phase.wfl
  have P1 := L.phase.next htail L.hj (L.hit rfl)
  have hlinks0 : oldr = some rootId → LinksOK st lab (fun _ => False) := by
    intro ho
    refine LinksOK_mono_root L.links ?_
    rintro v (hv | hv) hne
    · rw [ho] at hv
      exact hne (Option.some.inj hv).symm
    · simp at hv
  unfold updateLoop
  rw [if_pos rfl]
  by_cases ho : oldr = some rootId
  · rw [if_neg (not_not.mpr ho)]
    refine ⟨_, rfl, lab, k, P1, hlinks0 ho, ?_, hB⟩
    rcases L.pos with ⟨h1, h2, h3, _, _⟩ | ⟨n, h1, h2, h3, h4, h5, h6, _⟩
    · exact Or.inl ⟨h1, h2, h3⟩
    · exact Or.inr ⟨n, h1, h2, h3, h4, h5, h6⟩
  · rw [if_pos ho]
    rcases L.pos with ⟨_, _, _, _, h5⟩ | ⟨n, hskn, hn, hin, hkp, hpj, hlab, _, hcan, _⟩
    · exact absurd h5 ho
    · rcases L.old with e | ⟨o, ho1, hk1, hoa, hoi, hol, c, hct, hoc⟩
      · exact absurd e ho
      · subst ho1
        obtain ⟨hp, c0, hlo⟩ := LoopInv.exit_node L.phase htail L.hj L.ht hk1 hkp hpj hol hct hoc
          (L.hit rfl) hn hlab (hcan rfl)
        obtain ⟨ndo, hndo⟩ := hoa.node
        rw [modify_eq _ hndo, hskn]
        have hne : o ≠ rootId := fun e => ho (by rw [e])
        have hw1 : WFL (st.setNode o { ndo with suffix_link := some n }) lab := by
          refine h.setNode_same hndo rfl ?_
          intro ho1
          exfalso
          have := hoa.1
          unfold rootId at hne
          omega
        have hlen := length_setNode st o { ndo with suffix_link := some n }
        refine ⟨_, rfl, lab, k, P1.transport hw1 rfl (fun w => InW_frame hlen w), ?_,
          Or.inr ⟨n, hskn, ⟨hn.1, by rw [hlen]; exact hn.2⟩,
            (@Inner_setNode_same st o ndo { ndo with suffix_link := some n } hndo rfl n).mpr hin,
            hkp, hpj, hlab⟩, ?_⟩
        · refine LinksOK_mono (LinksOK_setLink L.links hndo hn hin hlo) ?_
          rintro v ⟨hv | hv, hvo⟩
          · exact hvo (Option.some.inj hv).symm
          · simp at hv
        · show ((st.setNode o { ndo with suffix_link := some n }).nodes.length : Int) ≤ _
          rw [hlen]
          exact hB

/-- The loop of `update` with the count of heap cells: two cells for every
suffix that gets its leaf, one of them possibly allocated by the test before
the round. -/
theorem updateLoop_count {s : List Char} {id : Int} {OldW : List Char → Prop} {j : Int}
    {t : Char} {cf : Nat} (htail : ∀ (c : Char) (w : List Char), OldW (c :: w) → OldW w)
    (hcf : j + 1 < cf) (B : Int) :
    ∀ (fuel : Nat) (st : Tree) (lab : Nat → List Char) (k : Int) (oldr : Option Nat)
      (sk : ReferencePoint) (ep : Bool) (r : Option Nat),
      LoopInv st lab s id OldW j t k oldr sk ep r → j + 1 - k < fuel →
      (st.nodes.length : Int) ≤ B + 2 * k + (if ep = true then 0 else 1) →
      ∃ res : Tree × ReferencePoint,
        updateLoop cf s id j t fuel st oldr sk ⟨id, sk.pos, j - 1⟩ ep r = some res ∧
        UpdatePostC s id OldW j B res := by
  intro fuel
  induction fuel with
  | zero =>
    intro st lab k oldr sk ep r L hf
    have := L.phase.k_hi
    omega
  | succ fuel ih =>
    intro st lab k oldr sk ep r L hf hB
    cases ep with
    | true =>
      simp only [if_true, add_zero] at hB
      exact updateLoop_exit_count L htail cf fuel _ hB
    | false =>
      simp only [Bool.false_eq_true, if_false] at hB
      obtain ⟨st5, lab5, sk1, ep1, r1, heq, L5, hkj, hc5⟩ := loop_step hcf L
      rw [heq fuel]
      refine ih st5 lab5 (k + 1) r sk1 ep1 r1 L5 (by omega) ?_
      omega

/-- The method `update` with the count of heap cells. -/
theorem update_count {st : Tree} {lab : Nat → List Char} {s : List Char} {id : Int}
    {OldW : List Char → Prop} {j : Int} {ap : ReferencePoint} {fuel : Nat} {B : Int}
    (htail : ∀ (c : Char) (w : List Char), OldW (c :: w) → OldW w)
    (D : DeployInvC st lab s id OldW j B ap) (hj : j < s.length) (hf : j + 1 < fuel) :
    ∃ res : Tree × ReferencePoint,
      update fuel st ap.node ⟨id, ap.pos, j⟩ = some res ∧ UpdatePostC s id OldW j B res := by
  obtain ⟨k, n, P, hlinks, hap, hn, hin, hkp, hpj, hlab, hcan, hcnt⟩ := D
  have hk0 := P.k_lo
  obtain ⟨t, ht⟩ := strAt_some_lt (S := s) (i := j) P.j_lo hj
  obtain ⟨st5, lab5, ep, r1, hts, hw5, hext5, hback, hlinks5, hep, hnep⟩ :=
    ts_spec P.wfl P.hs P.idpos ht hj hn hin hk0 hkp hpj hlab (hcan hj)
  have hc5 := ts_count hts
  have hB : (st5.nodes.length : Int) ≤ B + 2 * k + (if ep = true then 0 else 1) := by
    rcases hcnt with hc | ⟨hk, hp, ⟨nd, hnd, hg⟩, hc⟩
    · cases ep with
      | true =>
        have := hc5.2.1 rfl
        simp only [if_true]
        omega
      | false =>
        have := hc5.1
        simp only [Bool.false_eq_true, if_false]
        omega
    · have hnone : mapFind t nd.g = none := by rw [hg]; rfl
      have e := @ts_empty_none st n nd id ap.pos j t s hn.1 hnd (by omega) hnone
      rw [hts] at e
      have e1 := Option.some.inj e
      have e2 : st5 = st := congrArg Prod.fst e1
      have e3 : ep = false := congrArg (fun x => x.2.1) e1
      rw [e2, e3]
      simp only [Bool.false_eq_true, if_false]
      omega
  unfold update
  simp only []
  rw [haystackIndex_eq P.hs]
  simp only []
  rw [ht]
  simp only []
  rw [hap, hts]
  simp only []
  refine updateLoop_count htail hf B fuel st5 lab5 k (some rootId) ⟨some n, id, ap.pos⟩ ep r1 ?_
    (by omega) hB
  refine ⟨P.transport hw5 hext5.hay (fun w => ⟨hback w, hext5.inw w⟩), hj, ht,
    LinksOK_mono (hlinks5 _ hlinks) (fun v hv => hv.elim False.elim Or.inr), Or.inl rfl,
    fun e => (hep e).1,
    Or.inr ⟨n, rfl, hext5.keeps_attached hn, hext5.inner _ hin, hkp, hpj, ?_, ?_,
      fun e => (hep e).2, hnep⟩⟩
  · rw [hext5.lab_old n hn.2]
    exact hlab
  · by_cases hr1 : n = rootId
    · exact Or.inl hr1
    · exact Or.inr (hext5.link _ (hlinks n hin hr1 (fun e => e)))

/-- The `canonize` call that closes a phase, with the count of heap cells. -/
theorem deploy_canonize_count {s : List Char} {id : Int} {OldW : List Char → Prop} {j : Int}
    {res : Tree × ReferencePoint} {fuel : Nat} {B : Int} (U : UpdatePostC s id OldW j B res)
    (hj0 : 0 ≤ j) (hj : j < s.length) (hf : j + 2 < fuel) :
    ∃ (lab1 : Nat → List Char) (ap : ReferencePoint),
      canonize fuel res.1 res.2.node ⟨id, res.2.pos, j⟩ = some (res.1, ap) ∧
      DeployInvC res.1 lab1 s id OldW (j + 1) B ap := by
  obtain ⟨lab1, k1, P, hlinks, hpos, hcnt⟩ := U
  have h := P.wfl
  have hk0 := P.k_lo
  have e1 : j + 1 - 1 = j := by omega
  refine ⟨lab1, ?_⟩
  rcases hpos with ⟨h1, h2, h3⟩ | ⟨n, h1, hn, hin, hkp, hpj, hlab⟩
  · obtain ⟨rp, hrp, n1, g1, g2, g3, g4, g5, g6, g7, g8⟩ :=
      @canonize_spec_sink _ _ _ id j (j + 1) fuel h P.hs (by omega)
        (by omega) hj0 (by omega) (by rw [slice_self]; exact InW_nil h)
    rw [e1] at hrp
    rw [h1, h2]
    refine ⟨rp, hrp, k1, n1, P, hlinks, g1, g3, g4, by omega, g6, ?_, g8, Or.inl hcnt⟩
    rw [g7, h3]
    simp
  · have hw : InW res.1 lab1 (lab1 n ++ slice s res.2.pos (j + 1)) := by
      rw [hlab, slice_append hk0 hkp (by omega)]
      exact P.subs _ _ hk0 (by omega) (le_refl _)
    obtain ⟨rp, hrp, n1, g1, g2, g3, g4, g5, g6, g7, g8⟩ :=
      @canonize_spec_node _ _ _ id res.2.pos (j + 1) _ fuel h P.hs
        (by omega) (by omega) hn hin (by omega) (by omega) hw
    rw [e1] at hrp
    rw [h1]
    refine ⟨rp, hrp, k1, n1, P, hlinks, g1, g3, g4, by omega, g6, ?_, g8, Or.inl hcnt⟩
    rw [g7, hlab]
    exact slice_append hk0 hkp g5

/-- The loop of `deploy_suffixes` with the count of heap cells: at most two
cells for every byte of the string. -/
theorem deployLoop_count {s : List Char} {id : Int} {OldW : List Char → Prop} {fuel : Nat}
    {B : Int} (htail : ∀ (c : Char) (w : List Char), OldW (c :: w) → OldW w)
    (hf : (s.length : Int) + 1 < fuel) (hsmall : (s.length : Int) ≤ SIZE_BOUND) :
    ∀ (cnt : Nat) (st : Tree) (lab : Nat → List Char) (ap : ReferencePoint) (j : Int),
      DeployInvC st lab s id OldW j B ap → (s.length : Int) - j < cnt →
      ∃ st1 : Tree, deployLoop fuel s id cnt st ap j = some st1 ∧
        (st1.nodes.length : Int) ≤ B + 2 * s.length := by
  intro cnt
  induction cnt with
  | zero =>
    intro st lab ap j D hc
    obtain ⟨k, n, P, _⟩ := D
    have := P.j_hi
    omega
  | succ cnt ih =>
    intro st lab ap j D hc
    have hD := D
    obtain ⟨k, n, P, hlinks, _, _, _, hkp, hpj, _, _, hcnt⟩ := hD
    have hj0 := P.j_lo
    have hj1 := P.j_hi
    have hts : toSizeT j = j.toNat := by
      unfold toSizeT
      congr 1
      unfold SIZE_BOUND at hsmall
      omega
    unfold deployLoop
    by_cases hlt : j < s.length
    · rw [if_pos (by rw [hts]; omega)]
      obtain ⟨res, hres, U⟩ := update_count htail D hlt (by omega : j + 1 < fuel)
      rw [hres]
      simp only []
      obtain ⟨lab1, ap1, hcan, D1⟩ := deploy_canonize_count U hj0 hlt (by omega : j + 2 < fuel)
      rw [hcan]
      simp only []
      exact ih _ lab1 ap1 (j + 1) D1 (by omega)
    · rw [if_neg (by rw [hts]; omega)]
      refine ⟨st, rfl, ?_⟩
      have hpos := (P.wfl.strs _ _ P.hs).len_pos
      rcases hcnt with hc1 | ⟨_, _, _, hc1⟩
      · omega
      · omega
/-- On a tree whose root has no transition the fast-forward stops at once. -/
theorem startLoop_bare {st : Tree} {nd : Node} {s : List Char} {id : Int}
    (hnd : st.nodes[rootId]? = some nd) (hg : nd.g = []) (hpos : 0 < s.length) :
    startLoop s s.length (loopBound s.length) st ⟨some rootId, id, 0⟩ 0 =
      some (st, ⟨some rootId, id, 0⟩, 0) := by
  obtain ⟨c, hc⟩ := strAt_some_lt (S := s) (i := 0) (le_refl _) (by omega)
  unfold loopBound
  rw [startLoop]
  rw [if_neg (by omega), hc]
  simp only []
  rw [find_alpha_node c (by simp [rootId]) hnd, hg]
  simp [mapFind]

/-- The method `deploy_suffixes` with the count of heap cells. -/
theorem deploy_suffixes_count {st : Tree} {lab : Nat → List Char} {s : List Char} {id : Int}
    {fuel : Nat} {B : Int} (h : WFL st lab) (hlinks : LinksOK st lab (fun _ => False))
    (hs : mapFind id st.haystack = some s) (hid : 0 < id)
    (hclosed : ∀ w v : List Char, InW st lab w → v <:+: w → InW st lab v)
    (hf : (s.length : Int) + 1 < fuel)
    (hB : (st.nodes.length : Int) ≤ B ∨
      ((∃ nd : Node, st.nodes[rootId]? = some nd ∧ nd.g = []) ∧ (st.nodes.length : Int) ≤ B + 1)) :
    ∃ res : Tree × Int, deploy_suffixes fuel st s id = some res ∧
      ((res.2 = -1 ∧ res.1 = st) ∨ (res.1.nodes.length : Int) ≤ B + 2 * s.length) := by
  have hS := h.strs _ _ hs
  have hsmall := hS.small
  have hp : Probe s := fun i h0 h1 => hS.not_last h0 h1
  obtain ⟨res0, hres0, hst, hpost⟩ := startLoop_spec h hp (loopBound s.length)
    ⟨some rootId, id, 0⟩ 0 rootId (by unfold loopBound; push_cast; omega) rfl rfl h.root_attached
    (Or.inl rfl) (le_refl _) (by omega) (by rw [h.lab_root, slice_self])
  obtain ⟨st1, ap, i0⟩ := res0
  simp only at hst hpost
  subst hst
  have hbare : (∃ nd : Node, st1.nodes[rootId]? = some nd ∧ nd.g = []) →
      ap = ⟨some rootId, id, 0⟩ ∧ i0 = 0 := by
    rintro ⟨nd, hnd, hg⟩
    have e := @startLoop_bare st1 nd s id hnd hg hS.len_pos
    rw [hres0] at e
    have e1 := Option.some.inj e
    exact ⟨congrArg (fun x => x.2.1) e1, congrArg (fun x => x.2.2) e1⟩
  unfold deploy_suffixes get_starting_node
  simp only []
  rw [hres0]
  simp only []
  rcases hpost with ⟨hi, hw⟩ | ⟨n, hap, hn, hin, hp0, hpi, hi, hlab, hcan, hw, hnw⟩
  · rw [if_pos hi]
    exact ⟨_, rfl, Or.inl ⟨rfl, rfl⟩⟩
  · have hne : i0 ≠ INT_MAX := by
      have : INT_MAX = 2147483647 := rfl
      omega
    rw [if_neg hne]
    have htail : ∀ (c : Char) (w : List Char), InW st1 lab (c :: w) → InW st1 lab w :=
      fun c w hw => hclosed _ _ hw (List.suffix_cons c w).isInfix
    have P0 : PhaseInv st1 lab s id (InW st1 lab) i0 0 := by
      refine ⟨h, hs, hid, fun w hw => hw, fun w hw => Or.inl hw, ?_, ?_, le_refl _, by omega,
        by omega, by omega⟩
      · intro k0 h0 h1
        omega
      · intro a b ha hab hb
        refine hclosed _ _ hw ?_
        have := slice_of_slice (S := s) (a := 0) (b := i0) (x := a) (y := b) (le_refl _) ha hab
          (by omega) (by omega)
        rw [zero_add, zero_add] at this
        rw [← this]
        exact slice_sub _ _ _
    have hcnt : (st1.nodes.length : Int) ≤ B + 2 * 0 ∨
        ((0 : Int) = 0 ∧ ap.pos = i0 ∧ (∃ nd : Node, st1.nodes[n]? = some nd ∧ nd.g = []) ∧
          (st1.nodes.length : Int) ≤ B + 1) := by
      rcases hB with hB | ⟨hb, hB⟩
      · exact Or.inl (by omega)
      · obtain ⟨e1, e2⟩ := hbare hb
        have en : n = rootId := by
          rw [e1] at hap
          exact (Option.some.inj hap).symm
        refine Or.inr ⟨rfl, ?_, ?_, hB⟩
        · rw [e1, e2]
        · rw [en]
          exact hb
    have D : DeployInvC st1 lab s id (InW st1 lab) i0 B ap :=
      ⟨0, n, P0, hlinks, hap, hn, hin, hp0, hpi, hlab, fun _ => hcan, hcnt⟩
    obtain ⟨st2, hdl, hc2⟩ :=
      deployLoop_count htail hf (by unfold SIZE_BOUND; exact hsmall) (loopBound s.length) st1 lab
        ap i0 D (by unfold loopBound; push_cast; omega)
    rw [hdl]
    exact ⟨_, rfl, Or.inr hc2⟩

/-- The method `add_string` with the count of heap cells: an accepted input
costs at most two cells for each of its bytes and two for the sentinel. -/
theorem add_string_count {st : Tree} {lab : Nat → List Char} {str : List Char} {fuel : Nat}
    {B : Int} (R : Rest st lab) (hlen : (str.length : Int) < SIZE_BOUND)
    (hf : str.length + 2 < fuel)
    (hB : (st.nodes.length : Int) ≤ B ∨
      ((∃ nd : Node, st.nodes[rootId]? = some nd ∧ nd.g = []) ∧ (st.nodes.length : Int) ≤ B + 1)) :
    ∃ (st1 : Tree) (id : Int) (lab1 : Nat → List Char),
      add_string fuel st str = some (st1, id) ∧ Rest st1 lab1 ∧
      ((id = -1 ∧ st1 = st ∧ lab1 = lab) ∨
        (id ≠ -1 ∧ (st1.nodes.length : Int) ≤ B + 2 * (str.length + 1))) := by
  obtain ⟨st1, id, lab1, hadd, R1, hcase⟩ := add_string_spec R hlen hf
  refine ⟨st1, id, lab1, hadd, R1, ?_⟩
  rcases hcase with ⟨h1, h2, h3, _⟩ | ⟨h1, hmem, hlt, hnw, _, _⟩
  · exact Or.inl ⟨h1, h2, h3⟩
  have hk := R.keys
  have hidne : id ≠ -1 := by
    have := hk.1
    omega
  refine Or.inr ⟨hidne, ?_⟩
  have hc : ¬ contains_end_token str = true := by
    unfold contains_end_token
    intro h
    exact hmem (of_decide_eq_true h)
  have hts := toSizeT_small hk.1 hk.2.1
  have hcap : ¬ toSizeT st.last_index ≥ MAX_STRINGS := by
    rw [hts]
    unfold MAX_STRINGS
    omega
  have hnone : mapFind (st.last_index + 1) st.haystack = none := by
    cases hm : mapFind (st.last_index + 1) st.haystack with
    | none => rfl
    | some v =>
      have := hk.2.2 (st.last_index + 1) (by rw [hm]; rfl)
      omega
  have hS : StrOK (str ++ [END_TOKEN]) :=
    ⟨str, rfl, hmem, by simp only [List.length_append, List.length_singleton]; push_cast; omega⟩
  have hw0 := R.wfl.of_register hnone hS
  have hlinks0 : LinksOK (register st (st.last_index + 1) (str ++ [END_TOKEN])) lab
      (fun _ => False) := R.links
  have hs0 : mapFind (st.last_index + 1)
      (register st (st.last_index + 1) (str ++ [END_TOKEN])).haystack =
      some (str ++ [END_TOKEN]) := by
    show mapFind _ (mapAssign _ _ _) = _
    rw [mapFind_mapAssign, if_pos rfl]
  have hclosed : ∀ w v : List Char,
      InW (register st (st.last_index + 1) (str ++ [END_TOKEN])) lab w → v <:+: w →
      InW (register st (st.last_index + 1) (str ++ [END_TOKEN])) lab v := by
    intro w v hw hv
    have hw1 : InW st lab w := hw
    have : InW st lab v := (R.content v).mpr (Stored_sub ((R.content w).mp hw1) hv)
    exact this
  obtain ⟨⟨st2, r⟩, hres, hcnt⟩ := @deploy_suffixes_count _ _ _ _ fuel B hw0 hlinks0 hs0
    (by have := hk.1; omega) hclosed
    (by simp only [List.length_append, List.length_singleton]; push_cast; omega) hB
  have hunf : add_string fuel st str = (if r < 0 then some ({ st2 with haystack := mapErase st2.last_index st2.haystack, last_index := st2.last_index - 1 }, -1) else some ({ st2 with colors_computed := false }, st2.last_index)) := by
    unfold add_string
    rw [if_neg hc, if_neg hcap]
    simp only []
    unfold register at hres
    rw [hres]
  rw [hadd] at hunf
  by_cases hr : r < 0
  · rw [if_pos hr] at hunf
    have e := congrArg Prod.snd (Option.some.inj hunf)
    exact absurd e hidne
  · rw [if_neg hr] at hunf
    have e := congrArg Prod.fst (Option.some.inj hunf)
    simp only at e
    rcases hcnt with ⟨h1, _⟩ | h1
    · simp only at h1
      omega
    · simp only at h1
      rw [e]
      simp only [List.length_append, List.length_singleton] at h1
      push_cast at h1
      exact h1

theorem storedSize_eq (l : List (List Char)) :
    storedSize l = (l.map List.length).sum + l.length := by
  induction l with
  | nil => rfl
  | cons b rest ih =>
    simp only [storedSize, List.map_cons, List.sum_cons, List.length_cons, ih]
    omega

/-- A session of calls on a tree at rest allocates at most two heap cells for
every byte, sentinel included, of the accepted inputs. -/
theorem add_strings_count : ∀ (calls : List (Nat × List Char)) (st : Tree)
    (lab : Nat → List Char), Rest st lab →
    (∀ c ∈ calls, (c.2.length : Int) < SIZE_BOUND) → (∀ c ∈ calls, c.2.length + 2 < c.1) →
    ∃ (st1 : Tree) (ids : List Int) (lab1 : Nat → List Char),
      add_strings st calls = some (st1, ids) ∧ Rest st1 lab1 ∧
      st1.nodes.length ≤ st.nodes.length + 2 * storedSize (accepted calls ids) := by
  intro calls
  induction calls with
  | nil =>
    intro st lab R _ _
    exact ⟨st, [], lab, rfl, R, by simp [accepted, storedSize]⟩
  | cons c rest ih =>
    intro st lab R hsize hfuel
    obtain ⟨fuel, s⟩ := c
    obtain ⟨st1, id, lab1, hadd, R1, hcase⟩ := @add_string_count _ _ _ fuel st.nodes.length R
      (hsize (fuel, s) (List.mem_cons_self _ _)) (hfuel (fuel, s) (List.mem_cons_self _ _))
      (Or.inl (le_refl _))
    obtain ⟨st2, ids, lab2, hrest, R2, hc2⟩ := ih st1 lab1 R1
      (fun c hc => hsize c (List.mem_cons_of_mem _ hc))
      (fun c hc => hfuel c (List.mem_cons_of_mem _ hc))
    have hrun : add_strings st ((fuel, s) :: rest) = some (st2, id :: ids) := by
      unfold add_strings
      rw [hadd]
      simp only []
      rw [hrest]
    refine ⟨st2, id :: ids, lab2, hrun, R2, ?_⟩
    rw [accepted_cons]
    rcases hcase with ⟨h1, h2, _⟩ | ⟨h1, h2⟩
    · rw [if_neg (not_not.mpr h1)]
      rw [h2] at hc2
      exact hc2
    · rw [if_pos h1]
      simp only [storedSize]
      simp only at h2
      omega

/-- A session from the fresh tree in which at least one call returned an ID:
the heap holds at most one cell more than twice the bytes, sentinels included,
of the accepted inputs. -/
theorem session_count : ∀ (calls : List (Nat × List Char)),
    (∀ c ∈ calls, (c.2.length : Int) < SIZE_BOUND) → (∀ c ∈ calls, c.2.length + 2 < c.1) →
    ∃ (st1 : Tree) (ids : List Int) (lab1 : Nat → List Char),
      add_strings Tree.fresh calls = some (st1, ids) ∧ Rest st1 lab1 ∧
      (accepted calls ids ≠ [] → st1.nodes.length ≤ 1 + 2 * storedSize (accepted calls ids)) := by
  intro calls
  induction calls with
  | nil =>
    intro _ _
    exact ⟨Tree.fresh, [], _, rfl, Rest_fresh, by simp [accepted]⟩
  | cons c rest ih =>
    intro hsize hfuel
    obtain ⟨fuel, s⟩ := c
    obtain ⟨st1, id, lab1, hadd, R1, hcase⟩ := @add_string_count _ _ _ fuel 1 Rest_fresh
      (hsize (fuel, s) (List.mem_cons_self _ _)) (hfuel (fuel, s) (List.mem_cons_self _ _))
      (Or.inr ⟨⟨_, rfl, rfl⟩, by simp [Tree.fresh]⟩)
    rcases hcase with ⟨h1, h2, _⟩ | ⟨h1, h2⟩
    · obtain ⟨st2, ids, lab2, hrest, R2, hc2⟩ := ih
        (fun c hc => hsize c (List.mem_cons_of_mem _ hc))
        (fun c hc => hfuel c (List.mem_cons_of_mem _ hc))
      subst h2
      refine ⟨st2, id :: ids, lab2, ?_, R2, ?_⟩
      · unfold add_strings
        rw [hadd]
        simp only []
        rw [hrest]
      · rw [accepted_cons, if_neg (not_not.mpr h1)]
        exact hc2
    · obtain ⟨st2, ids, lab2, hrest, R2, hc2⟩ := add_strings_count rest st1 lab1 R1
        (fun c hc => hsize c (List.mem_cons_of_mem _ hc))
        (fun c hc => hfuel c (List.mem_cons_of_mem _ hc))
      refine ⟨st2, id :: ids, lab2, ?_, R2, ?_⟩
      · unfold add_strings
        rw [hadd]
        simp only []
        rw [hrest]
      · intro _
        rw [accepted_cons, if_pos h1]
        simp only [storedSize]
        simp only at h2
        omega

/-- A duplicate-free list of heap cells other than the sink is shorter than
the heap. -/
theorem attached_count {st : Tree} (L : List Nat) (hnd : L.Nodup)
    (hmem : ∀ n ∈ L, Attached st n) : L.length ≤ st.nodes.length - 1 := by
  have hsub : L.toFinset ⊆ Finset.Ico 1 st.nodes.length := by
    intro n hn
    have := hmem n (List.mem_toFinset.mp hn)
    exact Finset.mem_Ico.mpr ⟨this.1, this.2⟩
  have hcard := Finset.card_le_card hsub
  rw [List.toFinset_card_of_nodup hnd, Nat.card_Ico] at hcard
  exact hcard

/-- C16 (linear node growth): for every sequence of `add_string` calls on a
fresh tree (inputs below `SIZE_BOUND` bytes, each call with the fuel to run to
its end) in which at least one call returned an ID, the session runs to its
end and the nodes reached by a path from the root, the root included and the
sink excluded, are at most twice the sum of the sizes of the accepted inputs
plus their number: every duplicate-free list of such nodes is at most that
long. -/
theorem linear_node_growth (calls : List (Nat × List Char))
    (hsize : ∀ c ∈ calls, (c.2.length : Int) < SIZE_BOUND)
    (hfuel : ∀ c ∈ calls, c.2.length + 2 < c.1) :
    ∃ (st : Tree) (ids : List Int), add_strings Tree.fresh calls = some (st, ids) ∧
      (accepted calls ids ≠ [] → ∀ L : List Nat, L.Nodup →
        (∀ n ∈ L, ∃ v : List Char, Walk st rootId v n) →
        L.length ≤ 2 * (((accepted calls ids).map List.length).sum +
          (accepted calls ids).length)) := by
  obtain ⟨st, ids, lab, hrun, R, hc⟩ := session_count calls hsize hfuel
  refine ⟨st, ids, hrun, ?_⟩
  intro hne L hnd hL
  have h1 := hc hne
  rw [storedSize_eq] at h1
  have h2 := @attached_count st L hnd (by
    intro n hn
    obtain ⟨v, hv⟩ := hL n hn
    exact (Walk.label R.wfl hv R.wfl.root_attached).1)
  omega

theorem linear_node_growth_witness :
    ∃ (st : Tree) (ids : List Int),
      add_strings Tree.fresh [(8, ['a', 'b']), (8, ['b']), (8, ['c', 'b'])] = some (st, ids) ∧
      (accepted [(8, ['a', 'b']), (8, ['b']), (8, ['c', 'b'])] ids ≠ [] →
        ∀ L : List Nat, L.Nodup → (∀ n ∈ L, ∃ v : List Char, Walk st rootId v n) →
        L.length ≤ 2 * (((accepted [(8, ['a', 'b']), (8, ['b']), (8, ['c', 'b'])] ids).map
          List.length).sum + (accepted [(8, ['a', 'b']), (8, ['b']), (8, ['c', 'b'])] ids).length)) :=
  linear_node_growth [(8, ['a', 'b']), (8, ['b']), (8, ['c', 'b'])] (by decide) (by decide)

/-! ## The shape of the transition maps -/

theorem mapFind_none_not_mem {κ β : Type} [DecidableEq κ] {k : κ} {m : List (κ × β)}
    (h : mapFind k m = none) : k ∉ m.map Prod.fst := by
  induction m with
  | nil => simp
  | cons q rest ih =>
    obtain ⟨k1, v1⟩ := q
    unfold mapFind at h
    by_cases e : k1 = k
    · rw [if_pos e] at h
      cases h
    · rw [if_neg e] at h
      simp only [List.map_cons, List.mem_cons, not_or]
      exact ⟨fun e1 => e e1.symm, ih h⟩

theorem mapFind_of_mem_nodup {κ β : Type} [DecidableEq κ] {k : κ} {v : β} {m : List (κ × β)}
    (hn : (m.map Prod.fst).Nodup) (h : (k, v) ∈ m) : mapFind k m = some v := by
  induction m with
  | nil => simp at h
  | cons q rest ih =>
    obtain ⟨k1, v1⟩ := q
    simp only [List.map_cons, List.nodup_cons] at hn
    unfold mapFind
    rcases List.mem_cons.mp h with e | e
    · simp only [Prod.mk.injEq] at e
      rw [if_pos e.1.symm, e.2]
    · have hne : k1 ≠ k := by
        intro e1
        apply hn.1
        rw [e1]
        exact List.mem_map_of_mem Prod.fst e
      rw [if_neg hne]
      exact ih hn.2 e

theorem nodupKeys_mapInsert {κ β : Type} [DecidableEq κ] (k : κ) (v : β) {m : List (κ × β)}
    (h : (m.map Prod.fst).Nodup) : ((mapInsert k v m).map Prod.fst).Nodup := by
  unfold mapInsert
  cases hm : mapFind k m with
  | some x => exact h
  | none =>
    simp only [List.map_append, List.map_cons, List.map_nil]
    refine List.Nodup.append h (List.nodup_singleton _) ?_
    intro a ha hb
    rw [List.mem_singleton] at hb
    rw [hb] at ha
    exact mapFind_none_not_mem hm ha

theorem keys_mapAssign_mem {κ β : Type} [DecidableEq κ] (k : κ) (v : β) (m : List (κ × β))
    (a : κ) (h : a ∈ (mapAssign k v m).map Prod.fst) : a = k ∨ a ∈ m.map Prod.fst := by
  induction m with
  | nil =>
    simp [mapAssign] at h
    exact Or.inl h
  | cons q rest ih =>
    obtain ⟨k1, v1⟩ := q
    unfold mapAssign at h
    by_cases e : k1 = k
    · rw [if_pos e] at h
      simp only [List.map_cons, List.mem_cons] at h ⊢
      rcases h with h | h
      · exact Or.inl h
      · exact Or.inr (Or.inr h)
    · rw [if_neg e] at h
      simp only [List.map_cons, List.mem_cons] at h ⊢
      rcases h with h | h
      · exact Or.inr (Or.inl h)
      · rcases ih h with h1 | h1
        · exact Or.inl h1
        · exact Or.inr (Or.inr h1)

theorem nodupKeys_mapAssign {κ β : Type} [DecidableEq κ] (k : κ) (v : β) {m : List (κ × β)}
    (h : (m.map Prod.fst).Nodup) : ((mapAssign k v m).map Prod.fst).Nodup := by
  induction m with
  | nil => simp [mapAssign]
  | cons q rest ih =>
    obtain ⟨k1, v1⟩ := q
    simp only [List.map_cons, List.nodup_cons] at h
    unfold mapAssign
    by_cases e : k1 = k
    · rw [if_pos e]
      simp only [List.map_cons, List.nodup_cons]
      rw [← e]
      exact h
    · rw [if_neg e]
      simp only [List.map_cons, List.nodup_cons]
      refine ⟨?_, ih h.2⟩
      intro hmem
      rcases keys_mapAssign_mem k v rest k1 hmem with h1 | h1
      · exact e h1
      · exact h.1 h1

theorem NodupKeys_setNode {st : Tree} {i : Nat} {nd1 : Node} (hst : NodupKeys st)
    (hg : (nd1.g.map Prod.fst).Nodup) : NodupKeys (st.setNode i nd1) := by
  intro j ndj hj
  simp only [Tree.setNode] at hj
  rw [List.getElem?_set] at hj
  by_cases hij : i = j
  · subst hij
    by_cases hlt : i < st.nodes.length
    · simp [hlt] at hj
      subst hj
      exact hg
    · simp [hlt] at hj
  · simp [hij] at hj
    exact hst j ndj hj

theorem NodupKeys_alloc {st : Tree} (hst : NodupKeys st) : NodupKeys st.alloc.1 := by
  intro j ndj hj
  by_cases hlt : j < st.nodes.length
  · rw [nodes_alloc_lt hlt] at hj
    exact hst j ndj hj
  · simp only [Tree.alloc] at hj
    rw [List.getElem?_append_right (by omega)] at hj
    by_cases h0 : j - st.nodes.length = 0
    · simp [h0] at hj
      subst hj
      simp [Node.fresh]
    · have : ([Node.fresh] : List Node)[j - st.nodes.length]? = none := by
        apply List.getElem?_eq_none
        simp
        omega
      rw [this] at hj
      simp at hj

theorem NodupKeys_of_nodes {st st1 : Tree} (hst : NodupKeys st) (hn : st1.nodes = st.nodes) :
    NodupKeys st1 := by
  unfold NodupKeys at *
  rw [hn]
  exact hst

theorem modify_nodup {st st1 : Tree} {p : Option Nat} {f : Node → Node}
    (h : st.modify p f = some st1) (hst : NodupKeys st)
    (hf : ∀ nd : Node, (nd.g.map Prod.fst).Nodup → ((f nd).g.map Prod.fst).Nodup) :
    NodupKeys st1 := by
  obtain ⟨i, nd, _, hi, rfl⟩ := modify_spec h
  exact NodupKeys_setNode hst (hf nd (hst i nd hi))

theorem haystackIndex_nodes (st : Tree) (k : Int) : (st.haystackIndex k).1.nodes = st.nodes := by
  unfold Tree.haystackIndex
  split <;> rfl

theorem test_and_split_nodup {st st1 : Tree} {n r : Option Nat} {kp : MappedSubstring}
    {t : Char} {w : List Char} {b : Bool}
    (h : test_and_split st n kp t w = some (st1, b, r)) (hst : NodupKeys st) :
    NodupKeys st1 := by
  unfold test_and_split at h
  simp only at h
  split at h
  · split at h
    · simp at h
    · split at h
      · split at h
        · simp at h
        · rename_i st2 hm
          simp at h
          obtain ⟨rfl, _, _⟩ := h
          refine modify_nodup hm hst ?_
          intro nd hnd
          rw [mark_string_g]
          exact hnd
      · simp at h
        obtain ⟨rfl, _, _⟩ := h
        exact hst
  · split at h
    · simp at h
    · split at h
      · simp at h
      · split at h
        · simp at h
        · split at h
          · simp at h
          · split at h
            · simp at h
              obtain ⟨rfl, _, _⟩ := h
              exact hst
            · split at h
              · simp at h
              · split at h
                · simp at h
                · rename_i st2 hm2
                  split at h
                  · simp at h
                  · rename_i st3 hm3
                    simp at h
                    obtain ⟨rfl, _, _⟩ := h
                    have h2 := modify_nodup hm2 (NodupKeys_alloc hst)
                      (fun nd hnd => nodupKeys_mapInsert _ _ hnd)
                    have h3 := modify_nodup hm3 h2 (fun nd hnd => nodupKeys_mapAssign _ _ hnd)
                    exact NodupKeys_of_nodes h3 rfl

theorem canonize_nodes {fuel : Nat} {st st1 : Tree} {n : Option Nat} {kp : MappedSubstring}
    {rp : ReferencePoint} (h : canonize fuel st n kp = some (st1, rp)) :
    st1.nodes = st.nodes := by
  unfold canonize at h
  split at h
  · simp at h
    rw [← h.1]
  · simp only at h
    split at h
    · simp at h
    · split at h
      · simp at h
      · split at h
        · simp at h
        · simp at h
          rw [← h.1]
          exact haystackIndex_nodes _ _

theorem updateLoop_nodup {cf : Nat} {w : List Char} {ki_ref : Int} {ki_r : Int} {t : Char} :
    ∀ (fuel : Nat) (st : Tree) (oldr : Option Nat) (sk : ReferencePoint)
      (ki1 : MappedSubstring) (ep : Bool) (r : Option Nat) (st1 : Tree) (rp : ReferencePoint),
      updateLoop cf w ki_ref ki_r t fuel st oldr sk ki1 ep r = some (st1, rp) →
      NodupKeys st → NodupKeys st1 := by
  intro fuel
  induction fuel with
  | zero => intro st oldr sk ki1 ep r st1 rp h; simp [updateLoop] at h
  | succ fuel ih =>
    intro st oldr sk ki1 ep r st1 rp h hst
    unfold updateLoop at h
    split at h
    · split at h
      · split at h
        · simp at h
        · rename_i st2 hm
          simp at h
          obtain ⟨rfl, _⟩ := h
          exact modify_nodup hm hst (fun nd hnd => hnd)
      · simp at h
        obtain ⟨rfl, _⟩ := h
        exact hst
    · simp only at h
      split at h
      · simp at h
      · rename_i st2 hm2
        have h2 := modify_nodup hm2 (NodupKeys_alloc hst)
          (fun nd hnd => nodupKeys_mapInsert _ _ hnd)
        split at h
        · simp at h
        · rename_i st3 hm3
          have h3 : NodupKeys st3 := by
            split at hm3
            · exact modify_nodup hm3 h2 (fun nd hnd => hnd)
            · simp at hm3
              subst hm3
              exact h2
          split at h
          · simp at h
          · split at h
            · simp at h
            · rename_i st4 sk1 hc
              have h4 : NodupKeys st4 := NodupKeys_of_nodes h3 (canonize_nodes hc)
              split at h
              · simp at h
              · rename_i st5 ep1 r1 hts
                exact ih st5 r sk1 _ ep1 r1 st1 rp h (test_and_split_nodup hts h4)

theorem update_nodup {fuel : Nat} {st st1 : Tree} {n : Option Nat} {ki : MappedSubstring}
    {rp : ReferencePoint} (h : update fuel st n ki = some (st1, rp)) (hst : NodupKeys st) :
    NodupKeys st1 := by
  unfold update at h
  simp only at h
  split at h
  · simp at h
  · split at h
    · simp at h
    · rename_i st2 ep r hts
      exact updateLoop_nodup _ _ _ _ _ _ _ _ _ h
        (test_and_split_nodup hts (NodupKeys_of_nodes hst (haystackIndex_nodes _ _)))

theorem startLoop_nodes {s : List Char} {s_len : Int} :
    ∀ (fuel : Nat) (st : Tree) (r : ReferencePoint) (k : Int) (st1 : Tree)
      (r1 : ReferencePoint) (i : Int),
      startLoop s s_len fuel st r k = some (st1, r1, i) → st1.nodes = st.nodes := by
  intro fuel
  induction fuel with
  | zero => intro st r k st1 r1 i h; simp [startLoop] at h
  | succ fuel ih =>
    intro st r k st1 r1 i h
    unfold startLoop at h
    split at h
    · simp at h
      rw [← h.1]
    · split at h
      · simp at h
      · split at h
        · simp at h
        · split at h
          · simp only at h
            split at h
            · simp at h
            · simp at h
              rw [← h.1]
              exact haystackIndex_nodes _ _
            · simp at h
              rw [← h.1]
              exact haystackIndex_nodes _ _
            · exact (ih _ _ _ _ _ _ h).trans (haystackIndex_nodes _ _)
          · simp at h
            rw [← h.1]

theorem deployLoop_nodup {fuel : Nat} {s : List Char} {sindex : Int} :
    ∀ (cnt : Nat) (st : Tree) (ap : ReferencePoint) (i : Int) (st1 : Tree),
      deployLoop fuel s sindex cnt st ap i = some st1 → NodupKeys st → NodupKeys st1 := by
  intro cnt
  induction cnt with
  | zero => intro st ap i st1 h; simp [deployLoop] at h
  | succ cnt ih =>
    intro st ap i st1 h hst
    unfold deployLoop at h
    split at h
    · split at h
      · simp at h
      · rename_i st2 ap1 hu
        have h2 := update_nodup hu hst
        split at h
        · simp at h
        · rename_i st3 ap2 hc
          exact ih _ _ _ _ h (NodupKeys_of_nodes h2 (canonize_nodes hc))
    · simp at h
      subst h
      exact hst

theorem deploy_suffixes_nodup {fuel : Nat} {st st1 : Tree} {s : List Char} {sindex res : Int}
    (h : deploy_suffixes fuel st s sindex = some (st1, res)) (hst : NodupKeys st) :
    NodupKeys st1 := by
  unfold deploy_suffixes at h
  split at h
  · simp at h
  · rename_i st2 ap i hg
    unfold get_starting_node at hg
    have h2 : NodupKeys st2 := NodupKeys_of_nodes hst (startLoop_nodes _ _ _ _ _ _ _ hg)
    split at h
    · simp at h
      obtain ⟨rfl, _⟩ := h
      exact h2
    · split at h
      · simp at h
      · rename_i st3 hd
        simp at h
        obtain ⟨rfl, _⟩ := h
        exact deployLoop_nodup _ _ _ _ _ hd h2

theorem add_string_nodup {fuel : Nat} {st st1 : Tree} {str : List Char} {id : Int}
    (h : add_string fuel st str = some (st1, id)) (hst : NodupKeys st) : NodupKeys st1 := by
  unfold add_string at h
  split at h
  · simp at h
    rw [← h.1]
    exact hst
  · split at h
    · simp at h
      rw [← h.1]
      exact hst
    · simp only at h
      split at h
      · simp at h
      · rename_i st2 res hd
        have h2 := deploy_suffixes_nodup hd (NodupKeys_of_nodes hst rfl)
        split at h
        · simp at h
          rw [← h.1]
          exact NodupKeys_of_nodes h2 rfl
        · simp at h
          rw [← h.1]
          exact NodupKeys_of_nodes h2 rfl

theorem NodupKeys_fresh : NodupKeys Tree.fresh := by
  intro i nd hi
  simp only [Tree.fresh] at hi
  match i with
  | 0 => simp at hi; subst hi; simp
  | 1 => simp at hi; subst hi; simp [Node.fresh]
  | (j + 2) => simp at hi

theorem KeysFull_fresh : KeysFull Tree.fresh := by
  intro k h1 h2
  simp [Tree.fresh] at h2
  omega

theorem add_string_full {fuel : Nat} {st st1 : Tree} {str : List Char} {id : Int}
    (h : add_string fuel st str = some (st1, id)) (hst : EdgesOK st) (hk : KeysOK st)
    (hf : KeysFull st) : KeysFull st1 := by
  obtain ⟨_, _, hcase⟩ := add_string_reg h hst hk
  rcases hcase with ⟨_, e⟩ | ⟨_, _, _, e1, e2⟩
  · rw [e]
    exact hf
  · intro k h1 h2
    rw [e2, mapFind_mapAssign]
    by_cases e : k = st.last_index + 1
    · rw [if_pos e]
      rfl
    · rw [if_neg e]
      exact hf k h1 (by omega)

/-- The shape of the transition maps and of the registry after a session. -/
theorem add_strings_shape : ∀ (calls : List (Nat × List Char)) (st st1 : Tree)
    (ids : List Int), add_strings st calls = some (st1, ids) → EdgesOK st → KeysOK st →
    NodupKeys st → KeysFull st → NodupKeys st1 ∧ KeysFull st1 := by
  intro calls
  induction calls with
  | nil =>
    intro st st1 ids h _ _ hn hf
    simp [add_strings] at h
    rw [← h.1]
    exact ⟨hn, hf⟩
  | cons c rest ih =>
    intro st st1 ids h he hk hn hf
    obtain ⟨fuel, s⟩ := c
    unfold add_strings at h
    split at h
    · simp at h
    · rename_i st2 id hadd
      split at h
      · simp at h
      · rename_i st3 ids3 hrest
        simp at h
        obtain ⟨rfl, _⟩ := h
        have hr := add_string_reg hadd he hk
        exact ih st2 _ _ hrest hr.1 hr.2.1 (add_string_nodup hadd hn)
          (add_string_full hadd he hk hf)

/-! ## The colouring pass runs to its end -/

theorem Recolor.same (st : Tree) : Recolor st st :=
  ⟨rfl, rfl, rfl, fun _ nd h => ⟨nd, h, rfl, rfl⟩⟩

theorem Recolor.comp1 {a b c : Tree} (h1 : Recolor a b) (h2 : Recolor b c) : Recolor a c := by
  refine ⟨h2.hay.trans h1.hay, h2.idx.trans h1.idx, h2.len.trans h1.len, ?_⟩
  intro i nd hi
  obtain ⟨nd1, g1, g2, g3⟩ := h1.node i nd hi
  obtain ⟨nd2, k1, k2, k3⟩ := h2.node i nd1 g1
  exact ⟨nd2, k1, k2.trans g2, k3.trans g3⟩

theorem Recolor.of_setNode {st : Tree} {i : Nat} {nd nd1 : Node} (hi : st.nodes[i]? = some nd)
    (hg : nd1.g = nd.g) (hl : nd1.suffix_link = nd.suffix_link) :
    Recolor st (st.setNode i nd1) := by
  refine ⟨rfl, rfl, length_setNode _ _ _, ?_⟩
  intro n ndn hn
  by_cases e : n = i
  · subst e
    rw [hi] at hn
    obtain rfl := Option.some.inj hn
    exact ⟨nd1, nodes_setNode_eq _ (lt_of_getElem? hi), hg, hl⟩
  · exact ⟨ndn, by rw [nodes_setNode_ne _ e]; exact hn, rfl, rfl⟩

theorem Recolor.of_flag (st : Tree) (b : Bool) : Recolor st { st with colors_computed := b } :=
  ⟨rfl, rfl, rfl, fun _ nd h => ⟨nd, h, rfl, rfl⟩⟩

theorem Recolor.back {st st1 : Tree} (h : Recolor st st1) {i : Nat} {nd1 : Node}
    (hi : st1.nodes[i]? = some nd1) :
    ∃ nd : Node, st.nodes[i]? = some nd ∧ nd1.g = nd.g ∧ nd1.suffix_link = nd.suffix_link := by
  have hlt : i < st.nodes.length := by rw [← h.len]; exact lt_of_getElem? hi
  obtain ⟨nd2, g1, g2, g3⟩ := h.node i (st.nodes.get ⟨i, hlt⟩) (List.getElem?_eq_getElem hlt)
  rw [hi] at g1
  obtain rfl := Option.some.inj g1
  exact ⟨_, List.getElem?_eq_getElem hlt, g2, g3⟩

theorem Recolor.modify {st : Tree} {i : Nat} (hi : i < st.nodes.length) (f : Node → Node)
    (hg : ∀ nd : Node, (f nd).g = nd.g) (hl : ∀ nd : Node, (f nd).suffix_link = nd.suffix_link) :
    ∃ st1 : Tree, st.modify (some i) f = some st1 ∧ Recolor st st1 := by
  have hnd : st.nodes[i]? = some (st.nodes.get ⟨i, hi⟩) := List.getElem?_eq_getElem hi
  exact ⟨_, modify_eq f hnd, Recolor.of_setNode hnd (hg _) (hl _)⟩

theorem Shape.of_recolor {st st1 : Tree} {lab : Nat → List Char} {M : Nat}
    (h : Shape st lab M) (r : Recolor st st1) : Shape st1 lab M := by
  refine ⟨h.wfl.frame r.hay r.len ?_, ?_, ?_, ?_, ?_⟩
  · intro n nd1 hn
    obtain ⟨nd, g1, g2, g3⟩ := r.back hn
    exact ⟨nd, g1, g2, fun _ => g3⟩
  · intro i nd1 hi
    obtain ⟨nd, g1, g2, _⟩ := r.back hi
    rw [g2]
    exact h.nodup i nd g1
  · intro k h1 h2
    rw [r.hay]
    rw [r.idx] at h2
    exact h.full k h1 h2
  · have := h.keys
    unfold KeysOK at *
    rw [r.hay, r.idx]
    exact this
  · intro x hx
    exact h.depth x ⟨hx.1, by rw [← r.len]; exact hx.2⟩

/-- The inner loop of `mark_leaves_for_string` ends: it never reads past the
last byte of the edge's source string, because it stops at the sentinel. -/
theorem matchLen_total {str S : List Char} {pos l edge_len : Int} (hstr : StrOK str)
    (hS : StrOK S) (hpos : 0 ≤ pos) (hl : 0 ≤ l) :
    ∀ (fuel : Nat) (i ml : Int), 0 ≤ i → pos + i ≤ str.length →
      (pos + i < str.length → l + i < S.length) → (str.length : Int) - (pos + i) < fuel →
      ∃ m : Int, matchLen str S pos l edge_len fuel i ml = some m ∧ ml ≤ m ∧
        pos + i + (m - ml) ≤ str.length := by
  have hsmall := hstr.small
  intro fuel
  induction fuel with
  | zero =>
    intro i ml h0 h1 _ hf
    omega
  | succ fuel ih =>
    intro i ml h0 h1 hJ hf
    have hts : toSizeT (pos + i) = (pos + i).toNat := by
      unfold toSizeT
      congr 1
      omega
    unfold matchLen
    by_cases hc : i < edge_len ∧ toSizeT (pos + i) < str.length
    · rw [if_pos hc]
      have hlt : pos + i < str.length := by
        have := hc.2
        rw [hts] at this
        omega
      have hlS := hJ hlt
      obtain ⟨a, ha⟩ := strAt_some_lt (S := str) (i := pos + i) (by omega) hlt
      obtain ⟨b, hb⟩ := strAt_some_lt (S := S) (i := l + i) (by omega) hlS
      rw [ha, hb]
      simp only []
      by_cases hab : a ≠ b
      · rw [if_pos hab]
        exact ⟨ml, rfl, le_refl _, by omega⟩
      · rw [if_neg hab]
        have hab1 : a = b := not_not.mp hab
        obtain ⟨m, hm, h2, h3⟩ := ih (i + 1) (ml + 1) (by omega) (by omega) (by
          intro hlt1
          by_contra hcon
          have e1 : l + i = (S.length : Int) - 1 := by omega
          have hb1 := hS.last
          rw [← e1, hb] at hb1
          have hne := hstr.not_last (i := pos + i) (by omega) (by omega)
          apply hne
          rw [ha, hab1]
          exact hb1) (by omega)
        have e1 : pos + (i + 1) = pos + i + 1 := by omega
        have e2 : l + (i + 1) = l + i + 1 := by omega
        exact ⟨m, hm, by omega, by omega⟩
    · rw [if_neg hc]
      exact ⟨ml, rfl, le_refl _, by omega⟩

/-- The walk of `mark_leaves_for_string` from one start ends, and changes
colours only. -/
theorem markWalk_total {str : List Char} {string_id : Int} (hstr : StrOK str)
    {lab : Nat → List Char} {M : Nat} :
    ∀ (fuel : Nat) (st : Tree) (cur : Nat) (pos : Int), Shape st lab M → Attached st cur →
      0 ≤ pos → pos ≤ str.length → M < fuel + (lab cur).length →
      ∃ st1 : Tree, markWalk str string_id fuel st (some cur) pos = some st1 ∧
        Recolor st st1 := by
  have hsmall := hstr.small
  intro fuel
  induction fuel with
  | zero =>
    intro st cur pos hsh hcur _ _ hf
    have := hsh.depth cur hcur
    omega
  | succ fuel ih =>
    intro st cur pos hsh hcur hp0 hp1 hf
    have h := hsh.wfl
    have hts : toSizeT pos = pos.toNat := by
      unfold toSizeT
      congr 1
      omega
    unfold markWalk
    by_cases hc : toSizeT pos < str.length
    · rw [if_pos hc]
      have hlt : pos < str.length := by
        rw [hts] at hc
        omega
      obtain ⟨c, hcc⟩ := strAt_some_lt (S := str) (i := pos) hp0 hlt
      obtain ⟨nd, hnd⟩ := hcur.node
      rw [hcc]
      simp only []
      rw [find_alpha_node c hcur.1 hnd]
      cases hm : mapFind c nd.g with
      | none =>
        simp only [Transition.is_valid, Option.isSome_none, if_true]
        exact ⟨st, rfl, Recolor.same st⟩
      | some t =>
        obtain ⟨j, S, e⟩ := h.edges cur nd c t hcur.1 hnd hm
        have hS := h.strs _ _ e.ref
        simp only [Transition.is_valid, e.tgt, Option.isSome_some, Bool.true_eq_false, if_false]
        rw [haystackIndex_eq e.ref]
        simp only []
        obtain ⟨m, hm1, hm2, hm3⟩ := @matchLen_total str S pos t.sub.l
          (wrap32 (t.sub.r - t.sub.l + 1)) hstr hS hp0 e.l_lo (loopBound str.length) 0 0
          (le_refl _) (by omega) (fun _ => by have := e.l_hi; omega)
          (by unfold loopBound; push_cast; omega)
        rw [hm1]
        simp only [Tree.deref]
        have hj : Attached st j := ⟨by have := e.j_lo; omega, e.j_hi⟩
        obtain ⟨ndj, hndj⟩ := hj.node
        rw [hndj]
        simp only []
        by_cases hleaf : ndj.g = []
        · rw [if_pos hleaf]
          exact Recolor.modify e.j_hi _ (fun x => mark_string_g x _)
            (fun x => mark_string_link x _)
        · rw [if_neg hleaf]
          refine ih st j (pos + m) hsh hj (by omega) (by omega) ?_
          have hl : (lab j).length = (lab cur).length + (labelOf S t.sub).length := by
            rw [e.lab_eq, List.length_append]
          have hpos : 0 < (labelOf S t.sub).length := by
            rw [e.label_cons hS]
            simp
          omega
    · rw [if_neg hc]
      exact ⟨st, rfl, Recolor.same st⟩

/-- The loop over the starts of `mark_leaves_for_string` ends, and changes
colours only. -/
theorem markStarts_total {str : List Char} {string_id : Int} (hstr : StrOK str)
    {lab : Nat → List Char} {M fuel : Nat} (hM : M < fuel) :
    ∀ (cnt : Nat) (st : Tree) (start : Int), Shape st lab M → 0 ≤ start →
      start ≤ str.length → (str.length : Int) - start < cnt →
      ∃ st1 : Tree, markStarts fuel str string_id cnt st start = some st1 ∧ Recolor st st1 := by
  have hsmall := hstr.small
  intro cnt
  induction cnt with
  | zero =>
    intro st start hsh h0 h1 hc
    omega
  | succ cnt ih =>
    intro st start hsh h0 h1 hc
    have hts : toSizeT start = start.toNat := by
      unfold toSizeT
      congr 1
      omega
    unfold markStarts
    by_cases hlt : start < str.length
    · rw [if_pos (by rw [hts]; omega)]
      obtain ⟨st1, h1, r1⟩ := @markWalk_total _ string_id hstr _ _ fuel st rootId start
        hsh hsh.wfl.root_attached h0 (by omega) (by omega)
      rw [h1]
      simp only []
      obtain ⟨st2, h2, r2⟩ := ih st1 (start + 1) (hsh.of_recolor r1) (by omega) (by omega)
        (by omega)
      exact ⟨st2, h2, r1.comp1 r2⟩
    · rw [if_neg (by rw [hts]; omega)]
      exact ⟨st, rfl, Recolor.same st⟩
/-- The method `mark_leaves_for_string` ends for a registered ID, and changes
colours only. -/
theorem mark_leaves_total {st : Tree} {lab : Nat → List Char} {M fuel : Nat}
    (hsh : Shape st lab M) (hM : M < fuel) {i : Int} (h1 : 1 ≤ i) (h2 : i ≤ st.last_index) :
    ∃ st1 : Tree, mark_leaves_for_string fuel st i = some st1 ∧ Recolor st st1 := by
  have hp := hsh.full i h1 h2
  cases hS : mapFind i st.haystack with
  | none => rw [hS] at hp; cases hp
  | some S =>
    have hstr := hsh.wfl.strs _ _ hS
    unfold mark_leaves_for_string
    rw [haystackIndex_eq hS]
    simp only []
    exact markStarts_total hstr hM (loopBound S.length) st 0 hsh (le_refl _) (by omega)
      (by unfold loopBound; push_cast; omega)

/-- The loop of `compute_colors` over the IDs ends, and changes colours only. -/
theorem markAll_total {lab : Nat → List Char} {M fuel : Nat} (hM : M < fuel) :
    ∀ (cnt : Nat) (st : Tree) (i : Int), Shape st lab M → 1 ≤ i → i ≤ st.last_index + 1 →
      st.last_index + 1 - i < cnt →
      ∃ st1 : Tree, markAll fuel cnt st i = some st1 ∧ Recolor st st1 := by
  intro cnt
  induction cnt with
  | zero =>
    intro st i hsh h1 h2 hc
    omega
  | succ cnt ih =>
    intro st i hsh h1 h2 hc
    unfold markAll
    by_cases hle : i ≤ st.last_index
    · rw [if_pos hle]
      obtain ⟨st1, g1, r1⟩ := mark_leaves_total hsh hM h1 hle
      rw [g1]
      simp only []
      obtain ⟨st2, g2, r2⟩ := ih st1 (i + 1) (hsh.of_recolor r1) (by omega)
        (by rw [r1.idx]; omega) (by rw [r1.idx]; omega)
      exact ⟨st2, g2, r1.comp1 r2⟩
    · rw [if_neg hle]
      exact ⟨st, rfl, Recolor.same st⟩

/-- The loop of `compute_colors_dfs` over the children ends when the recursive
calls do. -/
theorem colorFold_total {st0 : Tree} {lab : Nat → List Char} {M fuel : Nat}
    (hsh0 : Shape st0 lab M) {x : Nat} {nd : Node} (hx : Attached st0 x)
    (hnd : st0.nodes[x]? = some nd)
    (ih : ∀ (st : Tree) (j : Nat), Shape st lab M → Attached st j →
      M < fuel + (lab j).length →
      ∃ (st1 : Tree) (c : Nat), compute_colors_dfs fuel st (some j) = some (st1, c) ∧
        Recolor st st1)
    (hf : M < fuel + 1 + (lab x).length) :
    ∀ (l : List (Char × Transition)) (st : Tree) (acc : Nat), (∀ e ∈ l, e ∈ nd.g) →
      Recolor st0 st →
      ∃ (st1 : Tree) (c : Nat),
        colorFold (fun s p => compute_colors_dfs fuel s p) l st acc = some (st1, c) ∧
        Recolor st0 st1 := by
  intro l
  induction l with
  | nil =>
    intro st acc _ r
    exact ⟨st, acc, rfl, r⟩
  | cons p rest ihl =>
    intro st acc hmem r
    obtain ⟨c, tr⟩ := p
    have hm : mapFind c nd.g = some tr :=
      mapFind_of_mem_nodup (hsh0.nodup x nd hnd) (hmem _ (List.mem_cons_self _ _))
    obtain ⟨j, S, e⟩ := hsh0.wfl.edges x nd c tr hx.1 hnd hm
    have hS := hsh0.wfl.strs _ _ e.ref
    have hl : (lab j).length = (lab x).length + (labelOf S tr.sub).length := by
      rw [e.lab_eq, List.length_append]
    have hpos : 0 < (labelOf S tr.sub).length := by
      rw [e.label_cons hS]
      simp
    obtain ⟨st1, c1, g1, r1⟩ := ih st j (hsh0.of_recolor r)
      ⟨by have := e.j_lo; omega, by rw [r.len]; exact e.j_hi⟩ (by omega)
    unfold colorFold
    simp only []
    rw [e.tgt, g1]
    simp only []
    exact ihl st1 _ (fun e he => hmem e (List.mem_cons_of_mem _ he)) (r.comp1 r1)

/-- The method `compute_colors_dfs` ends, and changes colours only. -/
theorem compute_colors_dfs_total {lab : Nat → List Char} {M : Nat} :
    ∀ (fuel : Nat) (st : Tree) (x : Nat), Shape st lab M → Attached st x →
      M < fuel + (lab x).length →
      ∃ (st1 : Tree) (c : Nat), compute_colors_dfs fuel st (some x) = some (st1, c) ∧
        Recolor st st1 := by
  intro fuel
  induction fuel with
  | zero =>
    intro st x hsh hx hf
    have := hsh.depth x hx
    omega
  | succ fuel ih =>
    intro st x hsh hx hf
    obtain ⟨nd, hnd⟩ := hx.node
    unfold compute_colors_dfs
    simp only [hnd]
    by_cases hleaf : nd.g = []
    · rw [if_pos hleaf]
      exact ⟨st, nd.colors, rfl, Recolor.same st⟩
    · rw [if_neg hleaf]
      obtain ⟨st1, acc, g1, r1⟩ := colorFold_total hsh hx hnd ih (by omega) nd.g st 0
        (fun e he => he) (Recolor.same st)
      rw [g1]
      simp only []
      obtain ⟨st2, g2, r2⟩ := @Recolor.modify st1 x (by rw [r1.len]; exact hx.2)
        (fun y => { y with colors := acc }) (fun _ => rfl) (fun _ => rfl)
      rw [g2]
      exact ⟨st2, acc, rfl, r1.comp1 r2⟩

/-- The method `compute_colors` ends, and changes nothing but the colours and
the colours-clean flag. -/
theorem compute_colors_total {st : Tree} {lab : Nat → List Char} {M fuel : Nat}
    (hsh : Shape st lab M) (hM : M < fuel) :
    ∃ st1 : Tree, compute_colors fuel st = some st1 ∧ Recolor st st1 ∧
      st1.colors_computed = true := by
  unfold compute_colors
  by_cases hc : st.colors_computed = true
  · rw [if_pos hc]
    exact ⟨st, rfl, Recolor.same st, hc⟩
  · rw [if_neg hc]
    have hk := hsh.keys.1
    obtain ⟨st1, g1, r1⟩ := markAll_total hM (loopBound st.last_index.toNat) st 1 hsh
      (le_refl _) (by omega) (by unfold loopBound; push_cast; omega)
    rw [g1]
    simp only []
    have hsh1 := hsh.of_recolor r1
    obtain ⟨st2, c, g2, r2⟩ := compute_colors_dfs_total fuel st1 rootId hsh1
      hsh1.wfl.root_attached (by omega)
    rw [g2]
    exact ⟨_, rfl, (r1.comp1 r2).comp1 (Recolor.of_flag st2 true), rfl⟩

/-- A session from the fresh tree leaves a tree at rest of the shape the
colouring pass relies on; `fuel` exceeds the size of every stored string. -/
theorem session_shape (calls : List (Nat × List Char)) (fuel : Nat)
    (hsize : ∀ c ∈ calls, (c.2.length : Int) < SIZE_BOUND)
    (hfuel : ∀ c ∈ calls, c.2.length + 2 < c.1) (hpos : 0 < fuel)
    (hdepth : ∀ c ∈ calls, c.2.length + 1 < fuel) :
    ∃ (st : Tree) (ids : List Int) (lab : Nat → List Char),
      add_strings Tree.fresh calls = some (st, ids) ∧ Rest st lab ∧ Shape st lab (fuel - 1) := by
  obtain ⟨st, ids, lab, hrun, R, hsent, hreg⟩ := session_spec calls hsize hfuel
  obtain ⟨hn, hfull⟩ := add_strings_shape calls _ _ _ hrun EdgesOK_fresh KeysOK_fresh
    NodupKeys_fresh KeysFull_fresh
  refine ⟨st, ids, lab, hrun, R, R.wfl, hn, hfull, R.keys, ?_⟩
  intro x hx
  have hw : InW st lab (lab x) := ⟨x, hx.1, hx.2, List.prefix_refl _⟩
  rcases (hreg _).mp ((R.content _).mp hw) with e | ⟨b, hb, hinf⟩
  · rw [e]
    simp
  · obtain ⟨c, hc, e⟩ := accepted_mem calls ids b hb
    have h1 := hdepth c hc
    have h2 := hinf.length_le
    rw [e] at h1
    simp only [List.length_append, List.length_singleton] at h2
    omega

/-! ## The enumeration of paths -/

theorem wrap32_small {x : Int} (h0 : -2147483648 ≤ x) (h1 : x < 2147483648) : wrap32 x = x := by
  unfold wrap32
  omega

/-- On a well-formed edge `substring_to_string` returns the label. -/
theorem substring_to_string_edge {st : Tree} {lab : Nat → List Char} {n j : Nat} {c : Char}
    {t : Transition} {S : List Char} (e : EdgeOK st lab n c t j S) (hS : StrOK S) :
    substring_to_string st t.sub = some (labelOf S t.sub) ∧
      edgeLabel st t.sub = labelOf S t.sub := by
  have hsmall := hS.small
  have hl0 := e.l_lo
  have hle := e.l_le
  have hlh := e.l_hi
  have hw : wrap32 ((S.length : Int) - 1) = (S.length : Int) - 1 := wrap32_small (by omega)
    (by omega)
  have key : (min t.sub.r ((S.length : Int) - 1) - t.sub.l + 1) = edgeEnd S t.sub - t.sub.l := by
    unfold edgeEnd
    rcases e.fin with h1 | h1
    · rw [if_pos h1, h1]
      have : INT_MAX = 2147483647 := rfl
      rw [min_eq_right (by omega)]
      omega
    · have hne : t.sub.r ≠ INT_MAX := by
        have : INT_MAX = 2147483647 := rfl
        omega
      rw [if_neg hne, min_eq_left (by omega)]
      omega
  constructor
  · unfold substring_to_string
    rw [e.ref]
    simp only [MappedSubstring.empty]
    rw [if_neg (by simp; omega), hw, if_neg (by omega), key]
    rfl
  · unfold edgeLabel
    rw [e.ref]
    simp only []
    rw [key]
    rfl

theorem storeLabel_eq (nd : Node) (path : List Char) (result : List (Nat × List (List Char))) :
    storeLabel nd path result =
      match emitLabel nd.colors path with
      | some l => pushLabel nd.colors l result
      | none => result := by
  unfold storeLabel emitLabel trimSentinel
  by_cases h0 : colorCount nd.colors = 0
  · simp [h0]
  · by_cases h1 : colorCount nd.colors = 1
    · cases path with
      | nil => simp [h1]
      | cons c rest => simp [h1]
    · have hgt : colorCount nd.colors > 1 := by omega
      have hpos : colorCount nd.colors > 0 := by omega
      simp only [hpos, h0, h1, hgt, if_true, if_false, or_true]
      cases path with
      | nil => simp
      | cons c rest => simp

theorem labelsUnder_pushLabel (B k : Nat) (l : List Char)
    (result : List (Nat × List (List Char))) :
    labelsUnder B (pushLabel k l result) =
      if k = B then labelsUnder B result ++ [l] else labelsUnder B result := by
  unfold labelsUnder pushLabel
  cases hk : mapFind k result with
  | some v =>
    simp only []
    rw [mapFind_mapAssign]
    by_cases e : B = k
    · subst e
      simp [hk]
    · have e1 : ¬ k = B := fun h => e h.symm
      simp [e, e1]
  | none =>
    simp only []
    rw [mapFind_append_none k B _ result hk]
    by_cases e : B = k
    · subst e
      simp [hk]
    · have e1 : ¬ k = B := fun h => e h.symm
      simp [e, e1]

theorem labelsUnder_storeVisit (st : Tree) (B : Nat) (result : List (Nat × List (List Char)))
    (v : Nat × List Char) :
    labelsUnder B (storeVisit st result v) =
      labelsUnder B result ++ (emitted st B v).toList := by
  unfold storeVisit emitted
  cases hnd : st.nodes[v.1]? with
  | none => simp
  | some nd =>
    simp only []
    rw [storeLabel_eq]
    cases he : emitLabel nd.colors v.2 with
    | none =>
      simp only []
      split <;> simp
    | some l =>
      simp only []
      rw [labelsUnder_pushLabel]
      by_cases e : nd.colors = B
      · simp [e]
      · simp [e]

/-- The labels under a bitmask after a sequence of visits. -/
theorem labelsUnder_foldl (st : Tree) (B : Nat) :
    ∀ (V : List (Nat × List Char)) (result : List (Nat × List (List Char))),
      labelsUnder B (V.foldl (storeVisit st) result) =
        labelsUnder B result ++ V.filterMap (emitted st B) := by
  intro V
  induction V with
  | nil =>
    intro result
    simp
  | cons v rest ih =>
    intro result
    rw [List.foldl_cons, ih, labelsUnder_storeVisit, List.filterMap_cons]
    cases emitted st B v with
    | none => simp
    | some l => simp

/-- The loop of `get_all_strings_dfs` over the children returns, and stores
what the visits of the children's subtrees store. -/
theorem pathFold_spec {st : Tree} {lab : Nat → List Char} {M fuel : Nat}
    (hsh : Shape st lab M) {x : Nat} {nd : Node} (hx : Attached st x)
    (hnd : st.nodes[x]? = some nd)
    (ih : ∀ (j : Nat) (path : List Char) (acc : List (Nat × List (List Char))),
      Attached st j → M < fuel + (lab j).length →
      get_all_strings_dfs fuel st (some j) path acc =
        some ((visits fuel st (some j) path).foldl (storeVisit st) acc))
    (hf : M < fuel + 1 + (lab x).length) :
    ∀ (l : List (Char × Transition)) (path : List Char) (acc : List (Nat × List (List Char))),
      (∀ e ∈ l, e ∈ nd.g) →
      pathFold st (fun p q r => get_all_strings_dfs fuel st p q r) l path acc =
        some ((visitFold st (fun p q => visits fuel st p q) l path).foldl (storeVisit st) acc) := by
  intro l
  induction l with
  | nil =>
    intro path acc _
    rfl
  | cons p rest ihl =>
    intro path acc hmem
    obtain ⟨c, tr⟩ := p
    have hm : mapFind c nd.g = some tr :=
      mapFind_of_mem_nodup (hsh.nodup x nd hnd) (hmem _ (List.mem_cons_self _ _))
    obtain ⟨j, S, e⟩ := hsh.wfl.edges x nd c tr hx.1 hnd hm
    have hS := hsh.wfl.strs _ _ e.ref
    have hl : (lab j).length = (lab x).length + (labelOf S tr.sub).length := by
      rw [e.lab_eq, List.length_append]
    have hpos : 0 < (labelOf S tr.sub).length := by
      rw [e.label_cons hS]
      simp
    obtain ⟨hsub, hedge⟩ := substring_to_string_edge e hS
    have hj : Attached st j := ⟨by have := e.j_lo; omega, e.j_hi⟩
    unfold pathFold visitFold
    have htgt : tr.tgt ≠ none := by rw [e.tgt]; simp
    rw [if_pos htgt, if_pos htgt, hsub]
    simp only []
    rw [e.tgt, ih j _ acc hj (by omega)]
    simp only []
    rw [ihl path _ (fun e he => hmem e (List.mem_cons_of_mem _ he)), hedge, List.foldl_append]

/-- The method `get_all_strings_dfs` returns on a node of a well-formed tree,
and stores what the visits of the subtree store. -/
theorem get_all_strings_dfs_spec {st : Tree} {lab : Nat → List Char} {M : Nat}
    (hsh : Shape st lab M) :
    ∀ (fuel : Nat) (x : Nat) (path : List Char) (acc : List (Nat × List (List Char))),
      Attached st x → M < fuel + (lab x).length →
      get_all_strings_dfs fuel st (some x) path acc =
        some ((visits fuel st (some x) path).foldl (storeVisit st) acc) := by
  intro fuel
  induction fuel with
  | zero =>
    intro x path acc hx hf
    have := hsh.depth x hx
    omega
  | succ fuel ih =>
    intro x path acc hx hf
    obtain ⟨nd, hnd⟩ := hx.node
    unfold get_all_strings_dfs visits
    simp only [hnd]
    rw [pathFold_spec hsh hx hnd ih (by omega) nd.g path _ (fun e he => he)]
    rw [List.foldl_cons]
    congr 2
    unfold storeVisit
    simp only [hnd]
/-! ## The visits of a subtree and the paths from its start -/

theorem visitFold_walk {st : Tree} {lab : Nat → List Char} {M fuel : Nat}
    (hsh : Shape st lab M) {x : Nat} {nd : Node} (hx : Attached st x)
    (hnd : st.nodes[x]? = some nd)
    (ih : ∀ (j : Nat) (path : List Char) (m : Nat) (p : List Char), Attached st j →
      (m, p) ∈ visits fuel st (some j) path → ∃ v : List Char, p = path ++ v ∧ Walk st j v m) :
    ∀ (l : List (Char × Transition)) (path : List Char) (m : Nat) (p : List Char),
      (∀ e ∈ l, e ∈ nd.g) → (m, p) ∈ visitFold st (fun p q => visits fuel st p q) l path →
      ∃ (c : Char) (tr : Transition) (w1 : List Char), (c, tr) ∈ l ∧ p = path ++ c :: w1 ∧
        Walk st x (c :: w1) m := by
  intro l
  induction l with
  | nil =>
    intro path m p _ hmem
    simp [visitFold] at hmem
  | cons q rest ihl =>
    intro path m p hsub hmem
    obtain ⟨c, tr⟩ := q
    unfold visitFold at hmem
    rcases List.mem_append.mp hmem with h1 | h1
    · have hm : mapFind c nd.g = some tr :=
        mapFind_of_mem_nodup (hsh.nodup x nd hnd) (hsub _ (List.mem_cons_self _ _))
      obtain ⟨j, S, e⟩ := hsh.wfl.edges x nd c tr hx.1 hnd hm
      have hS := hsh.wfl.strs _ _ e.ref
      obtain ⟨_, hedge⟩ := substring_to_string_edge e hS
      have htgt : tr.tgt ≠ none := by rw [e.tgt]; simp
      rw [if_pos htgt, e.tgt, hedge] at h1
      have hj : Attached st j := ⟨by have := e.j_lo; omega, e.j_hi⟩
      obtain ⟨v, hp, hw⟩ := ih j _ m p hj h1
      have hns : x ≠ sinkId := by
        have := hx.1
        simp [sinkId]
        omega
      have hstep := Walk.step x j m nd c tr S v hns hnd hm e.tgt e.ref hw
      rw [e.label_cons hS] at hstep hp
      refine ⟨c, tr, _, List.mem_cons_self _ _, ?_, hstep⟩
      rw [hp]
      simp
    · obtain ⟨c1, tr1, w1, g1, g2, g3⟩ :=
        ihl path m p (fun e he => hsub e (List.mem_cons_of_mem _ he)) h1
      exact ⟨c1, tr1, w1, List.mem_cons_of_mem _ g1, g2, g3⟩

/-- Every visit of the subtree below `x` is the end of a path from `x`, which
spells what the visit adds to the path. -/
theorem visits_walk {st : Tree} {lab : Nat → List Char} {M : Nat} (hsh : Shape st lab M) :
    ∀ (fuel : Nat) (x : Nat) (path : List Char) (m : Nat) (p : List Char), Attached st x →
      (m, p) ∈ visits fuel st (some x) path → ∃ v : List Char, p = path ++ v ∧ Walk st x v m := by
  intro fuel
  induction fuel with
  | zero =>
    intro x path m p _ hmem
    simp [visits] at hmem
  | succ fuel ih =>
    intro x path m p hx hmem
    obtain ⟨nd, hnd⟩ := hx.node
    unfold visits at hmem
    simp only [hnd] at hmem
    rcases List.mem_cons.mp hmem with h1 | h1
    · simp only [Prod.mk.injEq] at h1
      obtain ⟨rfl, rfl⟩ := h1
      exact ⟨[], by simp, Walk.stay m⟩
    · obtain ⟨c, tr, w1, _, g2, g3⟩ :=
        visitFold_walk hsh hx hnd ih nd.g path m p (fun e he => he) h1
      exact ⟨_, g2, g3⟩

theorem visitFold_mem {st : Tree} {rec : Option Nat → List Char → List (Nat × List Char)}
    {c : Char} {tr : Transition} {j : Nat} {y : Nat × List Char} (ht : tr.tgt = some j) :
    ∀ (l : List (Char × Transition)) (path : List Char), (c, tr) ∈ l →
      y ∈ rec (some j) (path ++ edgeLabel st tr.sub) → y ∈ visitFold st rec l path := by
  intro l
  induction l with
  | nil =>
    intro path hmem _
    simp at hmem
  | cons q rest ihl =>
    intro path hmem hy
    obtain ⟨c1, tr1⟩ := q
    unfold visitFold
    rcases List.mem_cons.mp hmem with e | e
    · simp only [Prod.mk.injEq] at e
      obtain ⟨rfl, rfl⟩ := e
      have htgt : tr.tgt ≠ none := by rw [ht]; simp
      rw [if_pos htgt, ht]
      exact List.mem_append_left _ hy
    · exact List.mem_append_right _ (ihl path e hy)

/-- The end of every path from `x` is visited, with the word of the path. -/
theorem walk_visits {st : Tree} {lab : Nat → List Char} {M : Nat} (hsh : Shape st lab M)
    {n m : Nat} {v : List Char} (hw : Walk st n v m) :
    ∀ (fuel : Nat) (path : List Char), Attached st n → M < fuel + (lab n).length →
      (m, path ++ v) ∈ visits fuel st (some n) path := by
  induction hw with
  | stay n =>
    intro fuel path hn hf
    obtain ⟨nd, hnd⟩ := hn.node
    have := hsh.depth n hn
    cases fuel with
    | zero => omega
    | succ f =>
      unfold visits
      simp only [hnd, List.append_nil]
      exact List.mem_cons_self _ _
  | step n j m nd c t S w hns hnd hm ht hS _ ih =>
    intro fuel path hn hf
    have := hsh.depth n hn
    obtain ⟨j1, S1, e⟩ := hsh.wfl.edges n nd c t hn.1 hnd hm
    have ej : j1 = j := by
      have := e.tgt
      rw [ht] at this
      exact (Option.some.inj this).symm
    subst ej
    have eS : S1 = S := by
      have := e.ref
      rw [hS] at this
      exact (Option.some.inj this).symm
    subst eS
    have hSok := hsh.wfl.strs _ _ e.ref
    obtain ⟨_, hedge⟩ := substring_to_string_edge e hSok
    have hj : Attached st j1 := ⟨by have := e.j_lo; omega, e.j_hi⟩
    have hl : (lab j1).length = (lab n).length + (labelOf S1 t.sub).length := by
      rw [e.lab_eq, List.length_append]
    have hpos : 0 < (labelOf S1 t.sub).length := by
      rw [e.label_cons hSok]
      simp
    cases fuel with
    | zero => omega
    | succ f =>
      unfold visits
      simp only [hnd]
      refine List.mem_cons_of_mem _ ?_
      refine visitFold_mem ht nd.g path (mapFind_mem hm) ?_
      have := ih f (path ++ edgeLabel st t.sub) hj (by omega)
      rw [hedge] at this ⊢
      rw [List.append_assoc] at this
      exact this
  | sink j m nd c w _ _ _ _ =>
    intro fuel path hn _
    exfalso
    have := hn.1
    simp [sinkId] at this

theorem visitFold_nodup {st : Tree} {lab : Nat → List Char} {M fuel : Nat}
    (hsh : Shape st lab M) {x : Nat} {nd : Node} (hx : Attached st x)
    (hnd : st.nodes[x]? = some nd)
    (ihn : ∀ (j : Nat) (path : List Char), Attached st j →
      ((visits fuel st (some j) path).map Prod.fst).Nodup) :
    ∀ (l : List (Char × Transition)) (path : List Char), (l.map Prod.fst).Nodup →
      (∀ e ∈ l, e ∈ nd.g) →
      ((visitFold st (fun p q => visits fuel st p q) l path).map Prod.fst).Nodup := by
  intro l
  induction l with
  | nil =>
    intro path _ _
    simp [visitFold]
  | cons q rest ihl =>
    intro path hnodup hsub
    obtain ⟨c, tr⟩ := q
    simp only [List.map_cons, List.nodup_cons] at hnodup
    have hm : mapFind c nd.g = some tr :=
      mapFind_of_mem_nodup (hsh.nodup x nd hnd) (hsub _ (List.mem_cons_self _ _))
    obtain ⟨j, S, e⟩ := hsh.wfl.edges x nd c tr hx.1 hnd hm
    have hj : Attached st j := ⟨by have := e.j_lo; omega, e.j_hi⟩
    have htgt : tr.tgt ≠ none := by rw [e.tgt]; simp
    unfold visitFold
    rw [if_pos htgt, e.tgt, List.map_append]
    refine List.Nodup.append (ihn j _ hj)
      (ihl path hnodup.2 (fun e he => hsub e (List.mem_cons_of_mem _ he))) ?_
    intro m hm1 hm2
    obtain ⟨⟨m1, p1⟩, hv1, e1⟩ := List.mem_map.mp hm1
    obtain ⟨⟨m2, p2⟩, hv2, e2⟩ := List.mem_map.mp hm2
    simp only at e1 e2
    rw [e1] at hv1
    rw [e2] at hv2
    have hv1' : (m, p1) ∈ visitFold st (fun p q => visits fuel st p q) [(c, tr)] path := by
      unfold visitFold
      rw [if_pos htgt, e.tgt]
      exact List.mem_append_left _ hv1
    obtain ⟨c1, tr1, w1, g1, _, g3⟩ := visitFold_walk hsh hx hnd
      (fun j path m p hj hmem => visits_walk hsh fuel j path m p hj hmem) [(c, tr)] path m p1
      (by
        intro e he
        rw [List.mem_singleton] at he
        rw [he]
        exact hsub _ (List.mem_cons_self _ _)) hv1'
    obtain ⟨c2, tr2, w2, k1, _, k3⟩ := visitFold_walk hsh hx hnd
      (fun j path m p hj hmem => visits_walk hsh fuel j path m p hj hmem) rest path m p2
      (fun e he => hsub e (List.mem_cons_of_mem _ he)) hv2
    rw [List.mem_singleton] at g1
    simp only [Prod.mk.injEq] at g1
    have l1 := (g3.label hsh.wfl hx).2
    have l2 := (k3.label hsh.wfl hx).2
    rw [l1] at l2
    have l3 := List.append_cancel_left l2
    have ec : c1 = c2 := (List.cons.inj l3).1
    apply hnodup.1
    rw [← g1.1, ec]
    exact List.mem_map_of_mem Prod.fst k1

/-- No node is visited twice. -/
theorem visits_nodup {st : Tree} {lab : Nat → List Char} {M : Nat} (hsh : Shape st lab M) :
    ∀ (fuel : Nat) (x : Nat) (path : List Char), Attached st x →
      ((visits fuel st (some x) path).map Prod.fst).Nodup := by
  intro fuel
  induction fuel with
  | zero =>
    intro x path _
    simp [visits]
  | succ fuel ih =>
    intro x path hx
    obtain ⟨nd, hnd⟩ := hx.node
    unfold visits
    simp only [hnd, List.map_cons, List.nodup_cons]
    refine ⟨?_, visitFold_nodup hsh hx hnd ih nd.g path (hsh.nodup x nd hnd) (fun e he => he)⟩
    intro hmem
    obtain ⟨⟨m1, p1⟩, hv1, e1⟩ := List.mem_map.mp hmem
    simp only at e1
    subst e1
    obtain ⟨c1, tr1, w1, _, _, g3⟩ := visitFold_walk hsh hx hnd
      (fun j path m p hj hmem => visits_walk hsh fuel j path m p hj hmem) nd.g path m1 p1
      (fun e he => he) hv1
    have l1 := (g3.label hsh.wfl hx).2
    have := congrArg List.length l1
    simp at this

/-- In the visits of the subtree below `x` only `x` itself comes with the
unchanged path. -/
theorem visits_start {st : Tree} {lab : Nat → List Char} {M : Nat} (hsh : Shape st lab M)
    {fuel x m : Nat} {p : List Char} (hx : Attached st x)
    (hmem : (m, p) ∈ visits fuel st (some x) []) : (p = [] ↔ m = x) := by
  obtain ⟨v, hp, hw⟩ := visits_walk hsh fuel x [] m p hx hmem
  rw [List.nil_append] at hp
  subst hp
  obtain ⟨hm, hl⟩ := hw.label hsh.wfl hx
  constructor
  · intro e
    rw [e, List.append_nil] at hl
    exact hsh.wfl.inj hm hx hl
  · intro e
    rw [e] at hl
    have := congrArg List.length hl
    simp at this
    exact this

theorem length_filterMap_isSome {α β : Type} (f : α → Option β) (l : List α) :
    (l.filterMap f).length = (l.filter (fun a => (f a).isSome)).length := by
  induction l with
  | nil => rfl
  | cons a rest ih =>
    rw [List.filterMap_cons, List.filter_cons]
    cases f a with
    | none => simpa using ih
    | some b => simpa using ih

/-- The method `get_all_strings` on a well-formed tree at a node other than
the sink: it returns, after the colouring pass, what the visits of the subtree
store. -/
theorem enumeration_spec {st : Tree} {lab : Nat → List Char} {M fuel : Nat}
    (hsh : Shape st lab M) (hM : M < fuel) {n : Nat} (hn : Attached st n) :
    ∃ st1 : Tree, compute_colors fuel st = some st1 ∧ Recolor st st1 ∧ Shape st1 lab M ∧
      get_all_strings fuel st (some n) =
        some (st1, (visits fuel st1 (some n) []).foldl (storeVisit st1) []) := by
  obtain ⟨st1, hcc, r, hflag⟩ := compute_colors_total hsh hM
  have hsh1 := hsh.of_recolor r
  have hn1 : Attached st1 n := ⟨hn.1, by rw [r.len]; exact hn.2⟩
  refine ⟨st1, hcc, r, hsh1, ?_⟩
  have hpre : (if st.colors_computed = false then compute_colors fuel st else some st) =
      some st1 := by
    by_cases hc : st.colors_computed = false
    · rw [if_pos hc]
      exact hcc
    · rw [if_neg hc]
      have hc1 : st.colors_computed = true := by simpa using hc
      unfold compute_colors at hcc
      rw [if_pos hc1] at hcc
      exact hcc
  unfold get_all_strings
  rw [hpre]
  simp only []
  rw [get_all_strings_dfs_spec hsh1 fuel n [] [] hn1 (by omega)]

/-! ## Claims on the colouring pass and the enumeration of paths -/

/-- C12 (idempotence of `compute_colors`): in every state reached from the
fresh tree by a session of `add_string` calls (inputs below `SIZE_BOUND` bytes,
each call with the fuel to run to its end), `compute_colors` returns when its
fuel exceeds the size of every stored string, and a second call right after it
returns, whatever its fuel, the very state the first call left: every node's
bitmask and the rest of the state are those after the first call. -/
theorem compute_colors_idempotent (calls : List (Nat × List Char)) (f1 f2 : Nat)
    (hsize : ∀ c ∈ calls, (c.2.length : Int) < SIZE_BOUND)
    (hfuel : ∀ c ∈ calls, c.2.length + 2 < c.1) (hpos : 0 < f1)
    (hdepth : ∀ c ∈ calls, c.2.length + 1 < f1) :
    ∃ (st : Tree) (ids : List Int) (st1 : Tree),
      add_strings Tree.fresh calls = some (st, ids) ∧ compute_colors f1 st = some st1 ∧
      compute_colors f2 st1 = some st1 := by
  obtain ⟨st, ids, lab, hrun, _, hsh⟩ := session_shape calls f1 hsize hfuel hpos hdepth
  obtain ⟨st1, hcc, _, _⟩ := compute_colors_total hsh (by omega : f1 - 1 < f1)
  exact ⟨st, ids, st1, hrun, hcc, compute_colors_again st st1 f1 f2 hcc⟩

theorem compute_colors_idempotent_witness :
    ∃ (st : Tree) (ids : List Int) (st1 : Tree),
      add_strings Tree.fresh [(8, ['a', 'b', 'c']), (8, ['a', 'b', 'd'])] = some (st, ids) ∧
      compute_colors 8 st = some st1 ∧ compute_colors 0 st1 = some st1 :=
  compute_colors_idempotent [(8, ['a', 'b', 'c']), (8, ['a', 'b', 'd'])] 8 0 (by decide)
    (by decide) (by decide) (by decide)

theorem emitLabel_isSome {B : Nat} (hB : 0 < colorCount B) (p : List Char) :
    (emitLabel B p).isSome = true ↔ (p ≠ [] ∨ 2 ≤ colorCount B) := by
  unfold emitLabel
  rw [if_neg (by omega)]
  by_cases h1 : colorCount B = 1
  · rw [if_pos h1]
    cases p with
    | nil => simp [h1]
    | cons c rest => simp
  · rw [if_neg h1]
    simp only [Option.isSome_some, true_iff]
    right
    omega

/-- The labels of the enumeration under a bitmask with a bit set: one for
every visited node of that colour, the start excepted when the colour is a
single one. -/
theorem labels_count {st : Tree} {lab : Nat → List Char} {M : Nat} (hsh : Shape st lab M)
    {fuel n : Nat} (hn : Attached st n) {B : Nat} (hB : 0 < colorCount B) :
    (labelsUnder B ((visits fuel st (some n) []).foldl (storeVisit st) [])).length =
      (((visits fuel st (some n) []).map Prod.fst).filter
        (fun m => decide (colorsAt st m = some B ∧ (m ≠ n ∨ 2 ≤ colorCount B)))).length := by
  rw [labelsUnder_foldl, List.filter_map, List.length_map]
  have h0 : labelsUnder B [] = [] := rfl
  rw [h0, List.nil_append, length_filterMap_isSome]
  congr 1
  apply List.filter_congr
  intro v hv
  obtain ⟨m, p⟩ := v
  have hstart := visits_start hsh hn hv
  rw [Bool.eq_iff_iff]
  simp only [Function.comp, decide_eq_true_eq]
  unfold emitted colorsAt
  cases hnd : st.nodes[m]? with
  | none => simp
  | some nd =>
    simp only [Option.map_some']
    by_cases hc : nd.colors = B
    · rw [if_pos hc, hc, emitLabel_isSome hB]
      constructor
      · rintro (h1 | h1)
        · exact ⟨rfl, Or.inl (fun e => h1 (hstart.mpr e))⟩
        · exact ⟨rfl, Or.inr h1⟩
      · rintro ⟨_, h1 | h1⟩
        · exact Or.inl (fun e => h1 (hstart.mp e))
        · exact Or.inr h1
    · rw [if_neg hc]
      simp only [Option.isSome_none, Bool.false_eq_true, false_iff, not_and]
      intro e
      exact absurd (Option.some.inj e) hc

/-- C14 (amended): for every state reached from the fresh tree by a session of
`add_string` calls (inputs below `SIZE_BOUND` bytes, each call with the fuel to
run to its end) and every node `from` of the tree (a heap cell other than the
sink), `get_all_strings(from)` returns, with fuel above the size of every
stored string, the state after `compute_colors` and a map that holds, for every
bitmask `B` with a bit set, exactly as many labels under `B` as there are nodes
in the subtree rooted at `from` whose bitmask after `compute_colors` is `B`,
where `from` itself counts only if `B` has two or more bits set.  The subtree
is given as a duplicate-free list `V` of the nodes reached by a path from
`from`. -/
theorem get_all_strings_counts (calls : List (Nat × List Char)) (fuel : Nat)
    (hsize : ∀ c ∈ calls, (c.2.length : Int) < SIZE_BOUND)
    (hfuel : ∀ c ∈ calls, c.2.length + 2 < c.1) (hpos : 0 < fuel)
    (hdepth : ∀ c ∈ calls, c.2.length + 1 < fuel) :
    ∃ (st : Tree) (ids : List Int), add_strings Tree.fresh calls = some (st, ids) ∧
      ∀ n : Nat, 1 ≤ n → n < st.nodes.length →
        ∃ (st1 : Tree) (result : List (Nat × List (List Char))) (V : List Nat),
          compute_colors fuel st = some st1 ∧
          get_all_strings fuel st (some n) = some (st1, result) ∧ V.Nodup ∧
          (∀ m : Nat, m ∈ V ↔ ∃ v : List Char, Walk st1 n v m) ∧
          ∀ B : Nat, 0 < colorCount B →
            (labelsUnder B result).length =
              (V.filter (fun m =>
                decide (colorsAt st1 m = some B ∧ (m ≠ n ∨ 2 ≤ colorCount B)))).length := by
  obtain ⟨st, ids, lab, hrun, _, hsh⟩ := session_shape calls fuel hsize hfuel hpos hdepth
  refine ⟨st, ids, hrun, ?_⟩
  intro n h1 h2
  have hn : Attached st n := ⟨h1, h2⟩
  obtain ⟨st1, hcc, r, hsh1, hget⟩ := enumeration_spec hsh (by omega : fuel - 1 < fuel) hn
  have hn1 : Attached st1 n := ⟨h1, by rw [r.len]; exact h2⟩
  refine ⟨st1, _, (visits fuel st1 (some n) []).map Prod.fst, hcc, hget,
    visits_nodup hsh1 fuel n [] hn1, ?_, ?_⟩
  · intro m
    constructor
    · intro hm
      obtain ⟨⟨m1, p1⟩, hv, e⟩ := List.mem_map.mp hm
      simp only at e
      rw [e] at hv
      obtain ⟨v, _, hw⟩ := visits_walk hsh1 fuel n [] m p1 hn1 hv
      exact ⟨v, hw⟩
    · rintro ⟨v, hw⟩
      have := walk_visits hsh1 hw fuel [] hn1 (by omega)
      exact List.mem_map.mpr ⟨_, this, rfl⟩
  · intro B hB
    exact labels_count hsh1 hn1 hB

theorem get_all_strings_counts_witness :
    ∃ (st : Tree) (ids : List Int),
      add_strings Tree.fresh [(8, ['a', 'b', 'c']), (8, ['a', 'b', 'd'])] = some (st, ids) ∧
      ∀ n : Nat, 1 ≤ n → n < st.nodes.length →
        ∃ (st1 : Tree) (result : List (Nat × List (List Char))) (V : List Nat),
          compute_colors 8 st = some st1 ∧
          get_all_strings 8 st (some n) = some (st1, result) ∧ V.Nodup ∧
          (∀ m : Nat, m ∈ V ↔ ∃ v : List Char, Walk st1 n v m) ∧
          ∀ B : Nat, 0 < colorCount B →
            (labelsUnder B result).length =
              (V.filter (fun m =>
                decide (colorsAt st1 m = some B ∧ (m ≠ n ∨ 2 ≤ colorCount B)))).length :=
  get_all_strings_counts [(8, ['a', 'b', 'c']), (8, ['a', 'b', 'd'])] 8 (by decide) (by decide)
    (by decide) (by decide)

/-- C14 as stated fails: after `add_string("a")` the root, the leaf of `"a$"`
and the leaf of `"$"` all carry the bitmask `{1}` after `compute_colors`, so the
subtree rooted at the root has three nodes of that colour, but
`get_all_strings(root)` stores only the two labels of the leaves under `{1}`:
the root has the empty path, for which a single colour stores nothing. -/
theorem get_all_strings_skips_start :
    ∃ (st st1 : Tree) (ids : List Int) (result : List (Nat × List (List Char)))
      (V : List Nat),
      add_strings Tree.fresh [(8, ['a'])] = some (st, ids) ∧
      get_all_strings 8 st (some rootId) = some (st1, result) ∧ V.Nodup ∧
      (∀ m : Nat, m ∈ V ↔ ∃ v : List Char, Walk st1 rootId v m) ∧
      0 < colorCount (colorMask [1]) ∧
      (labelsUnder (colorMask [1]) result).length = 2 ∧
      (V.filter (fun m => decide (colorsAt st1 m = some (colorMask [1])))).length = 3 := by
  obtain ⟨st, ids, lab, hrun, _, hsh⟩ := session_shape [(8, ['a'])] 8 (by decide) (by decide)
    (by decide) (by decide)
  have hn : Attached st rootId := hsh.wfl.root_attached
  obtain ⟨st1, hcc, r, hsh1, hget⟩ := enumeration_spec hsh (by decide : 8 - 1 < 8) hn
  have hn1 : Attached st1 rootId := hsh1.wfl.root_attached
  have e : st1 = ((add_strings Tree.fresh [(8, ['a'])]).bind
      (fun p => compute_colors 8 p.1)).getD Tree.fresh := by
    rw [hrun]
    show st1 = (compute_colors 8 st).getD Tree.fresh
    rw [hcc]
    rfl
  refine ⟨st, st1, ids, _, (visits 8 st1 (some rootId) []).map Prod.fst, hrun, hget,
    visits_nodup hsh1 8 rootId [] hn1, ?_, by decide, ?_, ?_⟩
  · intro m
    constructor
    · intro hm
      obtain ⟨⟨m1, p1⟩, hv, e⟩ := List.mem_map.mp hm
      simp only at e
      rw [e] at hv
      obtain ⟨v, _, hw⟩ := visits_walk hsh1 8 rootId [] m p1 hn1 hv
      exact ⟨v, hw⟩
    · rintro ⟨v, hw⟩
      have := walk_visits hsh1 hw 8 [] hn1 (by omega)
      exact List.mem_map.mpr ⟨_, this, rfl⟩
  · rw [e]
    decide
  · rw [e]
    decide

/-- C15 (label rule of the enumeration): for every state reached from the
fresh tree by a session of `add_string` calls (inputs below `SIZE_BOUND` bytes,
each call with the fuel to run to its end) and every node `from` of the tree (a
heap cell other than the sink), `get_all_strings(from)` returns, with fuel
above the size of every stored string, and every label it stores under a
bitmask `B` belongs to a node `m` of colour `B` reached from `from` by a path
that spells `v` (the labels of the edges, an open edge read to the end of its
source string): if `B` has exactly one bit set the label is the one-byte string
of the first byte of `v`, and if `B` has two or more bits set it is `v` without
one trailing sentinel. -/
theorem get_all_strings_label_rule (calls : List (Nat × List Char)) (fuel : Nat)
    (hsize : ∀ c ∈ calls, (c.2.length : Int) < SIZE_BOUND)
    (hfuel : ∀ c ∈ calls, c.2.length + 2 < c.1) (hpos : 0 < fuel)
    (hdepth : ∀ c ∈ calls, c.2.length + 1 < fuel) :
    ∃ (st : Tree) (ids : List Int), add_strings Tree.fresh calls = some (st, ids) ∧
      ∀ n : Nat, 1 ≤ n → n < st.nodes.length →
        ∃ (st1 : Tree) (result : List (Nat × List (List Char))),
          compute_colors fuel st = some st1 ∧
          get_all_strings fuel st (some n) = some (st1, result) ∧
          ∀ (B : Nat) (l : List Char), l ∈ labelsUnder B result →
            ∃ (m : Nat) (v : List Char), Walk st1 n v m ∧ colorsAt st1 m = some B ∧
              ((colorCount B = 1 ∧ ∃ (c : Char) (rest : List Char), v = c :: rest ∧ l = [c]) ∨
               (2 ≤ colorCount B ∧ l = trimSentinel v)) := by
  obtain ⟨st, ids, lab, hrun, _, hsh⟩ := session_shape calls fuel hsize hfuel hpos hdepth
  refine ⟨st, ids, hrun, ?_⟩
  intro n h1 h2
  have hn : Attached st n := ⟨h1, h2⟩
  obtain ⟨st1, hcc, r, hsh1, hget⟩ := enumeration_spec hsh (by omega : fuel - 1 < fuel) hn
  have hn1 : Attached st1 n := ⟨h1, by rw [r.len]; exact h2⟩
  refine ⟨st1, _, hcc, hget, ?_⟩
  intro B l hl
  rw [labelsUnder_foldl] at hl
  have h0 : labelsUnder B [] = [] := rfl
  rw [h0, List.nil_append] at hl
  obtain ⟨⟨m, p⟩, hv, he⟩ := List.mem_filterMap.mp hl
  obtain ⟨v, hp, hw⟩ := visits_walk hsh1 fuel n [] m p hn1 hv
  rw [List.nil_append] at hp
  subst hp
  refine ⟨m, p, hw, ?_⟩
  unfold emitted at he
  unfold colorsAt
  cases hnd : st1.nodes[m]? with
  | none =>
    rw [hnd] at he
    cases he
  | some nd =>
    rw [hnd] at he
    simp only [] at he
    by_cases hc : nd.colors = B
    · rw [if_pos hc, hc] at he
      refine ⟨by simp [hc], ?_⟩
      unfold emitLabel at he
      by_cases h0 : colorCount B = 0
      · rw [if_pos h0] at he
        cases he
      · rw [if_neg h0] at he
        by_cases h1 : colorCount B = 1
        · rw [if_pos h1] at he
          cases p with
          | nil => cases he
          | cons c rest =>
            simp only [Option.some.injEq] at he
            exact Or.inl ⟨h1, c, rest, rfl, he.symm⟩
        · rw [if_neg h1] at he
          exact Or.inr ⟨by omega, (Option.some.inj he).symm⟩
    · rw [if_neg hc] at he
      cases he

theorem get_all_strings_label_rule_witness :
    ∃ (st : Tree) (ids : List Int),
      add_strings Tree.fresh [(8, ['a', 'b', 'c']), (8, ['a', 'b', 'd'])] = some (st, ids) ∧
      ∀ n : Nat, 1 ≤ n → n < st.nodes.length →
        ∃ (st1 : Tree) (result : List (Nat × List (List Char))),
          compute_colors 8 st = some st1 ∧
          get_all_strings 8 st (some n) = some (st1, result) ∧
          ∀ (B : Nat) (l : List Char), l ∈ labelsUnder B result →
            ∃ (m : Nat) (v : List Char), Walk st1 n v m ∧ colorsAt st1 m = some B ∧
              ((colorCount B = 1 ∧ ∃ (c : Char) (rest : List Char), v = c :: rest ∧ l = [c]) ∨
               (2 ≤ colorCount B ∧ l = trimSentinel v)) :=
  get_all_strings_label_rule [(8, ['a', 'b', 'c']), (8, ['a', 'b', 'd'])] 8 (by decide)
    (by decide) (by decide) (by decide)

/-! ## Invariants of the tree between two calls -/

/-- A session from the fresh tree leaves a tree at rest whose transition maps
hold no key twice and whose registry holds every issued ID. -/
theorem session_static (calls : List (Nat × List Char))
    (hsize : ∀ c ∈ calls, (c.2.length : Int) < SIZE_BOUND)
    (hfuel : ∀ c ∈ calls, c.2.length + 2 < c.1) :
    ∃ (st : Tree) (ids : List Int) (lab : Nat → List Char),
      add_strings Tree.fresh calls = some (st, ids) ∧ Rest st lab ∧ NodupKeys st ∧
      KeysFull st := by
  obtain ⟨st, ids, lab, hrun, R, _, _⟩ := session_spec calls hsize hfuel
  obtain ⟨hn, hfull⟩ := add_strings_shape calls _ _ _ hrun EdgesOK_fresh KeysOK_fresh
    NodupKeys_fresh KeysFull_fresh
  exact ⟨st, ids, lab, hrun, R, hn, hfull⟩

/-- C21 (amended): in every state reached from the fresh tree (by calls on
inputs below `SIZE_BOUND` bytes, each with the fuel to run to its end), for
every byte `c` the sink's `find_alpha_transition(c)` returns a valid transition
whose target is the root and whose span is `(0, 0, 0)`: it is not empty
(`l = r`), its length is 1, the one byte that the transition consumes. -/
theorem sink_transition_one_byte (calls : List (Nat × List Char)) (c : Char)
    (hsize : ∀ c ∈ calls, (c.2.length : Int) < SIZE_BOUND)
    (hfuel : ∀ c ∈ calls, c.2.length + 2 < c.1) :
    ∃ (st : Tree) (ids : List Int), add_strings Tree.fresh calls = some (st, ids) ∧
      ∃ t : Transition, st.find_alpha_transition (some sinkId) c = some t ∧
        t.is_valid = true ∧ t.tgt = some rootId ∧ t.sub = ⟨0, 0, 0⟩ ∧
        t.sub.empty = false ∧ t.sub.lenght = 1 := by
  obtain ⟨st, ids, lab, hrun, R, _, _⟩ := session_spec calls hsize hfuel
  exact ⟨st, ids, hrun, _, find_alpha_sink R.wfl c, rfl, rfl, rfl, by decide, by decide⟩

theorem sink_transition_one_byte_witness :
    ∃ (st : Tree) (ids : List Int),
      add_strings Tree.fresh [(8, ['a', 'b'])] = some (st, ids) ∧
      ∃ t : Transition, st.find_alpha_transition (some sinkId) 'x' = some t ∧
        t.is_valid = true ∧ t.tgt = some rootId ∧ t.sub = ⟨0, 0, 0⟩ ∧
        t.sub.empty = false ∧ t.sub.lenght = 1 :=
  sink_transition_one_byte [(8, ['a', 'b'])] 'x' (by decide) (by decide)

/-- C21 as stated fails: on the fresh tree the transition that the sink's
`find_alpha_transition('a')` returns is valid and leads to the root, but its
span `(0, 0, 0)` is not empty and has length 1. -/
theorem sink_transition_not_empty :
    ∃ t : Transition, Tree.fresh.find_alpha_transition (some sinkId) 'a' = some t ∧
      t.is_valid = true ∧ t.tgt = some rootId ∧ t.sub.empty = false ∧ ¬ (t.sub.l > t.sub.r) ∧
      t.sub.lenght = 1 :=
  ⟨{ sub := ⟨0, 0, 0⟩, tgt := some rootId }, by decide, by decide, by decide, by decide,
    by decide, by decide⟩

/-- A node below the root is the target of one transition only. -/
theorem WFL.parent_shorter {st : Tree} {lab : Nat → List Char} (h : WFL st lab)
    {n1 n2 j : Nat} {nd1 nd2 : Node} {c1 c2 : Char} {t1 t2 : Transition}
    (hn1 : 1 ≤ n1) (hnd1 : st.nodes[n1]? = some nd1) (hm1 : mapFind c1 nd1.g = some t1)
    (ht1 : t1.tgt = some j) (hn2 : 1 ≤ n2) (hnd2 : st.nodes[n2]? = some nd2)
    (hm2 : mapFind c2 nd2.g = some t2) (ht2 : t2.tgt = some j) :
    ¬ (lab n1).length < (lab n2).length := by
  intro hlt
  obtain ⟨j1, S1, e1⟩ := h.edges n1 nd1 c1 t1 hn1 hnd1 hm1
  obtain ⟨j2, S2, e2⟩ := h.edges n2 nd2 c2 t2 hn2 hnd2 hm2
  have ej1 : j1 = j := by
    have := e1.tgt
    rw [ht1] at this
    exact (Option.some.inj this).symm
  have ej2 : j2 = j := by
    have := e2.tgt
    rw [ht2] at this
    exact (Option.some.inj this).symm
  subst ej1
  subst ej2
  have hS1 := h.strs _ _ e1.ref
  have hS2 := h.strs _ _ e2.ref
  have l1 := e1.lab_eq
  have l2 := e2.lab_eq
  rw [e1.label_cons hS1] at l1
  rw [e2.label_cons hS2] at l2
  have hatt1 : Attached st n1 := ⟨hn1, lt_of_getElem? hnd1⟩
  have hatt2 : Attached st n2 := ⟨hn2, lt_of_getElem? hnd2⟩
  have hp1 : lab n1 ++ [c1] <+: lab j2 := ⟨slice S1 (t1.sub.l + 1) (edgeEnd S1 t1.sub), by
    rw [l1]; simp⟩
  have hp2 : lab n2 <+: lab j2 := ⟨_, l2.symm⟩
  have hp : lab n1 ++ [c1] <+: lab n2 :=
    List.prefix_of_prefix_length_le hp1 hp2 (by simp; omega)
  obtain ⟨nd, t, j', S, hnd, hm, e, hj⟩ := h.locus hatt1 hatt2 hp
  rw [hnd1] at hnd
  obtain rfl := Option.some.inj hnd
  rw [hm1] at hm
  obtain rfl := Option.some.inj hm
  have ej : j' = j2 := by
    have := e.tgt
    rw [ht1] at this
    exact (Option.some.inj this).symm
  subst ej
  have := hj.length_le
  rw [l2] at this
  simp at this

theorem WFL.parent_unique {st : Tree} {lab : Nat → List Char} (h : WFL st lab)
    {n1 n2 j : Nat} {nd1 nd2 : Node} {c1 c2 : Char} {t1 t2 : Transition}
    (hn1 : 1 ≤ n1) (hnd1 : st.nodes[n1]? = some nd1) (hm1 : mapFind c1 nd1.g = some t1)
    (ht1 : t1.tgt = some j) (hn2 : 1 ≤ n2) (hnd2 : st.nodes[n2]? = some nd2)
    (hm2 : mapFind c2 nd2.g = some t2) (ht2 : t2.tgt = some j) :
    n1 = n2 ∧ c1 = c2 ∧ t1 = t2 := by
  have h12 := h.parent_shorter hn1 hnd1 hm1 ht1 hn2 hnd2 hm2 ht2
  have h21 := h.parent_shorter hn2 hnd2 hm2 ht2 hn1 hnd1 hm1 ht1
  have hlen : (lab n1).length = (lab n2).length := by omega
  obtain ⟨j1, S1, e1⟩ := h.edges n1 nd1 c1 t1 hn1 hnd1 hm1
  obtain ⟨j2, S2, e2⟩ := h.edges n2 nd2 c2 t2 hn2 hnd2 hm2
  have ej1 : j1 = j := by
    have := e1.tgt
    rw [ht1] at this
    exact (Option.some.inj this).symm
  have ej2 : j2 = j := by
    have := e2.tgt
    rw [ht2] at this
    exact (Option.some.inj this).symm
  subst ej1
  subst ej2
  have hS1 := h.strs _ _ e1.ref
  have hS2 := h.strs _ _ e2.ref
  have l1 := e1.lab_eq
  have l2 := e2.lab_eq
  rw [e1.label_cons hS1] at l1
  rw [e2.label_cons hS2] at l2
  rw [l1] at l2
  obtain ⟨ha, hb⟩ := List.append_inj l2 hlen
  have hatt1 : Attached st n1 := ⟨hn1, lt_of_getElem? hnd1⟩
  have hatt2 : Attached st n2 := ⟨hn2, lt_of_getElem? hnd2⟩
  have en : n1 = n2 := h.inj hatt1 hatt2 ha
  subst en
  have ec : c1 = c2 := (List.cons.inj hb).1
  subst ec
  rw [hnd1] at hnd2
  obtain rfl := Option.some.inj hnd2
  rw [hm1] at hm2
  exact ⟨rfl, rfl, Option.some.inj hm2⟩

/-- C24 (suffix-link invariant): in every state reached from the fresh tree
(by calls on inputs below `SIZE_BOUND` bytes, each with the fuel to run to its
end), the suffix link of the root is the sink and that of the sink is the root,
and every node `v` with an outgoing transition whose root path spells `α w`
(so `v` is an internal node other than the root) has a suffix link, which is a
node whose root path spells `w`. -/
theorem suffix_link_invariant (calls : List (Nat × List Char))
    (hsize : ∀ c ∈ calls, (c.2.length : Int) < SIZE_BOUND)
    (hfuel : ∀ c ∈ calls, c.2.length + 2 < c.1) :
    ∃ (st : Tree) (ids : List Int), add_strings Tree.fresh calls = some (st, ids) ∧
      (∃ ndr : Node, st.nodes[rootId]? = some ndr ∧ ndr.suffix_link = some sinkId) ∧
      (∃ nds : Node, st.nodes[sinkId]? = some nds ∧ nds.suffix_link = some rootId) ∧
      ∀ (v : Nat) (nd : Node) (α : Char) (w : List Char) (c : Char) (t : Transition),
        Walk st rootId (α :: w) v → st.nodes[v]? = some nd → mapFind c nd.g = some t →
        ∃ u : Nat, nd.suffix_link = some u ∧ Walk st rootId w u := by
  obtain ⟨st, ids, lab, hrun, R, _, _⟩ := session_spec calls hsize hfuel
  have h := R.wfl
  refine ⟨st, ids, hrun, h.root_link, ?_, ?_⟩
  · obtain ⟨nd, h1, _, h3⟩ := h.sink
    exact ⟨nd, h1, h3⟩
  · intro v nd α w c t hw hnd hm
    obtain ⟨hv, hl⟩ := hw.label h h.root_attached
    rw [h.lab_root, List.nil_append] at hl
    have hin : Inner st v := Inner_of_child R hv hnd hm
    have hne : v ≠ rootId := by
      intro e
      rw [e, h.lab_root] at hl
      cases hl
    obtain ⟨nd1, u, c1, hnd1, hlk, hu, _, hlu⟩ := R.links v hin hne (fun e => e)
    rw [hnd] at hnd1
    obtain rfl := Option.some.inj hnd1
    rw [hl] at hlu
    have e2 := (List.cons.inj hlu).2
    refine ⟨u, hlk, walk_between h h.root_attached hu ?_⟩
    rw [h.lab_root, List.nil_append]
    exact e2.symm

theorem suffix_link_invariant_witness :
    ∃ (st : Tree) (ids : List Int),
      add_strings Tree.fresh [(8, ['a', 'b', 'a', 'b'])] = some (st, ids) ∧
      (∃ ndr : Node, st.nodes[rootId]? = some ndr ∧ ndr.suffix_link = some sinkId) ∧
      (∃ nds : Node, st.nodes[sinkId]? = some nds ∧ nds.suffix_link = some rootId) ∧
      ∀ (v : Nat) (nd : Node) (α : Char) (w : List Char) (c : Char) (t : Transition),
        Walk st rootId (α :: w) v → st.nodes[v]? = some nd → mapFind c nd.g = some t →
        ∃ u : Nat, nd.suffix_link = some u ∧ Walk st rootId w u :=
  suffix_link_invariant [(8, ['a', 'b', 'a', 'b'])] (by decide) (by decide)

/-- C25 (edge-key invariant): in every state reached from the fresh tree (by
calls on inputs below `SIZE_BOUND` bytes, each with the fuel to run to its
end), for every node and every entry `(c, t)` of its transition map, `t` has a
valid target in the heap and a non-empty label inside a registered string whose
first byte `stored[ref][l]` is `c`; no key occurs twice in the map, and so two
entries of the same node whose labels begin with the same byte are the same
entry. -/
theorem edge_key_invariant (calls : List (Nat × List Char))
    (hsize : ∀ c ∈ calls, (c.2.length : Int) < SIZE_BOUND)
    (hfuel : ∀ c ∈ calls, c.2.length + 2 < c.1) :
    ∃ (st : Tree) (ids : List Int), add_strings Tree.fresh calls = some (st, ids) ∧
      ∀ (n : Nat) (nd : Node), st.nodes[n]? = some nd →
        (nd.g.map Prod.fst).Nodup ∧
        (∀ (c : Char) (t : Transition), (c, t) ∈ nd.g →
          t.is_valid = true ∧ ∃ (j : Nat) (S : List Char), t.tgt = some j ∧
            j < st.nodes.length ∧ mapFind t.sub.ref_str st.haystack = some S ∧
            t.sub.empty = false ∧ 0 ≤ t.sub.l ∧ t.sub.l < S.length ∧
            strAt S t.sub.l = some c) ∧
        ∀ (c1 c2 : Char) (t1 t2 : Transition) (S1 S2 : List Char), (c1, t1) ∈ nd.g →
          (c2, t2) ∈ nd.g → mapFind t1.sub.ref_str st.haystack = some S1 →
          mapFind t2.sub.ref_str st.haystack = some S2 →
          strAt S1 t1.sub.l = strAt S2 t2.sub.l → c1 = c2 ∧ t1 = t2 := by
  obtain ⟨st, ids, lab, hrun, R, hnodup, _⟩ := session_static calls hsize hfuel
  have h := R.wfl
  refine ⟨st, ids, hrun, ?_⟩
  intro n nd hnd
  have hkey : ∀ (c : Char) (t : Transition), (c, t) ∈ nd.g →
      ∃ (j : Nat) (S : List Char), EdgeOK st lab n c t j S := by
    intro c t hct
    have hm := mapFind_of_mem_nodup (hnodup n nd hnd) hct
    have hn1 : 1 ≤ n := by
      by_contra hcon
      have e0 : n = sinkId := by
        unfold sinkId
        omega
      obtain ⟨nds, h1, h2, _⟩ := h.sink
      rw [e0, h1] at hnd
      obtain rfl := Option.some.inj hnd
      rw [h2] at hct
      cases hct
    exact h.edges n nd c t hn1 hnd hm
  refine ⟨hnodup n nd hnd, ?_, ?_⟩
  · intro c t hct
    obtain ⟨j, S, e⟩ := hkey c t hct
    refine ⟨by simp [Transition.is_valid, e.tgt], j, S, e.tgt, e.j_hi, e.ref, ?_, e.l_lo, e.l_hi,
      e.key⟩
    have := e.l_le
    simp [MappedSubstring.empty]
    omega
  · intro c1 c2 t1 t2 S1 S2 h1 h2 hS1 hS2 heq
    obtain ⟨j1, S1', e1⟩ := hkey c1 t1 h1
    obtain ⟨j2, S2', e2⟩ := hkey c2 t2 h2
    have k1 := e1.key
    have k2 := e2.key
    rw [e1.ref] at hS1
    rw [e2.ref] at hS2
    obtain rfl := Option.some.inj hS1
    obtain rfl := Option.some.inj hS2
    rw [heq, k2] at k1
    have ec : c2 = c1 := Option.some.inj k1
    subst ec
    have m1 := mapFind_of_mem_nodup (hnodup n nd hnd) h1
    have m2 := mapFind_of_mem_nodup (hnodup n nd hnd) h2
    rw [m1] at m2
    exact ⟨rfl, Option.some.inj m2⟩

theorem edge_key_invariant_witness :
    ∃ (st : Tree) (ids : List Int),
      add_strings Tree.fresh [(8, ['a', 'b', 'a', 'b'])] = some (st, ids) ∧
      ∀ (n : Nat) (nd : Node), st.nodes[n]? = some nd →
        (nd.g.map Prod.fst).Nodup ∧
        (∀ (c : Char) (t : Transition), (c, t) ∈ nd.g →
          t.is_valid = true ∧ ∃ (j : Nat) (S : List Char), t.tgt = some j ∧
            j < st.nodes.length ∧ mapFind t.sub.ref_str st.haystack = some S ∧
            t.sub.empty = false ∧ 0 ≤ t.sub.l ∧ t.sub.l < S.length ∧
            strAt S t.sub.l = some c) ∧
        ∀ (c1 c2 : Char) (t1 t2 : Transition) (S1 S2 : List Char), (c1, t1) ∈ nd.g →
          (c2, t2) ∈ nd.g → mapFind t1.sub.ref_str st.haystack = some S1 →
          mapFind t2.sub.ref_str st.haystack = some S2 →
          strAt S1 t1.sub.l = strAt S2 t2.sub.l → c1 = c2 ∧ t1 = t2 :=
  edge_key_invariant [(8, ['a', 'b', 'a', 'b'])] (by decide) (by decide)

/-- The entries of the transition maps of a tree at rest are its well-formed
edges; the sink has none. -/
theorem entry_edge {st : Tree} {lab : Nat → List Char} (h : WFL st lab) (hnodup : NodupKeys st)
    {n : Nat} {nd : Node} {c : Char} {t : Transition} (hnd : st.nodes[n]? = some nd)
    (hct : (c, t) ∈ nd.g) :
    1 ≤ n ∧ mapFind c nd.g = some t ∧ ∃ (j : Nat) (S : List Char), EdgeOK st lab n c t j S := by
  have hm := mapFind_of_mem_nodup (hnodup n nd hnd) hct
  have hn1 : 1 ≤ n := by
    by_contra hcon
    have e0 : n = sinkId := by
      unfold sinkId
      omega
    obtain ⟨nds, h1, h2, _⟩ := h.sink
    rw [e0, h1] at hnd
    obtain rfl := Option.some.inj hnd
    rw [h2] at hct
    cases hct
  exact ⟨hn1, hm, h.edges n nd c t hn1 hnd hm⟩

/-- C27 (open-ended leaf edges): in every state reached from the fresh tree
(by calls on inputs below `SIZE_BOUND` bytes, each with the fuel to run to its
end), the target of every stored transition is a node of the heap that has no
outgoing transition if and only if the label of the transition has
`r = INT_MAX`; and every label with another `r` satisfies
`0 <= l <= r < size` of its registered source string. -/
theorem open_edges_lead_to_leaves (calls : List (Nat × List Char))
    (hsize : ∀ c ∈ calls, (c.2.length : Int) < SIZE_BOUND)
    (hfuel : ∀ c ∈ calls, c.2.length + 2 < c.1) :
    ∃ (st : Tree) (ids : List Int), add_strings Tree.fresh calls = some (st, ids) ∧
      ∀ (n : Nat) (nd : Node) (c : Char) (t : Transition), st.nodes[n]? = some nd →
        (c, t) ∈ nd.g →
        ∃ (j : Nat) (ndj : Node) (S : List Char), t.tgt = some j ∧ st.nodes[j]? = some ndj ∧
          mapFind t.sub.ref_str st.haystack = some S ∧
          (ndj.g = [] ↔ t.sub.r = INT_MAX) ∧
          (t.sub.r ≠ INT_MAX → 0 ≤ t.sub.l ∧ t.sub.l ≤ t.sub.r ∧ t.sub.r < S.length) := by
  obtain ⟨st, ids, lab, hrun, R, hnodup, _⟩ := session_static calls hsize hfuel
  have h := R.wfl
  refine ⟨st, ids, hrun, ?_⟩
  intro n nd c t hnd hct
  obtain ⟨hn1, hm, j, S, e⟩ := entry_edge h hnodup hnd hct
  have hj : Attached st j := ⟨by have := e.j_lo; omega, e.j_hi⟩
  obtain ⟨ndj, hndj⟩ := hj.node
  refine ⟨j, ndj, S, e.tgt, hndj, e.ref, ⟨?_, ?_⟩, ?_⟩
  · intro hg
    by_contra hne
    obtain ⟨nd1, c1, t1, h1, h2⟩ := e.child hne
    rw [hndj] at h1
    obtain rfl := Option.some.inj h1
    rw [hg] at h2
    cases h2
  · intro hopen
    exact leaf_of_open R e hopen hndj
  · intro hne
    refine ⟨e.l_lo, e.l_le, ?_⟩
    rcases e.fin with h1 | h1
    · exact absurd h1 hne
    · omega

theorem open_edges_lead_to_leaves_witness :
    ∃ (st : Tree) (ids : List Int),
      add_strings Tree.fresh [(8, ['a', 'b', 'a', 'b'])] = some (st, ids) ∧
      ∀ (n : Nat) (nd : Node) (c : Char) (t : Transition), st.nodes[n]? = some nd →
        (c, t) ∈ nd.g →
        ∃ (j : Nat) (ndj : Node) (S : List Char), t.tgt = some j ∧ st.nodes[j]? = some ndj ∧
          mapFind t.sub.ref_str st.haystack = some S ∧
          (ndj.g = [] ↔ t.sub.r = INT_MAX) ∧
          (t.sub.r ≠ INT_MAX → 0 ≤ t.sub.l ∧ t.sub.l ≤ t.sub.r ∧ t.sub.r < S.length) :=
  open_edges_lead_to_leaves [(8, ['a', 'b', 'a', 'b'])] (by decide) (by decide)

/-! ## The shape of the tree and its destruction -/

theorem nodup_bounded_length {l : List Nat} {N : Nat} (hN : 2 ≤ N) (hn : l.Nodup)
    (hb : ∀ d ∈ l, 2 ≤ d ∧ d < N) : l.length + 2 ≤ N := by
  have hsub : l.toFinset ⊆ Finset.Ico 2 N := by
    intro d hd
    rw [List.mem_toFinset] at hd
    rw [Finset.mem_Ico]
    exact hb d hd
  have hc := Finset.card_le_card hsub
  rw [List.toFinset_card_of_nodup hn, Nat.card_Ico] at hc
  omega

/-- The children of a node: they lie strictly below it, no one below another,
and every node below the node lies below one of them. -/
theorem children_cover {st : Tree} {lab : Nat → List Char} (h : WFL st lab)
    (hnodup : NodupKeys st) {x : Nat} {nd : Node} (hx : Attached st x)
    (hnd : st.nodes[x]? = some nd) :
    (∀ q ∈ nd.g.map (fun p => p.2.tgt), ∃ j : Nat, q = some j ∧ 2 ≤ j ∧ j < st.nodes.length ∧
      lab x <+: lab j ∧ (lab x).length < (lab j).length) ∧
    (nd.g.map (fun p => p.2.tgt)).Pairwise (Apart lab) ∧
    (∀ y : Nat, Attached st y → lab x <+: lab y → y ≠ x →
      ∃ j : Nat, some j ∈ nd.g.map (fun p => p.2.tgt) ∧ lab j <+: lab y) := by
  refine ⟨?_, ?_, ?_⟩
  · intro q hq
    obtain ⟨p, hp, rfl⟩ := List.mem_map.mp hq
    obtain ⟨c, t⟩ := p
    obtain ⟨_, _, j, S, e⟩ := entry_edge h hnodup hnd hp
    have hS := h.strs _ _ e.ref
    have hl := e.lab_eq
    rw [e.label_cons hS] at hl
    refine ⟨j, e.tgt, e.j_lo, e.j_hi, ⟨_, hl.symm⟩, ?_⟩
    rw [hl]
    simp
  · rw [List.pairwise_map]
    have hk := hnodup x nd hnd
    unfold List.Nodup at hk
    rw [List.pairwise_map] at hk
    refine hk.imp_of_mem ?_
    intro a b ha hb hab
    obtain ⟨c1, t1⟩ := a
    obtain ⟨c2, t2⟩ := b
    obtain ⟨_, _, j1, S1, e1⟩ := entry_edge h hnodup hnd ha
    obtain ⟨_, _, j2, S2, e2⟩ := entry_edge h hnodup hnd hb
    have l1 := e1.lab_eq
    have l2 := e2.lab_eq
    rw [e1.label_cons (h.strs _ _ e1.ref)] at l1
    rw [e2.label_cons (h.strs _ _ e2.ref)] at l2
    intro x1 y1 hx1 hy1
    have ex : j1 = x1 := by
      have := e1.tgt
      simp only [] at hx1
      rw [hx1] at this
      exact (Option.some.inj this).symm
    have ey : j2 = y1 := by
      have := e2.tgt
      simp only [] at hy1
      rw [hy1] at this
      exact (Option.some.inj this).symm
    rw [← ex, ← ey, l1, l2]
    constructor
    · intro hp
      rw [List.prefix_append_right_inj, List.cons_prefix_cons] at hp
      exact hab hp.1
    · intro hp
      rw [List.prefix_append_right_inj, List.cons_prefix_cons] at hp
      exact hab hp.1.symm
  · intro y hy hp hne
    obtain ⟨v, hv⟩ := hp
    cases v with
    | nil =>
      rw [List.append_nil] at hv
      exact absurd (h.inj hy hx hv.symm) hne
    | cons c r =>
      have hp1 : lab x ++ [c] <+: lab y := ⟨r, by rw [← hv]; simp⟩
      obtain ⟨nd1, t, j, S, hnd1, hm, e, hj⟩ := h.locus hx hy hp1
      rw [hnd] at hnd1
      obtain rfl := Option.some.inj hnd1
      exact ⟨j, List.mem_map.mpr ⟨(c, t), mapFind_mem hm, e.tgt⟩, hj⟩

/-- The loop of `Base::clean` ends, and deletes once each node that is not yet
deleted and lies below a node of the queue. -/
theorem cleanLoop_spec {st : Tree} {lab : Nat → List Char} (h : WFL st lab)
    (hnodup : NodupKeys st) :
    ∀ (fuel : Nat) (queue : List (Option Nat)) (deleted : List Nat), deleted.Nodup →
      (∀ d ∈ deleted, 2 ≤ d ∧ d < st.nodes.length) →
      (∀ q ∈ queue, ∃ j : Nat, q = some j ∧ 2 ≤ j ∧ j < st.nodes.length) →
      queue.Pairwise (Apart lab) →
      (∀ d ∈ deleted, ∀ j : Nat, some j ∈ queue → ¬ lab j <+: lab d) →
      (∀ y : Nat, 2 ≤ y → y < st.nodes.length →
        y ∈ deleted ∨ ∃ j : Nat, some j ∈ queue ∧ lab j <+: lab y) →
      st.nodes.length < fuel + deleted.length + 2 →
      ∃ del : List Nat, cleanLoop fuel st queue deleted = some del ∧ del.Nodup ∧
        ∀ y : Nat, y ∈ del ↔ (2 ≤ y ∧ y < st.nodes.length) := by
  intro fuel
  induction fuel with
  | zero =>
    intro queue deleted hnd hb _ _ _ _ hf
    have := nodup_bounded_length h.len hnd hb
    omega
  | succ fuel ih =>
    intro queue deleted hnd hb hq hpw hsep hcov hf
    cases queue with
    | nil =>
      refine ⟨deleted, rfl, hnd, ?_⟩
      intro y
      constructor
      · exact hb y
      · rintro ⟨h1, h2⟩
        rcases hcov y h1 h2 with h3 | ⟨j, hj, _⟩
        · exact h3
        · cases hj
    | cons q rest =>
      obtain ⟨cur, rfl, hc1, hc2⟩ := hq q (List.mem_cons_self _ _)
      have hcur : Attached st cur := ⟨by omega, hc2⟩
      have hnot : cur ∉ deleted := by
        intro hmem
        exact hsep cur hmem cur (List.mem_cons_self _ _) (List.prefix_refl _)
      obtain ⟨nd, hndc⟩ := hcur.node
      have hr : cur ≠ rootId := by
        unfold rootId
        omega
      have hs : cur ≠ sinkId := by
        unfold sinkId
        omega
      obtain ⟨k1, k2, k3⟩ := children_cover h hnodup hcur hndc
      have hnd1 : (deleted ++ [cur]).Nodup := by
        rw [List.nodup_append]
        refine ⟨hnd, List.nodup_singleton _, ?_⟩
        intro a ha hb1
        rw [List.mem_singleton] at hb1
        rw [hb1] at ha
        exact hnot ha
      have hb1 : ∀ d ∈ deleted ++ [cur], 2 ≤ d ∧ d < st.nodes.length := by
        intro d hd
        rcases List.mem_append.mp hd with h1 | h1
        · exact hb d h1
        · rw [List.mem_singleton] at h1
          rw [h1]
          exact ⟨hc1, hc2⟩
      have hlen := nodup_bounded_length h.len hnd1 hb1
      rw [List.length_append, List.length_singleton] at hlen
      rw [List.pairwise_cons] at hpw
      obtain ⟨hhead, htail⟩ := hpw
      have step := ih (rest ++ nd.g.map (fun p => p.2.tgt)) (deleted ++ [cur]) hnd1 hb1 ?_ ?_ ?_ ?_
        (by rw [List.length_append, List.length_singleton]; omega)
      · obtain ⟨del, g, r1, r2⟩ := step
        refine ⟨del, ?_, r1, r2⟩
        unfold cleanLoop
        rw [if_neg hnot]
        simp only [hndc]
        rw [if_neg hr, if_neg hs]
        exact g
      · intro q hq1
        rcases List.mem_append.mp hq1 with h1 | h1
        · exact hq q (List.mem_cons_of_mem _ h1)
        · obtain ⟨j, e, h2, h3, _⟩ := k1 q h1
          exact ⟨j, e, h2, h3⟩
      · rw [List.pairwise_append]
        refine ⟨htail, k2, ?_⟩
        intro a ha b hb2 x y ex ey
        obtain ⟨j, e, _, _, hp, hlt⟩ := k1 b hb2
        rw [ey] at e
        obtain rfl := Option.some.inj e
        have hap := hhead a ha cur x rfl ex
        constructor
        · intro hxy
          rcases List.prefix_or_prefix_of_prefix hxy hp with h3 | h3
          · exact hap.2 h3
          · exact hap.1 h3
        · intro hyx
          exact hap.1 (hp.trans hyx)
      · intro d hd j hj
        rcases List.mem_append.mp hj with h1 | h1
        · rcases List.mem_append.mp hd with h2 | h2
          · exact hsep d h2 j (List.mem_cons_of_mem _ h1)
          · rw [List.mem_singleton] at h2
            rw [h2]
            exact (hhead _ h1 cur j rfl rfl).2
        · obtain ⟨j1, e, _, _, hp, hlt⟩ := k1 _ h1
          obtain rfl := Option.some.inj e
          rcases List.mem_append.mp hd with h2 | h2
          · intro hjd
            exact hsep d h2 cur (List.mem_cons_self _ _) (hp.trans hjd)
          · rw [List.mem_singleton] at h2
            rw [h2]
            intro hjd
            have := hjd.length_le
            omega
      · intro y hy1 hy2
        rcases hcov y hy1 hy2 with h1 | ⟨j, hj, hp⟩
        · exact Or.inl (List.mem_append_left _ h1)
        · rcases List.mem_cons.mp hj with h2 | h2
          · obtain rfl := Option.some.inj h2
            by_cases e : y = j
            · left
              rw [e]
              simp
            · obtain ⟨j1, hj1, hp1⟩ := k3 y ⟨by omega, hy2⟩ hp e
              exact Or.inr ⟨j1, List.mem_append_right _ hj1, hp1⟩
          · exact Or.inr ⟨j, List.mem_append_left _ h2, hp⟩

/-- The method `Base::clean` ends on a well-formed tree, and deletes once each
node other than the root and the sink. -/
theorem clean_spec {st : Tree} {lab : Nat → List Char} (h : WFL st lab) (hnodup : NodupKeys st)
    (fuel : Nat) (hf : st.nodes.length ≤ fuel) :
    ∃ del : List Nat, clean fuel st = some del ∧ del.Nodup ∧
      ∀ y : Nat, y ∈ del ↔ (2 ≤ y ∧ y < st.nodes.length) := by
  have hlen := h.len
  obtain ⟨f, rfl⟩ : ∃ f, fuel = f + 1 := ⟨fuel - 1, by omega⟩
  obtain ⟨nd, hnd⟩ := h.root_attached.node
  obtain ⟨k1, k2, k3⟩ := children_cover h hnodup h.root_attached hnd
  have step := cleanLoop_spec h hnodup f (nd.g.map (fun p => p.2.tgt)) [] List.nodup_nil
    (by intro d hd; cases hd) ?_ k2 (by intro d hd; cases hd) ?_ (by simp; omega)
  · obtain ⟨del, g, r1, r2⟩ := step
    refine ⟨del, ?_, r1, r2⟩
    unfold clean cleanLoop
    rw [if_neg (by simp)]
    simp only [hnd, if_true, List.nil_append]
    exact g
  · intro q hq
    obtain ⟨j, e, h2, h3, _⟩ := k1 q hq
    exact ⟨j, e, h2, h3⟩
  · intro y hy1 hy2
    right
    refine k3 y ⟨by omega, hy2⟩ ?_ ?_
    · rw [h.lab_root]
      exact List.nil_prefix
    · unfold rootId
      omega

/-- C26 (tree-shape invariant): in every state reached from the fresh tree (by
calls on inputs below `SIZE_BOUND` bytes, each with the fuel to run to its
end), every node other than the root and the sink that a path from the root
reaches is the target of exactly one stored transition, and no stored
transition has the root or the sink as its target; and the breadth-first sweep
of `Base::clean` from the root ends, deleting exactly the nodes other than the
root that a path from the root reaches, each of them once. -/
theorem tree_shape_invariant (calls : List (Nat × List Char))
    (hsize : ∀ c ∈ calls, (c.2.length : Int) < SIZE_BOUND)
    (hfuel : ∀ c ∈ calls, c.2.length + 2 < c.1) :
    ∃ (st : Tree) (ids : List Int), add_strings Tree.fresh calls = some (st, ids) ∧
      (∀ (j : Nat) (w : List Char), Walk st rootId w j → j ≠ rootId → j ≠ sinkId →
        ∃ (n : Nat) (nd : Node) (c : Char) (t : Transition), st.nodes[n]? = some nd ∧
          (c, t) ∈ nd.g ∧ t.tgt = some j ∧
          ∀ (n1 : Nat) (nd1 : Node) (c1 : Char) (t1 : Transition), st.nodes[n1]? = some nd1 →
            (c1, t1) ∈ nd1.g → t1.tgt = some j → n1 = n ∧ c1 = c ∧ t1 = t) ∧
      (∀ (n : Nat) (nd : Node) (c : Char) (t : Transition), st.nodes[n]? = some nd →
        (c, t) ∈ nd.g → t.tgt ≠ some rootId ∧ t.tgt ≠ some sinkId) ∧
      ∀ fuel : Nat, st.nodes.length ≤ fuel →
        ∃ del : List Nat, clean fuel st = some del ∧ del.Nodup ∧
          ∀ y : Nat, y ∈ del ↔ (y ≠ rootId ∧ ∃ w : List Char, Walk st rootId w y) := by
  obtain ⟨st, ids, lab, hrun, R, hnodup, _⟩ := session_static calls hsize hfuel
  have h := R.wfl
  refine ⟨st, ids, hrun, ?_, ?_, ?_⟩
  · intro j w hw hjr hjs
    obtain ⟨hj, _⟩ := hw.label h h.root_attached
    have hj2 : 2 ≤ j := by
      have := hj.1
      unfold rootId at hjr
      omega
    obtain ⟨n, nd, c, t, hn, hnd, hm, ht⟩ := h.parent j hj2 hj.2
    refine ⟨n, nd, c, t, hnd, mapFind_mem hm, ht, ?_⟩
    intro n1 nd1 c1 t1 hnd1 hmem ht1
    obtain ⟨hn1, hm1, _⟩ := entry_edge h hnodup hnd1 hmem
    exact h.parent_unique hn1 hnd1 hm1 ht1 hn hnd hm ht
  · intro n nd c t hnd hmem
    obtain ⟨_, _, j, S, e⟩ := entry_edge h hnodup hnd hmem
    have := e.j_lo
    rw [e.tgt]
    unfold rootId sinkId
    constructor
    · intro e1
      have := Option.some.inj e1
      omega
    · intro e1
      have := Option.some.inj e1
      omega
  · intro fuel hf
    obtain ⟨del, g, r1, r2⟩ := clean_spec h hnodup fuel hf
    refine ⟨del, g, r1, ?_⟩
    intro y
    rw [r2]
    constructor
    · rintro ⟨h1, h2⟩
      refine ⟨by unfold rootId; omega, (lab y), ?_⟩
      exact walk_between h h.root_attached ⟨by omega, h2⟩ (by rw [h.lab_root, List.nil_append])
    · rintro ⟨h1, w, hw⟩
      obtain ⟨hy, _⟩ := hw.label h h.root_attached
      have := hy.1
      unfold rootId at h1
      exact ⟨by omega, hy.2⟩

theorem tree_shape_invariant_witness :
    ∃ (st : Tree) (ids : List Int),
      add_strings Tree.fresh [(8, ['a', 'b', 'a', 'b'])] = some (st, ids) ∧
      (∀ (j : Nat) (w : List Char), Walk st rootId w j → j ≠ rootId → j ≠ sinkId →
        ∃ (n : Nat) (nd : Node) (c : Char) (t : Transition), st.nodes[n]? = some nd ∧
          (c, t) ∈ nd.g ∧ t.tgt = some j ∧
          ∀ (n1 : Nat) (nd1 : Node) (c1 : Char) (t1 : Transition), st.nodes[n1]? = some nd1 →
            (c1, t1) ∈ nd1.g → t1.tgt = some j → n1 = n ∧ c1 = c ∧ t1 = t) ∧
      (∀ (n : Nat) (nd : Node) (c : Char) (t : Transition), st.nodes[n]? = some nd →
        (c, t) ∈ nd.g → t.tgt ≠ some rootId ∧ t.tgt ≠ some sinkId) ∧
      ∀ fuel : Nat, st.nodes.length ≤ fuel →
        ∃ del : List Nat, clean fuel st = some del ∧ del.Nodup ∧
          ∀ y : Nat, y ∈ del ↔ (y ≠ rootId ∧ ∃ w : List Char, Walk st rootId w y) :=
  tree_shape_invariant [(8, ['a', 'b', 'a', 'b'])] (by decide) (by decide)

/-! ## The test for an end point -/

theorem snoc_prefix_iff {a x : List Char} {t : Char} (hp : a <+: x) (hl : a.length < x.length) :
    a ++ [t] <+: x ↔ strAt x (a.length : Int) = some t := by
  obtain ⟨r, rfl⟩ := hp
  cases r with
  | nil => simp at hl
  | cons c r1 =>
    have hs : strAt (a ++ c :: r1) (a.length : Int) = some c := by
      rw [strAt_lt (by omega) (by rw [List.length_append, List.length_cons]; push_cast; omega),
        Int.toNat_ofNat, List.getElem?_append_right (le_refl _), Nat.sub_self]
      simp
    rw [hs, List.prefix_append_right_inj, List.cons_prefix_cons]
    constructor
    · rintro ⟨e, _⟩
      rw [e]
    · intro e
      exact ⟨(Option.some.inj e).symm, List.nil_prefix⟩

/-- A word that ends strictly inside an edge continues with the byte `t` iff
`t` is the next byte of the edge label. -/
theorem edge_span_sem {st : Tree} {lab : Nat → List Char} (h : WFL st lab) {n : Nat}
    (hn : Attached st n) {nd : Node} {c : Char} {t0 : Transition} {S : List Char}
    (hnd : st.nodes[n]? = some nd) (hm : mapFind c nd.g = some t0)
    (hS : mapFind t0.sub.ref_str st.haystack = some S) {y : List Char}
    (hw : InW st lab (lab n ++ c :: y))
    (hlen : (c :: y).length < (labelOf S t0.sub).length) (t : Char) :
    InW st lab (lab n ++ ((c :: y) ++ [t])) ↔
      strAt (labelOf S t0.sub) ((c :: y).length : Int) = some t := by
  obtain ⟨j, S1, e⟩ := h.edges n nd c t0 hn.1 hnd hm
  have eS : S1 = S := by
    have := e.ref
    rw [hS] at this
    exact (Option.some.inj this).symm
  rw [eS] at e
  have key : ∀ z : List Char, InW st lab (lab n ++ c :: z) →
      (c :: z <+: labelOf S t0.sub ∨ labelOf S t0.sub <+: c :: z) := by
    intro z hz
    obtain ⟨nd1, t1, j1, S2, hnd1, hm1, e1, hcmp⟩ := h.locus_cmp hn hz
    rw [hnd] at hnd1
    have e2 := Option.some.inj hnd1
    rw [← e2, hm] at hm1
    have e3 := Option.some.inj hm1
    rw [← e3] at e1 hcmp
    have e4 : S2 = S := by
      have := e1.ref
      rw [hS] at this
      exact (Option.some.inj this).symm
    rw [e4] at hcmp
    exact hcmp
  have hpre : c :: y <+: labelOf S t0.sub := by
    rcases key y hw with h1 | h1
    · exact h1
    · have := h1.length_le
      omega
  rw [← snoc_prefix_iff hpre hlen]
  constructor
  · intro hw2
    rcases key (y ++ [t]) hw2 with h1 | h1
    · exact h1
    · have h2 := h1.length_le
      have h3 : (labelOf S t0.sub).length = (c :: (y ++ [t])).length := by
        simp only [List.length_cons, List.length_append, List.length_singleton, List.length_nil] at h2 hlen ⊢
        omega
      rw [h1.eq_of_length h3]
      exact List.prefix_refl _
  · intro hp
    exact InW_prefix (InW_edge e) ((List.prefix_append_right_inj _).mpr hp)

/-- The method `test_and_split` on an empty span of a well-formed tree. -/
theorem ts_endpoint_empty {st : Tree} {lab : Nat → List Char} (h : WFL st lab) {n : Nat}
    (hn : n < st.nodes.length) (id l r : Int) (hlr : r < l) (t : Char) (w : List Char) :
    ∃ (st1 : Tree) (b : Bool),
      test_and_split st (some n) ⟨id, l, r⟩ t w = some (st1, b, some n) ∧
      (b = true ↔ Spelled st n [t]) ∧
      (b = true ↔ ∃ tt : Transition, st.find_alpha_transition (some n) t = some tt ∧
        tt.is_valid = true) ∧
      (b = false → st1 = st) ∧
      (b = true → Recolor st st1 ∧
        ∃ (tt : Transition) (j : Nat) (ndj : Node),
          st.find_alpha_transition (some n) t = some tt ∧ tt.tgt = some j ∧
          st.nodes[j]? = some ndj ∧
          st1 = if 0 < id then st.setNode j (ndj.mark_string id) else st) := by
  obtain ⟨ndr, hndr⟩ := h.root_attached.node
  by_cases hs : n = sinkId
  · subst hs
    obtain ⟨nds, s1, s2, s3⟩ := h.sink
    have hsp : Spelled st sinkId [t] :=
      ⟨rootId, [t], Walk.sink rootId rootId nds t [] s1 s3 (Walk.stay rootId), List.prefix_refl _⟩
    have hfind := find_alpha_sink h t
    refine ⟨if 0 < id then st.setNode rootId (ndr.mark_string id) else st, true, ?_,
      ⟨fun _ => hsp, fun _ => rfl⟩, ⟨fun _ => ⟨_, hfind, rfl⟩, fun _ => rfl⟩, ?_, ?_⟩
    · unfold test_and_split
      simp only []
      rw [if_pos (by omega), hfind]
      simp only [Transition.is_valid, Option.isSome_some, true_and]
      by_cases hid : 0 < id
      · rw [if_pos hid, if_pos (by omega), modify_eq _ hndr]
      · rw [if_neg hid, if_neg (by omega)]
    · intro hb
      cases hb
    · intro _
      refine ⟨?_, _, rootId, ndr, hfind, rfl, hndr, rfl⟩
      by_cases hid : 0 < id
      · rw [if_pos hid]
        exact Recolor.of_setNode hndr (mark_string_g _ _) (mark_string_link _ _)
      · rw [if_neg hid]
        exact Recolor.same st
  · have hn1 : 1 ≤ n := by
      unfold sinkId at hs
      omega
    have hatt : Attached st n := ⟨hn1, hn⟩
    obtain ⟨nd, hnd⟩ := hatt.node
    have hstep := h.node_step hatt hnd (c := t)
    have hsp : Spelled st n [t] ↔ ∃ tt : Transition, mapFind t nd.g = some tt := by
      rw [spelled_iff h hatt]
      exact hstep
    cases hm : mapFind t nd.g with
    | none =>
      have hfind : st.find_alpha_transition (some n) t = some { sub := ⟨0, 0, -1⟩, tgt := none } := by
        rw [find_alpha_node t hn1 hnd, hm]
      refine ⟨st, false, ?_, ?_, ?_, fun _ => rfl, ?_⟩
      · unfold test_and_split
        simp only []
        rw [if_pos (by omega), hfind]
        simp [Transition.is_valid]
      · rw [hsp, hm]
        simp
      · constructor
        · intro hb
          cases hb
        · rintro ⟨tt, h1, h2⟩
          rw [hfind] at h1
          rw [← Option.some.inj h1] at h2
          simp [Transition.is_valid] at h2
      · intro hb
        cases hb
    | some tt =>
      have hfind : st.find_alpha_transition (some n) t = some tt := by
        rw [find_alpha_node t hn1 hnd, hm]
      obtain ⟨j, S, e⟩ := h.edges n nd t tt hn1 hnd hm
      have hj : Attached st j := ⟨by have := e.j_lo; omega, e.j_hi⟩
      obtain ⟨ndj, hndj⟩ := hj.node
      have hval : tt.is_valid = true := by simp [Transition.is_valid, e.tgt]
      refine ⟨if 0 < id then st.setNode j (ndj.mark_string id) else st, true, ?_,
        ⟨fun _ => hsp.mpr ⟨tt, hm⟩, fun _ => rfl⟩, ⟨fun _ => ⟨tt, hfind, hval⟩, fun _ => rfl⟩,
        ?_, ?_⟩
      · unfold test_and_split
        simp only []
        rw [if_pos (by omega), hfind]
        simp only [hval, true_and]
        by_cases hid : 0 < id
        · rw [if_pos hid, if_pos (by omega), e.tgt, modify_eq _ hndj]
        · rw [if_neg hid, if_neg (by omega)]
      · intro hb
        cases hb
      · intro _
        refine ⟨?_, tt, j, ndj, hfind, e.tgt, hndj, rfl⟩
        by_cases hid : 0 < id
        · rw [if_pos hid]
          exact Recolor.of_setNode hndj (mark_string_g _ _) (mark_string_link _ _)
        · rw [if_neg hid]
          exact Recolor.same st

/-- The method `test_and_split` on a span that ends strictly inside an edge of
a well-formed tree. -/
theorem ts_endpoint_inner {st : Tree} {lab : Nat → List Char} (h : WFL st lab) {n : Nat}
    {nd : Node} {c : Char} {t0 : Transition} {S w : List Char} (id : Int) {l r : Int}
    (t : Char) (hnd : st.nodes[n]? = some nd) (hc : strAt w l = some c)
    (hm : mapFind c nd.g = some t0) (hS : mapFind t0.sub.ref_str st.haystack = some S)
    (h0 : 0 ≤ l) (hlr : l ≤ r) (hr : r < w.length)
    (hsp : Spelled st n (slice w l (r + 1)))
    (hlen : r - l + 1 < (labelOf S t0.sub).length) :
    ∃ (st1 : Tree) (b : Bool) (out : Option Nat),
      test_and_split st (some n) ⟨id, l, r⟩ t w = some (st1, b, out) ∧
      (b = true ↔ Spelled st n (slice w l (r + 1) ++ [t])) ∧
      (b = true ↔ strAt S (t0.sub.l + (r - l) + 1) = some t) ∧
      (b = true → out = some n ∧ st1 = st) := by
  have hn : n < st.nodes.length := lt_of_getElem? hnd
  have hn1 : 1 ≤ n := by
    by_contra hcon
    have e0 : n = sinkId := by
      unfold sinkId
      omega
    obtain ⟨nds, s1, s2, _⟩ := h.sink
    rw [e0, s1] at hnd
    rw [← Option.some.inj hnd, s2] at hm
    cases hm
  have hatt : Attached st n := ⟨hn1, hn⟩
  obtain ⟨j, S1, e⟩ := h.edges n nd c t0 hn1 hnd hm
  have eS : S1 = S := by
    have := e.ref
    rw [hS] at this
    exact (Option.some.inj this).symm
  rw [eS] at e
  have hSok := h.strs _ _ hS
  have hend := e.end_gt hSok
  have hll := e.label_len hSok
  have hhead : slice w l (r + 1) = c :: slice w (l + 1) (r + 1) :=
    slice_head h0 (by omega) (by omega) hc
  have hslen : ((slice w l (r + 1)).length : Int) = r + 1 - l :=
    slice_length h0 (by omega) (by omega)
  rw [spelled_iff h hatt] at hsp
  rw [spelled_iff h hatt]
  rw [hhead] at hsp hslen ⊢
  have hlen1 : (c :: slice w (l + 1) (r + 1)).length < (labelOf S t0.sub).length := by
    omega
  have sem := edge_span_sem h hatt hnd hm hS hsp hlen1 t
  have hidx : strAt (labelOf S t0.sub) ((c :: slice w (l + 1) (r + 1)).length : Int) =
      strAt S (t0.sub.l + (r - l) + 1) := by
    unfold labelOf
    rw [strAt_slice e.l_lo (by omega) (by omega) hend.2, hslen]
    congr 1
    omega
  rw [hidx] at sem
  rw [sem]
  obtain ⟨b0, hb0⟩ := @strAt_some_lt S (t0.sub.l + (r - l) + 1) (by have := e.l_lo; omega)
    (by omega)
  obtain ⟨e1, he1⟩ : ∃ e1 : Int, r = e1 - 1 := ⟨r + 1, by omega⟩
  rw [he1] at hb0 ⊢
  by_cases hbt : b0 = t
  · rw [hbt] at hb0
    refine ⟨st, true, some n, ts_inner_hit hn1 hnd (by omega) hc hm hS hb0, ?_, ?_, ?_⟩
    · exact ⟨fun _ => hb0, fun _ => rfl⟩
    · exact ⟨fun _ => hb0, fun _ => rfl⟩
    · exact fun _ => ⟨rfl, rfl⟩
  · refine ⟨_, false, _, ts_inner_split hn1 hnd (by omega) hc hm hS hb0 hbt, ?_, ?_, ?_⟩
    · constructor
      · intro hb
        cases hb
      · intro hb
        rw [hb0] at hb
        exact absurd (Option.some.inj hb) hbt
    · constructor
      · intro hb
        cases hb
      · intro hb
        rw [hb0] at hb
        exact absurd (Option.some.inj hb) hbt
    · intro hb
      cases hb

/-- C22 (amended): in every state reached from the fresh tree (by calls on
inputs below `SIZE_BOUND` bytes, each with the fuel to run to its end),
`test_and_split` returns, and returns true if and only if the string spelled by
the position followed by `t` is spelled by a path. For an empty span at a cell
`n` of the heap this is: iff `find_alpha_transition(t)` at `n` is valid; the
output node is `n`; on false the state is left as it is, on true no node,
transition or suffix link is created or changed, but for `id > 0` the target of
that transition gets `mark_string(id)`. For a span `(id, l, r)` of the stored
string `w`, spelled from `n` and ending strictly inside the edge that leaves
`n` on `w[l]`, this is: iff the byte at offset `r - l + 1` of that edge equals
`t`; on true the output node is `n` and the state is left as it is. -/
theorem test_and_split_endpoint (calls : List (Nat × List Char)) (n : Nat) (id l r : Int)
    (t : Char) (w : List Char) (hsize : ∀ c ∈ calls, (c.2.length : Int) < SIZE_BOUND)
    (hfuel : ∀ c ∈ calls, c.2.length + 2 < c.1) :
    ∃ (st : Tree) (ids : List Int), add_strings Tree.fresh calls = some (st, ids) ∧
      (r < l → n < st.nodes.length →
        ∃ (st1 : Tree) (b : Bool),
          test_and_split st (some n) ⟨id, l, r⟩ t w = some (st1, b, some n) ∧
          (b = true ↔ Spelled st n [t]) ∧
          (b = true ↔ ∃ tt : Transition, st.find_alpha_transition (some n) t = some tt ∧
            tt.is_valid = true) ∧
          (b = false → st1 = st) ∧
          (b = true → Recolor st st1 ∧
            ∃ (tt : Transition) (j : Nat) (ndj : Node),
              st.find_alpha_transition (some n) t = some tt ∧ tt.tgt = some j ∧
              st.nodes[j]? = some ndj ∧
              st1 = if 0 < id then st.setNode j (ndj.mark_string id) else st)) ∧
      ∀ (nd : Node) (c : Char) (t0 : Transition) (S : List Char),
        mapFind id st.haystack = some w → 0 ≤ l → l ≤ r → r < w.length →
        Spelled st n (slice w l (r + 1)) → st.nodes[n]? = some nd → strAt w l = some c →
        mapFind c nd.g = some t0 → mapFind t0.sub.ref_str st.haystack = some S →
        r - l + 1 < (labelOf S t0.sub).length →
        ∃ (st1 : Tree) (b : Bool) (out : Option Nat),
          test_and_split st (some n) ⟨id, l, r⟩ t w = some (st1, b, out) ∧
          (b = true ↔ Spelled st n (slice w l (r + 1) ++ [t])) ∧
          (b = true ↔ strAt S (t0.sub.l + (r - l) + 1) = some t) ∧
          (b = true → out = some n ∧ st1 = st) := by
  obtain ⟨st, ids, lab, hrun, R, _, _⟩ := session_spec calls hsize hfuel
  refine ⟨st, ids, hrun, ?_, ?_⟩
  · intro hlr hn
    exact ts_endpoint_empty R.wfl hn id l r hlr t w
  · intro nd c t0 S _ h0 hlr hr hsp hnd hc hm hS hlen
    exact ts_endpoint_inner R.wfl id t hnd hc hm hS h0 hlr hr hsp hlen

theorem test_and_split_endpoint_witness :
    ∃ (st : Tree) (ids : List Int),
      add_strings Tree.fresh [(8, ['a', 'b'])] = some (st, ids) ∧
      ∃ (st1 : Tree) (b : Bool) (out : Option Nat),
        test_and_split st (some rootId) ⟨1, 0, 0⟩ 'b' ['a', 'b', '$'] = some (st1, b, out) ∧
        (b = true ↔ Spelled st rootId (slice ['a', 'b', '$'] 0 (0 + 1) ++ ['b'])) ∧
        (b = true ↔ strAt ['a', 'b', '$'] ((0 : Int) + (0 - 0) + 1) = some 'b') ∧
        (b = true → out = some rootId ∧ st1 = st) :=
  match test_and_split_endpoint [(8, ['a', 'b'])] rootId 1 0 0 'b' ['a', 'b', '$']
    (by decide) (by decide) with
  | ⟨st, ids, hrun, _, hall⟩ =>
    have e : st = ((add_strings Tree.fresh [(8, ['a', 'b'])]).map Prod.fst).getD Tree.fresh := by
      rw [hrun]; rfl
    have hS : mapFind 1 st.haystack = some ['a', 'b', '$'] := by rw [e]; decide
    have hw : Walk st rootId (labelOf ['a', 'b', '$'] ⟨1, 0, INT_MAX⟩ ++ []) 2 :=
      Walk.step rootId 2 2 ((st.nodes[rootId]?).getD Node.fresh) 'a' ⟨⟨1, 0, INT_MAX⟩, some 2⟩
        ['a', 'b', '$'] [] (by decide) (by rw [e]; decide) (by rw [e]; decide) rfl hS
        (Walk.stay 2)
    ⟨st, ids, hrun, hall ((st.nodes[rootId]?).getD Node.fresh) 'a' ⟨⟨1, 0, INT_MAX⟩, some 2⟩
      ['a', 'b', '$'] hS (by decide) (by decide) (by decide) ⟨2, _, hw, by decide⟩
      (by rw [e]; decide) (by decide) (by rw [e]; decide) hS (by decide)⟩

/-- C22 as stated fails: after `add_string("a")` the call
`test_and_split(root, (1, 0, -1), 'a')` returns true with the root as its
output node, and it changes a node: the target of the root's transition on
`'a'`, cell 2, had no colour and now carries bit 1. -/
theorem test_and_split_marks_target :
    ∃ (st st1 : Tree) (ids : List Int),
      add_strings Tree.fresh [(8, ['a'])] = some (st, ids) ∧
      test_and_split st (some rootId) ⟨1, 0, -1⟩ 'a' ['a', '$'] =
        some (st1, true, some rootId) ∧
      childOn st rootId 'a' = some 2 ∧ colorsAt st 2 = some 0 ∧ colorsAt st1 2 = some 1 ∧
      st1 ≠ st :=
  match h0 : add_strings Tree.fresh [(8, ['a'])] with
  | none => absurd h0 (by decide)
  | some (st, ids) =>
    have e : st = ((add_strings Tree.fresh [(8, ['a'])]).map Prod.fst).getD Tree.fresh := by
      rw [h0]; rfl
    ⟨st, ((test_and_split st (some rootId) ⟨1, 0, -1⟩ 'a' ['a', '$']).map Prod.fst).getD
        Tree.fresh, ids, rfl, by rw [e]; decide, by rw [e]; decide, by rw [e]; decide,
      by rw [e]; decide, by rw [e]; decide⟩

/-! ## The split -/

/-- The method `test_and_split` at a span that ends strictly inside an edge of a
well-formed tree, when the next byte of the edge differs from `t`. -/
theorem ts_split_post {st : Tree} {lab : Nat → List Char} (h : WFL st lab) {n : Nat}
    {nd : Node} {c b0 : Char} {t0 : Transition} {S w : List Char} (id : Int) {l r : Int}
    {t : Char} (hnd : st.nodes[n]? = some nd) (hc : strAt w l = some c)
    (hm : mapFind c nd.g = some t0) (hS : mapFind t0.sub.ref_str st.haystack = some S)
    (hlr : l ≤ r) (hlen : r - l + 1 < (labelOf S t0.sub).length)
    (hb0 : strAt S (t0.sub.l + (r - l) + 1) = some b0) (hne : b0 ≠ t) :
    ∃ (st1 : Tree) (nd1 ndn : Node),
      test_and_split st (some n) ⟨id, l, r⟩ t w = some (st1, false, some st.nodes.length) ∧
      st1.nodes.length = st.nodes.length + 1 ∧
      st1.nodes[n]? = some nd1 ∧
      mapFind c nd1.g =
        some ⟨⟨t0.sub.ref_str, t0.sub.l, t0.sub.l + (r - l)⟩, some st.nodes.length⟩ ∧
      (∀ c1 : Char, c1 ≠ c → mapFind c1 nd1.g = mapFind c1 nd.g) ∧
      nd1.suffix_link = nd.suffix_link ∧ nd1.colors = nd.colors ∧
      st1.nodes[st.nodes.length]? = some ndn ∧
      ndn.g = [(b0, ⟨⟨t0.sub.ref_str, t0.sub.l + (r - l) + 1, t0.sub.r⟩, t0.tgt⟩)] ∧
      ndn.suffix_link = none ∧ ndn.colors = 0 ∧
      (∀ m : Nat, m < st.nodes.length → m ≠ n → st1.nodes[m]? = st.nodes[m]?) ∧
      (∀ v : List Char, Spelled st1 rootId v ↔ Spelled st rootId v) ∧
      st1.haystack = st.haystack ∧ st1.last_index = st.last_index ∧
      st1.colors_computed = false := by
  have hn : n < st.nodes.length := lt_of_getElem? hnd
  have hn1 : 1 ≤ n := by
    by_contra hcon
    have e0 : n = sinkId := by
      unfold sinkId
      omega
    obtain ⟨nds, s1, s2, _⟩ := h.sink
    rw [e0, s1] at hnd
    rw [← Option.some.inj hnd, s2] at hm
    cases hm
  have hatt : Attached st n := ⟨hn1, hn⟩
  obtain ⟨j, S1, e⟩ := h.edges n nd c t0 hn1 hnd hm
  have eS : S1 = S := by
    have := e.ref
    rw [hS] at this
    exact (Option.some.inj this).symm
  rw [eS] at e
  have hSok := h.strs _ _ hS
  have hll := e.label_len hSok
  have hd1 : t0.sub.l + (r - l) + 1 < edgeEnd S t0.sub := by omega
  have hwfl := h.split_edge hatt hnd hm e (by omega : 0 ≤ r - l) hd1 hb0
  have hcode : test_and_split st (some n) ⟨id, l, r⟩ t w =
      some (splitEdge st n nd c b0 t0 (r - l), false, some st.nodes.length) := by
    obtain ⟨e1, he1⟩ : ∃ e1 : Int, r = e1 - 1 := ⟨r + 1, by omega⟩
    rw [he1] at hb0 ⊢
    exact ts_inner_split hn1 hnd (by omega) hc hm hS hb0 hne
  refine ⟨_, _, _, hcode, splitEdge_length _ _ _ _ _ _ _, splitEdge_nodes_n nd c b0 t0 (r - l) hn,
    ?_, ?_, rfl, rfl, splitEdge_nodes_new nd c b0 t0 (r - l) hn, ?_, rfl, rfl, ?_, ?_, rfl, rfl,
    rfl⟩
  · simp only []
    rw [mapFind_mapAssign]
    simp
  · intro c1 hc1
    simp only []
    rw [mapFind_mapAssign, if_neg hc1]
  · simp only []
    have e2 : t0.sub.l + (r - l + 1) = t0.sub.l + (r - l) + 1 := by omega
    rw [e2]
  · intro m hm1 hne1
    exact splitEdge_nodes_old nd c b0 t0 (r - l) hm1 hne1
  · intro v
    rw [spelled_root_iff hwfl, spelled_root_iff h]
    exact InW_splitEdge h e (by omega) hd1 v

/-- C23 (split postcondition of `test_and_split`): in every state reached from
the fresh tree (by calls on inputs below `SIZE_BOUND` bytes, each with the fuel
to run to its end), for a non-empty span `(id, l, r)` at node `n`,
`delta = r - l`, such that the edge leaving `n` on `w[l]` has the label
`(ref', l', r')`, is longer than `delta + 1` bytes, and has a byte at
`stored[ref'][l' + delta + 1]` that differs from `t`: `test_and_split` returns
false with the fresh cell `r_new` as its output; the transition of `n` on
`w[l]` is now `(ref', l', l' + delta)` to `r_new`; `r_new` has one transition,
keyed by `stored[ref'][l' + delta + 1]`, with label `(ref', l' + delta + 1, r')`
and the former target; the other transitions of `n`, its suffix link and its
colours and all other nodes are as before; the strings spelled by root paths
are the same as before; the colours-clean flag is cleared. -/
theorem test_and_split_split (calls : List (Nat × List Char)) (n : Nat) (id l r : Int)
    (t : Char) (w : List Char) (hsize : ∀ c ∈ calls, (c.2.length : Int) < SIZE_BOUND)
    (hfuel : ∀ c ∈ calls, c.2.length + 2 < c.1) :
    ∃ (st : Tree) (ids : List Int), add_strings Tree.fresh calls = some (st, ids) ∧
      ∀ (nd : Node) (c b0 : Char) (t0 : Transition) (S : List Char),
        st.nodes[n]? = some nd → l ≤ r → strAt w l = some c → mapFind c nd.g = some t0 →
        mapFind t0.sub.ref_str st.haystack = some S →
        r - l + 1 < (labelOf S t0.sub).length →
        strAt S (t0.sub.l + (r - l) + 1) = some b0 → b0 ≠ t →
        ∃ (st1 : Tree) (nd1 ndn : Node),
          test_and_split st (some n) ⟨id, l, r⟩ t w =
            some (st1, false, some st.nodes.length) ∧
          st1.nodes.length = st.nodes.length + 1 ∧
          st1.nodes[n]? = some nd1 ∧
          mapFind c nd1.g =
            some ⟨⟨t0.sub.ref_str, t0.sub.l, t0.sub.l + (r - l)⟩, some st.nodes.length⟩ ∧
          (∀ c1 : Char, c1 ≠ c → mapFind c1 nd1.g = mapFind c1 nd.g) ∧
          nd1.suffix_link = nd.suffix_link ∧ nd1.colors = nd.colors ∧
          st1.nodes[st.nodes.length]? = some ndn ∧
          ndn.g = [(b0, ⟨⟨t0.sub.ref_str, t0.sub.l + (r - l) + 1, t0.sub.r⟩, t0.tgt⟩)] ∧
          ndn.suffix_link = none ∧ ndn.colors = 0 ∧
          (∀ m : Nat, m < st.nodes.length → m ≠ n → st1.nodes[m]? = st.nodes[m]?) ∧
          (∀ v : List Char, Spelled st1 rootId v ↔ Spelled st rootId v) ∧
          st1.haystack = st.haystack ∧ st1.last_index = st.last_index ∧
          st1.colors_computed = false := by
  obtain ⟨st, ids, lab, hrun, R, _, _⟩ := session_spec calls hsize hfuel
  refine ⟨st, ids, hrun, ?_⟩
  intro nd c b0 t0 S hnd hlr hc hm hS hlen hb0 hne
  exact ts_split_post R.wfl id hnd hc hm hS hlr hlen hb0 hne

theorem test_and_split_split_witness :
    ∃ (st : Tree) (ids : List Int),
      add_strings Tree.fresh [(8, ['a', 'b'])] = some (st, ids) ∧
      ∃ (st1 : Tree) (nd1 ndn : Node),
        test_and_split st (some rootId) ⟨1, 0, 0⟩ 'x' ['a', 'b', '$'] =
          some (st1, false, some st.nodes.length) ∧
        st1.nodes.length = st.nodes.length + 1 ∧
        st1.nodes[rootId]? = some nd1 ∧
        mapFind 'a' nd1.g = some ⟨⟨1, 0, 0 + (0 - 0)⟩, some st.nodes.length⟩ ∧
        (∀ c1 : Char, c1 ≠ 'a' →
          mapFind c1 nd1.g = mapFind c1 ((st.nodes[rootId]?).getD Node.fresh).g) ∧
        nd1.suffix_link = ((st.nodes[rootId]?).getD Node.fresh).suffix_link ∧
        nd1.colors = ((st.nodes[rootId]?).getD Node.fresh).colors ∧
        st1.nodes[st.nodes.length]? = some ndn ∧
        ndn.g = [('b', ⟨⟨1, 0 + (0 - 0) + 1, INT_MAX⟩, some 2⟩)] ∧
        ndn.suffix_link = none ∧ ndn.colors = 0 ∧
        (∀ m : Nat, m < st.nodes.length → m ≠ rootId → st1.nodes[m]? = st.nodes[m]?) ∧
        (∀ v : List Char, Spelled st1 rootId v ↔ Spelled st rootId v) ∧
        st1.haystack = st.haystack ∧ st1.last_index = st.last_index ∧
        st1.colors_computed = false :=
  match test_and_split_split [(8, ['a', 'b'])] rootId 1 0 0 'x' ['a', 'b', '$']
    (by decide) (by decide) with
  | ⟨st, ids, hrun, hall⟩ =>
    have e : st = ((add_strings Tree.fresh [(8, ['a', 'b'])]).map Prod.fst).getD Tree.fresh := by
      rw [hrun]; rfl
    have hS : mapFind 1 st.haystack = some ['a', 'b', '$'] := by rw [e]; decide
    ⟨st, ids, hrun, hall ((st.nodes[rootId]?).getD Node.fresh) 'a' 'b'
      ⟨⟨1, 0, INT_MAX⟩, some 2⟩ ['a', 'b', '$'] (by rw [e]; decide) (by decide) (by decide)
      (by rw [e]; decide) hS (by decide) (by decide) (by decide)⟩

/-! ## What the steps of `update` change -/

/-- What a call of `test_and_split` does to the state: nothing, or it marks the
target of the transition on `t` (empty span, end point), or it splits an edge
(non-empty span, no end point). -/
theorem ts_cases {st st1 : Tree} {n r : Option Nat} {kp : MappedSubstring} {t : Char}
    {w : List Char} {b : Bool} (h : test_and_split st n kp t w = some (st1, b, r)) :
    st1 = st ∨
    (kp.r < kp.l ∧ b = true ∧ ∃ (tt : Transition) (j : Nat) (ndj : Node),
      st.find_alpha_transition n t = some tt ∧ tt.tgt = some j ∧ st.nodes[j]? = some ndj ∧
      st1 = st.setNode j (ndj.mark_string kp.ref_str)) ∨
    (kp.l ≤ kp.r ∧ b = false ∧ ∃ (n0 : Nat) (nd : Node) (tk key : Char) (t0 : Transition),
      n = some n0 ∧ st.nodes[n0]? = some nd ∧ key ≠ t ∧
      st1 = splitEdge st n0 nd tk key t0 (kp.r - kp.l) ∧ r = some st.nodes.length) := by
  unfold test_and_split at h
  simp only [] at h
  split at h
  · rename_i hd
    split at h
    · simp at h
    · rename_i tt hfind
      split at h
      · rename_i hv
        split at h
        · simp at h
        · rename_i st2 hm
          simp only [Option.some.injEq, Prod.mk.injEq] at h
          obtain ⟨rfl, hb, _⟩ := h
          obtain ⟨j, ndj, hj, hndj, rfl⟩ := modify_spec hm
          right
          left
          exact ⟨by omega, by rw [← hb]; exact hv.1, tt, j, ndj, hfind, hj, hndj, rfl⟩
      · simp only [Option.some.injEq, Prod.mk.injEq] at h
        exact Or.inl h.1.symm
  · rename_i hd
    split at h
    · simp at h
    · rename_i tk htk
      split at h
      · simp at h
      · rename_i t0 hfind
        split at h
        · simp at h
        · rename_i S hS
          split at h
          · simp at h
          · rename_i c hc
            split at h
            · simp only [Option.some.injEq, Prod.mk.injEq] at h
              exact Or.inl h.1.symm
            · rename_i hne
              split at h
              · simp at h
              · rename_i key hkey
                split at h
                · simp at h
                · rename_i st2 hm2
                  split at h
                  · simp at h
                  · rename_i st3 hm3
                    simp only [Option.some.injEq, Prod.mk.injEq] at h
                    obtain ⟨rfl, hb, hr⟩ := h
                    right
                    right
                    obtain ⟨i2, nd2, hi2, hnd2, rfl⟩ := modify_spec hm2
                    obtain ⟨n0, nd3, hn0, hnd3, rfl⟩ := modify_spec hm3
                    have hi2' : i2 = st.nodes.length := by
                      have := Option.some.inj hi2
                      rw [alloc_snd] at this
                      exact this.symm
                    subst hi2'
                    rw [nodes_alloc_new] at hnd2
                    have e2 := Option.some.inj hnd2
                    have hn0lt : n0 < st.nodes.length := by
                      rw [hn0] at hfind
                      unfold Tree.find_alpha_transition at hfind
                      simp only [] at hfind
                      split at hfind
                      · simp at hfind
                      · rename_i nd hnd
                        exact lt_of_getElem? hnd
                    have hnd0 : st.nodes[n0]? = some nd3 := by
                      rw [nodes_setNode_ne _ (by omega), nodes_alloc_lt hn0lt] at hnd3
                      exact hnd3
                    have hkc : key = c := by
                      have e1 : t0.sub.l + (kp.r - kp.l + 1) = t0.sub.l + (kp.r - kp.l) + 1 := by
                        omega
                      rw [e1, hc] at hkey
                      exact (Option.some.inj hkey).symm
                    refine ⟨by omega, hb.symm, n0, nd3, tk, key, t0, hn0, hnd0, by rw [hkc]; exact hne,
                      ?_, hr.symm⟩
                    unfold splitEdge
                    rw [← e2]
                    rfl

/-! ## The cells allocated by one call of `update` -/

theorem mapAssign_ne_nil {κ β : Type} [DecidableEq κ] (k : κ) (v : β) (m : List (κ × β)) :
    mapAssign k v m ≠ [] := by
  cases m with
  | nil => simp [mapAssign]
  | cons p rest =>
    obtain ⟨k1, v1⟩ := p
    unfold mapAssign
    split <;> simp

theorem mapInsert_ne_nil {κ β : Type} [DecidableEq κ] (k : κ) (v : β) (m : List (κ × β))
    (h : mapFind k m = none) : mapInsert k v m ≠ [] := by
  unfold mapInsert
  rw [h]
  simp

theorem NewCells.start {st : Tree} {lab : Nat → List Char} (h : WFL st lab) (id j : Int)
    (t : Char) (k : Int) : NewCells st lab id j t st.nodes.length st.colors_computed k := by
  refine ⟨h.len, le_refl _, ?_, Or.inl ⟨rfl, ?_⟩⟩
  · intro x ndx hx hnd
    have := lt_of_getElem? hnd
    omega
  · intro x ndx hx hnd
    have := lt_of_getElem? hnd
    omega

/-- A write to a cell that keeps its transitions, and its colours if it is a
new leaf, keeps the description of the new cells. -/
theorem NewCells.write {st : Tree} {lab lab1 : Nat → List Char} {id j : Int} {t : Char}
    {B : Nat} {f : Bool} {k : Int} (N : NewCells st lab id j t B f k) {i : Nat} {nd nd1 : Node}
    (hi : st.nodes[i]? = some nd) (hg : nd1.g = nd.g)
    (hc : B ≤ i → nd.g = [] → nd1.colors = nd.colors)
    (hlab : ∀ m : Nat, m < st.nodes.length → lab1 m = lab m) :
    NewCells (st.setNode i nd1) lab1 id j t B f k := by
  have hil := lt_of_getElem? hi
  have key : ∀ (p : Nat) (ndp : Node), st.nodes[p]? = some ndp →
      ∃ ndp1 : Node, (st.setNode i nd1).nodes[p]? = some ndp1 ∧ ndp1.g = ndp.g := by
    intro p ndp hp
    by_cases e : p = i
    · rw [e] at hp ⊢
      rw [hi] at hp
      rw [← Option.some.inj hp]
      exact ⟨nd1, nodes_setNode_eq _ hil, hg⟩
    · exact ⟨ndp, by rw [nodes_setNode_ne _ e]; exact hp, rfl⟩
  have back : ∀ (x : Nat) (ndx1 : Node), (st.setNode i nd1).nodes[x]? = some ndx1 →
      ∃ ndx : Node, st.nodes[x]? = some ndx ∧ ndx1.g = ndx.g ∧
        (B ≤ x → ndx.g = [] → ndx1.colors = ndx.colors) := by
    intro x ndx1 hx
    by_cases e : x = i
    · rw [e] at hx ⊢
      rw [nodes_setNode_eq _ hil] at hx
      rw [← Option.some.inj hx]
      exact ⟨nd, hi, hg, hc⟩
    · rw [nodes_setNode_ne _ e] at hx
      exact ⟨ndx1, hx, rfl, fun _ _ => rfl⟩
  refine ⟨N.base, by rw [length_setNode]; exact N.bound, ?_, ?_⟩
  · intro x ndx1 hB hx hleaf
    obtain ⟨ndx, h1, h2, h3⟩ := back x ndx1 hx
    rw [h2] at hleaf
    obtain ⟨c0, p, ndp, hp1, hp, hm, hl⟩ := N.leaf x ndx hB h1 hleaf
    obtain ⟨ndp1, k1, k2⟩ := key p ndp hp
    refine ⟨by rw [h3 hB hleaf]; exact c0, p, ndp1, hp1, k1, by rw [k2]; exact hm, ?_⟩
    rw [hlab p (lt_of_getElem? hp)]
    exact hl
  · rcases N.flag with ⟨h1, h2⟩ | ⟨h1, x, ndx, hx, hnd, hne⟩
    · left
      refine ⟨h1, ?_⟩
      intro x ndx1 hB hx
      obtain ⟨ndx, k1, k2, _⟩ := back x ndx1 hx
      rw [k2]
      exact h2 x ndx hB k1
    · right
      obtain ⟨ndx1, k1, k2⟩ := key x ndx hnd
      exact ⟨h1, x, ndx1, hx, k1, by rw [k2]; exact hne⟩

/-- The new cells after the leaf of the suffix that starts at `k` is hung under
the node `rn`, whose label has `j - k` bytes. -/
theorem NewCells.hang {st : Tree} {lab lab1 : Nat → List Char} {id j : Int} {t : Char}
    {B : Nat} {f : Bool} {k : Int} (N : NewCells st lab id j t B f k) (h : WFL st lab)
    {rn : Nat} {ndr : Node} (hra : Attached st rn) (hndr : st.nodes[rn]? = some ndr)
    (hfree : mapFind t ndr.g = none) (hlen : ((lab rn).length : Int) = j - k)
    (hlab : ∀ m : Nat, m < st.nodes.length → lab1 m = lab m) :
    NewCells (SuffixTree.addLeaf st rn ndr t ⟨id, j, INT_MAX⟩) lab1 id j t B f (k + 1) := by
  have hnew := addLeaf_nodes_new ndr t ⟨id, j, INT_MAX⟩ hra.2
  have hr := addLeaf_nodes_r ndr t ⟨id, j, INT_MAX⟩ hra.2
  have hlenA := addLeaf_length st rn ndr t ⟨id, j, INT_MAX⟩
  -- a new leaf is not the node that gets the new transition
  have hnotleaf : B ≤ rn → ndr.g = [] → False := by
    intro hB hleaf
    obtain ⟨_, p, ndp, hp1, hp, hm, hl⟩ := N.leaf rn ndr hB hndr hleaf
    obtain ⟨x, S, e⟩ := h.edges p ndp t _ hp1 hp hm
    have ex : x = rn := by
      have := e.tgt
      exact (Option.some.inj this).symm
    have hl2 := e.lab_eq
    rw [ex, e.label_cons (h.strs _ _ e.ref)] at hl2
    have hl3 := congrArg List.length hl2
    simp only [List.length_append, List.length_cons] at hl3
    omega
  refine ⟨N.base, by rw [hlenA]; have := N.bound; omega, ?_, ?_⟩
  · intro x ndx hB hx hleaf
    by_cases e1 : x = st.nodes.length
    · rw [e1] at hx ⊢
      rw [hnew] at hx
      rw [← Option.some.inj hx]
      refine ⟨rfl, rn, _, hra.1, hr, ?_, ?_⟩
      · simp only []
        rw [mapFind_mapInsert _ _ _ _ hfree, if_pos rfl]
      · rw [hlab rn hra.2]
        omega
    · have hxl : x < st.nodes.length := by
        have := lt_of_getElem? hx
        rw [hlenA] at this
        omega
      by_cases e2 : x = rn
      · exfalso
        rw [e2, hr] at hx
        rw [← Option.some.inj hx] at hleaf
        exact mapInsert_ne_nil _ _ _ hfree hleaf
      · rw [addLeaf_nodes_old _ _ _ hxl e2] at hx
        obtain ⟨c0, p, ndp, hp1, hp, hm, hl⟩ := N.leaf x ndx hB hx hleaf
        have hpr : p ≠ rn := by
          intro e3
          rw [e3, hndr] at hp
          rw [← Option.some.inj hp, hfree] at hm
          cases hm
        refine ⟨c0, p, ndp, hp1, ?_, hm, ?_⟩
        · rw [addLeaf_nodes_old _ _ _ (lt_of_getElem? hp) hpr]
          exact hp
        · rw [hlab p (lt_of_getElem? hp)]
          omega
  · rcases N.flag with ⟨h1, h2⟩ | ⟨h1, x, ndx, hx, hnd, hne⟩
    · left
      refine ⟨h1, ?_⟩
      intro x ndx hB hx
      by_cases e1 : x = st.nodes.length
      · rw [e1, hnew] at hx
        rw [← Option.some.inj hx]
        rfl
      · have hxl : x < st.nodes.length := by
          have := lt_of_getElem? hx
          rw [hlenA] at this
          omega
        by_cases e2 : x = rn
        · exfalso
          rw [e2] at hB
          exact hnotleaf hB (h2 rn ndr hB hndr)
        · rw [addLeaf_nodes_old _ _ _ hxl e2] at hx
          exact h2 x ndx hB hx
    · right
      refine ⟨h1, ?_⟩
      by_cases e2 : x = rn
      · rw [e2] at hx
        exact ⟨rn, _, hx, hr, mapInsert_ne_nil _ _ _ hfree⟩
      · exact ⟨x, ndx, hx, by rw [addLeaf_nodes_old _ _ _ (lt_of_getElem? hnd) e2]; exact hnd,
          hne⟩

/-- The new cells after a split at the node `n0`, whose label has at most
`j - k` bytes. -/
theorem NewCells.split {st : Tree} {lab lab1 : Nat → List Char} {id j : Int} {t : Char}
    {B : Nat} {f : Bool} {k : Int} (N : NewCells st lab id j t B f k) {n0 : Nat} {nd : Node}
    (hnd : st.nodes[n0]? = some nd) (hlen : ((lab n0).length : Int) ≤ j - k)
    (tk key : Char) (t0 : Transition) (delta : Int)
    (hlab : ∀ m : Nat, m < st.nodes.length → lab1 m = lab m) :
    NewCells (splitEdge st n0 nd tk key t0 delta) lab1 id j t B f k := by
  have hn0 := lt_of_getElem? hnd
  have hnew := splitEdge_nodes_new nd tk key t0 delta hn0
  have hn := splitEdge_nodes_n nd tk key t0 delta hn0
  have hlenS := splitEdge_length st n0 nd tk key t0 delta
  refine ⟨N.base, by rw [hlenS]; have := N.bound; omega, ?_, Or.inr ⟨rfl, st.nodes.length, _,
    N.bound, hnew, by simp⟩⟩
  intro x ndx hB hx hleaf
  by_cases e1 : x = st.nodes.length
  · exfalso
    rw [e1, hnew] at hx
    rw [← Option.some.inj hx] at hleaf
    simp at hleaf
  · have hxl : x < st.nodes.length := by
      have := lt_of_getElem? hx
      rw [hlenS] at this
      omega
    by_cases e2 : x = n0
    · exfalso
      rw [e2, hn] at hx
      rw [← Option.some.inj hx] at hleaf
      exact mapAssign_ne_nil _ _ _ hleaf
    · rw [splitEdge_nodes_old _ _ _ _ _ hxl e2] at hx
      obtain ⟨c0, p, ndp, hp1, hp, hm, hl⟩ := N.leaf x ndx hB hx hleaf
      have hpn : p ≠ n0 := by
        intro e3
        rw [e3] at hl
        omega
      refine ⟨c0, p, ndp, hp1, ?_, hm, ?_⟩
      · rw [splitEdge_nodes_old _ _ _ _ _ (lt_of_getElem? hp) hpn]
        exact hp
      · rw [hlab p (lt_of_getElem? hp)]
        exact hl

/-- The new cells after a call of `test_and_split` at a node whose label has
at most `j - k` bytes, or at the sink. -/
theorem NewCells.test {st st1 : Tree} {lab lab1 : Nat → List Char} {id j : Int} {t : Char}
    {B : Nat} {f : Bool} {k : Int} (N : NewCells st lab id j t B f k) (h : WFL st lab)
    {n : Nat} {kp : MappedSubstring} {w : List Char} {b : Bool} {r : Option Nat}
    (hts : test_and_split st (some n) kp t w = some (st1, b, r))
    (hn : (n = sinkId ∧ kp.r < kp.l) ∨ (Attached st n ∧ ((lab n).length : Int) ≤ j - k))
    (hlab : ∀ m : Nat, m < st.nodes.length → lab1 m = lab m) :
    NewCells st1 lab1 id j t B f k := by
  rcases ts_cases hts with e | ⟨hlr, _, tt, x, ndx, hfind, htgt, hndx, e⟩ |
    ⟨hlr, _, n0, nd, tk, key, t0, hn0, hnd, _, e, _⟩
  · rw [e]
    exact ⟨N.base, N.bound, fun x ndx hB hx hleaf => by
      obtain ⟨c0, p, ndp, hp1, hp, hm, hl⟩ := N.leaf x ndx hB hx hleaf
      exact ⟨c0, p, ndp, hp1, hp, hm, by rw [hlab p (lt_of_getElem? hp)]; exact hl⟩, N.flag⟩
  · rw [e]
    refine N.write hndx (mark_string_g _ _) ?_ hlab
    intro hB hleaf
    exfalso
    rcases hn with ⟨hs, _⟩ | ⟨hatt, hlen⟩
    · rw [hs, find_alpha_sink h t] at hfind
      rw [← Option.some.inj hfind] at htgt
      have := Option.some.inj htgt
      have := N.base
      unfold rootId at *
      omega
    · obtain ⟨ndn, hndn⟩ := hatt.node
      rw [find_alpha_node t hatt.1 hndn] at hfind
      cases hm : mapFind t ndn.g with
      | none =>
        rw [hm] at hfind
        rw [← Option.some.inj hfind] at htgt
        cases htgt
      | some t1 =>
        rw [hm] at hfind
        have e1 : t1 = tt := Option.some.inj hfind
        rw [e1] at hm
        obtain ⟨_, p, ndp, hp1, hp, hmp, hl⟩ := N.leaf x ndx hB hndx hleaf
        obtain ⟨e2, _, _⟩ := h.parent_unique hatt.1 hndn hm htgt hp1 hp hmp rfl
        rw [← e2] at hl
        omega
  · have hnn : n0 = n := (Option.some.inj hn0).symm
    rw [e]
    rcases hn with ⟨_, hlr2⟩ | ⟨_, hlen⟩
    · omega
    · rw [hnn] at hnd ⊢
      exact N.split hnd hlen tk key t0 _ hlab

/-- One round of the loop of `update`, with the states it goes through: the
leaf is hung under `rn`, the suffix link of the node of the round before is
set, and `test_and_split` is called at the next position. -/
theorem loop_step_trace {s : List Char} {id : Int} {OldW : List Char → Prop} {j : Int}
    {t : Char} {cf : Nat} (hcf : j + 1 < cf) {st : Tree} {lab : Nat → List Char} {k : Int}
    {oldr : Option Nat} {sk : ReferencePoint} {r : Option Nat}
    (L : LoopInv st lab s id OldW j t k oldr sk false r) :
    ∃ (rn : Nat) (ndr : Node) (st3 : Tree) (lab2 : Nat → List Char) (st5 : Tree)
      (lab5 : Nat → List Char) (sk1 : ReferencePoint) (ep1 : Bool) (r1 : Option Nat),
      (∀ fuel : Nat, updateLoop cf s id j t (fuel + 1) st oldr sk ⟨id, sk.pos, j - 1⟩ false r =
        updateLoop cf s id j t fuel st5 r sk1 ⟨id, sk1.pos, j - 1⟩ ep1 r1) ∧
      LoopInv st5 lab5 s id OldW j t (k + 1) r sk1 ep1 r1 ∧ k ≤ j ∧
      r = some rn ∧ Attached st rn ∧ lab rn = slice s k j ∧ st.nodes[rn]? = some ndr ∧
      mapFind t ndr.g = none ∧
      (st3 = addLeaf st rn ndr t ⟨id, j, INT_MAX⟩ ∨
        ∃ (o : Nat) (ndo : Node), (addLeaf st rn ndr t ⟨id, j, INT_MAX⟩).nodes[o]? = some ndo ∧
          st3 = (addLeaf st rn ndr t ⟨id, j, INT_MAX⟩).setNode o
            { ndo with suffix_link := some rn }) ∧
      WFL st3 lab2 ∧ (∀ m : Nat, m < st.nodes.length → lab2 m = lab m) ∧
      test_and_split st3 sk1.node ⟨id, sk1.pos, j - 1⟩ t s = some (st5, ep1, r1) ∧
      ((sk1.node = some sinkId ∧ sk1.pos = j) ∨
        ∃ n1 : Nat, sk1.node = some n1 ∧ Attached st3 n1 ∧ lab2 n1 = slice s (k + 1) sk1.pos ∧
          k + 1 ≤ sk1.pos ∧ sk1.pos ≤ j) ∧
      (∀ m : Nat, m < st3.nodes.length → lab5 m = lab2 m) := by
  rcases L.pos with ⟨_, _, _, h4, _⟩ | ⟨n, hskn, hn, hin, hkp, hpj, hlab, hlink, _, hrn⟩
  · cases h4
  obtain ⟨rn, ndr, hr, hra, hri, hrl, hndr, hfree, hrc⟩ := hrn rfl
  have hkj : k ≤ j := by omega
  have hk0 := L.phase.k_lo
  obtain ⟨e1, st3, lab2, e2, P3, hext, hlinks3⟩ := loop_leaf L hr hra hri hrl hndr hfree hkj
  have hshape : st3 = addLeaf st rn ndr t ⟨id, j, INT_MAX⟩ ∨
      ∃ (o : Nat) (ndo : Node), (addLeaf st rn ndr t ⟨id, j, INT_MAX⟩).nodes[o]? = some ndo ∧
        st3 = (addLeaf st rn ndr t ⟨id, j, INT_MAX⟩).setNode o
          { ndo with suffix_link := some rn } := by
    by_cases ho : oldr = some rootId
    · rw [if_neg (not_not.mpr ho)] at e2
      exact Or.inl (Option.some.inj e2).symm
    · rw [if_pos ho] at e2
      obtain ⟨o, ndo, _, h2, h3⟩ := modify_spec e2
      rw [hr] at h3
      exact Or.inr ⟨o, ndo, h2, h3⟩
  have hn3 := hext.keeps_attached hn
  obtain ⟨nd3, hnd3⟩ := hn3.node
  have hlab3 : lab2 n = slice s k sk.pos := by rw [hext.lab_old n hn.2]; exact hlab
  have hlink3 : n = rootId ∨ LinkOK st3 lab2 n := hlink.imp (fun e => e) (hext.link n)
  have hrl3 : lab2 rn = slice s k j := by rw [hext.lab_old rn hra.2]; exact hrl
  have hrlen : ((slice s k j).length : Int) = j - k :=
    slice_length hk0 hkj (by have := L.hj; omega)
  by_cases hse : n = rootId ∧ sk.pos = j
  · obtain ⟨hroot, hpos⟩ := hse
    subst hroot
    obtain ⟨ndr3, hndr3, hlk⟩ := P3.wfl.root_link
    rw [hnd3] at hndr3
    obtain rfl := Option.some.inj hndr3
    have hkeq : k = j := by
      have hl0 : ((slice s k sk.pos).length : Int) = sk.pos - k :=
        slice_length hk0 hkp (by have := L.hj; omega)
      rw [← hlab, L.phase.wfl.lab_root] at hl0
      simp at hl0
      omega
    have hw5 : WFL (st3.setNode rootId (nd3.mark_string id)) lab2 :=
      P3.wfl.setNode_same hnd3 (mark_string_g _ _) (fun _ => mark_string_link _ _)
    have hrroot : rn = rootId := by
      apply L.phase.wfl.lab_nil_root hra.1 hra.2
      rw [hrl, hkeq]
      exact slice_self _ _
    have hts := @ts_empty_sink st3 lab2 nd3 id j j t s P3.wfl (le_refl j) P3.idpos hnd3
    refine ⟨rn, ndr, st3, lab2, st3.setNode rootId (nd3.mark_string id), lab2,
      ⟨some sinkId, id, j⟩, true, some sinkId, ?_, ?_, hkj, hr, hra, hrl, hndr, hfree, hshape,
      P3.wfl, hext.lab_old, hts, Or.inl ⟨rfl, rfl⟩, fun _ _ => rfl⟩
    · intro fuel
      rw [updateLoop]
      rw [if_neg (by simp)]
      simp only []
      rw [e1]
      simp only []
      rw [e2]
      simp only []
      rw [hskn]
      simp only [Tree.deref]
      rw [hnd3]
      simp only []
      rw [hlk, hpos, canonize_sink_empty]
      simp only []
      rw [hts]
    · refine ⟨P3.transport hw5 rfl (fun w => InW_frame (length_setNode _ _ _) w), L.hj, L.ht,
        LinksOK_mono (LinksOK_setNode_same hlinks3 hnd3 (mark_string_g _ _)
          (mark_string_link _ _)) (fun v hv => Or.inl hv),
        Or.inl (by rw [hr, hrroot]), ?_, Or.inl ⟨rfl, rfl, by omega, rfl, by rw [hr, hrroot]⟩⟩
      intro _
      rw [hkeq, slice_self]
      exact InW_nil hw5
  · obtain ⟨rp, hrp, n1, h1, h2, h3, h4, h5, h6, h7⟩ :=
      link_canonize P3 L.hj hk0 hn3 hkp hpj hlab3 hlink3 hnd3 hcf hse
    obtain ⟨st5, lab5, ep, r1, hts, hw5, hext5, hback, hlinks5, hep, hnep⟩ :=
      ts_spec P3.wfl P3.hs P3.idpos L.ht L.hj h2 h3 (by omega : 0 ≤ k + 1) h4 h5 h6 h7
    have hext05 := hext.comp hext5
    refine ⟨rn, ndr, st3, lab2, st5, lab5, rp, ep, r1, ?_, ?_, hkj, hr, hra, hrl, hndr, hfree,
      hshape, P3.wfl, hext.lab_old, by rw [h1]; exact hts, Or.inr ⟨n1, h1, h2, h6, h4, h5⟩,
      hext5.lab_old⟩
    · intro fuel
      rw [updateLoop]
      rw [if_neg (by simp)]
      simp only []
      rw [e1]
      simp only []
      rw [e2]
      simp only []
      rw [hskn]
      simp only [Tree.deref]
      rw [hnd3]
      simp only []
      rw [hrp]
      simp only []
      rw [h1, hts]
    · refine ⟨P3.transport hw5 hext5.hay (fun w => ⟨hback w, hext5.inw w⟩), L.hj, L.ht,
        hlinks5 _ hlinks3, ?_, fun e => (hep e).1,
        Or.inr ⟨n1, h1, hext5.keeps_attached h2, hext5.inner _ h3, h4, h5, ?_, ?_,
          fun e => (hep e).2, hnep⟩⟩
      · by_cases hrr : rn = rootId
        · exact Or.inl (by rw [hr, hrr])
        · rcases hrc with e | ⟨c, hct, hc⟩
          · exact absurd e hrr
          · refine Or.inr ⟨rn, hr, by omega, hext05.keeps_attached hra, hext05.inner _ hri, ?_, c,
              hct, ?_⟩
            · rw [hext05.lab_old rn hra.2, hrl]
              congr 1
              omega
            · rw [hext05.lab_old rn hra.2]
              exact hext05.inw _ hc
      · rw [hext5.lab_old n1 h2.2]
        exact h6
      · by_cases hr1 : n1 = rootId
        · exact Or.inl hr1
        · right
          apply hext5.link
          apply hlinks3 n1 h3 hr1
          intro e
          rw [hr] at e
          have e2 : rn = n1 := Option.some.inj e
          subst e2
          rw [h6] at hrl3
          have hl1 : ((slice s (k + 1) rp.pos).length : Int) = rp.pos - (k + 1) :=
            slice_length (by omega) h4 (by have := L.hj; omega)
          rw [hrl3] at hl1
          omega

/-- One round of the loop of `update` keeps the description of the new cells. -/
theorem loop_step_cells {s : List Char} {id : Int} {OldW : List Char → Prop} {j : Int}
    {t : Char} {cf : Nat} (hcf : j + 1 < cf) {st : Tree} {lab : Nat → List Char} {k : Int}
    {oldr : Option Nat} {sk : ReferencePoint} {r : Option Nat} {B : Nat} {f : Bool}
    (L : LoopInv st lab s id OldW j t k oldr sk false r) (N : NewCells st lab id j t B f k) :
    ∃ (st5 : Tree) (lab5 : Nat → List Char) (sk1 : ReferencePoint) (ep1 : Bool)
      (r1 : Option Nat),
      (∀ fuel : Nat, updateLoop cf s id j t (fuel + 1) st oldr sk ⟨id, sk.pos, j - 1⟩ false r =
        updateLoop cf s id j t fuel st5 r sk1 ⟨id, sk1.pos, j - 1⟩ ep1 r1) ∧
      LoopInv st5 lab5 s id OldW j t (k + 1) r sk1 ep1 r1 ∧ k ≤ j ∧
      NewCells st5 lab5 id j t B f (k + 1) := by
  obtain ⟨rn, ndr, st3, lab2, st5, lab5, sk1, ep1, r1, heq, L5, hkj, hr, hra, hrl, hndr, hfree,
    hshape, hw3, hlab2, hts, hpos, hlab5⟩ := loop_step_trace hcf L
  refine ⟨st5, lab5, sk1, ep1, r1, heq, L5, hkj, ?_⟩
  have hk0 := L.phase.k_lo
  have hj := L.hj
  have hrlen : ((lab rn).length : Int) = j - k := by
    rw [hrl]
    exact slice_length hk0 hkj (by omega)
  have hlenA := addLeaf_length st rn ndr t ⟨id, j, INT_MAX⟩
  have N2 : NewCells (addLeaf st rn ndr t ⟨id, j, INT_MAX⟩) lab2 id j t B f (k + 1) :=
    N.hang L.phase.wfl hra hndr hfree hrlen hlab2
  have N3 : NewCells st3 lab2 id j t B f (k + 1) := by
    rcases hshape with e | ⟨o, ndo, ho, e⟩
    · rw [e]
      exact N2
    · rw [e]
      exact N2.write ho rfl (fun _ _ => rfl) (fun _ _ => rfl)
  rcases hpos with ⟨h1, h2⟩ | ⟨n1, h1, h2, h3, h4, h5⟩
  · rw [h1] at hts
    exact N3.test hw3 hts (Or.inl ⟨rfl, by show j - 1 < sk1.pos; omega⟩) hlab5
  · rw [h1] at hts
    refine N3.test hw3 hts (Or.inr ⟨h2, ?_⟩) hlab5
    rw [h3, slice_length (by omega) h4 (by omega)]
    omega

/-- The exit of the loop of `update` writes one suffix link at most. -/
theorem updateLoop_exit_shape {cf : Nat} {w : List Char} {ki_ref ki_r : Int} {t : Char}
    {fuel : Nat} {st : Tree} {oldr : Option Nat} {sk : ReferencePoint} {ki1 : MappedSubstring}
    {r : Option Nat} {res : Tree × ReferencePoint}
    (h : updateLoop cf w ki_ref ki_r t (fuel + 1) st oldr sk ki1 true r = some res) :
    res.1 = st ∨ ∃ (o : Nat) (ndo : Node), st.nodes[o]? = some ndo ∧
      res.1 = st.setNode o { ndo with suffix_link := sk.node } := by
  unfold updateLoop at h
  rw [if_pos rfl] at h
  by_cases ho : oldr = some rootId
  · rw [if_neg (not_not.mpr ho)] at h
    left
    rw [← Option.some.inj h]
  · rw [if_pos ho] at h
    split at h
    · simp at h
    · rename_i st1 hm
      obtain ⟨o, ndo, _, h2, h3⟩ := modify_spec hm
      right
      refine ⟨o, ndo, h2, ?_⟩
      rw [← Option.some.inj h]
      exact h3

/-- The loop of `update` ends and leaves the new cells as described. -/
theorem updateLoop_cells {s : List Char} {id : Int} {OldW : List Char → Prop} {j : Int}
    {t : Char} {cf : Nat} (htail : ∀ (c : Char) (w : List Char), OldW (c :: w) → OldW w)
    (hcf : j + 1 < cf) (B : Nat) (f : Bool) :
    ∀ (fuel : Nat) (st : Tree) (lab : Nat → List Char) (k : Int) (oldr : Option Nat)
      (sk : ReferencePoint) (ep : Bool) (r : Option Nat),
      LoopInv st lab s id OldW j t k oldr sk ep r → j + 1 - k < fuel →
      NewCells st lab id j t B f k →
      ∃ res : Tree × ReferencePoint,
        updateLoop cf s id j t fuel st oldr sk ⟨id, sk.pos, j - 1⟩ ep r = some res ∧
        UpdatePost s id OldW j res ∧
        ∃ (lab1 : Nat → List Char) (k1 : Int), NewCells res.1 lab1 id j t B f k1 := by
  intro fuel
  induction fuel with
  | zero =>
    intro st lab k oldr sk ep r L hf
    have := L.phase.k_hi
    omega
  | succ fuel ih =>
    intro st lab k oldr sk ep r L hf N
    cases ep with
    | true =>
      obtain ⟨res, hres, U⟩ := updateLoop_exit L htail cf fuel ⟨id, sk.pos, j - 1⟩
      refine ⟨res, hres, U, lab, k, ?_⟩
      rcases updateLoop_exit_shape hres with e | ⟨o, ndo, ho, e⟩
      · rw [e]
        exact N
      · rw [e]
        exact N.write ho rfl (fun _ _ => rfl) (fun _ _ => rfl)
    | false =>
      obtain ⟨st5, lab5, sk1, ep1, r1, heq, L5, hkj, N5⟩ := loop_step_cells hcf L N
      rw [heq fuel]
      exact ih st5 lab5 (k + 1) r sk1 ep1 r1 L5 (by omega) N5

/-- The method `update` completes phase `j`, and every cell it allocates is
either a leaf without colour that hangs by the open edge `(id, j, INT_MAX)`
under the key `stored[id][j]`, or a node with a transition, made by a split;
the colours-clean flag is cleared if there is a cell of the second kind and is
left as it was otherwise. -/
theorem update_cells {st : Tree} {lab : Nat → List Char} {s : List Char} {id : Int}
    {OldW : List Char → Prop} {j : Int} {ap : ReferencePoint} {fuel : Nat}
    (htail : ∀ (c : Char) (w : List Char), OldW (c :: w) → OldW w)
    (D : DeployInv st lab s id OldW j ap) (hj : j < s.length) (hf : j + 1 < fuel) :
    ∃ (res : Tree × ReferencePoint) (t : Char), strAt s j = some t ∧
      update fuel st ap.node ⟨id, ap.pos, j⟩ = some res ∧ UpdatePost s id OldW j res ∧
      ∃ (lab1 : Nat → List Char) (k1 : Int),
        NewCells res.1 lab1 id j t st.nodes.length st.colors_computed k1 := by
  obtain ⟨k, n, P, hlinks, hap, hn, hin, hkp, hpj, hlab, hcan⟩ := D
  have hk0 := P.k_lo
  obtain ⟨t, ht⟩ := strAt_some_lt (S := s) (i := j) P.j_lo hj
  obtain ⟨st5, lab5, ep, r1, hts, hw5, hext5, hback, hlinks5, hep, hnep⟩ :=
    ts_spec P.wfl P.hs P.idpos ht hj hn hin hk0 hkp hpj hlab (hcan hj)
  have N0 : NewCells st lab id j t st.nodes.length st.colors_computed k :=
    NewCells.start P.wfl id j t k
  have N5 : NewCells st5 lab5 id j t st.nodes.length st.colors_computed k := by
    refine N0.test P.wfl hts (Or.inr ⟨hn, ?_⟩) hext5.lab_old
    rw [hlab, slice_length hk0 hkp (by omega)]
    omega
  have hupd : ∀ res : Tree × ReferencePoint,
      updateLoop fuel s id j t fuel st5 (some rootId) ⟨some n, id, ap.pos⟩ ⟨id, ap.pos, j - 1⟩
        ep r1 = some res → update fuel st ap.node ⟨id, ap.pos, j⟩ = some res := by
    intro res hres
    unfold update
    simp only []
    rw [haystackIndex_eq P.hs]
    simp only []
    rw [ht]
    simp only []
    rw [hap, hts]
    simp only []
    exact hres
  have L5 : LoopInv st5 lab5 s id OldW j t k (some rootId) ⟨some n, id, ap.pos⟩ ep r1 := by
    refine ⟨P.transport hw5 hext5.hay (fun w => ⟨hback w, hext5.inw w⟩), hj, ht,
      LinksOK_mono (hlinks5 _ hlinks) (fun v hv => hv.elim False.elim Or.inr), Or.inl rfl,
      fun e => (hep e).1,
      Or.inr ⟨n, rfl, hext5.keeps_attached hn, hext5.inner _ hin, hkp, hpj, ?_, ?_,
        fun e => (hep e).2, hnep⟩⟩
    · rw [hext5.lab_old n hn.2]
      exact hlab
    · by_cases hr1 : n = rootId
      · exact Or.inl hr1
      · exact Or.inr (hext5.link _ (hlinks n hin hr1 (fun e => e)))
  obtain ⟨res, hres, U, lab1, k1, N1⟩ := updateLoop_cells htail hf st.nodes.length
    st.colors_computed fuel st5 lab5 k (some rootId) ⟨some n, id, ap.pos⟩ ep r1 L5 (by omega) N5
  exact ⟨res, t, ht, hupd res hres, U, lab1, k1, N1⟩

/-! ## The leaves and the flag after `update` -/

/-- The precondition of the first call of `update` when the string `s` is
inserted into the fresh tree, whatever the colours-clean flag. -/
theorem DeployInv_fresh {s : List Char} (hS : StrOK s) (b : Bool) :
    DeployInv { register Tree.fresh 1 s with colors_computed := b } (fun _ => []) s 1
      (fun w => w = []) 0 ⟨some rootId, 1, 0⟩ := by
  have h0 : WFL (register Tree.fresh 1 s) (fun _ => []) :=
    WFL_fresh.of_register (by rfl) hS
  have h : WFL { register Tree.fresh 1 s with colors_computed := b } (fun _ => []) :=
    h0.frame rfl rfl (fun n nd1 hn => ⟨nd1, hn, rfl, fun _ => rfl⟩)
  have hlinks : LinksOK { register Tree.fresh 1 s with colors_computed := b } (fun _ => [])
      (fun _ => False) := Rest_fresh.links
  refine ⟨0, rootId, ?_, hlinks, rfl, h.root_attached, Or.inl rfl, le_refl _, le_refl _,
    (slice_self s 0).symm, fun _ => Or.inl rfl⟩
  refine ⟨h, ?_, by decide, ?_, ?_, ?_, ?_, le_refl _, by omega, le_refl _, by omega⟩
  · show mapFind 1 (mapAssign 1 s []) = some s
    rw [mapFind_mapAssign, if_pos rfl]
  · intro w hw
    rw [hw]
    exact InW_nil h
  · rintro w ⟨x, _, _, hp⟩
    exact Or.inl (List.prefix_nil.mp hp)
  · intro k0 h1 h2
    omega
  · intro a c ha hac hc
    have e1 : a = 0 := by omega
    have e2 : c = 0 := by omega
    rw [e1, e2, slice_self]
    exact InW_nil h

/-- C28 (amended): for every call `update(n, (id, l, j))` in the state that
the deployment loop of `add_string` hands to it (the precondition `DeployInv`
of phase `j`, with `j` inside the stored string `s` of `id`, and fuel above
`j + 1`), `update` returns, and every leaf created during the call (a cell
allocated by the call that has no transition when `update` returns) is
attached to its parent by the open-ended transition `(id, j, INT_MAX)` keyed
by `stored[id][j]`, and has an empty colour bitmask when `update` returns:
`update` does not mark the leaves it creates. -/
theorem update_leaves_unmarked (st : Tree) (lab : Nat → List Char) (s : List Char) (id : Int)
    (OldW : List Char → Prop) (j : Int) (ap : ReferencePoint) (fuel : Nat)
    (htail : ∀ (c : Char) (w : List Char), OldW (c :: w) → OldW w)
    (D : DeployInv st lab s id OldW j ap) (hj : j < s.length) (hf : j + 1 < fuel) :
    ∃ (st1 : Tree) (rp : ReferencePoint) (t : Char),
      mapFind id st.haystack = some s ∧ strAt s j = some t ∧
      update fuel st ap.node ⟨id, ap.pos, j⟩ = some (st1, rp) ∧
      ∀ (x : Nat) (ndx : Node), st.nodes.length ≤ x → st1.nodes[x]? = some ndx → ndx.g = [] →
        ndx.colors = 0 ∧ ∃ (p : Nat) (ndp : Node), st1.nodes[p]? = some ndp ∧
          mapFind t ndp.g = some ⟨⟨id, j, INT_MAX⟩, some x⟩ := by
  have hs : mapFind id st.haystack = some s := by
    obtain ⟨k, n, P, _⟩ := D
    exact P.hs
  obtain ⟨res, t, ht, hres, _, lab1, k1, N1⟩ := update_cells htail D hj hf
  refine ⟨res.1, res.2, t, hs, ht, hres, ?_⟩
  intro x ndx hB hx hleaf
  obtain ⟨c0, p, ndp, _, hp, hm, _⟩ := N1.leaf x ndx hB hx hleaf
  exact ⟨c0, p, ndp, hp, hm⟩

theorem update_leaves_unmarked_witness :
    ∃ (st1 : Tree) (rp : ReferencePoint) (t : Char),
      mapFind 1 ({ register Tree.fresh 1 ['a', '$'] with colors_computed := false } :
        Tree).haystack = some ['a', '$'] ∧
      strAt ['a', '$'] 0 = some t ∧
      update 8 { register Tree.fresh 1 ['a', '$'] with colors_computed := false }
        (some rootId) ⟨1, 0, 0⟩ = some (st1, rp) ∧
      ∀ (x : Nat) (ndx : Node),
        ({ register Tree.fresh 1 ['a', '$'] with colors_computed := false } :
          Tree).nodes.length ≤ x →
        st1.nodes[x]? = some ndx → ndx.g = [] →
        ndx.colors = 0 ∧ ∃ (p : Nat) (ndp : Node), st1.nodes[p]? = some ndp ∧
          mapFind t ndp.g = some ⟨⟨1, 0, INT_MAX⟩, some x⟩ :=
  update_leaves_unmarked { register Tree.fresh 1 ['a', '$'] with colors_computed := false }
    (fun _ => []) ['a', '$'] 1 (fun w => w = []) 0 ⟨some rootId, 1, 0⟩ 8
    (fun _ _ h => by cases h)
    (DeployInv_fresh ⟨['a'], rfl, by decide, by decide⟩ false) (by decide) (by decide)

/-- C28 as stated fails: the first call of `update` that `add_string("a")`
makes on the fresh tree, `update(root, (1, 0, 0))`, creates the leaf of cell 2
under the root's key `'a'`, and when it returns the colour bitmask of that leaf
is empty: bit 1 is not set. After the whole of `add_string("a")` the leaf is
still without colour. -/
theorem update_leaf_without_colour :
    ∃ (st1 : Tree) (rp : ReferencePoint),
      update 8 (register Tree.fresh 1 ['a', '$']) (some rootId) ⟨1, 0, 0⟩ = some (st1, rp) ∧
      (register Tree.fresh 1 ['a', '$']).nodes.length = 2 ∧ st1.nodes.length = 3 ∧
      childOn st1 rootId 'a' = some 2 ∧ isLeafAt st1 2 = some true ∧
      colorsAt st1 2 = some 0 ∧
      ((add_strings Tree.fresh [(8, ['a'])]).bind (fun p => colorsAt p.1 2)) = some 0 :=
  ⟨((update 8 (register Tree.fresh 1 ['a', '$']) (some rootId) ⟨1, 0, 0⟩).map
      Prod.fst).getD Tree.fresh,
    ((update 8 (register Tree.fresh 1 ['a', '$']) (some rootId) ⟨1, 0, 0⟩).map
      Prod.snd).getD ⟨none, 0, 0⟩,
    by decide, by decide, by decide, by decide, by decide, by decide, by decide⟩

/-- C29 (amended): a split clears the colours-clean flag, and only a split
does. For every tree state and every call of `test_and_split` that returns: if
it performs a split (it allocates a cell) then `colors_computed` is false
afterwards, and otherwise `colors_computed` is what it was. For every call
`update(n, (id, l, j))` in the state that the deployment loop of `add_string`
hands to it (the precondition `DeployInv` of phase `j`, fuel above `j + 1`),
whatever `colors_computed` was: `update` returns, `colors_computed` is false
afterwards if one of the cells it allocated has a transition (an edge was
split), and it is what it was before the call if all the cells it allocated are
leaves. -/
theorem flag_cleared_by_split (st : Tree) (lab : Nat → List Char) (s : List Char) (id : Int)
    (OldW : List Char → Prop) (j : Int) (ap : ReferencePoint) (fuel : Nat)
    (htail : ∀ (c : Char) (w : List Char), OldW (c :: w) → OldW w)
    (D : DeployInv st lab s id OldW j ap) (hj : j < s.length) (hf : j + 1 < fuel) :
    (∀ (st0 st1 : Tree) (n r : Option Nat) (kp : MappedSubstring) (c : Char) (w : List Char)
      (b : Bool), test_and_split st0 n kp c w = some (st1, b, r) →
      (st1.nodes.length ≠ st0.nodes.length → st1.colors_computed = false) ∧
      (st1.nodes.length = st0.nodes.length → st1.colors_computed = st0.colors_computed)) ∧
    ∃ (st1 : Tree) (rp : ReferencePoint),
      update fuel st ap.node ⟨id, ap.pos, j⟩ = some (st1, rp) ∧
      ((∃ (x : Nat) (ndx : Node), st.nodes.length ≤ x ∧ st1.nodes[x]? = some ndx ∧
          ndx.g ≠ []) → st1.colors_computed = false) ∧
      ((∀ (x : Nat) (ndx : Node), st.nodes.length ≤ x → st1.nodes[x]? = some ndx →
          ndx.g = []) → st1.colors_computed = st.colors_computed) := by
  constructor
  · intro st0 st1 n r kp c w b hts
    rcases ts_cases hts with e | ⟨_, _, tt, x, ndx, _, _, _, e⟩ |
      ⟨_, _, n0, nd, tk, key, t0, _, _, _, e, _⟩
    · rw [e]
      exact ⟨fun h => absurd rfl h, fun _ => rfl⟩
    · rw [e]
      exact ⟨fun h => absurd (length_setNode _ _ _) h, fun _ => rfl⟩
    · rw [e]
      refine ⟨fun _ => rfl, fun h => ?_⟩
      rw [splitEdge_length] at h
      omega
  · obtain ⟨res, t, ht, hres, _, lab1, k1, N1⟩ := update_cells htail D hj hf
    refine ⟨res.1, res.2, hres, ?_, ?_⟩
    · rintro ⟨x, ndx, hB, hx, hne⟩
      rcases N1.flag with ⟨_, h2⟩ | ⟨h1, _⟩
      · exact absurd (h2 x ndx hB hx) hne
      · exact h1
    · intro hall
      rcases N1.flag with ⟨h1, _⟩ | ⟨_, x, ndx, hB, hx, hne⟩
      · exact h1
      · exact absurd (hall x ndx hB hx) hne

theorem flag_cleared_by_split_witness :
    (∀ (st0 st1 : Tree) (n r : Option Nat) (kp : MappedSubstring) (c : Char) (w : List Char)
      (b : Bool), test_and_split st0 n kp c w = some (st1, b, r) →
      (st1.nodes.length ≠ st0.nodes.length → st1.colors_computed = false) ∧
      (st1.nodes.length = st0.nodes.length → st1.colors_computed = st0.colors_computed)) ∧
    ∃ (st1 : Tree) (rp : ReferencePoint),
      update 8 { register Tree.fresh 1 ['a', '$'] with colors_computed := true }
        (some rootId) ⟨1, 0, 0⟩ = some (st1, rp) ∧
      ((∃ (x : Nat) (ndx : Node),
          ({ register Tree.fresh 1 ['a', '$'] with colors_computed := true } :
            Tree).nodes.length ≤ x ∧ st1.nodes[x]? = some ndx ∧ ndx.g ≠ []) →
        st1.colors_computed = false) ∧
      ((∀ (x : Nat) (ndx : Node),
          ({ register Tree.fresh 1 ['a', '$'] with colors_computed := true } :
            Tree).nodes.length ≤ x → st1.nodes[x]? = some ndx → ndx.g = []) →
        st1.colors_computed =
          ({ register Tree.fresh 1 ['a', '$'] with colors_computed := true } :
            Tree).colors_computed) :=
  flag_cleared_by_split { register Tree.fresh 1 ['a', '$'] with colors_computed := true }
    (fun _ => []) ['a', '$'] 1 (fun w => w = []) 0 ⟨some rootId, 1, 0⟩ 8
    (fun _ _ h => by cases h)
    (DeployInv_fresh ⟨['a'], rfl, by decide, by decide⟩ true) (by decide) (by decide)

/-- C29 as stated fails: after `add_string("b")` and `compute_colors` the flag
`colors_computed` is true; `add_string("a")` then registers `"a$"` under ID 2
and calls `update(root, (2, 0, 0))`, which creates a new leaf (cell 4, under the
root's key `'a'`) without a split, and when that call returns
`colors_computed` is still true. -/
theorem update_new_leaf_keeps_flag :
    ∃ (st0 st st1 : Tree) (ids : List Int) (rp : ReferencePoint),
      add_strings Tree.fresh [(8, ['b'])] = some (st0, ids) ∧
      (compute_colors 8 st0).map (fun x => register x 2 ['a', '$']) = some st ∧
      st.colors_computed = true ∧
      update 8 st (some rootId) ⟨2, 0, 0⟩ = some (st1, rp) ∧
      st.nodes.length = 4 ∧ st1.nodes.length = 5 ∧ childOn st1 rootId 'a' = some 4 ∧
      isLeafAt st1 4 = some true ∧ st1.colors_computed = true :=
  ⟨((add_strings Tree.fresh [(8, ['b'])]).map Prod.fst).getD Tree.fresh,
    (((add_strings Tree.fresh [(8, ['b'])]).bind (fun p => compute_colors 8 p.1)).map
      (fun x => register x 2 ['a', '$'])).getD Tree.fresh,
    (((((add_strings Tree.fresh [(8, ['b'])]).bind (fun p => compute_colors 8 p.1)).map
      (fun x => register x 2 ['a', '$'])).bind
        (fun x => update 8 x (some rootId) ⟨2, 0, 0⟩)).map Prod.fst).getD Tree.fresh,
    ((add_strings Tree.fresh [(8, ['b'])]).map Prod.snd).getD [],
    (((((add_strings Tree.fresh [(8, ['b'])]).bind (fun p => compute_colors 8 p.1)).map
      (fun x => register x 2 ['a', '$'])).bind
        (fun x => update 8 x (some rootId) ⟨2, 0, 0⟩)).map Prod.snd).getD ⟨none, 0, 0⟩,
    by decide, by decide, by decide, by decide, by decide, by decide, by decide, by decide,
    by decide⟩

/-! ## The leaves of the suffixes -/

/-- No word of a tree at rest goes on after a sentinel. -/
theorem no_word_past_sentinel {st : Tree} {lab : Nat → List Char} (R : Rest st lab)
    {z y : List Char} {c : Char} (hw : InW st lab (z ++ [END_TOKEN] ++ c :: y)) : False := by
  rcases (R.content _).mp hw with h0 | ⟨k, S2, hk, hin⟩
  · simp at h0
  · obtain ⟨body, hb, hnb, _⟩ := R.wfl.strs _ _ hk
    obtain ⟨p, q, hpq⟩ := hin
    rw [hb] at hpq
    exact hnb (sentinel_inside (x := p ++ z) (c := c) (y := y ++ q) (by rw [← hpq]; simp))

/-- In a tree at rest every suffix of a stored string is the label of a leaf. -/
theorem suffix_leaf {st : Tree} {lab : Nat → List Char} (R : Rest st lab) {k : Int}
    {S : List Char} {p : Int} (hS : mapFind k st.haystack = some S) (h0 : 0 ≤ p)
    (h1 : p < S.length) :
    ∃ (x : Nat) (ndx : Node), Attached st x ∧ st.nodes[x]? = some ndx ∧ ndx.g = [] ∧
      lab x = slice S p S.length := by
  have h := R.wfl
  obtain ⟨body, hb, hnb, hsm⟩ := h.strs _ _ hS
  have hz : ∃ z, slice S p S.length = z ++ [END_TOKEN] := by
    rw [slice_drop_zero h0 (le_of_lt h1), hb]
    have hlt : p.toNat ≤ body.length := by
      rw [hb] at h1
      simp at h1
      omega
    exact ⟨body.drop p.toNat, by rw [List.drop_append_of_le_length hlt]⟩
  obtain ⟨z, hz⟩ := hz
  have hw : InW st lab (slice S p S.length) :=
    (R.content _).mpr (Or.inr ⟨k, S, hS, slice_sub _ _ _⟩)
  obtain ⟨y, hy1, hy2, hy3⟩ := hw
  rcases h.position (lab y).length _ y ⟨hy1, hy2⟩ (le_refl _) hy3 with ⟨v, hv, hlv⟩ |
    ⟨n, nd, c, t, j, S1, hn, hnd, hm, e, hp, hl1, hwj, hl2⟩
  · obtain ⟨ndv, hndv⟩ := hv.node
    refine ⟨v, ndv, hv, hndv, ?_, hlv⟩
    cases hg : ndv.g with
    | nil => rfl
    | cons pr rest =>
      exfalso
      obtain ⟨c1, t1⟩ := pr
      have hm : mapFind c1 ndv.g = some t1 := by
        rw [hg]
        simp [mapFind]
      obtain ⟨x, S1, e1⟩ := h.edges v ndv c1 t1 hv.1 hndv hm
      have hin := InW_edge e1
      rw [e1.label_cons (h.strs _ _ e1.ref), hlv, hz] at hin
      exact no_word_past_sentinel R hin
  · exfalso
    obtain ⟨r, hr⟩ := hwj
    cases r with
    | nil =>
      rw [List.append_nil] at hr
      rw [hr] at hl2
      omega
    | cons c1 r1 =>
      have hin : InW st lab (lab j) := InW_lab ⟨by have := e.j_lo; omega, e.j_hi⟩
      rw [← hr, hz] at hin
      exact no_word_past_sentinel R hin

theorem OpenLeaves.at_rest {st : Tree} {lab : Nat → List Char} (R : Rest st lab) :
    OpenLeaves st := by
  intro n j nd ndj c t hn hnd hm ht hopen hndj
  obtain ⟨j1, S, e⟩ := R.wfl.edges n nd c t hn hnd hm
  have ej : j1 = j := by
    have := e.tgt
    rw [ht] at this
    exact (Option.some.inj this).symm
  rw [ej] at e
  exact leaf_of_open R e hopen hndj

theorem OpenLeaves.after_recolor {st st1 : Tree} (h : OpenLeaves st) (r : Recolor st st1) :
    OpenLeaves st1 := by
  intro n j nd1 ndj1 c t hn hnd hm ht hopen hndj
  obtain ⟨nd, g1, g2, _⟩ := r.back hnd
  obtain ⟨ndj, k1, k2, _⟩ := r.back hndj
  rw [k2]
  rw [g2] at hm
  exact h n j nd ndj c t hn g1 hm ht hopen k1

theorem Marking.from_rest {st : Tree} {lab : Nat → List Char} (R : Rest st lab)
    (hfull : KeysFull st) : Marking st lab :=
  ⟨R.wfl, OpenLeaves.at_rest R, fun _ _ _ hS h0 h1 => suffix_leaf R hS h0 h1, hfull, R.keys⟩

theorem Marking.under_recolor {st st1 : Tree} {lab : Nat → List Char} (m : Marking st lab)
    (r : Recolor st st1) : Marking st1 lab := by
  refine ⟨m.wfl.frame r.hay r.len ?_, m.open_leaves.after_recolor r, ?_, ?_, ?_⟩
  · intro n nd1 hn
    obtain ⟨nd, g1, g2, g3⟩ := r.back hn
    exact ⟨nd, g1, g2, fun _ => g3⟩
  · intro k S p hS h0 h1
    rw [r.hay] at hS
    obtain ⟨x, ndx, hx, hndx, hleaf, hl⟩ := m.sufleaf k S p hS h0 h1
    obtain ⟨nd1, g1, g2, _⟩ := r.node x ndx hndx
    exact ⟨x, nd1, ⟨hx.1, by rw [r.len]; exact hx.2⟩, g1, by rw [g2]; exact hleaf, hl⟩
  · intro k h1 h2
    rw [r.hay]
    rw [r.idx] at h2
    exact m.full k h1 h2
  · have := m.keys
    unfold KeysOK at *
    rw [r.hay, r.idx]
    exact this

/-! ## Colours that stay -/

theorem BitsKept.id1 (st : Tree) : BitsKept st st :=
  ⟨rfl, fun _ nd h => ⟨nd, h, rfl, fun _ _ hb => hb⟩⟩

theorem BitsKept.chain {a b c : Tree} (h1 : BitsKept a b) (h2 : BitsKept b c) : BitsKept a c := by
  refine ⟨h2.len.trans h1.len, ?_⟩
  intro i nd hi
  obtain ⟨nd1, g1, g2, g3⟩ := h1.node i nd hi
  obtain ⟨nd2, k1, k2, k3⟩ := h2.node i nd1 g1
  exact ⟨nd2, k1, k2.trans g2, fun hl b hb => k3 (by rw [g2]; exact hl) b (g3 hl b hb)⟩

theorem BitsKept.flag_only (st : Tree) (b : Bool) : BitsKept st { st with colors_computed := b } :=
  ⟨rfl, fun _ nd h => ⟨nd, h, rfl, fun _ _ hb => hb⟩⟩

/-- A write that keeps the transitions of the cell, and the colours of a leaf. -/
theorem BitsKept.of_write {st : Tree} {i : Nat} {nd nd1 : Node} (hi : st.nodes[i]? = some nd)
    (hg : nd1.g = nd.g)
    (hc : nd.g = [] → ∀ b : Nat, nd.colors.testBit b = true → nd1.colors.testBit b = true) :
    BitsKept st (st.setNode i nd1) := by
  refine ⟨length_setNode _ _ _, ?_⟩
  intro n ndn hn
  by_cases e : n = i
  · rw [e] at hn ⊢
    rw [hi] at hn
    rw [← Option.some.inj hn]
    exact ⟨nd1, nodes_setNode_eq _ (lt_of_getElem? hi), hg, hc⟩
  · exact ⟨ndn, by rw [nodes_setNode_ne _ e]; exact hn, rfl, fun _ _ hb => hb⟩

theorem mark_string_keeps (nd : Node) (id : Int) (b : Nat) (hb : nd.colors.testBit b = true) :
    (nd.mark_string id).colors.testBit b = true := by
  unfold Node.mark_string
  split
  · simp only []
    rw [Nat.testBit_or, hb]
    rfl
  · exact hb

theorem mark_string_sets (nd : Node) {id : Int} (h1 : 1 ≤ id) (h2 : id ≤ 64) :
    (nd.mark_string id).colors.testBit (id - 1).toNat = true := by
  unfold Node.mark_string
  have hts : toSizeT id = id.toNat := toSizeT_small (by omega) h2
  rw [if_pos ⟨by omega, by rw [hts]; unfold MAX_STRINGS; omega⟩]
  simp only []
  rw [Nat.testBit_or]
  have : (1 <<< (id - 1).toNat).testBit (id - 1).toNat = true := by
    rw [Nat.testBit_shiftLeft]
    simp
  rw [this]
  simp

theorem LeafBit.kept {st st1 : Tree} {lab : Nat → List Char} {w : List Char} {b : Nat}
    (h : LeafBit st lab w b) (k : BitsKept st st1) : LeafBit st1 lab w b := by
  obtain ⟨x, ndx, hx, hndx, hleaf, hl, hb⟩ := h
  obtain ⟨nd1, g1, g2, g3⟩ := k.node x ndx hndx
  exact ⟨x, nd1, ⟨hx.1, by rw [k.len]; exact hx.2⟩, g1, by rw [g2]; exact hleaf, hl,
    g3 hleaf b hb⟩

/-- The loop of `compute_colors_dfs` over the children keeps the colours of the
leaves when the recursive calls do. -/
theorem colorFold_kept {rec : Tree → Option Nat → Option (Tree × Nat)}
    (hrec : ∀ (s : Tree) (p : Option Nat) (s1 : Tree) (c : Nat), rec s p = some (s1, c) →
      BitsKept s s1) :
    ∀ (l : List (Char × Transition)) (st : Tree) (acc : Nat) (st1 : Tree) (c : Nat),
      colorFold rec l st acc = some (st1, c) → BitsKept st st1 := by
  intro l
  induction l with
  | nil =>
    intro st acc st1 c h
    simp only [colorFold, Option.some.injEq, Prod.mk.injEq] at h
    rw [← h.1]
    exact BitsKept.id1 st
  | cons p rest ih =>
    intro st acc st1 c h
    obtain ⟨c0, tr⟩ := p
    unfold colorFold at h
    simp only [] at h
    split at h
    · simp at h
    · rename_i st2 cc hr
      exact (hrec _ _ _ _ hr).chain (ih _ _ _ _ h)

/-- The method `compute_colors_dfs` changes no transition and no colour of a
leaf. -/
theorem compute_colors_dfs_kept : ∀ (fuel : Nat) (st : Tree) (p : Option Nat) (st1 : Tree)
    (c : Nat), compute_colors_dfs fuel st p = some (st1, c) → BitsKept st st1 := by
  intro fuel
  induction fuel with
  | zero =>
    intro st p st1 c h
    simp [compute_colors_dfs] at h
  | succ fuel ih =>
    intro st p st1 c h
    unfold compute_colors_dfs at h
    split at h
    · simp only [Option.some.injEq, Prod.mk.injEq] at h
      rw [← h.1]
      exact BitsKept.id1 st
    · rename_i i
      split at h
      · simp at h
      · rename_i nd hnd
        split at h
        · simp only [Option.some.injEq, Prod.mk.injEq] at h
          rw [← h.1]
          exact BitsKept.id1 st
        · rename_i hleaf
          split at h
          · simp at h
          · rename_i st2 acc hf
            have k2 := colorFold_kept (fun s p s1 c hr => ih s p s1 c hr) _ _ _ _ _ hf
            split at h
            · simp at h
            · rename_i st3 hm
              simp only [Option.some.injEq, Prod.mk.injEq] at h
              rw [← h.1]
              obtain ⟨i1, nd2, hi1, hnd2, e⟩ := modify_spec hm
              have ei : i1 = i := (Option.some.inj hi1).symm
              rw [ei] at hnd2 e
              obtain ⟨nd1, g1, g2, _⟩ := k2.node i nd hnd
              rw [hnd2] at g1
              have e2 : nd2 = nd1 := Option.some.inj g1
              rw [e]
              refine k2.chain (BitsKept.of_write hnd2 rfl ?_)
              intro hl
              exfalso
              rw [e2, g2] at hl
              exact hleaf hl

/-! ## The leaf-marking pass -/

/-- The inner loop of `mark_leaves_for_string` counts the whole edge when all
its bytes match. -/
theorem matchLen_full {str S : List Char} {pos l edge_len : Int}
    (hsmall : (str.length : Int) ≤ 1073741823) (hpos : 0 ≤ pos)
    (hin : pos + edge_len ≤ str.length)
    (hmatch : ∀ i : Int, 0 ≤ i → i < edge_len →
      ∃ a : Char, strAt str (pos + i) = some a ∧ strAt S (l + i) = some a) :
    ∀ (fuel : Nat) (i ml : Int), 0 ≤ i → i ≤ edge_len → edge_len - i < fuel →
      matchLen str S pos l edge_len fuel i ml = some (ml + (edge_len - i)) := by
  intro fuel
  induction fuel with
  | zero =>
    intro i ml h0 h1 hf
    omega
  | succ fuel ih =>
    intro i ml h0 h1 hf
    unfold matchLen
    by_cases hlt : i < edge_len
    · have hts : toSizeT (pos + i) = (pos + i).toNat := by
        unfold toSizeT
        congr 1
        omega
      rw [if_pos ⟨hlt, by rw [hts]; omega⟩]
      obtain ⟨a, ha, hb⟩ := hmatch i h0 hlt
      rw [ha, hb]
      simp only [ne_eq, not_true_eq_false, if_false]
      rw [ih (i + 1) (ml + 1) (by omega) (by omega) (by omega)]
      congr 1
      omega
    · rw [if_neg (fun hc => hlt hc.1)]
      congr 1
      omega

/-- The walk of `mark_leaves_for_string` along a suffix that is the label of
the leaf `x` ends at `x` and marks it. -/
theorem markWalk_marks {str : List Char} (hstr : StrOK str) (id : Int) {st : Tree}
    {lab : Nat → List Char} (h : WFL st lab) (hopen : OpenLeaves st) {x : Nat} {ndx : Node}
    (hx : Attached st x) (hndx : st.nodes[x]? = some ndx) (hleaf : ndx.g = []) :
    ∀ (fuel : Nat) (cur : Nat) (pos : Int), Attached st cur → 0 ≤ pos → pos < str.length →
      lab x = lab cur ++ slice str pos str.length → (str.length : Int) - pos < fuel →
      markWalk str id fuel st (some cur) pos = some (st.setNode x (ndx.mark_string id)) := by
  have hsmall := hstr.small
  intro fuel
  induction fuel with
  | zero =>
    intro cur pos _ _ _ _ hf
    omega
  | succ fuel ih =>
    intro cur pos hcur hp0 hp1 hlab hf
    have hts : toSizeT pos = pos.toNat := by
      unfold toSizeT
      congr 1
      omega
    obtain ⟨c, hc⟩ := strAt_some_lt (S := str) (i := pos) hp0 hp1
    have hhead : slice str pos str.length = c :: slice str (pos + 1) str.length :=
      slice_head hp0 hp1 hp1 hc
    have hpre : lab cur ++ [c] <+: lab x :=
      ⟨slice str (pos + 1) str.length, by rw [hlab, hhead]; simp⟩
    obtain ⟨nd, t, j, S, hnd, hm, e, hj⟩ := h.locus hcur hx hpre
    have hS := h.strs _ _ e.ref
    have hjatt : Attached st j := ⟨by have := e.j_lo; omega, e.j_hi⟩
    obtain ⟨ndj, hndj⟩ := hjatt.node
    have hll := e.label_len hS
    have hend := e.end_gt hS
    have hlp : labelOf S t.sub <+: slice str pos str.length := by
      rw [e.lab_eq, hlab] at hj
      exact (List.prefix_append_right_inj _).mp hj
    have hsl : ((slice str pos str.length).length : Int) = str.length - pos :=
      slice_length hp0 (le_of_lt hp1) (le_refl _)
    unfold markWalk
    rw [if_pos (by rw [hts]; omega), hc]
    simp only []
    rw [find_alpha_node c hcur.1 hnd, hm]
    simp only [Transition.is_valid, e.tgt, Option.isSome_some, Bool.true_eq_false, if_false]
    rw [haystackIndex_eq e.ref]
    simp only []
    by_cases hjx : j = x
    · obtain ⟨m, hm1, _, _⟩ := @matchLen_total str S pos t.sub.l
        (wrap32 (t.sub.r - t.sub.l + 1)) hstr hS hp0 e.l_lo (loopBound str.length) 0 0
        (le_refl _) (by omega) (fun _ => by have := e.l_hi; omega)
        (by unfold loopBound; push_cast; omega)
      rw [hm1]
      simp only [Tree.deref]
      rw [hjx, hndx]
      simp only []
      rw [if_pos hleaf, modify_eq _ hndx]
    · have hne : lab j ≠ lab x := fun e1 => hjx (h.inj hjatt hx e1)
      have hlt : (labelOf S t.sub).length < (slice str pos str.length).length := by
        by_contra hcon
        have hle := hlp.length_le
        have heq := hlp.eq_of_length (by omega)
        apply hne
        rw [e.lab_eq, hlab, heq]
      have hg : ndj.g ≠ [] := by
        obtain ⟨r, hr⟩ := hj
        cases r with
        | nil =>
          rw [List.append_nil] at hr
          exact absurd hr hne
        | cons c1 r1 =>
          obtain ⟨nd2, t2, j2, S2, hnd2, hm2, _, _⟩ :=
            h.locus hjatt hx (show lab j ++ [c1] <+: lab x from ⟨r1, by rw [← hr]; simp⟩)
          rw [hndj] at hnd2
          rw [← Option.some.inj hnd2] at hm2
          intro hnil
          rw [hnil] at hm2
          cases hm2
      have hclosed : t.sub.r ≠ INT_MAX := by
        intro ho
        exact hg (hopen cur j nd ndj c t hcur.1 hnd hm e.tgt ho hndj)
      have hfin : t.sub.r + 1 < S.length := by
        rcases e.fin with h1 | h1
        · exact absurd h1 hclosed
        · exact h1
      have hE : edgeEnd S t.sub = t.sub.r + 1 := by simp [edgeEnd, hclosed]
      have hl0 := e.l_lo
      have hle := e.l_le
      have hSs := hS.small
      have hwrap : wrap32 (t.sub.r - t.sub.l + 1) = t.sub.r - t.sub.l + 1 :=
        wrap32_small (by omega) (by omega)
      rw [hwrap]
      have hlen : ((labelOf S t.sub).length : Int) = t.sub.r - t.sub.l + 1 := by
        rw [hll, hE]
        omega
      have hmatch : ∀ i : Int, 0 ≤ i → i < t.sub.r - t.sub.l + 1 →
          ∃ a : Char, strAt str (pos + i) = some a ∧ strAt S (t.sub.l + i) = some a := by
        intro i hi0 hi1
        obtain ⟨a, ha⟩ := strAt_some_lt (S := str) (i := pos + i) (by omega) (by omega)
        refine ⟨a, ha, ?_⟩
        have e1 : strAt (labelOf S t.sub) i = strAt S (t.sub.l + i) := by
          unfold labelOf
          exact strAt_slice hl0 hi0 (by rw [hE]; omega) hend.2
        have e2 : strAt (labelOf S t.sub) i = strAt (slice str pos str.length) i :=
          strAt_prefix hlp hi0 (by omega)
        have e3 : strAt (slice str pos str.length) i = strAt str (pos + i) :=
          strAt_slice hp0 hi0 (by omega) (le_refl _)
        rw [← e1, e2, e3]
        exact ha
      have hfull := matchLen_full (S := S) (l := t.sub.l) hsmall hp0
        (by omega : pos + (t.sub.r - t.sub.l + 1) ≤ str.length) hmatch (loopBound str.length)
        0 0 (le_refl _) (by omega) (by unfold loopBound; push_cast; omega)
      rw [hfull]
      simp only [Tree.deref]
      rw [hndj]
      simp only []
      rw [if_neg hg]
      have e0 : pos + (0 + (t.sub.r - t.sub.l + 1 - 0)) = pos + (t.sub.r - t.sub.l + 1) := by
        omega
      rw [e0]
      refine ih j _ hjatt (by omega) (by omega) ?_ (by omega)
      rw [e.lab_eq, hlab, List.append_assoc]
      congr 1
      have hsplit := slice_append (S := str) (a := pos) (b := pos + (t.sub.r - t.sub.l + 1))
        (c := str.length) hp0 (by omega) (by omega)
      rw [← hsplit]
      congr 1
      have hpl : ((slice str pos (pos + (t.sub.r - t.sub.l + 1))).length : Int) =
          pos + (t.sub.r - t.sub.l + 1) - pos := slice_length hp0 (by omega) (by omega)
      exact prefix_same_length (slice_pre hp0 (by omega) (by omega)) hlp (by omega)

/-- The loop over the starts of `mark_leaves_for_string` marks the leaf of
every suffix from `start` on, and takes no colour from a leaf. -/
theorem markStarts_marks {str : List Char} (hstr : StrOK str) {id : Int} (hid1 : 1 ≤ id)
    (hid2 : id ≤ 64) {lab : Nat → List Char} {fuel : Nat} (hfuel : str.length < fuel) :
    ∀ (cnt : Nat) (st : Tree) (start : Int), Marking st lab →
      (∃ k : Int, mapFind k st.haystack = some str) → 0 ≤ start → start ≤ str.length →
      (str.length : Int) - start < cnt →
      ∃ st1 : Tree, markStarts fuel str id cnt st start = some st1 ∧ Recolor st st1 ∧
        BitsKept st st1 ∧
        ∀ p : Int, start ≤ p → p < str.length →
          LeafBit st1 lab (slice str p str.length) (id - 1).toNat := by
  have hsmall := hstr.small
  intro cnt
  induction cnt with
  | zero =>
    intro st start _ _ h0 h1 hc
    omega
  | succ cnt ih =>
    intro st start m hk h0 h1 hc
    have hts : toSizeT start = start.toNat := by
      unfold toSizeT
      congr 1
      omega
    unfold markStarts
    by_cases hlt : start < str.length
    · rw [if_pos (by rw [hts]; omega)]
      obtain ⟨k, hkS⟩ := hk
      obtain ⟨x, ndx, hx, hndx, hleaf, hl⟩ := m.sufleaf k str start hkS h0 hlt
      have hw := markWalk_marks hstr id m.wfl m.open_leaves hx hndx hleaf fuel rootId start
        m.wfl.root_attached h0 hlt (by rw [m.wfl.lab_root, List.nil_append]; exact hl)
        (by omega)
      rw [hw]
      simp only []
      have r1 : Recolor st (st.setNode x (ndx.mark_string id)) :=
        Recolor.of_setNode hndx (mark_string_g _ _) (mark_string_link _ _)
      have k1 : BitsKept st (st.setNode x (ndx.mark_string id)) :=
        BitsKept.of_write hndx (mark_string_g _ _) (fun _ b hb => mark_string_keeps _ _ b hb)
      have b1 : LeafBit (st.setNode x (ndx.mark_string id)) lab (slice str start str.length)
          (id - 1).toNat :=
        ⟨x, _, ⟨hx.1, by rw [length_setNode]; exact hx.2⟩, nodes_setNode_eq _ hx.2,
          by rw [mark_string_g]; exact hleaf, hl, mark_string_sets _ hid1 hid2⟩
      obtain ⟨st2, h2, r2, k2, b2⟩ := ih _ (start + 1) (m.under_recolor r1)
        ⟨k, by rw [r1.hay]; exact hkS⟩ (by omega) (by omega) (by omega)
      refine ⟨st2, h2, r1.comp1 r2, k1.chain k2, ?_⟩
      intro p hp1 hp2
      by_cases e : p = start
      · rw [e]
        exact b1.kept k2
      · exact b2 p (by omega) hp2
    · rw [if_neg (by rw [hts]; omega)]
      exact ⟨st, rfl, Recolor.same st, BitsKept.id1 st, fun p hp1 hp2 => by omega⟩

/-- The method `mark_leaves_for_string` marks the leaf of every suffix of the
string of a registered ID. -/
theorem mark_leaves_marks {st : Tree} {lab : Nat → List Char} (m : Marking st lab) {i : Int}
    (h1 : 1 ≤ i) (h2 : i ≤ st.last_index) {fuel : Nat}
    (hfuel : ∀ (k : Int) (S : List Char), mapFind k st.haystack = some S → S.length < fuel) :
    ∃ st1 : Tree, mark_leaves_for_string fuel st i = some st1 ∧ Recolor st st1 ∧
      BitsKept st st1 ∧
      ∀ (S : List Char) (p : Int), mapFind i st.haystack = some S → 0 ≤ p → p < S.length →
        LeafBit st1 lab (slice S p S.length) (i - 1).toNat := by
  have hp := m.full i h1 h2
  cases hS : mapFind i st.haystack with
  | none =>
    rw [hS] at hp
    cases hp
  | some S =>
    have hstr := m.wfl.strs _ _ hS
    have hk := m.keys
    obtain ⟨st1, g1, r1, k1, b1⟩ := markStarts_marks hstr h1 (by have := hk.2.1; omega)
      (hfuel i S hS) (loopBound S.length) st 0 m ⟨i, hS⟩ (le_refl _) (by omega)
      (by unfold loopBound; push_cast; omega)
    refine ⟨st1, ?_, r1, k1, ?_⟩
    · unfold mark_leaves_for_string
      rw [haystackIndex_eq hS]
      exact g1
    · intro S1 p hS1 hp0 hp1
      have e : S1 = S := (Option.some.inj hS1).symm
      rw [e] at hp1 ⊢
      exact b1 p hp0 hp1

/-- The loop of `compute_colors` over the IDs marks the leaf of every suffix
of every stored string. -/
theorem markAll_marks {lab : Nat → List Char} {fuel : Nat} :
    ∀ (cnt : Nat) (st : Tree) (i : Int), Marking st lab →
      (∀ (k : Int) (S : List Char), mapFind k st.haystack = some S → S.length < fuel) →
      1 ≤ i → i ≤ st.last_index + 1 → st.last_index + 1 - i < cnt →
      ∃ st1 : Tree, markAll fuel cnt st i = some st1 ∧ Recolor st st1 ∧ BitsKept st st1 ∧
        ∀ (k : Int) (S : List Char) (p : Int), i ≤ k → mapFind k st.haystack = some S →
          0 ≤ p → p < S.length → LeafBit st1 lab (slice S p S.length) (k - 1).toNat := by
  intro cnt
  induction cnt with
  | zero =>
    intro st i _ _ h1 h2 hc
    omega
  | succ cnt ih =>
    intro st i m hfuel h1 h2 hc
    unfold markAll
    by_cases hle : i ≤ st.last_index
    · rw [if_pos hle]
      obtain ⟨st1, g1, r1, k1, b1⟩ := mark_leaves_marks m h1 hle hfuel
      rw [g1]
      simp only []
      obtain ⟨st2, g2, r2, k2, b2⟩ := ih st1 (i + 1) (m.under_recolor r1)
        (fun k S hk => hfuel k S (by rw [← r1.hay]; exact hk)) (by omega)
        (by rw [r1.idx]; omega) (by rw [r1.idx]; omega)
      refine ⟨st2, g2, r1.comp1 r2, k1.chain k2, ?_⟩
      intro k S p hik hS hp0 hp1
      by_cases e : k = i
      · rw [e] at hS ⊢
        exact (b1 S p hS hp0 hp1).kept k2
      · exact b2 k S p (by omega) (by rw [r1.hay]; exact hS) hp0 hp1
    · rw [if_neg hle]
      refine ⟨st, rfl, Recolor.same st, BitsKept.id1 st, ?_⟩
      intro k S p hik hS
      have := m.keys.2.2 k (by rw [hS]; rfl)
      omega

/-- The method `compute_colors` on a tree whose flag is not set: it ends, and
afterwards the leaf of every suffix of every stored string holds the bit of
the string. -/
theorem compute_colors_marks {st : Tree} {lab : Nat → List Char} {M fuel : Nat}
    (m : Marking st lab) (hsh : Shape st lab M) (hM : M < fuel)
    (hflag : st.colors_computed = false)
    (hfuel : ∀ (k : Int) (S : List Char), mapFind k st.haystack = some S → S.length < fuel) :
    ∃ st1 : Tree, compute_colors fuel st = some st1 ∧ Recolor st st1 ∧
      ∀ (k : Int) (S : List Char) (p : Int), mapFind k st.haystack = some S → 0 ≤ p →
        p < S.length → LeafBit st1 lab (slice S p S.length) (k - 1).toNat := by
  have hk := hsh.keys.1
  obtain ⟨st1, g1, r1, k1, b1⟩ := markAll_marks (loopBound st.last_index.toNat) st 1 m hfuel
    (le_refl _) (by omega) (by unfold loopBound; push_cast; omega)
  have hsh1 := hsh.of_recolor r1
  obtain ⟨st2, c, g2, r2⟩ := compute_colors_dfs_total fuel st1 rootId hsh1
    hsh1.wfl.root_attached (by omega)
  have k2 := compute_colors_dfs_kept _ _ _ _ _ g2
  refine ⟨{ st2 with colors_computed := true }, ?_,
    (r1.comp1 r2).comp1 (Recolor.of_flag st2 true), ?_⟩
  · unfold compute_colors
    rw [if_neg (by rw [hflag]; simp), g1]
    simp only []
    rw [g2]
  · intro k S p hS hp0 hp1
    have hk1 := m.keys.2.2 k (by rw [hS]; rfl)
    exact ((b1 k S p hk1.1 hS hp0 hp1).kept k2).kept (BitsKept.flag_only st2 true)

/-! ## The colours of the leaves after a session -/

/-- A call of `add_string` that issues an ID leaves the colours-clean flag
cleared. -/
theorem add_string_clears_flag {fuel : Nat} {st st1 : Tree} {str : List Char} {id : Int}
    (h : add_string fuel st str = some (st1, id)) (hne : id ≠ -1) :
    st1.colors_computed = false := by
  unfold add_string at h
  split at h
  · simp only [Option.some.injEq, Prod.mk.injEq] at h
    exact absurd h.2.symm hne
  · split at h
    · simp only [Option.some.injEq, Prod.mk.injEq] at h
      exact absurd h.2.symm hne
    · simp only [] at h
      split at h
      · simp at h
      · split at h
        · simp only [Option.some.injEq, Prod.mk.injEq] at h
          exact absurd h.2.symm hne
        · simp only [Option.some.injEq, Prod.mk.injEq] at h
          rw [← h.1]

/-- A session keeps the colours-clean flag cleared and the registry entries,
and every ID it issues is in the registry. -/
theorem add_strings_flag : ∀ (calls : List (Nat × List Char)) (st : Tree)
    (lab : Nat → List Char), Rest st lab →
    (∀ c ∈ calls, (c.2.length : Int) < SIZE_BOUND) → (∀ c ∈ calls, c.2.length + 2 < c.1) →
    st.colors_computed = false →
    ∀ (st1 : Tree) (ids : List Int), add_strings st calls = some (st1, ids) →
      st1.colors_computed = false ∧
      (∀ k : Int, (mapFind k st.haystack).isSome = true →
        (mapFind k st1.haystack).isSome = true) ∧
      ∀ k ∈ ids, k ≠ -1 → (mapFind k st1.haystack).isSome = true := by
  intro calls
  induction calls with
  | nil =>
    intro st lab R _ _ hflag st1 ids hrun
    simp only [add_strings, Option.some.injEq, Prod.mk.injEq] at hrun
    rw [← hrun.1, ← hrun.2]
    exact ⟨hflag, fun _ hk => hk, fun k hk => by cases hk⟩
  | cons c rest ih =>
    intro st lab R hsize hfuel hflag st1 ids hrun
    obtain ⟨fuel, s⟩ := c
    obtain ⟨st2, id, lab2, hadd, R2, hcase⟩ := @add_string_spec _ _ _ fuel R
      (hsize (fuel, s) (List.mem_cons_self _ _)) (hfuel (fuel, s) (List.mem_cons_self _ _))
    unfold add_strings at hrun
    rw [hadd] at hrun
    simp only [] at hrun
    split at hrun
    · simp at hrun
    · rename_i st3 ids3 hrest
      simp only [Option.some.injEq, Prod.mk.injEq] at hrun
      obtain ⟨e1, e2⟩ := hrun
      rw [← e1, ← e2]
      have hflag2 : st2.colors_computed = false := by
        rcases hcase with ⟨_, h2, _⟩ | ⟨h1, _⟩
        · rw [h2]
          exact hflag
        · exact add_string_clears_flag hadd (by have := R.keys.1; omega)
      have hkeep : ∀ k : Int, (mapFind k st.haystack).isSome = true →
          (mapFind k st2.haystack).isSome = true := by
        intro k hk
        rcases hcase with ⟨_, h2, _⟩ | ⟨_, _, _, _, h5, _⟩
        · rw [h2]
          exact hk
        · rw [h5, mapFind_mapAssign]
          by_cases e : k = st.last_index + 1
          · rw [if_pos e]
            rfl
          · rw [if_neg e]
            exact hk
      obtain ⟨f3, k3, i3⟩ := ih st2 lab2 R2 (fun c hc => hsize c (List.mem_cons_of_mem _ hc))
        (fun c hc => hfuel c (List.mem_cons_of_mem _ hc)) hflag2 st3 ids3 hrest
      refine ⟨f3, fun k hk => k3 k (hkeep k hk), ?_⟩
      intro k hk hne
      rcases List.mem_cons.mp hk with e | e
      · apply k3
        rcases hcase with ⟨h1, _⟩ | ⟨h1, _, _, _, h5, _⟩
        · rw [e, h1] at hne
          exact absurd rfl hne
        · rw [h5, mapFind_mapAssign, e, if_pos h1]
          rfl
      · exact i3 k e hne

/-- C30 (leaf marking reaches every suffix's leaf): after a session of
`add_string` calls from the fresh tree (inputs below `SIZE_BOUND` bytes, each
call with the fuel to run to its end) followed by `compute_colors` (with fuel
above the size of every stored string), `compute_colors` returns, every issued
ID is in the registry, and for every registered ID `k` and every start `p` in
`[0, |stored[k]|)` there is exactly one node whose root path spells
`stored[k][p..]`, it is a leaf, and bit `k` (position `k - 1`) of its colours
is set. The walk of `mark_leaves_for_string` is modelled with `Index`
arithmetic wrapping at 32 bits: on an open-ended edge with `l = 0` the edge
length `INT_MAX - 0 + 1` wraps to `-2147483648`. -/
theorem leaf_marking_reaches_suffixes (calls : List (Nat × List Char)) (fuel : Nat)
    (hsize : ∀ c ∈ calls, (c.2.length : Int) < SIZE_BOUND)
    (hfuel : ∀ c ∈ calls, c.2.length + 2 < c.1) (hpos : 0 < fuel)
    (hdepth : ∀ c ∈ calls, c.2.length + 1 < fuel) :
    wrap32 (INT_MAX - 0 + 1) = -2147483648 ∧
    ∃ (st : Tree) (ids : List Int) (st1 : Tree),
      add_strings Tree.fresh calls = some (st, ids) ∧ compute_colors fuel st = some st1 ∧
      (∀ k ∈ ids, k ≠ -1 → ∃ S : List Char, mapFind k st1.haystack = some S) ∧
      ∀ (k : Int) (S : List Char) (p : Int), mapFind k st1.haystack = some S → 0 ≤ p →
        p < S.length →
        ∃ (x : Nat) (ndx : Node), Walk st1 rootId (slice S p S.length) x ∧
          (∀ y : Nat, Walk st1 rootId (slice S p S.length) y → y = x) ∧
          st1.nodes[x]? = some ndx ∧ ndx.g = [] ∧
          ndx.colors.testBit (k - 1).toNat = true := by
  refine ⟨by decide, ?_⟩
  obtain ⟨st, ids, lab, hrun, R, hsh⟩ := session_shape calls fuel hsize hfuel hpos hdepth
  obtain ⟨hflag, _, hids⟩ := add_strings_flag calls Tree.fresh _ Rest_fresh hsize hfuel rfl st ids
    hrun
  have m : Marking st lab := Marking.from_rest R hsh.full
  have hlenS : ∀ (k : Int) (S : List Char), mapFind k st.haystack = some S →
      S.length < fuel := by
    intro k S hS
    obtain ⟨x, ndx, hx, _, _, hl⟩ := m.sufleaf k S 0 hS (le_refl _)
      (by have := (R.wfl.strs _ _ hS).len_pos; omega)
    have hd := hsh.depth x hx
    rw [hl, slice_full] at hd
    omega
  obtain ⟨st1, hcc, r1, hbits⟩ := compute_colors_marks m hsh (by omega) hflag hlenS
  have h1 : WFL st1 lab := (hsh.of_recolor r1).wfl
  refine ⟨st, ids, st1, hrun, hcc, ?_, ?_⟩
  · intro k hk hne
    have := hids k hk hne
    rw [r1.hay]
    cases hm : mapFind k st.haystack with
    | none =>
      rw [hm] at this
      cases this
    | some S => exact ⟨S, rfl⟩
  · intro k S p hS hp0 hp1
    rw [r1.hay] at hS
    obtain ⟨x, ndx, hx, hndx, hleaf, hl, hb⟩ := hbits k S p hS hp0 hp1
    refine ⟨x, ndx, walk_between h1 h1.root_attached hx (by rw [h1.lab_root, List.nil_append, hl]),
      ?_, hndx, hleaf, hb⟩
    intro y hy
    obtain ⟨hya, hyl⟩ := hy.label h1 h1.root_attached
    rw [h1.lab_root, List.nil_append] at hyl
    exact h1.inj hya hx (by rw [hyl, hl])

theorem leaf_marking_reaches_suffixes_witness :
    wrap32 (INT_MAX - 0 + 1) = -2147483648 ∧
    ∃ (st : Tree) (ids : List Int) (st1 : Tree),
      add_strings Tree.fresh [(8, ['a', 'b']), (8, ['b', 'a'])] = some (st, ids) ∧
      compute_colors 8 st = some st1 ∧
      (∀ k ∈ ids, k ≠ -1 → ∃ S : List Char, mapFind k st1.haystack = some S) ∧
      ∀ (k : Int) (S : List Char) (p : Int), mapFind k st1.haystack = some S → 0 ≤ p →
        p < S.length →
        ∃ (x : Nat) (ndx : Node), Walk st1 rootId (slice S p S.length) x ∧
          (∀ y : Nat, Walk st1 rootId (slice S p S.length) y → y = x) ∧
          st1.nodes[x]? = some ndx ∧ ndx.g = [] ∧
          ndx.colors.testBit (k - 1).toNat = true :=
  leaf_marking_reaches_suffixes [(8, ['a', 'b']), (8, ['b', 'a'])] 8 (by decide) (by decide)
    (by decide) (by decide)

/-! ## The empty query -/

/-- The empty query runs out at once: `is_substring` accepts it in every state. -/
theorem is_substring_nil (st : Tree) : is_substring st [] = some (st, true) := by
  rfl

/-- In the fresh tree the root has no transition: a query with a first byte
stops at position `0`. -/
theorem get_starting_node_fresh (c : Char) (s : List Char) :
    get_starting_node Tree.fresh (c :: s) ⟨some rootId, -1, 0⟩ =
      some (Tree.fresh, ⟨some rootId, -1, 0⟩, 0) := by
  unfold get_starting_node loopBound startLoop
  have hk : ¬ ((0 : Int) ≥ (((c :: s).length : Nat) : Int)) := by
    simp only [List.length_cons]
    push_cast
    omega
  simp only []
  rw [if_neg hk]
  have hs : strAt (c :: s) 0 = some c := by
    rw [strAt_lt (le_refl _) (by simp only [List.length_cons]; push_cast; omega)]
    simp
  rw [hs]
  have ht : Tree.fresh.find_alpha_transition (some rootId) c = some ⟨⟨0, 0, -1⟩, none⟩ := by
    rfl
  simp only [ht]
  rfl

/-- The fresh tree answers `false` to every query with a first byte. -/
theorem fresh_rejects (q : List Char) (hq : q ≠ []) :
    is_substring Tree.fresh q = some (Tree.fresh, false) ∧
    is_suffix Tree.fresh q = some (Tree.fresh, false) := by
  obtain ⟨c, s, rfl⟩ := List.exists_cons_of_ne_nil hq
  unfold is_substring is_suffix
  by_cases hc : contains_end_token (c :: s) = true
  · rw [if_pos hc, if_pos hc]
    exact ⟨rfl, rfl⟩
  · rw [if_neg hc, if_neg hc, List.cons_append, get_starting_node_fresh,
      get_starting_node_fresh]
    exact ⟨rfl, rfl⟩

/-- C32 (the empty query). `is_substring("")` returns `true` in every tree
state, the fresh tree included. `is_suffix("")` returns `false` on the fresh
tree, and after a session of `add_string` calls from the fresh tree it returns
`true` exactly when one of the calls has stored its string. On the fresh tree
every query with a first byte, of a size within `Index`, gets `false` from both
operations. -/
theorem empty_query (calls : List (Nat × List Char))
    (hsize : ∀ c ∈ calls, (c.2.length : Int) < SIZE_BOUND)
    (hfuel : ∀ c ∈ calls, c.2.length + 2 < c.1) :
    (∀ st : Tree, is_substring st [] = some (st, true)) ∧
    is_suffix Tree.fresh [] = some (Tree.fresh, false) ∧
    (∃ (st : Tree) (ids : List Int), add_strings Tree.fresh calls = some (st, ids) ∧
      ∃ b : Bool, is_suffix st [] = some (st, b) ∧ (b = true ↔ accepted calls ids ≠ [])) ∧
    (∀ q : List Char, q ≠ [] → (q.length : Int) < INT_MAX →
      is_substring Tree.fresh q = some (Tree.fresh, false) ∧
      is_suffix Tree.fresh q = some (Tree.fresh, false)) := by
  refine ⟨is_substring_nil, by decide, ?_, fun q hq _ => fresh_rejects q hq⟩
  obtain ⟨st, ids, lab, hrun, R, hsent, hreg⟩ := session_spec calls hsize hfuel
  obtain ⟨b, hb, hiff⟩ := @is_suffix_rest st lab R [] (by simp) (by decide)
  refine ⟨st, ids, hrun, b, hb, hiff.trans ((hreg _).trans ?_)⟩
  constructor
  · rintro (h | ⟨w, hw, _⟩)
    · simp at h
    · intro e
      rw [e] at hw
      simp at hw
  · intro hne
    obtain ⟨w, hw⟩ := List.exists_mem_of_ne_nil _ hne
    exact Or.inr ⟨w, hw, ⟨w, [], by simp⟩⟩

theorem empty_query_witness :
    (∀ c ∈ [((8 : Nat), ['a', 'b'])], (c.2.length : Int) < SIZE_BOUND) ∧
    (∀ c ∈ [((8 : Nat), ['a', 'b'])], c.2.length + 2 < c.1) ∧
    ∃ (st : Tree) (ids : List Int),
      add_strings Tree.fresh [(8, ['a', 'b'])] = some (st, ids) ∧
      ∃ b : Bool, is_suffix st [] = some (st, b) ∧
        (b = true ↔ accepted [(8, ['a', 'b'])] ids ≠ []) :=
  ⟨by decide, by decide, (empty_query [(8, ['a', 'b'])] (by decide) (by decide)).2.2.1⟩

/-! ## The propagation rule of the colouring pass -/

theorem childColors_congr {st st1 : Tree} {j : Nat} (h : st1.nodes[j]? = st.nodes[j]?) :
    childColors st1 (some j) = childColors st (some j) := by
  unfold childColors
  simp only [h]

theorem orFold_congr {st st1 : Tree} (g : List (Char × Transition)) (acc : Nat)
    (h : ∀ e ∈ g, childColors st1 e.2.tgt = childColors st e.2.tgt) :
    g.foldl (fun a p => a ||| edgeBit p.2 ||| childColors st1 p.2.tgt) acc =
      g.foldl (fun a p => a ||| edgeBit p.2 ||| childColors st p.2.tgt) acc := by
  apply List.foldl_ext
  intro a b hb
  rw [h b hb]

theorem apart_disjoint {lab : Nat → List Char} {j j1 y : Nat}
    (h : Apart lab (some j) (some j1)) (h1 : lab j <+: lab y) (h2 : lab j1 <+: lab y) :
    False := by
  obtain ⟨k1, k2⟩ := h j j1 rfl rfl
  rcases List.prefix_or_prefix_of_prefix h1 h2 with e | e
  · exact k1 e
  · exact k2 e

/-- The OR over the transitions of a node depends on the cells strictly below
the node only. -/
theorem propagated_frame {st : Tree} {lab : Nat → List Char} {M : Nat} (hsh : Shape st lab M)
    {y : Nat} {ndy : Node} (hy : Attached st y) (hnd : st.nodes[y]? = some ndy)
    {st1 st2 : Tree}
    (h : ∀ t : Nat, lab y <+: lab t → (lab y).length < (lab t).length →
      st2.nodes[t]? = st1.nodes[t]?) :
    propagated st2 ndy.g = propagated st1 ndy.g := by
  unfold propagated
  apply orFold_congr
  intro e he
  obtain ⟨k1, _, _⟩ := children_cover hsh.wfl hsh.nodup hy hnd
  obtain ⟨t, ht, _, _, hpre, hlt⟩ := k1 e.2.tgt (List.mem_map.mpr ⟨e, he, rfl⟩)
  rw [ht]
  exact childColors_congr (h t hpre hlt)

theorem edgeBit_acc (tr : Transition) (acc : Nat) :
    (if tr.sub.ref_str > 0 ∧ toSizeT tr.sub.ref_str ≤ MAX_STRINGS then
        acc ||| (1 <<< (tr.sub.ref_str - 1).toNat)
      else acc) = acc ||| edgeBit tr := by
  unfold edgeBit
  split_ifs <;> simp

/-- The loop of `compute_colors_dfs` over the children: the accumulator gains
the edge bit and the final colours of every child, the subtrees below the
children get their colours, and nothing else changes. -/
theorem colorFold_post {st0 : Tree} {lab : Nat → List Char} {M fuel : Nat}
    (hsh0 : Shape st0 lab M) {x : Nat} {nd : Node} (hx : Attached st0 x)
    (hnd : st0.nodes[x]? = some nd)
    (ih : ∀ (st : Tree) (j : Nat), Shape st lab M → Attached st j →
      M < fuel + (lab j).length →
      ∃ (st1 : Tree) (c : Nat), compute_colors_dfs fuel st (some j) = some (st1, c) ∧
        DfsPost st st1 lab j c)
    (hf : M < fuel + 1 + (lab x).length) :
    ∀ (l : List (Char × Transition)) (st : Tree) (acc : Nat), (∀ e ∈ l, e ∈ nd.g) →
      (l.map (fun p => p.2.tgt)).Pairwise (Apart lab) →
      Recolor st0 st →
      ∃ (st1 : Tree) (c : Nat),
        colorFold (fun s p => compute_colors_dfs fuel s p) l st acc = some (st1, c) ∧
        Recolor st st1 ∧
        c = l.foldl (fun a p => a ||| edgeBit p.2 ||| childColors st1 p.2.tgt) acc ∧
        (∀ y : Nat, (∀ e ∈ l, ∀ j : Nat, e.2.tgt = some j → ¬ (1 ≤ y ∧ lab j <+: lab y)) →
          st1.nodes[y]? = st.nodes[y]?) ∧
        (∀ e ∈ l, ∀ j : Nat, e.2.tgt = some j → ∀ (y : Nat) (ndy ndy1 : Node),
          st.nodes[y]? = some ndy → st1.nodes[y]? = some ndy1 → 1 ≤ y → lab j <+: lab y →
          (ndy.g = [] → ndy1.colors = ndy.colors) ∧
          (ndy.g ≠ [] → ndy1.colors = propagated st1 ndy.g)) := by
  intro l
  induction l with
  | nil =>
    intro st acc _ _ _
    refine ⟨st, acc, rfl, Recolor.same st, rfl, fun _ _ => rfl, ?_⟩
    intro e he
    simp at he
  | cons p rest ihl =>
    intro st acc hmem hpw r
    obtain ⟨c, tr⟩ := p
    have hsh := hsh0.of_recolor r
    obtain ⟨k1, _, _⟩ := children_cover hsh0.wfl hsh0.nodup hx hnd
    obtain ⟨j, htgt, hj2, hjlen, hxj, hlt⟩ := k1 tr.tgt
      (List.mem_map.mpr ⟨(c, tr), hmem _ (List.mem_cons_self _ _), rfl⟩)
    obtain ⟨st', cj, g1, P1⟩ := ih st j hsh ⟨by omega, by rw [r.len]; exact hjlen⟩ (by omega)
    rw [List.map_cons, List.pairwise_cons] at hpw
    obtain ⟨hhead, hpw'⟩ := hpw
    have hap : ∀ e ∈ rest, ∀ j1 : Nat, e.2.tgt = some j1 → Apart lab (some j) (some j1) := by
      intro e he j1 hj1
      have h0 := hhead e.2.tgt (List.mem_map.mpr ⟨e, he, rfl⟩)
      simp only [htgt, hj1] at h0
      exact h0
    obtain ⟨st1, c1, g2, r2, hc, hfr, hin⟩ := ihl st'
      ((if tr.sub.ref_str > 0 ∧ toSizeT tr.sub.ref_str ≤ MAX_STRINGS then
          acc ||| (1 <<< (tr.sub.ref_str - 1).toNat)
        else acc) ||| cj)
      (fun e he => hmem e (List.mem_cons_of_mem _ he)) hpw' (r.comp1 P1.recolor)
    have hbelow : ∀ y : Nat, lab j <+: lab y → st1.nodes[y]? = st'.nodes[y]? := by
      intro y hy
      apply hfr
      intro e he j1 hj1 hcon
      exact apart_disjoint (hap e he j1 hj1) hy hcon.2
    have hcj : childColors st1 (some j) = cj := by
      rw [childColors_congr (hbelow j (List.prefix_refl _))]
      exact P1.ret
    unfold colorFold
    simp only []
    rw [htgt, g1]
    simp only []
    refine ⟨st1, c1, g2, P1.recolor.comp1 r2, ?_, ?_, ?_⟩
    · rw [hc, List.foldl_cons, edgeBit_acc]
      simp only [htgt, hcj]
    · intro y hy
      rw [hfr y (fun e he j1 hj1 => hy e (List.mem_cons_of_mem _ he) j1 hj1)]
      exact P1.frame y (hy (c, tr) (List.mem_cons_self _ _) j htgt)
    · intro e he je hje y ndy ndy1 hy0 hy1 h1 hbel
      rcases List.mem_cons.mp he with e1 | e1
      · rw [e1] at hje
        have ej : je = j := by
          simp only [htgt] at hje
          exact (Option.some.inj hje).symm
        rw [ej] at hbel
        have hy' : st'.nodes[y]? = some ndy1 := by
          rw [← hbelow y hbel]
          exact hy1
        obtain ⟨q1, q2⟩ := P1.inside y ndy ndy1 hy0 hy' h1 hbel
        refine ⟨q1, fun hne => ?_⟩
        rw [q2 hne]
        symm
        exact propagated_frame hsh ⟨h1, lt_of_getElem? hy0⟩ hy0
          (fun t ht _ => hbelow t (hbel.trans ht))
      · have hnb : ¬ (1 ≤ y ∧ lab j <+: lab y) :=
          fun hcon => apart_disjoint (hap e e1 je hje) hcon.2 hbel
        have hy' : st'.nodes[y]? = some ndy := by
          rw [P1.frame y hnb]
          exact hy0
        exact hin e e1 je hje y ndy ndy1 hy' hy1 h1 hbel

/-- The method `compute_colors_dfs` on a node of a well-shaped tree: it ends,
and it leaves the colours described by `DfsPost`. -/
theorem compute_colors_dfs_post {lab : Nat → List Char} {M : Nat} :
    ∀ (fuel : Nat) (st : Tree) (x : Nat), Shape st lab M → Attached st x →
      M < fuel + (lab x).length →
      ∃ (st1 : Tree) (c : Nat), compute_colors_dfs fuel st (some x) = some (st1, c) ∧
        DfsPost st st1 lab x c := by
  intro fuel
  induction fuel with
  | zero =>
    intro st x hsh hx hf
    have := hsh.depth x hx
    omega
  | succ fuel ih =>
    intro st x hsh hx hf
    obtain ⟨nd, hnd⟩ := hx.node
    obtain ⟨k1, k2, k3⟩ := children_cover hsh.wfl hsh.nodup hx hnd
    unfold compute_colors_dfs
    simp only [hnd]
    by_cases hleaf : nd.g = []
    · rw [if_pos hleaf]
      refine ⟨st, nd.colors, rfl, Recolor.same st, ?_, fun _ _ => rfl, ?_⟩
      · unfold childColors
        simp only [hnd]
      · intro y ndy ndy1 hy0 hy1 h1 hbel
        rw [hy0] at hy1
        rw [← Option.some.inj hy1]
        refine ⟨fun _ => rfl, fun hne => ?_⟩
        exfalso
        by_cases e : y = x
        · rw [e, hnd] at hy0
          rw [← Option.some.inj hy0] at hne
          exact hne hleaf
        · obtain ⟨j, hj, _⟩ := k3 y ⟨h1, lt_of_getElem? hy0⟩ hbel e
          rw [hleaf] at hj
          simp at hj
    · rw [if_neg hleaf]
      obtain ⟨st1, acc, g1, r1, hc, hfr, hin⟩ := colorFold_post hsh hx hnd
        (fun s j a b c => ih s j a b c) (by omega) nd.g st 0
        (fun e he => he) k2 (Recolor.same st)
      rw [g1]
      simp only []
      have hchild : ∀ e ∈ nd.g, ∀ j : Nat, e.2.tgt = some j →
          lab x <+: lab j ∧ (lab x).length < (lab j).length := by
        intro e he j hj
        obtain ⟨j1, e1, _, _, h5, h6⟩ := k1 e.2.tgt (List.mem_map.mpr ⟨e, he, rfl⟩)
        rw [hj] at e1
        rw [Option.some.inj e1]
        exact ⟨h5, h6⟩
      have hx1 : st1.nodes[x]? = some nd := by
        rw [hfr x ?_]
        · exact hnd
        · intro e he j hj hcon
          have h6 := (hchild e he j hj).2
          have h7 := hcon.2.length_le
          omega
      rw [modify_eq _ hx1]
      have hlen1 : x < st1.nodes.length := lt_of_getElem? hx1
      refine ⟨_, acc, rfl, r1.comp1 (Recolor.of_setNode hx1 rfl rfl), ?_, ?_, ?_⟩
      · unfold childColors
        simp only [nodes_setNode_eq _ hlen1]
      · intro y hy
        have hyx : y ≠ x := by
          intro e
          apply hy
          rw [e]
          exact ⟨hx.1, List.prefix_refl _⟩
        rw [nodes_setNode_ne _ hyx]
        apply hfr
        intro e he j hj hcon
        exact hy ⟨hcon.1, (hchild e he j hj).1.trans hcon.2⟩
      · intro y ndy ndy1 hy0 hy1 h1 hbel
        by_cases e : y = x
        · rw [e, hnd] at hy0
          rw [e, nodes_setNode_eq _ hlen1] at hy1
          rw [← Option.some.inj hy0, ← Option.some.inj hy1]
          refine ⟨fun hl => absurd hl hleaf, fun _ => ?_⟩
          rw [propagated_frame hsh hx hnd (fun t _ hlt => nodes_setNode_ne _ (by
            intro et
            rw [et] at hlt
            omega))]
          exact hc
        · rw [nodes_setNode_ne _ e] at hy1
          obtain ⟨j, hj, hjy⟩ := k3 y ⟨h1, lt_of_getElem? hy0⟩ hbel e
          obtain ⟨p, hp, hpj⟩ := List.mem_map.mp hj
          obtain ⟨q1, q2⟩ := hin p hp j hpj y ndy ndy1 hy0 hy1 h1 hjy
          refine ⟨q1, fun hne => ?_⟩
          rw [q2 hne]
          symm
          exact propagated_frame hsh ⟨h1, lt_of_getElem? hy0⟩ hy0
            (fun t _ hlt => nodes_setNode_ne _ (by
              intro et
              rw [et] at hlt
              have := hbel.length_le
              omega))

/-- C31 (counterexample): after `add_string("abab")` and `add_string("zac")` the
inner node in cell 4 holds the bit of ID 2 (set by `test_and_split`); the pass
`compute_colors_dfs(root)` leaves it with the bit of ID 1 only, which is the OR
over its transitions and not the OR of that with its own bitset before the
pass. -/
theorem propagation_drops_own_bits :
    (add_strings Tree.fresh [(9, ['a', 'b', 'a', 'b']), (9, ['z', 'a', 'c'])]).isSome = true ∧
    (compute_colors_dfs 9
      (((add_strings Tree.fresh [(9, ['a', 'b', 'a', 'b']), (9, ['z', 'a', 'c'])]).map
        Prod.fst).getD Tree.fresh) (some rootId)).isSome = true ∧
    isLeafAt (((add_strings Tree.fresh [(9, ['a', 'b', 'a', 'b']), (9, ['z', 'a', 'c'])]).map
        Prod.fst).getD Tree.fresh) 4 = some false ∧
    colorsAt (((add_strings Tree.fresh [(9, ['a', 'b', 'a', 'b']), (9, ['z', 'a', 'c'])]).map
        Prod.fst).getD Tree.fresh) 4 = some 2 ∧
    colorsAt (((compute_colors_dfs 9
      (((add_strings Tree.fresh [(9, ['a', 'b', 'a', 'b']), (9, ['z', 'a', 'c'])]).map
        Prod.fst).getD Tree.fresh) (some rootId)).map Prod.fst).getD Tree.fresh) 4 = some 1 ∧
    colorsAt (((compute_colors_dfs 9
      (((add_strings Tree.fresh [(9, ['a', 'b', 'a', 'b']), (9, ['z', 'a', 'c'])]).map
        Prod.fst).getD Tree.fresh) (some rootId)).map Prod.fst).getD Tree.fresh) 4 ≠
      ((((add_strings Tree.fresh [(9, ['a', 'b', 'a', 'b']), (9, ['z', 'a', 'c'])]).map
        Prod.fst).getD Tree.fresh).nodes[4]?).map (fun nd => nd.colors |||
          propagated (((compute_colors_dfs 9
            (((add_strings Tree.fresh [(9, ['a', 'b', 'a', 'b']), (9, ['z', 'a', 'c'])]).map
              Prod.fst).getD Tree.fresh) (some rootId)).map Prod.fst).getD Tree.fresh) nd.g) := by
  decide

/-- C31 (amended). Propagation rule: take the tree built by a session of
`add_string` calls from the fresh tree, with any colour bitsets on its nodes.
The call `compute_colors_dfs(root)` returns, changes colours only, and
afterwards every node with at least one outgoing transition has a bitmask equal
to the bitwise OR of the final bitmasks of all its children and the bits of the
ref_ids (in 1..64) of its outgoing edge labels; its own bitmask before the pass
is overwritten. Nodes without outgoing transitions keep their bitmask. The
fuel `fuel` exceeds the size of every stored string. -/
theorem propagation_rule (calls : List (Nat × List Char)) (fuel : Nat)
    (hsize : ∀ c ∈ calls, (c.2.length : Int) < SIZE_BOUND)
    (hfuel : ∀ c ∈ calls, c.2.length + 2 < c.1) (hpos : 0 < fuel)
    (hdepth : ∀ c ∈ calls, c.2.length + 1 < fuel) :
    ∃ (st0 : Tree) (ids : List Int), add_strings Tree.fresh calls = some (st0, ids) ∧
      ∀ st : Tree, Recolor st0 st →
        ∃ (st1 : Tree) (c : Nat), compute_colors_dfs fuel st (some rootId) = some (st1, c) ∧
          ∀ (x : Nat) (nd : Node), st.nodes[x]? = some nd →
            ∃ nd1 : Node, st1.nodes[x]? = some nd1 ∧ nd1.g = nd.g ∧
              (nd.g = [] → nd1.colors = nd.colors) ∧
              (nd.g ≠ [] → nd1.colors = propagated st1 nd.g) := by
  obtain ⟨st0, ids, lab, hrun, _, hsh0⟩ := session_shape calls fuel hsize hfuel hpos hdepth
  refine ⟨st0, ids, hrun, ?_⟩
  intro st r
  have hsh := hsh0.of_recolor r
  obtain ⟨st1, c, g1, P⟩ := compute_colors_dfs_post fuel st rootId hsh hsh.wfl.root_attached
    (by omega)
  refine ⟨st1, c, g1, ?_⟩
  intro x nd hx
  obtain ⟨nd1, hx1, hg, _⟩ := P.recolor.node x nd hx
  refine ⟨nd1, hx1, hg, ?_⟩
  by_cases h1 : 1 ≤ x
  · exact P.inside x nd nd1 hx hx1 h1 (by rw [hsh.wfl.lab_root]; exact List.nil_prefix)
  · have e := P.frame x (fun hcon => h1 hcon.1)
    rw [hx, hx1] at e
    have e1 : nd1 = nd := Option.some.inj e
    rw [e1]
    refine ⟨fun _ => rfl, fun hne => ?_⟩
    exfalso
    obtain ⟨nd0, h0, hg0, _⟩ := hsh.wfl.sink
    have ex : x = sinkId := by
      unfold sinkId
      omega
    rw [ex, h0] at hx
    rw [← Option.some.inj hx] at hne
    exact hne hg0

theorem propagation_rule_witness :
    (∀ c ∈ [((9 : Nat), ['a', 'b', 'a', 'b']), (9, ['z', 'a', 'c'])],
      (c.2.length : Int) < SIZE_BOUND) ∧
    (∀ c ∈ [((9 : Nat), ['a', 'b', 'a', 'b']), (9, ['z', 'a', 'c'])], c.2.length + 2 < c.1) ∧
    0 < 9 ∧
    (∀ c ∈ [((9 : Nat), ['a', 'b', 'a', 'b']), (9, ['z', 'a', 'c'])], c.2.length + 1 < 9) ∧
    ∃ (st0 : Tree) (ids : List Int),
      add_strings Tree.fresh [(9, ['a', 'b', 'a', 'b']), (9, ['z', 'a', 'c'])] =
        some (st0, ids) ∧
      ∀ st : Tree, Recolor st0 st →
        ∃ (st1 : Tree) (c : Nat), compute_colors_dfs 9 st (some rootId) = some (st1, c) ∧
          ∀ (x : Nat) (nd : Node), st.nodes[x]? = some nd →
            ∃ nd1 : Node, st1.nodes[x]? = some nd1 ∧ nd1.g = nd.g ∧
              (nd.g = [] → nd1.colors = nd.colors) ∧
              (nd.g ≠ [] → nd1.colors = propagated st1 nd.g) :=
  ⟨by decide, by decide, by decide, by decide,
    propagation_rule [(9, ['a', 'b', 'a', 'b']), (9, ['z', 'a', 'c'])] 9
      (by decide) (by decide) (by decide) (by decide)⟩

end SuffixTree
